import Mathlib

/-! NFD forwarding plane of ndnSIM 2.8: Content Store, Forwarder pipelines, the
configuration of the tables and the NCC strategy.

A shallow embedding of `daemon/table/cs.{hpp,cpp}`, `daemon/fw/forwarder.cpp`,
`daemon/mgmt/tables-config-section.cpp` and `daemon/fw/ncc-strategy.cpp`.

* Stateful C++ objects become records; a member function becomes a function from the
  old record to the new one.
* `time::steady_clock::now()` is the argument `now` (nanoseconds), one value for the whole
  of a callback, as the clock of the simulator stands still while an event runs;
  durations of the `time::milliseconds` type are integers counting milliseconds, those of
  the `time::microseconds` type integers counting microseconds.
* A `shared_ptr<pit::Entry>` is the key of the entry inside the PIT (its Name and
  selectors); an iterator of the CS table is the full Name of the entry it points to; a
  `weak_ptr<Face>` is the face, live as long as the face table holds it; a
  `measurements::Entry*` is the Name of the entry.
* Everything the Forwarder does that is visible outside its tables (a pipeline entered,
  a table operation invoked, a signal emitted, a strategy trigger dispatched, a packet
  handed to a face) is appended to `Forwarder.log` in program order.  Of the strategies,
  the NCC strategy is embedded, with the timers it keeps in the scheduler.
-/

namespace Nfd

/-! ## Names -/

/-- Modelled from the spec: `ndn::Name` (ndn-cxx `name.cpp` is not among the sources):
an ordered sequence of opaque components, a component being represented by a natural
number and compared as such. -/
abbrev Name := List Nat

/-- Modelled from the spec: the total order of Names, lexicographic per component, a
proper prefix sorting before its extensions. -/
def Name.lt : Name → Name → Bool
  | [], [] => false
  | [], _ :: _ => true
  | _ :: _, [] => false
  | a :: as, b :: bs => decide (a < b) || (a == b && Name.lt as bs)

/-- Modelled from the spec: `Name::isPrefixOf`. -/
def Name.isPrefixOf : Name → Name → Bool
  | [], _ => true
  | _ :: _, [] => false
  | a :: as, b :: bs => a == b && Name.isPrefixOf as bs

/-- Modelled from the spec: `Name::getSuccessor` on a non-empty Name ("successor-based
range queries"): the last component is replaced by its successor.  `Cs::findPrefixRange`
never asks for the successor of the empty Name. -/
def Name.getSuccessor : Name → Name
  | [] => [0]
  | c :: cs =>
    match cs with
    | [] => [c + 1]
    | _ :: _ => c :: Name.getSuccessor cs

/-- The component `localhost`, written as the number its nine bytes spell. -/
def localhostComponent : Nat := 0x6c6f63616c686f7374

/-- The constant `scope_prefix::LOCALHOST`, the Name `/localhost`. -/
def LOCALHOST : Name := [localhostComponent]

/-! ## Faces -/

/-- The type `FaceId`, an unsigned integer. -/
abbrev FaceId := Nat

/-- The type `EndpointId`, an unsigned integer. -/
abbrev EndpointId := Nat

/-- The constant `face::INVALID_FACEID`. -/
def INVALID_FACEID : FaceId := 0

/-- The constant `face::FACEID_CONTENT_STORE`. -/
def FACEID_CONTENT_STORE : FaceId := 254

/-- Modelled from the spec: `ndn::nfd::FaceScope`, declared outside the sources: a
"non-local endpoint" or a local one. -/
inductive FaceScope where
  | NON_LOCAL
  | LOCAL
deriving DecidableEq, Repr

/-- Modelled from the spec: `ndn::nfd::LinkType`, declared outside the sources:
point-to-point, multi-access or ad hoc. -/
inductive LinkType where
  | POINT_TO_POINT
  | MULTI_ACCESS
  | AD_HOC
deriving DecidableEq, Repr

/-- A `Face` as the Forwarder sees it: what `getId`, `getScope` and `getLinkType` return.
Two references to a face are the same reference when the values are equal. -/
structure Face where
  id : FaceId
  scope : FaceScope
  linkType : LinkType
deriving DecidableEq, Repr

/-- Modelled from the spec: `FaceEndpoint` (`face-endpoint.hpp` is not among the
sources): a face and an endpoint id on it. -/
structure FaceEndpoint where
  face : Face
  endpoint : EndpointId
deriving DecidableEq, Repr

/-! ## Packets -/

/-- The Nonce of an Interest, an unsigned integer. -/
abbrev Nonce := Nat

/-- Modelled from the spec: `ndn::Interest` (`interest.hpp` is not among the sources):
"Name, CanBePrefix flag, MustBeFresh flag, Nonce, Lifetime, optional forwarding hint,
optional explicit next-hop override", and the IncomingFaceId tag the Forwarder sets. -/
structure Interest where
  name : Name
  canBePrefix : Bool
  mustBeFresh : Bool
  nonce : Nonce
  /-- The field `InterestLifetime`, in milliseconds. -/
  lifetime : Int
  forwardingHint : List Name
  incomingFaceIdTag : Option FaceId
  nextHopFaceIdTag : Option FaceId
deriving DecidableEq, Repr

/-- Modelled from the spec: `lp::CachePolicyType`, the "do-not-cache" directive
(`lp/cache-policy.hpp` is not among the sources). -/
inductive CachePolicyType where
  | NONE
  | NO_CACHE
deriving DecidableEq, Repr

/-- The class `ndn::Data` as the forwarding plane reads it: Name, Content, the implicit
digest of the full Name, FreshnessPeriod, and the two tags it may carry. -/
structure Data where
  name : Name
  content : List Nat
  /-- The implicit SHA-256 digest component that ends the full Name. -/
  implicitDigest : Nat
  /-- The field `FreshnessPeriod`, in milliseconds. -/
  freshnessPeriod : Int
  incomingFaceIdTag : Option FaceId
  cachePolicyTag : Option CachePolicyType
deriving DecidableEq, Repr

/-- The full Name of a Data: its Name followed by the implicit digest (`Data::getFullName`). -/
def Data.getFullName (d : Data) : Name := d.name ++ [d.implicitDigest]

/-- Modelled from the spec: `lp::NackReason` (`lp/nack-header.hpp` is not among the
sources): "Reason ∈ {Congestion, Duplicate, NoRoute}", and none. -/
inductive NackReason where
  | NONE
  | CONGESTION
  | DUPLICATE
  | NO_ROUTE
deriving DecidableEq, Repr

/-- Modelled from the spec: `lp::Nack` (`lp/nack.hpp` is not among the sources): "wraps an
Interest; carries Reason". -/
structure Nack where
  interest : Interest
  reason : NackReason
deriving DecidableEq, Repr

/-- Modelled from the spec: `Interest::matchesData` (ndn-cxx `interest.cpp` is not among
the sources), "honoring exact/CanBePrefix/MustBeFresh selectors": an Interest Name as long
as the full Name must equal it; otherwise the Interest Name is a prefix of the Data Name
under CanBePrefix and equal to it without; MustBeFresh rejects a Data whose freshness
period is not positive. -/
def Interest.matchesData (i : Interest) (d : Data) : Bool :=
  if i.name.length == d.name.length + 1 then
    if i.name != d.getFullName then false
    else !(i.mustBeFresh && decide (d.freshnessPeriod ≤ 0))
  else if (if i.canBePrefix then !(Name.isPrefixOf i.name d.name) else i.name != d.name) then false
  else !(i.mustBeFresh && decide (d.freshnessPeriod ≤ 0))

/-! ## Content Store (`daemon/table/cs.hpp`, `daemon/table/cs.cpp`) -/

namespace cs

/-- Modelled from the spec: `cs::Entry` (`cs-entry.cpp` is not among the sources): the
stored Data, the unsolicited flag and the time point until which the Data is fresh. -/
structure Entry where
  data : Data
  isUnsolicited : Bool
  freshUntil : Int
deriving DecidableEq, Repr

/-- The full Name under which the table files the entry. -/
def Entry.getFullName (e : Entry) : Name := e.data.getFullName

/-- Modelled from the spec: `Entry::updateFreshUntil`, now plus the freshness period. -/
def Entry.updateFreshUntil (e : Entry) (now : Int) : Entry :=
  { e with freshUntil := now + e.data.freshnessPeriod * 1000000 }

/-- Modelled from the spec: `Entry::clearUnsolicited`. -/
def Entry.clearUnsolicited (e : Entry) : Entry := { e with isUnsolicited := false }

/-- Modelled from the spec: `Entry::isFresh`. -/
def Entry.isFresh (e : Entry) (now : Int) : Bool := decide (now ≤ e.freshUntil)

/-- Modelled from the spec: `Entry::canSatisfy`: the Interest matches the stored Data and,
under MustBeFresh, the entry is still fresh. -/
def Entry.canSatisfy (e : Entry) (interest : Interest) (now : Int) : Bool :=
  if !interest.matchesData e.data then false
  else if interest.mustBeFresh && !e.isFresh now then false
  else true

/-- The container `Table`, a `std::set<Entry, std::less<>>` ordered by full Name: the list
of its elements in iteration order. -/
abbrev Table := List Entry

/-- Position at which `std::set::insert` puts a new element. -/
def Table.insertSorted (e : Entry) : Table → Table
  | [] => [e]
  | x :: xs =>
    if Name.lt e.getFullName x.getFullName then e :: x :: xs
    else x :: Table.insertSorted e xs

/-- The call `m_table.emplace(data, isUnsolicited)`: the set keeps the element it already
holds under that full Name; the Boolean tells whether a new element was inserted. -/
def Table.emplace (t : Table) (e : Entry) : Table × Bool :=
  if t.any (fun x => x.getFullName == e.getFullName) then (t, false)
  else (Table.insertSorted e t, true)

/-- The call `m_table.erase(it)`, the iterator given by the full Name it points to. -/
def Table.erase (t : Table) (it : Name) : Table :=
  t.eraseP (fun x => x.getFullName == it)

/-- Write access through an iterator, as in `const_cast<Entry&>(*it)`. -/
def Table.modify (t : Table) (it : Name) (f : Entry → Entry) : Table :=
  t.map (fun x => if x.getFullName == it then f x else x)

/-- The call `m_table.lower_bound(name)`, as the index of the first element whose full
Name is not less than `name`. -/
def Table.lowerBound (t : Table) (name : Name) : Nat :=
  (t.takeWhile (fun x => Name.lt x.getFullName name)).length

/-- The elements of an iterator range `[first, last)`. -/
def Table.range (t : Table) (r : Nat × Nat) : List Entry :=
  (t.drop r.1).take (r.2 - r.1)

/-- Modelled from the spec: the replacement `Policy` created by `Policy::create("lru")`
(`cs-policy.cpp` and `cs-policy-lru.cpp` are not among the sources).  It "holds the
capacity limit" and a queue of table iterators, least recently used first; an iterator
is in the queue at most once. -/
structure Policy where
  limit : Nat
  queue : List Name
deriving DecidableEq, Repr

/-- Modelled from the spec: the queue update of the LRU policy: a new iterator goes to
the back; a known one is moved to the back ("recency update"). -/
def Policy.insertToQueue (p : Policy) (i : Name) (isNewEntry : Bool) : Policy :=
  let q := if i ∈ p.queue then p.queue else p.queue ++ [i]
  if isNewEntry then { p with queue := q }
  else { p with queue := q.filter (fun x => x != i) ++ [i] }

/-- Modelled from the spec: eviction under LRU, "the least-recently-used entry is evicted
first when over capacity": while the table holds more than `limit` entries, the front of
the queue is popped and announced through `beforeEvict`; the connection made by
`Cs::setPolicyImpl` runs `m_table.erase(it)` on it. -/
def evictEntries (limit : Nat) : Table → List Name → Table × List Name
  | t, [] => (t, [])
  | t, i :: q =>
    if limit < t.length then evictEntries limit (Table.erase t i) q
    else (t, i :: q)

end cs

open cs in
/-- The class `Cs`: the table, the policy and the two flags. -/
structure Cs where
  table : Table
  policy : Policy
  shouldAdmit : Bool
  shouldServe : Bool
deriving DecidableEq, Repr

namespace Cs

open cs

/-- Run of the policy's eviction on this store (`beforeEvict` connected to the table). -/
def policyEvictEntries (c : Cs) : Cs :=
  let r := evictEntries c.policy.limit c.table c.policy.queue
  { c with table := r.1, policy := { c.policy with queue := r.2 } }

/-- Modelled from the spec: `Policy::afterInsert` under LRU: enqueue, then evict. -/
def policyAfterInsert (c : Cs) (i : Name) : Cs :=
  policyEvictEntries { c with policy := c.policy.insertToQueue i true }

/-- Modelled from the spec: `Policy::afterRefresh` under LRU. -/
def policyAfterRefresh (c : Cs) (i : Name) : Cs :=
  { c with policy := c.policy.insertToQueue i false }

/-- Modelled from the spec: `Policy::beforeErase` under LRU. -/
def policyBeforeErase (c : Cs) (i : Name) : Cs :=
  { c with policy := { c.policy with queue := c.policy.queue.filter (fun x => x != i) } }

/-- Modelled from the spec: `Policy::beforeUse` under LRU. -/
def policyBeforeUse (c : Cs) (i : Name) : Cs :=
  { c with policy := c.policy.insertToQueue i false }

/-- Modelled from the spec: `Policy::setLimit`: store the limit, then evict. -/
def policySetLimit (c : Cs) (nMaxEntries : Nat) : Cs :=
  policyEvictEntries { c with policy := { c.policy with limit := nMaxEntries } }

/-- The constructor `Cs::Cs(nMaxPackets)`: default policy, then `setLimit`. -/
def new (nMaxPackets : Nat) : Cs :=
  policySetLimit { table := [], policy := { limit := 0, queue := [] },
                   shouldAdmit := true, shouldServe := true } nMaxPackets

/-- The function `Cs::size`. -/
def size (c : Cs) : Nat := c.table.length

/-- The function `Cs::getLimit`. -/
def getLimit (c : Cs) : Nat := c.policy.limit

/-- The function `Cs::setLimit`. -/
def setLimit (c : Cs) (nMaxPackets : Nat) : Cs := c.policySetLimit nMaxPackets

/-- The function `Cs::setPolicy`: the new policy replaces the old one and is given the
old limit.  A policy object is one the registry created (the model of a policy is the
LRU one). -/
def setPolicy (c : Cs) (policy : Policy) : Cs :=
  let limit := c.policy.limit
  policySetLimit { c with policy := policy } limit

/-- The function `Cs::enableAdmit`. -/
def enableAdmit (c : Cs) (shouldAdmit : Bool) : Cs :=
  if c.shouldAdmit == shouldAdmit then c else { c with shouldAdmit := shouldAdmit }

/-- The function `Cs::enableServe`. -/
def enableServe (c : Cs) (shouldServe : Bool) : Cs :=
  if c.shouldServe == shouldServe then c else { c with shouldServe := shouldServe }

/-- The function `Cs::cacheDecisionImpl`: "leave copy everywhere". -/
def cacheDecisionImpl (_c : Cs) (_data : Data) : Bool := true

/-- The function `Cs::insert` of `cs.cpp`. -/
def insert (c : Cs) (now : Int) (data : Data) (isUnsolicited : Bool) : Bool × Cs :=
  if !c.shouldAdmit || c.policy.limit == 0 then (false, c)
  else if data.cachePolicyTag == some CachePolicyType.NO_CACHE then (false, c)
  else if !c.cacheDecisionImpl data then (false, c)
  else
    let r := Table.emplace c.table { data := data, isUnsolicited := isUnsolicited, freshUntil := 0 }
    let it := data.getFullName
    let isNewEntry := r.2
    let t1 := Table.modify r.1 it (fun e => e.updateFreshUntil now)
    if !isNewEntry then
      let t2 := Table.modify t1 it
        (fun e => if e.isUnsolicited && !isUnsolicited then e.clearUnsolicited else e)
      (true, policyAfterRefresh { c with table := t2 } it)
    else
      (true, policyAfterInsert { c with table := t1 } it)

/-- The function `Cs::findPrefixRange`, as a pair of table positions. -/
def findPrefixRange (c : Cs) (pfx : Name) : Nat × Nat :=
  let first := Table.lowerBound c.table pfx
  let last := if 0 < pfx.length then Table.lowerBound c.table pfx.getSuccessor
              else c.table.length
  (first, last)

/-- The loop of `Cs::eraseImpl` over the elements of the prefix range. -/
def eraseLoop (limit : Nat) : List Entry → Nat → Cs → Nat × Cs
  | [], nErased, c => (nErased, c)
  | e :: rest, nErased, c =>
    if nErased < limit then
      let c1 := c.policyBeforeErase e.getFullName
      eraseLoop limit rest (nErased + 1) { c1 with table := Table.erase c1.table e.getFullName }
    else (nErased, c)

/-- The function `Cs::eraseImpl`. -/
def eraseImpl (c : Cs) (pfx : Name) (limit : Nat) : Nat × Cs :=
  eraseLoop limit (Table.range c.table (c.findPrefixRange pfx)) 0 c

/-- The function `Cs::erase`: the store afterwards; the callback receives `eraseImpl.1`. -/
def erase (c : Cs) (pfx : Name) (limit : Nat) : Cs := (c.eraseImpl pfx limit).2

/-- The function `Cs::findImpl`: the matched element (`none` for `m_table.end()`) and the
store after the policy was told. -/
def findImpl (c : Cs) (now : Int) (interest : Interest) : Option Entry × Cs :=
  if !c.shouldServe || c.policy.limit == 0 then (none, c)
  else
    let range := c.findPrefixRange interest.name
    match (Table.range c.table range).find? (fun e => e.canSatisfy interest now) with
    | none => (none, c)
    | some e => (some e, c.policyBeforeUse e.getFullName)

/-- One invocation of a callback handed to `Cs::find`. -/
inductive Callback where
  | hit (interest : Interest) (data : Data)
  | miss (interest : Interest)
deriving DecidableEq, Repr

/-- The function template `Cs::find` of `cs.hpp`: the callback invocations it makes, in
order, and the store afterwards. -/
def find (c : Cs) (now : Int) (interest : Interest) : List Callback × Cs :=
  let r := c.findImpl now interest
  match r.1 with
  | none => ([Callback.miss interest], r.2)
  | some e => ([Callback.hit interest e.data], r.2)

end Cs

/-! ## Pending Interest Table -/

/-- Modelled from the spec: what a PIT entry is "keyed by", a "selector-compatible Name":
the Name with the CanBePrefix and MustBeFresh selectors.  A `shared_ptr<pit::Entry>` is
represented by the key of the entry it points to. -/
structure PitKey where
  name : Name
  canBePrefix : Bool
  mustBeFresh : Bool
deriving DecidableEq, Repr

/-- The key under which the PIT files an Interest. -/
def Interest.pitKey (i : Interest) : PitKey :=
  { name := i.name, canBePrefix := i.canBePrefix, mustBeFresh := i.mustBeFresh }

namespace pit

/-- Modelled from the spec: `pit::InRecord` (`pit-in-record.cpp` is not among the
sources): "one per downstream endpoint: last Nonce, expiry", with the Interest kept. -/
structure InRecord where
  face : Face
  lastNonce : Nonce
  lastRenewed : Int
  expiry : Int
  interest : Interest
deriving DecidableEq, Repr

/-- Modelled from the spec: `pit::OutRecord` (`pit-out-record.cpp` is not among the
sources): "one per upstream endpoint: last Nonce, expiry, optional received-Nack". -/
structure OutRecord where
  face : Face
  lastNonce : Nonce
  lastRenewed : Int
  expiry : Int
  incomingNack : Option NackReason
deriving DecidableEq, Repr

/-- Modelled from the spec: `pit::Entry` (`pit-entry.cpp` is not among the sources): the
Interest, the in-records and out-records, the `isSatisfied` flag, the satisfying Data's
freshness period and the expiry-timer handle. -/
structure Entry where
  interest : Interest
  inRecords : List InRecord
  outRecords : List OutRecord
  isSatisfied : Bool
  dataFreshnessPeriod : Int
  expiryTimer : Option Nat
deriving DecidableEq, Repr

/-- Modelled from the spec: `Entry::getName`. -/
def Entry.getName (e : Entry) : Name := e.interest.name

/-- The key under which the PIT files the entry. -/
def Entry.key (e : Entry) : PitKey := e.interest.pitKey

/-- Modelled from the spec: `Entry::canMatch`, "keyed by a selector-compatible Name": same
Name, same CanBePrefix, same MustBeFresh. -/
def Entry.canMatch (e : Entry) (interest : Interest) : Bool :=
  e.key == interest.pitKey

/-- Modelled from the spec: `Entry::hasInRecords`. -/
def Entry.hasInRecords (e : Entry) : Bool := !e.inRecords.isEmpty

/-- Modelled from the spec: `Entry::getInRecord`. -/
def Entry.getInRecord (e : Entry) (face : Face) : Option InRecord :=
  e.inRecords.find? (fun r => r.face == face)

/-- Modelled from the spec: `Entry::getOutRecord`. -/
def Entry.getOutRecord (e : Entry) (face : Face) : Option OutRecord :=
  e.outRecords.find? (fun r => r.face == face)

/-- Modelled from the spec: `Entry::insertOrUpdateInRecord`: the record of the face is
created at the back when absent, then takes the Interest's Nonce, the Interest, and the
expiry now plus the Interest lifetime. -/
def Entry.insertOrUpdateInRecord (e : Entry) (now : Int) (face : Face) (interest : Interest) :
    Entry :=
  let r : InRecord := { face := face, lastNonce := interest.nonce, lastRenewed := now,
                        expiry := now + interest.lifetime * 1000000, interest := interest }
  if e.inRecords.any (fun x => x.face == face) then
    { e with inRecords := e.inRecords.map (fun x => if x.face == face then r else x) }
  else { e with inRecords := e.inRecords ++ [r] }

/-- Modelled from the spec: `Entry::insertOrUpdateOutRecord`: "every outgoing Interest
updates exactly one OutRecord per egress endpoint". -/
def Entry.insertOrUpdateOutRecord (e : Entry) (now : Int) (face : Face) (interest : Interest) :
    Entry :=
  if e.outRecords.any (fun x => x.face == face) then
    { e with outRecords := e.outRecords.map (fun x =>
        if x.face == face then
          { x with lastNonce := interest.nonce, lastRenewed := now,
                   expiry := now + interest.lifetime * 1000000 }
        else x) }
  else
    { e with outRecords := e.outRecords ++
        [{ face := face, lastNonce := interest.nonce, lastRenewed := now,
           expiry := now + interest.lifetime * 1000000, incomingNack := none }] }

/-- Modelled from the spec: `Entry::deleteInRecord`. -/
def Entry.deleteInRecord (e : Entry) (face : Face) : Entry :=
  { e with inRecords := e.inRecords.eraseP (fun r => r.face == face) }

/-- Modelled from the spec: `Entry::clearInRecords`. -/
def Entry.clearInRecords (e : Entry) : Entry := { e with inRecords := [] }

/-- Modelled from the spec: `Entry::deleteOutRecord`: the out-record of that face, when
there is one, is removed. -/
def Entry.deleteOutRecord (e : Entry) (face : Face) : Entry :=
  { e with outRecords := e.outRecords.eraseP (fun r => r.face == face) }

/-- Modelled from the spec: `OutRecord::setIncomingNack`, "mark OutRecord nacked": the
record keeps the Reason of the Nack it received. -/
def OutRecord.setIncomingNack (r : OutRecord) (nack : Nack) : OutRecord :=
  { r with incomingNack := some nack.reason }

/-- The call `outRecord->setIncomingNack(nack)` on the iterator that
`getOutRecord(face)` returned (an entry holds one out-record per face). -/
def Entry.setIncomingNack (e : Entry) (face : Face) (nack : Nack) : Entry :=
  { e with outRecords := e.outRecords.map (fun r =>
      if r.face == face then r.setIncomingNack nack else r) }

end pit

/-- Modelled from the spec: the `Pit` (`pit.cpp` is not among the sources): the entries
in flight. -/
structure Pit where
  entries : List pit.Entry
deriving DecidableEq, Repr

namespace Pit

/-- The entry behind a `shared_ptr<pit::Entry>`. -/
def get? (p : Pit) (k : PitKey) : Option pit.Entry := p.entries.find? (fun e => e.key == k)

/-- Write access to the entry behind a `shared_ptr<pit::Entry>`. -/
def modify (p : Pit) (k : PitKey) (f : pit.Entry → pit.Entry) : Pit :=
  { p with entries := p.entries.map (fun e => if e.key == k then f e else e) }

/-- The in-records of the entry behind a `shared_ptr<pit::Entry>`. -/
def inRecords (p : Pit) (k : PitKey) : List pit.InRecord :=
  match p.get? k with
  | some e => e.inRecords
  | none => []

/-- The out-records of the entry behind a `shared_ptr<pit::Entry>`. -/
def outRecords (p : Pit) (k : PitKey) : List pit.OutRecord :=
  match p.get? k with
  | some e => e.outRecords
  | none => []

/-- Modelled from the spec: `Pit::insert`, "created on first Interest for a Name (or
reused if selector-compatible)": the entry found or created, whether it is new, and the
table afterwards. -/
def insert (p : Pit) (interest : Interest) : (PitKey × Bool) × Pit :=
  match p.entries.find? (fun e => e.canMatch interest) with
  | some e => ((e.key, false), p)
  | none =>
    ((interest.pitKey, true),
     { entries := p.entries ++
         [{ interest := interest, inRecords := [], outRecords := [],
            isSatisfied := false, dataFreshnessPeriod := 0, expiryTimer := none }] })

/-- Modelled from the spec: `Pit::findAllDataMatches`, "PIT match (may be multiple)": the
entries whose Interest the Data can satisfy. -/
def findAllDataMatches (p : Pit) (data : Data) : List PitKey :=
  (p.entries.filter (fun e => e.interest.matchesData data)).map (fun e => e.key)

/-- Modelled from the spec: `Pit::find`, "require PIT match": the entry filed under the
Name and selectors of the Interest, `none` for the null pointer. -/
def find (p : Pit) (interest : Interest) : Option PitKey :=
  (p.entries.find? (fun e => e.canMatch interest)).map (fun e => e.key)

/-- Modelled from the spec: `Pit::erase`, "erase PIT entry": the entry behind the pointer
leaves the table. -/
def erase (p : Pit) (k : PitKey) : Pit :=
  { p with entries := p.entries.eraseP (fun e => e.key == k) }

/-- The call `pitEntry->getOutRecord(face)` through a `shared_ptr<pit::Entry>`. -/
def getOutRecord (p : Pit) (k : PitKey) (face : Face) : Option pit.OutRecord :=
  match p.get? k with
  | some e => e.getOutRecord face
  | none => none

/-- The call `pitEntry->getInRecord(face)` through a `shared_ptr<pit::Entry>`. -/
def getInRecord (p : Pit) (k : PitKey) (face : Face) : Option pit.InRecord :=
  match p.get? k with
  | some e => e.getInRecord face
  | none => none

end Pit

/-! ## Dead Nonce List, scheduler, face table -/

/-- Modelled from the spec: the `DeadNonceList` (`dead-nonce-list.cpp` is not among the
sources): `add(name, nonce)` records a pair, `has(name, nonce)` tests membership; the
lifetime is what `getLifetime` returns, in milliseconds. -/
structure DeadNonceList where
  entries : List (Name × Nonce)
  lifetime : Int
deriving DecidableEq, Repr

/-- Modelled from the spec: `DeadNonceList::has`. -/
def DeadNonceList.has (d : DeadNonceList) (name : Name) (nonce : Nonce) : Bool :=
  d.entries.contains (name, nonce)

/-- Modelled from the spec: `DeadNonceList::add`. -/
def DeadNonceList.add (d : DeadNonceList) (name : Name) (nonce : Nonce) : DeadNonceList :=
  { d with entries := d.entries ++ [(name, nonce)] }

/-- A callback `onInterestFinalize(pitEntry)` waiting in the scheduler. -/
structure ScheduledEvent where
  id : Nat
  fireAt : Int
  pitEntry : PitKey
deriving DecidableEq, Repr

/-- Modelled from the spec: the scheduler behind `getScheduler()` (ndn-cxx
`scheduler.cpp` is not among the sources): "explicitly scheduled future callbacks" whose
handles "support idempotent cancellation". -/
structure Scheduler where
  events : List ScheduledEvent
  nextId : Nat
deriving DecidableEq, Repr

/-- Cancelling through a handle; an empty or stale handle cancels nothing. -/
def Scheduler.cancel (s : Scheduler) (handle : Option Nat) : Scheduler :=
  match handle with
  | none => s
  | some h => { s with events := s.events.filter (fun ev => ev.id != h) }

/-- Scheduling `onInterestFinalize(pitEntry)` after `duration` milliseconds. -/
def Scheduler.schedule (s : Scheduler) (now : Int) (duration : Int) (pitEntry : PitKey) :
    Nat × Scheduler :=
  (s.nextId,
   { events := s.events ++ [{ id := s.nextId, fireAt := now + duration * 1000000,
                              pitEntry := pitEntry }],
     nextId := s.nextId + 1 })

/-- Modelled from the spec: `FaceTable::get`, the face registered under an id. -/
def faceTableGet (faces : List Face) (id : FaceId) : Option Face :=
  faces.find? (fun f => f.id == id)

/-- Modelled from the spec: `NetworkRegionTable::isInProducerRegion`: some delegation
Name of the forwarding hint is a prefix of some region Name. -/
def isInProducerRegion (regions : List Name) (forwardingHint : List Name) : Bool :=
  forwardingHint.any (fun del => regions.any (fun r => Name.isPrefixOf del r))

/-! ## Forwarding helpers (`daemon/fw/algorithm.hpp`) -/

namespace fw

/-- Modelled from the spec: the flag "no duplicate" of `DuplicateNonceWhere`
(`algorithm.hpp` is not among the sources). -/
def DUPLICATE_NONCE_NONE : Nat := 0

/-- Modelled from the spec: the flag "in-record of the same face". -/
def DUPLICATE_NONCE_IN_SAME : Nat := 1

/-- Modelled from the spec: the flag "in-record of another face". -/
def DUPLICATE_NONCE_IN_OTHER : Nat := 2

/-- Modelled from the spec: the flag "out-record of the same face". -/
def DUPLICATE_NONCE_OUT_SAME : Nat := 4

/-- Modelled from the spec: the flag "out-record of another face". -/
def DUPLICATE_NONCE_OUT_OTHER : Nat := 8

/-- Modelled from the spec: `fw::findDuplicateNonce` (`algorithm.cpp` is not among the
sources), the "PIT-nonce loop check": the flags tell whether the Nonce is the last Nonce
of an in-record or of an out-record, and whether that record belongs to the given face
or to another one. -/
def findDuplicateNonce (pitEntry : pit.Entry) (nonce : Nonce) (face : Face) : Nat :=
  let dnw := pitEntry.inRecords.foldl (fun dnw r =>
    if r.lastNonce == nonce then
      (if r.face == face then dnw ||| DUPLICATE_NONCE_IN_SAME
       else dnw ||| DUPLICATE_NONCE_IN_OTHER)
    else dnw) DUPLICATE_NONCE_NONE
  pitEntry.outRecords.foldl (fun dnw r =>
    if r.lastNonce == nonce then
      (if r.face == face then dnw ||| DUPLICATE_NONCE_OUT_SAME
       else dnw ||| DUPLICATE_NONCE_OUT_OTHER)
    else dnw) dnw

/-- Modelled from the spec: `fw::hasPendingOutRecords` (`algorithm.cpp` is not among the
sources): some out-record is "still pending", that is unexpired and not nacked. -/
def hasPendingOutRecords (pitEntry : pit.Entry) (now : Int) : Bool :=
  pitEntry.outRecords.any (fun r => decide (now ≤ r.expiry) && r.incomingNack.isNone)

/-- Modelled from the spec: `fw::canForwardToLegacy` (`algorithm.cpp` is not among the
sources), which picks the "remaining" next hops: a face can be forwarded to when the entry
holds no unexpired out-record of that face and holds an unexpired in-record of another
face. -/
def canForwardToLegacy (pitEntry : pit.Entry) (now : Int) (face : Face) : Bool :=
  let hasUnexpiredOutRecord :=
    pitEntry.outRecords.any (fun outRecord => outRecord.face == face
      && decide (now ≤ outRecord.expiry))
  if hasUnexpiredOutRecord then false
  else
    let hasUnexpiredOtherInRecord :=
      pitEntry.inRecords.any (fun inRecord => inRecord.face != face
        && decide (now ≤ inRecord.expiry))
    if !hasUnexpiredOtherInRecord then false
    else true

/-- Modelled from the spec: `fw::UnsolicitedDataDecision`
(`unsolicited-data-policy.hpp` is not among the sources): "whether to cache". -/
inductive UnsolicitedDataDecision where
  | DROP
  | CACHE
deriving DecidableEq, Repr

end fw

/-! ## Name tree, FIB and StrategyChoice -/

namespace fw

/-- Modelled from the spec: what the forwarding plane reads of a `fw::Strategy` object
(`strategy.hpp` is not among the sources): the instance name, and whether "the bound
strategy opts into next-hop notifications" (`wantNewNextHopTrigger`). -/
structure Strategy where
  instanceName : Name
  wantNewNextHopTrigger : Bool
deriving DecidableEq, Repr

end fw

namespace strategy_choice

/-- Modelled from the spec: `strategy_choice::Entry`, a "per-prefix strategy binding"
(`strategy-choice-entry.hpp` is not among the sources). -/
structure Entry where
  pfx : Name
  strategy : fw.Strategy
deriving DecidableEq, Repr

end strategy_choice

/-- Modelled from the spec: the `StrategyChoice` table (`strategy-choice.cpp` is not
among the sources): the bindings in force. -/
structure StrategyChoice where
  entries : List strategy_choice.Entry
deriving DecidableEq, Repr

/-- Modelled from the spec: `StrategyChoice::insert`, "insert by name, rejecting
unknown": the strategy is created from its name through the registry; when that fails
the table is left alone and the result is false; otherwise the prefix is bound to the
new instance, in place of the instance it was bound to before, if any. -/
def StrategyChoice.insert (sc : StrategyChoice) (create : Name → Option fw.Strategy)
    (pfx : Name) (strategyName : Name) : Bool × StrategyChoice :=
  match create strategyName with
  | none => (false, sc)
  | some strategy =>
    if sc.entries.any (fun e => e.pfx == pfx) then
      (true, { entries := sc.entries.map (fun e =>
                if e.pfx == pfx then { e with strategy := strategy } else e) })
    else (true, { entries := sc.entries ++ [{ pfx := pfx, strategy := strategy }] })

namespace fib

/-- Modelled from the spec: `fib::NextHop` (`fib-nexthop.hpp` is not among the sources):
a face and a cost. -/
structure NextHop where
  face : Face
  cost : Nat
deriving DecidableEq, Repr

/-- Modelled from the spec: `fib::Entry`, a "next-hop list" under a prefix
(`fib-entry.hpp` is not among the sources). -/
structure Entry where
  pfx : Name
  nextHops : List NextHop
deriving DecidableEq, Repr

/-- Modelled from the spec: `fib::Entry::hasNextHop`: the face is among the next hops. -/
def Entry.hasNextHop (e : Entry) (face : Face) : Bool :=
  e.nextHops.any (fun nexthop => nexthop.face == face)

end fib

namespace name_tree

/-- Modelled from the spec: `name_tree::Entry` (`name-tree-entry.hpp` is not among the
sources), a node of the "single shared, trie-like structure over Names" as
`Forwarder::onNewNextHop` reads it: the Name, the FIB entry and the StrategyChoice entry
attached to the node (`none` for the null pointer), and the "back-references to live PIT
entries". -/
structure Entry where
  name : Name
  fibEntry : Option fib.Entry
  strategyChoiceEntry : Option strategy_choice.Entry
  pitEntries : List PitKey
deriving DecidableEq, Repr

/-- Modelled from the spec: `Entry::hasPitEntries`. -/
def Entry.hasPitEntries (e : Entry) : Bool := !e.pitEntries.isEmpty

end name_tree

/-- Modelled from the spec: the `NameTree` (`name-tree.cpp` is not among the sources): a
node with its entry and its child nodes; the tree is given by its root. -/
inductive NameTree where
  | node (entry : name_tree.Entry) (children : List NameTree)

namespace NameTree

/-- The entry of a node. -/
def entry : NameTree → name_tree.Entry
  | node e _ => e

/-- The child nodes of a node. -/
def children : NameTree → List NameTree
  | node _ cs => cs

mutual

/-- The entries of a tree, a node before its descendants. -/
def entries : NameTree → List name_tree.Entry
  | node e cs => e :: entriesList cs

/-- The entries of a list of trees. -/
def entriesList : List NameTree → List name_tree.Entry
  | [] => []
  | c :: cs => c.entries ++ entriesList cs

end

mutual

/-- Modelled from the spec: `NameTree::findExactMatch`, the "exact" query: the node that
carries the Name. -/
def findExactMatch (name : Name) : NameTree → Option NameTree
  | node e cs => if e.name == name then some (node e cs) else findExactMatchList name cs

/-- The exact query in a list of trees. -/
def findExactMatchList (name : Name) : List NameTree → Option NameTree
  | [] => none
  | c :: cs =>
    match c.findExactMatch name with
    | some n => some n
    | none => findExactMatchList name cs

end

mutual

/-- Modelled from the spec: the "pruned top-down enumeration" from a node: the selector
tells for each node it visits whether the node is collected and whether its children
are visited. -/
def enumerate (selector : name_tree.Entry → Bool × Bool) : NameTree → List name_tree.Entry
  | node e cs =>
    (if (selector e).1 then [e] else []) ++
      (if (selector e).2 then enumerateList selector cs else [])

/-- The enumeration of a list of trees, one after the other. -/
def enumerateList (selector : name_tree.Entry → Bool × Bool) :
    List NameTree → List name_tree.Entry
  | [] => []
  | c :: cs => c.enumerate selector ++ enumerateList selector cs

end

/-- Modelled from the spec: `NameTree::partialEnumerate`, the "subtree enumeration
query": the enumeration starts at the node that carries the prefix and is empty when no
node does. -/
def partialEnumerate (t : NameTree) (pfx : Name) (selector : name_tree.Entry → Bool × Bool) :
    List name_tree.Entry :=
  match t.findExactMatch pfx with
  | none => []
  | some start => start.enumerate selector

/-- Modelled from the spec: `StrategyChoice::findEffectiveStrategy` (`strategy-choice.cpp`
is not among the sources), the strategy bound to the namespace of a Name, "selected by
longest-prefix match": among the nodes whose Name is a prefix of the given Name and that
carry a StrategyChoice entry, the strategy of the entry on the node with the longest
Name; `none` when no such node exists. -/
def findEffectiveStrategy (t : NameTree) (name : Name) : Option fw.Strategy :=
  let bound := t.entries.filterMap (fun e =>
    if Name.isPrefixOf e.name name then
      e.strategyChoiceEntry.map (fun sce => (e.name.length, sce.strategy))
    else none)
  (bound.foldl (fun best c =>
    match best with
    | none => some c
    | some b => if b.1 < c.1 then some c else some b) none).map (fun b => b.2)

end NameTree

/-! ## Forwarder (`daemon/fw/forwarder.cpp`) -/

/-- One step of the Forwarder that is visible outside its tables. -/
inductive Event where
  | onInterestLoop (ingress : FaceEndpoint) (interest : Interest)
  | onContentStoreMiss (ingress : FaceEndpoint) (pitEntry : PitKey) (interest : Interest)
  | onContentStoreHit (ingress : FaceEndpoint) (pitEntry : PitKey) (interest : Interest)
      (data : Data)
  | onOutgoingInterest (pitEntry : PitKey) (egress : FaceEndpoint) (interest : Interest)
  | onInterestFinalize (pitEntry : PitKey)
  | onDataUnsolicited (ingress : FaceEndpoint) (data : Data)
  | onOutgoingData (data : Data) (egress : FaceEndpoint)
  | onOutgoingNack (pitEntry : PitKey) (egress : FaceEndpoint) (reason : NackReason)
  | pitInsert (interest : Interest)
  | csFind (interest : Interest)
  | csInsert (data : Data) (isUnsolicited : Bool)
  | afterCsHit (interest : Interest) (data : Data)
  | afterCsMiss (interest : Interest)
  | beforeSatisfyInterest (pitEntry : PitKey) (face : Face) (data : Data)
  | beforeExpirePendingInterest (pitEntry : PitKey)
  | strategyAfterReceiveInterest (ingress : FaceEndpoint) (interest : Interest)
      (pitEntry : PitKey)
  | strategyAfterReceiveLoopedInterest (ingress : FaceEndpoint) (interest : Interest)
      (pitEntry : PitKey)
  | strategyBeforeSatisfyInterest (pitEntry : PitKey) (ingress : FaceEndpoint) (data : Data)
  | strategyAfterContentStoreHit (pitEntry : PitKey) (ingress : FaceEndpoint) (data : Data)
  | strategyAfterReceiveData (pitEntry : PitKey) (ingress : FaceEndpoint) (data : Data)
  | strategyAfterReceiveNack (ingress : FaceEndpoint) (nack : Nack) (pitEntry : PitKey)
  | strategyAfterNewNextHop (nextHop : FaceId) (pitEntry : PitKey)
  | strategyOnDroppedInterest (egress : FaceEndpoint) (interest : Interest)
  | sendInterest (face : Face) (endpoint : EndpointId) (interest : Interest)
  | sendData (face : Face) (endpoint : EndpointId) (data : Data)
  | sendNack (face : Face) (endpoint : EndpointId) (nack : Nack)
deriving DecidableEq, Repr

/-- The counters of `ForwarderCounters` that the pipelines touch. -/
structure Counters where
  nInInterests : Nat
  nOutInterests : Nat
  nInData : Nat
  nOutData : Nat
  nInNacks : Nat
  nOutNacks : Nat
  nCsHits : Nat
  nCsMisses : Nat
  nSatisfiedInterests : Nat
  nUnsatisfiedInterests : Nat
deriving DecidableEq, Repr

/-- The class `Forwarder`: its tables, the unsolicited-data policy (a decision per face
and Data), the scheduler it arms its timers on, the face that stands for the Content
Store, and the log of its visible steps.  The StrategyChoice table and the name tree are
empty unless stated. -/
structure Forwarder where
  faceTable : List Face
  counters : Counters
  pit : Pit
  cs : Cs
  deadNonceList : DeadNonceList
  networkRegionTable : List Name
  unsolicitedDataPolicy : Face → Data → fw.UnsolicitedDataDecision
  scheduler : Scheduler
  csFace : Face
  log : List Event
  strategyChoice : StrategyChoice := { entries := [] }
  nameTree : NameTree :=
    NameTree.node { name := [], fibEntry := none, strategyChoiceEntry := none,
                    pitEntries := [] } []

namespace Forwarder

/-- Append a step to the log. -/
def emit (f : Forwarder) (e : Event) : Forwarder := { f with log := f.log ++ [e] }

/-- The duration cast `time::duration_cast<time::milliseconds>` of a nanosecond count. -/
def toMilliseconds (ns : Int) : Int := Int.tdiv ns 1000000

/-- The function `Forwarder::setExpiryTimer`: cancel the entry's timer, schedule the
finalize callback after `duration` milliseconds and keep its handle in the entry. -/
def setExpiryTimer (f : Forwarder) (now : Int) (pitEntry : PitKey) (duration : Int) : Forwarder :=
  let old := match f.pit.get? pitEntry with
    | some e => e.expiryTimer
    | none => none
  let s1 := f.scheduler.cancel old
  let r := s1.schedule now duration pitEntry
  { f with scheduler := r.2,
           pit := f.pit.modify pitEntry (fun e => { e with expiryTimer := some r.1 }) }

/-- The function `Forwarder::insertDeadNonceList`; `upstream = none` is the null pointer. -/
def insertDeadNonceList (f : Forwarder) (pitEntry : PitKey) (upstream : Option Face) : Forwarder :=
  match f.pit.get? pitEntry with
  | none => f
  | some e =>
    let needDnl :=
      if e.isSatisfied then
        e.interest.mustBeFresh && decide (e.dataFreshnessPeriod < f.deadNonceList.lifetime)
      else true
    if !needDnl then f
    else
      match upstream with
      | none =>
        { f with deadNonceList :=
            e.outRecords.foldl (fun d r => d.add e.getName r.lastNonce) f.deadNonceList }
      | some face =>
        match e.getOutRecord face with
        | some r => { f with deadNonceList := f.deadNonceList.add e.getName r.lastNonce }
        | none => f

/-- The function `Forwarder::onInterestLoop`. -/
def onInterestLoop (f : Forwarder) (ingress : FaceEndpoint) (interest : Interest) : Forwarder :=
  let f := f.emit (Event.onInterestLoop ingress interest)
  if ingress.face.linkType != LinkType.POINT_TO_POINT then f
  else
    f.emit (Event.sendNack ingress.face ingress.endpoint
      { interest := interest, reason := NackReason.DUPLICATE })

/-- The function `Forwarder::onOutgoingInterest`. -/
def onOutgoingInterest (f : Forwarder) (now : Int) (pitEntry : PitKey) (egress : FaceEndpoint)
    (interest : Interest) : Forwarder :=
  let f := f.emit (Event.onOutgoingInterest pitEntry egress interest)
  let f := { f with pit := (f.pit.modify pitEntry
              (fun e => e.insertOrUpdateOutRecord now egress.face interest)) }
  let f := f.emit (Event.sendInterest egress.face egress.endpoint interest)
  { f with counters := { f.counters with nOutInterests := f.counters.nOutInterests + 1 } }

/-- The `std::max_element` of `onContentStoreMiss`: the expiry of the last-expiring
in-record (the in-record just inserted makes the range non-empty). -/
def lastExpiry (now : Int) : List pit.InRecord → Int
  | [] => now
  | r :: rs => rs.foldl (fun m x => if m < x.expiry then x.expiry else m) r.expiry

/-- The function `Forwarder::onContentStoreMiss`. -/
def onContentStoreMiss (f : Forwarder) (now : Int) (ingress : FaceEndpoint) (pitEntry : PitKey)
    (interest : Interest) : Forwarder :=
  let f := f.emit (Event.onContentStoreMiss ingress pitEntry interest)
  let f := { f with counters := { f.counters with nCsMisses := f.counters.nCsMisses + 1 } }
  let f := f.emit (Event.afterCsMiss interest)
  let f := { f with pit := (f.pit.modify pitEntry
              (fun e => e.insertOrUpdateInRecord now ingress.face interest)) }
  let lastExpiryFromNow := lastExpiry now (f.pit.inRecords pitEntry) - now
  let f := f.setExpiryTimer now pitEntry (toMilliseconds lastExpiryFromNow)
  match interest.nextHopFaceIdTag with
  | some nextHopTag =>
    match faceTableGet f.faceTable nextHopTag with
    | some nextHopFace =>
      f.onOutgoingInterest now pitEntry { face := nextHopFace, endpoint := 0 } interest
    | none => f
  | none =>
    f.emit (Event.strategyAfterReceiveInterest { face := ingress.face, endpoint := 0 }
      interest pitEntry)

/-- The function `Forwarder::onContentStoreHit`.  The Data handed to the hit callback is
the object the Content Store holds, so the tag set here shows on the stored entry. -/
def onContentStoreHit (f : Forwarder) (now : Int) (ingress : FaceEndpoint) (pitEntry : PitKey)
    (interest : Interest) (data : Data) : Forwarder :=
  let f := f.emit (Event.onContentStoreHit ingress pitEntry interest data)
  let f := { f with counters := { f.counters with nCsHits := f.counters.nCsHits + 1 } }
  let f := f.emit (Event.afterCsHit interest data)
  let f := { f with cs := { f.cs with table := (cs.Table.modify f.cs.table data.getFullName
              (fun e => { e with data :=
                { e.data with incomingFaceIdTag := some FACEID_CONTENT_STORE } })) } }
  let data := { data with incomingFaceIdTag := some FACEID_CONTENT_STORE }
  let f := { f with pit := f.pit.modify pitEntry (fun e =>
              { e with isSatisfied := true, dataFreshnessPeriod := data.freshnessPeriod }) }
  let f := f.setExpiryTimer now pitEntry 0
  let f := f.emit (Event.beforeSatisfyInterest pitEntry f.csFace data)
  let f := f.emit (Event.strategyBeforeSatisfyInterest pitEntry
              { face := f.csFace, endpoint := 0 } data)
  f.emit (Event.strategyAfterContentStoreHit pitEntry ingress data)

/-- The function `Forwarder::onIncomingInterest`. -/
def onIncomingInterest (f : Forwarder) (now : Int) (ingress : FaceEndpoint)
    (interest : Interest) : Forwarder :=
  let interest := { interest with incomingFaceIdTag := some ingress.face.id }
  let f := { f with counters := { f.counters with nInInterests := f.counters.nInInterests + 1 } }
  let isViolatingLocalhost := ingress.face.scope == FaceScope.NON_LOCAL
                              && Name.isPrefixOf LOCALHOST interest.name
  if isViolatingLocalhost then f
  else
    let hasDuplicateNonceInDnl := f.deadNonceList.has interest.name interest.nonce
    if hasDuplicateNonceInDnl then f.onInterestLoop ingress interest
    else
      let interest :=
        if !interest.forwardingHint.isEmpty
            && isInProducerRegion f.networkRegionTable interest.forwardingHint then
          { interest with forwardingHint := [] }
        else interest
      let f := f.emit (Event.pitInsert interest)
      let r := f.pit.insert interest
      let pitEntry := r.1.1
      let f := { f with pit := r.2 }
      let dnw := match f.pit.get? pitEntry with
        | some e => fw.findDuplicateNonce e interest.nonce ingress.face
        | none => fw.DUPLICATE_NONCE_NONE
      let hasDuplicateNonceInPit := dnw != fw.DUPLICATE_NONCE_NONE
      let hasDuplicateNonceInPit :=
        if ingress.face.linkType == LinkType.POINT_TO_POINT then
          hasDuplicateNonceInPit && !((dnw &&& fw.DUPLICATE_NONCE_IN_SAME) != 0)
        else hasDuplicateNonceInPit
      if hasDuplicateNonceInPit then
        let f := f.onInterestLoop ingress interest
        f.emit (Event.strategyAfterReceiveLoopedInterest ingress interest pitEntry)
      else if (f.pit.inRecords pitEntry).isEmpty then
        let f := f.emit (Event.csFind interest)
        let r := f.cs.find now interest
        let f := { f with cs := r.2 }
        r.1.foldl (fun f cb =>
          match cb with
          | Cs.Callback.hit i d => f.onContentStoreHit now ingress pitEntry i d
          | Cs.Callback.miss i => f.onContentStoreMiss now ingress pitEntry i) f
      else f.onContentStoreMiss now ingress pitEntry interest

/-- The local variable `hasDuplicateNonceInPit` of `onIncomingInterest` when the loop
pipeline is chosen: a duplicate Nonce was found in the entry and, on a point-to-point
face, not in the in-record of the same face. -/
def hasDuplicateNonceInPit (pitEntry : pit.Entry) (nonce : Nonce) (face : Face) : Bool :=
  let dnw := fw.findDuplicateNonce pitEntry nonce face
  let hasDuplicateNonceInPit := dnw != fw.DUPLICATE_NONCE_NONE
  if face.linkType == LinkType.POINT_TO_POINT then
    hasDuplicateNonceInPit && !((dnw &&& fw.DUPLICATE_NONCE_IN_SAME) != 0)
  else hasDuplicateNonceInPit

/-- The function `Forwarder::onOutgoingData`. -/
def onOutgoingData (f : Forwarder) (data : Data) (egress : FaceEndpoint) : Forwarder :=
  let f := f.emit (Event.onOutgoingData data egress)
  if egress.face.id == INVALID_FACEID then f
  else
    let isViolatingLocalhost := egress.face.scope == FaceScope.NON_LOCAL
                                && Name.isPrefixOf LOCALHOST data.name
    if isViolatingLocalhost then f
    else
      let f := f.emit (Event.sendData egress.face egress.endpoint data)
      { f with counters := { f.counters with nOutData := f.counters.nOutData + 1 } }

/-- The function `Forwarder::onDataUnsolicited`. -/
def onDataUnsolicited (f : Forwarder) (now : Int) (ingress : FaceEndpoint) (data : Data) :
    Forwarder :=
  let f := f.emit (Event.onDataUnsolicited ingress data)
  let decision := f.unsolicitedDataPolicy ingress.face data
  if decision == fw.UnsolicitedDataDecision.CACHE then
    let f := f.emit (Event.csInsert data true)
    { f with cs := (f.cs.insert now data true).2 }
  else f

/-- The call `pendingDownstreams.emplace(face, endpoint)` on the `std::set` of pairs: a
pair already in the set is not added again.  The elements are kept in the order in which
they were first added. -/
def emplaceDownstream (s : List (Face × EndpointId)) (x : Face × EndpointId) :
    List (Face × EndpointId) :=
  if x ∈ s then s else s ++ [x]

/-- The inner loop "remember pending downstreams" of the multi-match branch. -/
def rememberPendingDownstreams (now : Int) (inRecords : List pit.InRecord)
    (pendingDownstreams : List (Face × EndpointId)) : List (Face × EndpointId) :=
  inRecords.foldl (fun s inRecord =>
    if now < inRecord.expiry then emplaceDownstream s (inRecord.face, 0) else s)
    pendingDownstreams

/-- The body of the loop over `pitMatches` in the multi-match branch, after the pending
downstreams of the entry were remembered. -/
def satisfyMatchedEntry (f : Forwarder) (now : Int) (ingress : FaceEndpoint) (data : Data)
    (pitEntry : PitKey) : Forwarder :=
  let f := f.setExpiryTimer now pitEntry 0
  let f := f.emit (Event.beforeSatisfyInterest pitEntry ingress.face data)
  let f := f.emit (Event.strategyBeforeSatisfyInterest pitEntry ingress data)
  let f := { f with pit := (f.pit.modify pitEntry (fun e =>
              { e with isSatisfied := true, dataFreshnessPeriod := data.freshnessPeriod })) }
  let f := f.insertDeadNonceList pitEntry (some ingress.face)
  let f := { f with pit := (f.pit.modify pitEntry (fun e => e.clearInRecords)) }
  { f with pit := (f.pit.modify pitEntry (fun e => e.deleteOutRecord ingress.face)) }

/-- The loop over `pitMatches` in the multi-match branch: the pending downstreams and the
Forwarder after it. -/
def satisfyMatches (now : Int) (ingress : FaceEndpoint) (data : Data) (pitMatches : List PitKey)
    (f : Forwarder) : List (Face × EndpointId) × Forwarder :=
  pitMatches.foldl (fun acc pitEntry =>
    (rememberPendingDownstreams now (acc.2.pit.inRecords pitEntry) acc.1,
     acc.2.satisfyMatchedEntry now ingress data pitEntry)) ([], f)

/-- The loop "foreach pending downstream" of the multi-match branch. -/
def sendToPendingDownstreams (f : Forwarder) (ingress : FaceEndpoint) (data : Data)
    (pendingDownstreams : List (Face × EndpointId)) : Forwarder :=
  pendingDownstreams.foldl (fun f pendingDownstream =>
    if pendingDownstream.1.id == ingress.face.id
        && pendingDownstream.2 == ingress.endpoint
        && pendingDownstream.1.linkType != LinkType.AD_HOC then f
    else f.onOutgoingData data
      { face := pendingDownstream.1, endpoint := pendingDownstream.2 }) f

/-- The single-match branch of `onIncomingData`. -/
def satisfySingleMatch (f : Forwarder) (now : Int) (ingress : FaceEndpoint) (data : Data)
    (pitEntry : PitKey) : Forwarder :=
  let f := f.setExpiryTimer now pitEntry 0
  let f := f.emit (Event.beforeSatisfyInterest pitEntry ingress.face data)
  let f := f.emit (Event.strategyAfterReceiveData pitEntry ingress data)
  let f := { f with pit := (f.pit.modify pitEntry (fun e =>
              { e with isSatisfied := true, dataFreshnessPeriod := data.freshnessPeriod })) }
  let f := f.insertDeadNonceList pitEntry (some ingress.face)
  { f with pit := (f.pit.modify pitEntry (fun e => e.deleteOutRecord ingress.face)) }

/-- The function `Forwarder::onIncomingData`. -/
def onIncomingData (f : Forwarder) (now : Int) (ingress : FaceEndpoint) (data : Data) :
    Forwarder :=
  let data := { data with incomingFaceIdTag := some ingress.face.id }
  let f := { f with counters := { f.counters with nInData := f.counters.nInData + 1 } }
  let isViolatingLocalhost := ingress.face.scope == FaceScope.NON_LOCAL
                              && Name.isPrefixOf LOCALHOST data.name
  if isViolatingLocalhost then f
  else
    let pitMatches := f.pit.findAllDataMatches data
    if pitMatches.length == 0 then f.onDataUnsolicited now ingress data
    else
      let f := f.emit (Event.csInsert data false)
      let f := { f with cs := (f.cs.insert now data false).2 }
      if pitMatches.length == 1 then
        match pitMatches.head? with
        | some pitEntry => f.satisfySingleMatch now ingress data pitEntry
        | none => f
      else
        let r := satisfyMatches now ingress data pitMatches f
        r.2.sendToPendingDownstreams ingress data r.1

/-- The function `Forwarder::onInterestFinalize`.  The entry is read once: nothing in
the function writes to it before it is erased.  A handle whose entry has left the PIT
finalizes nothing. -/
def onInterestFinalize (f : Forwarder) (pitEntry : PitKey) : Forwarder :=
  let f := f.emit (Event.onInterestFinalize pitEntry)
  match f.pit.get? pitEntry with
  | none => f
  | some e =>
    let f := if !e.isSatisfied then f.emit (Event.beforeExpirePendingInterest pitEntry) else f
    let f := f.insertDeadNonceList pitEntry none
    let f :=
      if e.isSatisfied then
        { f with counters :=
            { f.counters with nSatisfiedInterests := f.counters.nSatisfiedInterests + 1 } }
      else
        { f with counters :=
            { f.counters with nUnsatisfiedInterests := f.counters.nUnsatisfiedInterests + 1 } }
    let f := { f with scheduler := f.scheduler.cancel e.expiryTimer }
    { f with pit := f.pit.erase pitEntry }

/-- The function `Forwarder::onIncomingNack`.  The IncomingFaceId tag set on the Nack is
not represented (a `Nack` here is the Interest and the Reason). -/
def onIncomingNack (f : Forwarder) (now : Int) (ingress : FaceEndpoint) (nack : Nack) :
    Forwarder :=
  let f := { f with counters := { f.counters with nInNacks := f.counters.nInNacks + 1 } }
  if ingress.face.linkType != LinkType.POINT_TO_POINT then f
  else
    match f.pit.find nack.interest with
    | none => f
    | some pitEntry =>
      match f.pit.getOutRecord pitEntry ingress.face with
      | none => f
      | some outRecord =>
        if nack.interest.nonce != outRecord.lastNonce then f
        else
          let f := { f with pit := (f.pit.modify pitEntry
                      (fun e => e.setIncomingNack ingress.face nack)) }
          let hasPending := match f.pit.get? pitEntry with
            | some e => fw.hasPendingOutRecords e now
            | none => false
          let f := if !hasPending then f.setExpiryTimer now pitEntry 0 else f
          f.emit (Event.strategyAfterReceiveNack ingress nack pitEntry)

/-- The function `Forwarder::onOutgoingNack`; the `lp::NackHeader` is its Reason. -/
def onOutgoingNack (f : Forwarder) (pitEntry : PitKey) (egress : FaceEndpoint)
    (nack : NackReason) : Forwarder :=
  let f := f.emit (Event.onOutgoingNack pitEntry egress nack)
  if egress.face.id == INVALID_FACEID then f
  else
    match f.pit.getInRecord pitEntry egress.face with
    | none => f
    | some inRecord =>
      if egress.face.linkType != LinkType.POINT_TO_POINT then f
      else
        let nackPkt : Nack := { interest := inRecord.interest, reason := nack }
        let f := { f with pit := (f.pit.modify pitEntry (fun e => e.deleteInRecord egress.face)) }
        let f := f.emit (Event.sendNack egress.face egress.endpoint nackPkt)
        { f with counters := { f.counters with nOutNacks := f.counters.nOutNacks + 1 } }

/-- The lambda that `Forwarder::onNewNextHop` hands to `partialEnumerate`: whether the
name tree entry is collected, and whether its children are visited. -/
def onNewNextHopSelector (nte : name_tree.Entry) : Bool × Bool :=
  let fibEntry := nte.fibEntry
  let strategy : Option fw.Strategy :=
    match nte.strategyChoiceEntry with
    | some sce => some sce.strategy
    | none => none
  if nte.name.length == 0
      || ((match strategy with
           | some s => s.wantNewNextHopTrigger
           | none => false)
          && fibEntry.isNone && nte.hasPitEntries) then (true, true)
  else if fibEntry.isNone then (false, true)
  else (false, false)

/-- The function `Forwarder::onNewNextHop`; the next hop is given by the id of its face. -/
def onNewNextHop (f : Forwarder) (pfx : Name) (nextHop : FaceId) : Forwarder :=
  let affectedEntries := f.nameTree.partialEnumerate pfx onNewNextHopSelector
  affectedEntries.foldl (fun f nte =>
    nte.pitEntries.foldl (fun f pitEntry =>
      f.emit (Event.strategyAfterNewNextHop nextHop pitEntry)) f) f

/-- Modelled from the spec: the strategy primitive "satisfy-with-data", `Strategy::sendData`
(`strategy.cpp` is not among the sources): the in-record of the egress face is deleted and
the Data enters the outgoing Data pipeline. -/
def strategySendData (f : Forwarder) (pitEntry : PitKey) (data : Data) (egress : FaceEndpoint) :
    Forwarder :=
  let f := { f with pit := (f.pit.modify pitEntry (fun e => e.deleteInRecord egress.face)) }
  f.onOutgoingData data egress

end Forwarder

/-! ## Configuration of the tables (`daemon/mgmt/tables-config-section.cpp`) -/

/-- Modelled from the spec: what the configuration loader resolves names against, "a
name→factory table resolved once at configuration time" (`cs-policy.cpp`, `strategy.cpp`
and `unsolicited-data-policy.cpp` are not among the sources): the policies, strategies and
unsolicited-data policies that can be created by name (`none` for the null pointer), and
the default unsolicited-data policy. -/
structure Registry where
  /-- The function `cs::Policy::create`. -/
  csPolicyCreate : String → Option cs.Policy
  /-- The function `Strategy::create`; `Strategy::canCreate` tells whether it succeeds. -/
  strategyCreate : Name → Option fw.Strategy
  /-- The function `UnsolicitedDataPolicy::create`. -/
  unsolicitedDataPolicyCreate : String → Option (Face → Data → fw.UnsolicitedDataDecision)
  /-- The class `fw::DefaultUnsolicitedDataPolicy`. -/
  defaultUnsolicitedDataPolicy : Face → Data → fw.UnsolicitedDataDecision

/-- The `ConfigSection` handed to `processConfig`: the subtree `tables` of the
configuration file, by the children the function looks up (`none` when the child is
absent).  The value of `cs_max_packets` is `none` when `parseNumber` cannot read it as a
number; the keys and values of `strategy_choice` and the keys of `network_region` are
held as the Names they spell. -/
structure ConfigSection where
  cs_max_packets : Option (Option Nat)
  cs_policy : Option String
  cs_unsolicited_policy : Option String
  strategy_choice : Option (List (Name × Name))
  network_region : Option (List Name)
deriving DecidableEq, Repr

/-- The exception `ConfigFile::Error`, by the place that throws it. -/
inductive ConfigError where
  | invalidValue (key : String)
  | unknownCsPolicy (policyName : String)
  | unknownCsUnsolicitedPolicy (policyKey : String)
  | unknownStrategy (strategy : Name) (pfx : Name)
  | duplicateStrategyChoice (pfx : Name)
  | failedToSetStrategy (strategy : Name) (pfx : Name)
deriving DecidableEq, Repr

/-- The class `TablesConfigSection`: the Forwarder it configures and the flag
`m_isConfigured`. -/
structure TablesConfigSection where
  forwarder : Forwarder
  isConfigured : Bool

namespace TablesConfigSection

/-- The constant `DEFAULT_CS_MAX_PACKETS`. -/
def DEFAULT_CS_MAX_PACKETS : Nat := 65536

/-- The constructor `TablesConfigSection::TablesConfigSection`. -/
def new (forwarder : Forwarder) : TablesConfigSection :=
  { forwarder := forwarder, isConfigured := false }

/-- The function `TablesConfigSection::ensureConfigured`. -/
def ensureConfigured (reg : Registry) (t : TablesConfigSection) : TablesConfigSection :=
  if t.isConfigured then t
  else
    { forwarder := { t.forwarder with
                     cs := t.forwarder.cs.setLimit DEFAULT_CS_MAX_PACKETS
                     unsolicitedDataPolicy := reg.defaultUnsolicitedDataPolicy }
      isConfigured := true }

/-- Position at which the `std::map<Name, Name>` puts a new key. -/
def insertChoiceSorted (x : Name × Name) : List (Name × Name) → List (Name × Name)
  | [] => [x]
  | y :: ys => if Name.lt x.1 y.1 then x :: y :: ys else y :: insertChoiceSorted x ys

/-- The call `choices.emplace(prefix, strategy)` on the `std::map<Name, Name>`: the map
keeps the pair it already holds under that prefix; the Boolean tells whether a pair was
inserted. -/
def emplaceChoice (choices : List (Name × Name)) (pfx : Name) (strategy : Name) :
    List (Name × Name) × Bool :=
  if choices.any (fun c => c.1 == pfx) then (choices, false)
  else (insertChoiceSorted (pfx, strategy) choices, true)

/-- The first loop of `processStrategyChoiceSection`: the map `choices` it builds, or the
error it throws. -/
def readChoices (reg : Registry) :
    List (Name × Name) → List (Name × Name) → Except ConfigError (List (Name × Name))
  | [], choices => Except.ok choices
  | prefixAndStrategy :: rest, choices =>
    let pfx := prefixAndStrategy.1
    let strategy := prefixAndStrategy.2
    if !(reg.strategyCreate strategy).isSome then
      Except.error (ConfigError.unknownStrategy strategy pfx)
    else
      let r := emplaceChoice choices pfx strategy
      if !r.2 then Except.error (ConfigError.duplicateStrategyChoice pfx)
      else readChoices reg rest r.1

/-- The second loop of `processStrategyChoiceSection`: `sc.insert` for each choice, until
one fails. -/
def applyChoices (reg : Registry) :
    List (Name × Name) → StrategyChoice → Option ConfigError × StrategyChoice
  | [], sc => (none, sc)
  | choice :: rest, sc =>
    let r := sc.insert reg.strategyCreate choice.1 choice.2
    if !r.1 then (some (ConfigError.failedToSetStrategy choice.2 choice.1), r.2)
    else applyChoices reg rest r.2

/-- The function `TablesConfigSection::processStrategyChoiceSection`: the error thrown, if
any, and the state when the function is left. -/
def processStrategyChoiceSection (reg : Registry) (t : TablesConfigSection)
    (configSection : List (Name × Name)) (isDryRun : Bool) :
    Option ConfigError × TablesConfigSection :=
  match readChoices reg configSection [] with
  | Except.error e => (some e, t)
  | Except.ok choices =>
    if isDryRun then (none, t)
    else
      let r := applyChoices reg choices t.forwarder.strategyChoice
      (r.1, { t with forwarder := { t.forwarder with strategyChoice := r.2 } })

/-- The call `nrt.insert(name)` on the `NetworkRegionTable`, a `std::set<Name>`. -/
def insertRegion (region : Name) : List Name → List Name
  | [] => [region]
  | y :: ys =>
    if region == y then y :: ys
    else if Name.lt region y then region :: y :: ys
    else y :: insertRegion region ys

/-- The function `TablesConfigSection::processNetworkRegionSection`. -/
def processNetworkRegionSection (t : TablesConfigSection) (configSection : List Name)
    (isDryRun : Bool) : TablesConfigSection :=
  if isDryRun then t
  else
    let nrt := configSection.foldl (fun nrt region => insertRegion region nrt) []
    { t with forwarder := { t.forwarder with networkRegionTable := nrt } }

/-- The function `TablesConfigSection::processConfig`: the error thrown, if any, and the
state when the function is left. -/
def processConfig (reg : Registry) (t : TablesConfigSection) (configSection : ConfigSection)
    (isDryRun : Bool) : Option ConfigError × TablesConfigSection :=
  let nCsMaxPackets : Except ConfigError Nat :=
    match configSection.cs_max_packets with
    | none => Except.ok DEFAULT_CS_MAX_PACKETS
    | some none => Except.error (ConfigError.invalidValue "cs_max_packets")
    | some (some n) => Except.ok n
  match nCsMaxPackets with
  | Except.error e => (some e, t)
  | Except.ok nCsMaxPackets =>
    let csPolicy : Except ConfigError (Option cs.Policy) :=
      match configSection.cs_policy with
      | none => Except.ok none
      | some policyName =>
        match reg.csPolicyCreate policyName with
        | none => Except.error (ConfigError.unknownCsPolicy policyName)
        | some policy => Except.ok (some policy)
    match csPolicy with
    | Except.error e => (some e, t)
    | Except.ok csPolicy =>
      let unsolicitedDataPolicy :
          Except ConfigError (Face → Data → fw.UnsolicitedDataDecision) :=
        match configSection.cs_unsolicited_policy with
        | none => Except.ok reg.defaultUnsolicitedDataPolicy
        | some policyKey =>
          match reg.unsolicitedDataPolicyCreate policyKey with
          | none => Except.error (ConfigError.unknownCsUnsolicitedPolicy policyKey)
          | some policy => Except.ok policy
      match unsolicitedDataPolicy with
      | Except.error e => (some e, t)
      | Except.ok unsolicitedDataPolicy =>
        let r :=
          match configSection.strategy_choice with
          | some strategyChoiceSection =>
            processStrategyChoiceSection reg t strategyChoiceSection isDryRun
          | none => (none, t)
        match r.1 with
        | some e => (some e, r.2)
        | none =>
          let t :=
            match configSection.network_region with
            | some networkRegionSection =>
              processNetworkRegionSection r.2 networkRegionSection isDryRun
            | none => r.2
          if isDryRun then (none, t)
          else
            let cs := t.forwarder.cs.setLimit nCsMaxPackets
            let cs :=
              match csPolicy with
              | some policy => if cs.size == 0 then cs.setPolicy policy else cs
              | none => cs
            (none, { forwarder := { t.forwarder with
                                    cs := cs
                                    unsolicitedDataPolicy := unsolicitedDataPolicy }
                     isConfigured := true })

end TablesConfigSection

/-! ## NccStrategy (`daemon/fw/ncc-strategy.cpp`) -/

/-- A `weak_ptr<Face>` is the face it was set from (`none` when it is empty); `lock`
gives that face as long as the face table holds it, and `none` afterwards. -/
def lockFace (faceTable : List Face) (weak : Option Face) : Option Face :=
  match weak with
  | some face => if faceTable.contains face then some face else none
  | none => none

/-- The conversion of a 64-bit signed integer to `size_t`. -/
def toUInt64 (x : Int) : Nat := (x % 2 ^ 64).toNat

/-- The conversion of a `size_t` to a 64-bit signed integer. -/
def toInt64 (n : Nat) : Int :=
  if n % 2 ^ 64 < 2 ^ 63 then ((n % 2 ^ 64 : Nat) : Int) else ((n % 2 ^ 64 : Nat) : Int) - 2 ^ 64

/-- The operation `--n` on a `size_t`: decrementing 0 wraps to `SIZE_MAX`. -/
def decrementSize (n : Nat) : Nat := (n + (2 ^ 64 - 1)) % 2 ^ 64

namespace NccStrategy

/-- The class `NccStrategy::MeasurementsEntryInfo` (declared in `ncc-strategy.hpp`, which
is not among the sources): "an exponentially-adjusted RTT prediction, a weak reference to
the current best face, and to the previous best face".  The prediction counts
microseconds. -/
structure MeasurementsEntryInfo where
  prediction : Int
  bestFace : Option Face
  previousFace : Option Face
deriving DecidableEq, Repr

namespace MeasurementsEntryInfo

/-- The constant `INITIAL_PREDICTION`, in microseconds. -/
def INITIAL_PREDICTION : Int := 8192

/-- The constant `MIN_PREDICTION`, in microseconds. -/
def MIN_PREDICTION : Int := 127

/-- The constant `MAX_PREDICTION`, in microseconds. -/
def MAX_PREDICTION : Int := 160000

/-- Modelled from the spec: the constant `ADJUST_PREDICT_DOWN_SHIFT` of
`ncc-strategy.hpp` (not among the sources), by which a prediction "tightens". -/
def ADJUST_PREDICT_DOWN_SHIFT : Nat := 7

/-- Modelled from the spec: the constant `ADJUST_PREDICT_UP_SHIFT` of `ncc-strategy.hpp`
(not among the sources), by which a prediction "loosens". -/
def ADJUST_PREDICT_UP_SHIFT : Nat := 3

/-- The constructor `MeasurementsEntryInfo::MeasurementsEntryInfo`. -/
def new : MeasurementsEntryInfo :=
  { prediction := INITIAL_PREDICTION, bestFace := none, previousFace := none }

/-- The function `MeasurementsEntryInfo::inheritFrom`: assignment of the other object. -/
def inheritFrom (_info : MeasurementsEntryInfo) (other : MeasurementsEntryInfo) :
    MeasurementsEntryInfo := other

/-- The function `MeasurementsEntryInfo::getBestFace`: the face returned (`none` for the
null pointer) and the object afterwards. -/
def getBestFace (info : MeasurementsEntryInfo) (faceTable : List Face) :
    Option Face × MeasurementsEntryInfo :=
  match lockFace faceTable info.bestFace with
  | some best => (some best, info)
  | none =>
    let best := lockFace faceTable info.previousFace
    (best, { info with bestFace := best })

/-- The function `MeasurementsEntryInfo::adjustPredictDown`. -/
def adjustPredictDown (info : MeasurementsEntryInfo) : MeasurementsEntryInfo :=
  { info with prediction :=
      (max MIN_PREDICTION
        (info.prediction - (info.prediction >>> ADJUST_PREDICT_DOWN_SHIFT))) }

/-- The function `MeasurementsEntryInfo::adjustPredictUp`. -/
def adjustPredictUp (info : MeasurementsEntryInfo) : MeasurementsEntryInfo :=
  { info with prediction :=
      (min MAX_PREDICTION
        (info.prediction + (info.prediction >>> ADJUST_PREDICT_UP_SHIFT))) }

/-- The function `MeasurementsEntryInfo::updateBestFace`. -/
def updateBestFace (info : MeasurementsEntryInfo) (faceTable : List Face) (face : Face) :
    MeasurementsEntryInfo :=
  match lockFace faceTable info.bestFace with
  | none => { info with bestFace := some face }
  | some bestFace =>
    if bestFace == face then info.adjustPredictDown
    else { info with previousFace := info.bestFace, bestFace := some face }

/-- The function `MeasurementsEntryInfo::ageBestFace`. -/
def ageBestFace (info : MeasurementsEntryInfo) : MeasurementsEntryInfo :=
  { info with previousFace := info.bestFace, bestFace := none }

end MeasurementsEntryInfo

/-- The class `NccStrategy::PitEntryInfo` (declared in `ncc-strategy.hpp`, which is not
among the sources): the handles of the best-face timeout and of the propagate timer
(`none` for an empty handle) and `maxInterval`, in microseconds. -/
structure PitEntryInfo where
  bestFaceTimeout : Option Nat
  propagateTimer : Option Nat
  maxInterval : Int
deriving DecidableEq, Repr

/-- A callback the strategy hands to the scheduler. -/
inductive Callback where
  | doPropagate (inFaceId : FaceId) (pitEntryWeak : PitKey)
  | timeoutOnBestFace (pitEntryWeak : PitKey)
deriving DecidableEq, Repr

/-- A callback of the strategy waiting in the scheduler; `fireAt` counts nanoseconds. -/
structure TimerEvent where
  id : Nat
  fireAt : Int
  callback : Callback
deriving DecidableEq, Repr

end NccStrategy

namespace measurements

/-- Modelled from the spec: `measurements::Entry` (`measurements-entry.hpp` is not among
the sources), "per-prefix strategy scratch memory": the Name, the expiry and the slot
that holds the `MeasurementsEntryInfo`. -/
structure Entry where
  name : Name
  expiry : Int
  strategyInfo : Option NccStrategy.MeasurementsEntryInfo
deriving DecidableEq, Repr

end measurements

/-- Modelled from the spec: the `Measurements` table (`measurements.cpp` is not among the
sources).  A `measurements::Entry*` is the Name of the entry. -/
structure Measurements where
  entries : List measurements.Entry
deriving DecidableEq, Repr

namespace Measurements

/-- Modelled from the spec: `Measurements::getInitialLifetime`, in nanoseconds. -/
def getInitialLifetime : Int := 4000000000

/-- Modelled from the spec: `Measurements::get`: the entry of the Name is created when
the table does not hold it. -/
def get (m : Measurements) (now : Int) (name : Name) : Measurements :=
  if m.entries.any (fun e => e.name == name) then m
  else { entries := (m.entries ++
           [{ name := name, expiry := now + getInitialLifetime, strategyInfo := none }]) }

/-- Modelled from the spec: `Entry::getStrategyInfo<MeasurementsEntryInfo>` on the entry
of the Name. -/
def info (m : Measurements) (name : Name) : Option NccStrategy.MeasurementsEntryInfo :=
  match m.entries.find? (fun e => e.name == name) with
  | some e => e.strategyInfo
  | none => none

/-- Write access to the `MeasurementsEntryInfo` of the entry of the Name. -/
def setInfo (m : Measurements) (name : Name) (info : NccStrategy.MeasurementsEntryInfo) :
    Measurements :=
  { entries := (m.entries.map (fun e =>
      if e.name == name then { e with strategyInfo := some info } else e)) }

/-- Modelled from the spec: `Measurements::extendLifetime`, "refreshing lifetimes": the
expiry becomes now plus the lifetime unless it is later already. -/
def extendLifetime (m : Measurements) (now : Int) (name : Name) (lifetime : Int) :
    Measurements :=
  { entries := (m.entries.map (fun e =>
      if e.name == name then
        (if now + lifetime ≤ e.expiry then e else { e with expiry := now + lifetime })
      else e)) }

end Measurements

/-- The class `NccStrategy` with what it works on: the Forwarder; the FIB entry that
`lookupFib` finds for a PIT entry; the scope check `wouldViolateScope`; the Names for
which this strategy is the effective one (its namespace, outside of which the
`MeasurementsAccessor` returns a null pointer); the Measurements table; the
`PitEntryInfo` items attached to PIT entries; the callbacks it has waiting in the
scheduler and the id of the next event. -/
structure NccStrategy where
  forwarder : Forwarder
  lookupFib : PitKey → fib.Entry
  wouldViolateScope : Face → Interest → Face → Bool
  inNamespace : Name → Bool
  measurements : Measurements
  pitEntryInfo : List (PitKey × NccStrategy.PitEntryInfo)
  events : List NccStrategy.TimerEvent
  nextEventId : Nat

namespace NccStrategy

/-- The constant `DEFER_FIRST_WITHOUT_BEST_FACE`, in microseconds. -/
def DEFER_FIRST_WITHOUT_BEST_FACE : Int := 4000

/-- The constant `DEFER_RANGE_WITHOUT_BEST_FACE`, in microseconds. -/
def DEFER_RANGE_WITHOUT_BEST_FACE : Int := 75000

/-- The constant `MEASUREMENTS_LIFETIME`, in nanoseconds. -/
def MEASUREMENTS_LIFETIME : Int := 16000000000

/-- Modelled from the spec: the constant `UPDATE_MEASUREMENTS_N_LEVELS` of
`ncc-strategy.hpp` (not among the sources), the "bounded depth" of the walk up the
Measurements hierarchy. -/
def UPDATE_MEASUREMENTS_N_LEVELS : Nat := 2

/-- Modelled from the spec: `MeasurementsAccessor::get`: the entry is created in the
table; the pointer returned is null when the Name is outside the strategy's namespace. -/
def measurementsGet (s : NccStrategy) (now : Int) (name : Name) : Option Name × NccStrategy :=
  let s := { s with measurements := s.measurements.get now name }
  (if s.inNamespace name then some name else none, s)

/-- Modelled from the spec: `MeasurementsAccessor::getParent`: null for the entry of the
empty Name; otherwise the entry of the Name without its last component, under the same
namespace rule. -/
def measurementsGetParent (s : NccStrategy) (now : Int) (child : Name) :
    Option Name × NccStrategy :=
  if child.length == 0 then (none, s)
  else s.measurementsGet now child.dropLast

/-- The function `NccStrategy::getMeasurementsEntryInfo(measurements::Entry*)`; the
recursion climbs one Name component per call, the first argument bounds its depth. -/
def getMeasurementsEntryInfoAux (now : Int) :
    Nat → Name → NccStrategy → MeasurementsEntryInfo × NccStrategy
  | 0, _, s => (MeasurementsEntryInfo.new, s)
  | fuel + 1, entry, s =>
    match s.measurements.info entry with
    | some info => (info, s)
    | none =>
      let s := { s with measurements := s.measurements.setInfo entry MeasurementsEntryInfo.new }
      let r := s.measurementsGetParent now entry
      match r.1 with
      | none => (MeasurementsEntryInfo.new, r.2)
      | some parentEntry =>
        let p := getMeasurementsEntryInfoAux now fuel parentEntry r.2
        (MeasurementsEntryInfo.new.inheritFrom p.1,
         { p.2 with measurements :=
             (p.2.measurements.setInfo entry (MeasurementsEntryInfo.new.inheritFrom p.1)) })

/-- The function `NccStrategy::getMeasurementsEntryInfo(measurements::Entry*)`: the info
of the entry, created and inherited from the parent when new, and the state afterwards.
The reference returned is the Name of the entry. -/
def getMeasurementsEntryInfo (s : NccStrategy) (now : Int) (entry : Name) :
    MeasurementsEntryInfo × NccStrategy :=
  getMeasurementsEntryInfoAux now (entry.length + 1) entry s

/-- The function `NccStrategy::getMeasurementsEntryInfo(const shared_ptr<pit::Entry>&)`;
the entry that `getMeasurements().get(*entry)` returns is asserted not to be null. -/
def getMeasurementsEntryInfoOfPitEntry (s : NccStrategy) (now : Int) (entry : PitKey) :
    MeasurementsEntryInfo × NccStrategy :=
  (s.measurementsGet now entry.name).2.getMeasurementsEntryInfo now entry.name

/-- Write access through a `MeasurementsEntryInfo&`. -/
def modifyMeasurementsEntryInfo (s : NccStrategy) (entry : Name)
    (g : MeasurementsEntryInfo → MeasurementsEntryInfo) : NccStrategy :=
  match s.measurements.info entry with
  | some info => { s with measurements := s.measurements.setInfo entry (g info) }
  | none => s

/-- Modelled from the spec: the primitive "forward-to-face", `Strategy::sendInterest`
(`strategy.hpp` is not among the sources): the outgoing Interest pipeline. -/
def sendInterest (s : NccStrategy) (now : Int) (pitEntry : PitKey) (egress : FaceEndpoint)
    (interest : Interest) : NccStrategy :=
  { s with forwarder := s.forwarder.onOutgoingInterest now pitEntry egress interest }

/-- Modelled from the spec: the primitive "reject", `Strategy::rejectPendingInterest`
(`strategy.hpp` is not among the sources): the expiry timer of the entry is set to now. -/
def rejectPendingInterest (s : NccStrategy) (now : Int) (pitEntry : PitKey) : NccStrategy :=
  { s with forwarder := s.forwarder.setExpiryTimer now pitEntry 0 }

/-- The call `getScheduler().schedule(after, callback)`, `after` in nanoseconds: the
handle of the new event and the state afterwards. -/
def schedule (s : NccStrategy) (now : Int) (after : Int) (callback : Callback) :
    Nat × NccStrategy :=
  (s.nextEventId,
   { s with events := (s.events ++
              [{ id := s.nextEventId, fireAt := now + after, callback := callback }])
            nextEventId := s.nextEventId + 1 })

/-- Cancelling through a handle; an empty or stale handle cancels nothing. -/
def cancel (s : NccStrategy) (handle : Option Nat) : NccStrategy :=
  match handle with
  | none => s
  | some h => { s with events := s.events.filter (fun ev => ev.id != h) }

/-- The call `pitEntry->getStrategyInfo<PitEntryInfo>()`; `none` for the null pointer. -/
def getPitEntryInfo (s : NccStrategy) (pitEntry : PitKey) : Option PitEntryInfo :=
  (s.pitEntryInfo.find? (fun x => x.1 == pitEntry)).map (fun x => x.2)

/-- The call `pitEntry->insertStrategyInfo<PitEntryInfo>()`: an item is created, with
empty handles, when the entry has none. -/
def insertPitEntryInfo (s : NccStrategy) (pitEntry : PitKey) : NccStrategy :=
  if s.pitEntryInfo.any (fun x => x.1 == pitEntry) then s
  else { s with pitEntryInfo := (s.pitEntryInfo ++
           [(pitEntry, { bestFaceTimeout := none, propagateTimer := none, maxInterval := 0 })]) }

/-- Write access through a `PitEntryInfo*`. -/
def modifyPitEntryInfo (s : NccStrategy) (pitEntry : PitKey)
    (g : PitEntryInfo → PitEntryInfo) : NccStrategy :=
  { s with pitEntryInfo := (s.pitEntryInfo.map (fun x =>
      if x.1 == pitEntry then (x.1, g x.2) else x)) }

/-- The assignment `pitEntryInfo->bestFaceTimeout = handle`: a `ScopedEventId` cancels
the event it held before it takes the new handle. -/
def setBestFaceTimeout (s : NccStrategy) (pitEntry : PitKey) (handle : Nat) : NccStrategy :=
  let old := match s.getPitEntryInfo pitEntry with
    | some i => i.bestFaceTimeout
    | none => none
  (s.cancel old).modifyPitEntryInfo pitEntry (fun i => { i with bestFaceTimeout := some handle })

/-- The assignment `pitEntryInfo->propagateTimer = handle`. -/
def setPropagateTimer (s : NccStrategy) (pitEntry : PitKey) (handle : Nat) : NccStrategy :=
  let old := match s.getPitEntryInfo pitEntry with
    | some i => i.propagateTimer
    | none => none
  (s.cancel old).modifyPitEntryInfo pitEntry (fun i => { i with propagateTimer := some handle })

/-- The destructor `PitEntryInfo::~PitEntryInfo`, run when the PIT entry goes: both
timers are cancelled and the item is gone. -/
def destroyPitEntryInfo (s : NccStrategy) (pitEntry : PitKey) : NccStrategy :=
  match s.getPitEntryInfo pitEntry with
  | none => s
  | some i =>
    let s := (s.cancel i.bestFaceTimeout).cancel i.propagateTimer
    { s with pitEntryInfo := s.pitEntryInfo.filter (fun x => x.1 != pitEntry) }

/-- The condition `!wouldViolateScope(inFace, interest, face) &&
canForwardToLegacy(*pitEntry, face)` under which the strategy forwards to a face. -/
def canForwardTo (s : NccStrategy) (now : Int) (inFace : Face) (interest : Interest)
    (pitEntry : PitKey) (face : Face) : Bool :=
  !s.wouldViolateScope inFace interest face
    && (match s.forwarder.pit.get? pitEntry with
        | some e => fw.canForwardToLegacy e now face
        | none => false)

/-- The local variables `deferFirst`, `deferRange` (microseconds) and `nUpstreams` of
`afterReceiveInterest`. -/
structure Deferral where
  deferFirst : Int
  deferRange : Int
  nUpstreams : Nat
deriving DecidableEq, Repr

/-- Lines 78-109 of `afterReceiveInterest`: the Interest goes to the best face or else to
the first eligible next hop; `none` when it was rejected instead. -/
def forwardToBestOrFirst (s : NccStrategy) (now : Int) (ingress : FaceEndpoint)
    (interest : Interest) (pitEntry : PitKey) : Option Deferral × NccStrategy :=
  let fibEntry := s.lookupFib pitEntry
  let nexthops := fibEntry.nextHops
  let r := s.getMeasurementsEntryInfoOfPitEntry now pitEntry
  let s := r.2
  let best := r.1.getBestFace s.forwarder.faceTable
  let s := { s with measurements := s.measurements.setInfo pitEntry.name best.2 }
  let meInfo := best.2
  let usedBestFace : Option Face :=
    match best.1 with
    | some bestFace =>
      if fibEntry.hasNextHop bestFace
          && s.canForwardTo now ingress.face interest pitEntry bestFace then some bestFace
      else none
    | none => none
  match usedBestFace with
  | some bestFace =>
    let deferFirst := meInfo.prediction
    let deferRange := Int.tdiv (deferFirst + 1) 2
    let nUpstreams := decrementSize nexthops.length
    let s := s.sendInterest now pitEntry { face := bestFace, endpoint := 0 } interest
    let t := s.schedule now (meInfo.prediction * 1000) (Callback.timeoutOnBestFace pitEntry)
    (some { deferFirst := deferFirst, deferRange := deferRange, nUpstreams := nUpstreams },
     t.2.setBestFaceTimeout pitEntry t.1)
  | none =>
    match nexthops.find? (fun nexthop =>
        s.canForwardTo now ingress.face interest pitEntry nexthop.face) with
    | some firstEligibleNexthop =>
      (some { deferFirst := DEFER_FIRST_WITHOUT_BEST_FACE
              deferRange := DEFER_RANGE_WITHOUT_BEST_FACE
              nUpstreams := nexthops.length },
       s.sendInterest now pitEntry { face := firstEligibleNexthop.face, endpoint := 0 }
         interest)
    | none => (none, s.rejectPendingInterest now pitEntry)

/-- Lines 111-115 of `afterReceiveInterest`: `nUpstreams` after the previous-best face
was looked at. -/
def countPreviousFace (s : NccStrategy) (now : Int) (ingress : FaceEndpoint)
    (interest : Interest) (pitEntry : PitKey) (nUpstreams : Nat) : Nat :=
  let previousWeak := match s.measurements.info pitEntry.name with
    | some meInfo => meInfo.previousFace
    | none => none
  match lockFace s.forwarder.faceTable previousWeak with
  | some previousFace =>
    if (s.lookupFib pitEntry).hasNextHop previousFace
        && s.canForwardTo now ingress.face interest pitEntry previousFace then
      decrementSize nUpstreams
    else nUpstreams
  | none => nUpstreams

/-- Lines 117-126 of `afterReceiveInterest`: the value given to `maxInterval`.  The
quotient is computed on `size_t` and converted back to a count of microseconds. -/
def maxIntervalFor (d : Deferral) (nUpstreams : Nat) : Int :=
  if 0 < nUpstreams then
    max 1 (toInt64
      (((toUInt64 (2 * d.deferRange) + nUpstreams + (2 ^ 64 - 1)) % 2 ^ 64) / nUpstreams))
  else d.deferFirst

/-- The local variable `isNewPitEntry` of `afterReceiveInterest`:
`!hasPendingOutRecords(*pitEntry)`. -/
def isNewPitEntry (s : NccStrategy) (now : Int) (pitEntry : PitKey) : Bool :=
  !(match s.forwarder.pit.get? pitEntry with
    | some e => fw.hasPendingOutRecords e now
    | none => false)

/-- The function `NccStrategy::afterReceiveInterest`. -/
def afterReceiveInterest (s : NccStrategy) (now : Int) (ingress : FaceEndpoint)
    (interest : Interest) (pitEntry : PitKey) : NccStrategy :=
  let fibEntry := s.lookupFib pitEntry
  let nexthops := fibEntry.nextHops
  if nexthops.length == 0 then s.rejectPendingInterest now pitEntry
  else
    let s := s.insertPitEntryInfo pitEntry
    if !s.isNewPitEntry now pitEntry then s
    else
      let r := s.forwardToBestOrFirst now ingress interest pitEntry
      match r.1 with
      | none => r.2
      | some d =>
        let s := r.2
        let nUpstreams := s.countPreviousFace now ingress interest pitEntry d.nUpstreams
        let s := s.modifyPitEntryInfo pitEntry
          (fun i => { i with maxInterval := maxIntervalFor d nUpstreams })
        let t := s.schedule now (d.deferFirst * 1000)
          (Callback.doPropagate ingress.face.id pitEntry)
        t.2.setPropagateTimer pitEntry t.1

/-- Lines 155-161 of `doPropagate`: the Interest goes to the previous-best face when
that face is live, is a next hop and can be forwarded to. -/
def sendToPreviousFace (s : NccStrategy) (now : Int) (inFace : Face) (interest : Interest)
    (pitEntryWeak : PitKey) : NccStrategy :=
  let fibEntry := s.lookupFib pitEntryWeak
  let r := s.getMeasurementsEntryInfoOfPitEntry now pitEntryWeak
  let s := r.2
  match lockFace s.forwarder.faceTable r.1.previousFace with
  | some previousFace =>
    if fibEntry.hasNextHop previousFace
        && s.canForwardTo now inFace interest pitEntryWeak previousFace then
      s.sendInterest now pitEntryWeak { face := previousFace, endpoint := 0 } interest
    else s
  | none => s

/-- Lines 135-171 of `doPropagate`: the local variable `isForwarded` and the state when
the loop over the next hops is left; `isForwarded` is false when the function returned
before.  A `PitEntryInfo` that is missing fails the assertion of line 153, which ends the
run: the state is left as it is. -/
def propagateToNextHops (s : NccStrategy) (now : Int) (inFaceId : FaceId)
    (pitEntryWeak : PitKey) : Bool × NccStrategy :=
  match faceTableGet s.forwarder.faceTable inFaceId with
  | none => (false, s)
  | some inFace =>
    match s.forwarder.pit.get? pitEntryWeak with
    | none => (false, s)
    | some pitEntry =>
      match pitEntry.getInRecord inFace with
      | none => (false, s)
      | some inRecord =>
        let interest := inRecord.interest
        let fibEntry := s.lookupFib pitEntryWeak
        match s.getPitEntryInfo pitEntryWeak with
        | none => (false, s)
        | some _ =>
          let s := s.sendToPreviousFace now inFace interest pitEntryWeak
          match fibEntry.nextHops.find? (fun nexthop =>
              s.canForwardTo now inFace interest pitEntryWeak nexthop.face) with
          | some nexthop =>
            (true,
             s.sendInterest now pitEntryWeak { face := nexthop.face, endpoint := 0 } interest)
          | none => (false, s)

/-- The function `NccStrategy::doPropagate`; `drawn` is the number the uniform
distribution over `[0, maxInterval - 1]` returns, taken as a count of nanoseconds. -/
def doPropagate (s : NccStrategy) (now : Int) (drawn : Int) (inFaceId : FaceId)
    (pitEntryWeak : PitKey) : NccStrategy :=
  let r := s.propagateToNextHops now inFaceId pitEntryWeak
  if r.1 then
    let t := r.2.schedule now drawn (Callback.doPropagate inFaceId pitEntryWeak)
    t.2.setPropagateTimer pitEntryWeak t.1
  else r.2

/-- The loop of `timeoutOnBestFace` over the levels of the Measurements hierarchy. -/
def adjustPredictUpLoop (now : Int) : Nat → Option Name → NccStrategy → NccStrategy
  | 0, _, s => s
  | _ + 1, none, s => s
  | n + 1, some measurementsEntry, s =>
    let s := { s with measurements :=
      (s.measurements.extendLifetime now measurementsEntry MEASUREMENTS_LIFETIME) }
    let s := (s.getMeasurementsEntryInfo now measurementsEntry).2
    let s := s.modifyMeasurementsEntryInfo measurementsEntry (fun i => i.adjustPredictUp)
    let r := s.measurementsGetParent now measurementsEntry
    adjustPredictUpLoop now n r.1 r.2

/-- The function `NccStrategy::timeoutOnBestFace`. -/
def timeoutOnBestFace (s : NccStrategy) (now : Int) (pitEntryWeak : PitKey) : NccStrategy :=
  match s.forwarder.pit.get? pitEntryWeak with
  | none => s
  | some _ =>
    let r := s.measurementsGet now pitEntryWeak.name
    adjustPredictUpLoop now UPDATE_MEASUREMENTS_N_LEVELS r.1 r.2

/-- The loop of `beforeSatisfyInterest` over the levels of the Measurements hierarchy.
The Boolean is false when the loop left the function through its `return`. -/
def updateBestFaceLoop (now : Int) (face : Face) :
    Nat → Option Name → NccStrategy → Bool × NccStrategy
  | 0, _, s => (true, s)
  | _ + 1, none, s => (false, s)
  | n + 1, some measurementsEntry, s =>
    let s := { s with measurements :=
      (s.measurements.extendLifetime now measurementsEntry MEASUREMENTS_LIFETIME) }
    let s := (s.getMeasurementsEntryInfo now measurementsEntry).2
    let s := s.modifyMeasurementsEntryInfo measurementsEntry
      (fun i => i.updateBestFace s.forwarder.faceTable face)
    let r := s.measurementsGetParent now measurementsEntry
    updateBestFaceLoop now face n r.1 r.2

/-- Lines 235-236 of `beforeSatisfyInterest`: the face that `getBestFace` gives for the
Measurements entry of the PIT entry (`none` for the null pointer), and the state
afterwards. -/
def bestFaceOfPitEntry (s : NccStrategy) (now : Int) (pitEntry : PitKey) :
    Option Face × NccStrategy :=
  let r := s.getMeasurementsEntryInfoOfPitEntry now pitEntry
  let s := r.2
  let best := r.1.getBestFace s.forwarder.faceTable
  (best.1, { s with measurements := s.measurements.setInfo pitEntry.name best.2 })

/-- Lines 230-240 of `beforeSatisfyInterest`, the block that cancels the timers: the
propagate timer, and the best-face timeout when `getBestFace` gives the ingress face. -/
def cancelTimers (s : NccStrategy) (now : Int) (pitEntry : PitKey) (ingress : FaceEndpoint) :
    NccStrategy :=
  match s.getPitEntryInfo pitEntry with
  | none => s
  | some pitEntryInfo =>
    let s := (s.cancel pitEntryInfo.propagateTimer).modifyPitEntryInfo pitEntry
      (fun i => { i with propagateTimer := none })
    let best := s.bestFaceOfPitEntry now pitEntry
    let s := best.2
    if best.1 == some ingress.face then
      (s.cancel pitEntryInfo.bestFaceTimeout).modifyPitEntryInfo pitEntry
        (fun i => { i with bestFaceTimeout := none })
    else s

/-- The function `NccStrategy::beforeSatisfyInterest`. -/
def beforeSatisfyInterest (s : NccStrategy) (now : Int) (pitEntry : PitKey)
    (ingress : FaceEndpoint) (_data : Data) : NccStrategy :=
  let hasInRecords := match s.forwarder.pit.get? pitEntry with
    | some e => e.hasInRecords
    | none => false
  if !hasInRecords then s
  else
    let r := s.measurementsGet now pitEntry.name
    let l := updateBestFaceLoop now ingress.face UPDATE_MEASUREMENTS_N_LEVELS r.1 r.2
    if !l.1 then l.2
    else l.2.cancelTimers now pitEntry ingress

end NccStrategy

/-! ## States of the Content Store -/

namespace cs

/-- The full Names stored in a table, in iteration order. -/
def Table.keys (t : Table) : List Name := t.map Entry.getFullName

/-- The table is iterated in Name order: the full Names are strictly increasing. -/
def Table.Sorted (t : Table) : Prop :=
  t.Pairwise (fun a b => Name.lt a.getFullName b.getFullName = true)

end cs

namespace Cs

open cs

/-- The store invariant: the size is within the limit, the policy's queue holds exactly
the iterators of the table, and no full Name is stored twice. -/
def Inv (c : Cs) : Prop :=
  c.table.length ≤ c.policy.limit ∧ c.policy.queue.Perm (Table.keys c.table)
    ∧ (Table.keys c.table).Nodup

/-- An operation of the public interface of `Cs`. -/
inductive Op where
  | insert (now : Int) (data : Data) (isUnsolicited : Bool)
  | find (now : Int) (interest : Interest)
  | erase (pfx : Name) (limit : Nat)
  | setLimit (nMaxPackets : Nat)
deriving DecidableEq, Repr

/-- The store after an operation. -/
def step (c : Cs) : Op → Cs
  | Op.insert now data isUnsolicited => (c.insert now data isUnsolicited).2
  | Op.find now interest => (c.find now interest).2
  | Op.erase pfx limit => c.erase pfx limit
  | Op.setLimit nMaxPackets => c.setLimit nMaxPackets

/-- The states reachable from a freshly constructed store through `insert`, `find`,
`erase` and `setLimit`. -/
inductive Reachable : Cs → Prop where
  | init (nMaxPackets : Nat) : Reachable (Cs.new nMaxPackets)
  | step {c : Cs} (op : Op) : Reachable c → Reachable (c.step op)

/-- The entry an operation uses, if any: the entry an admitted `insert` stores or
refreshes, the entry a `find` returns. -/
def used (c : Cs) : Op → Option Name
  | Op.insert now data isUnsolicited =>
    if (c.insert now data isUnsolicited).1 then some data.getFullName else none
  | Op.find now interest =>
    match (c.findImpl now interest).1 with
    | some e => some e.getFullName
    | none => none
  | _ => none

/-- The store after a sequence of operations, and the entries used, oldest use first. -/
def run (c : Cs) : List Op → Cs × List Name
  | [] => (c, [])
  | op :: ops =>
    let r := run (c.step op) ops
    (r.1, (c.used op).toList ++ r.2)

/-- In the use history `log`, entry `a` was used after the last use of entry `b`. -/
def UsedAfterLastUseOf (log : List Name) (a b : Name) : Prop :=
  ∃ l1 l2, log = l1 ++ a :: l2 ∧ b ∉ l2 ∧ b ≠ a

end Cs

/-! ## Well-formed states -/

/-- The PIT holds "at most one live PIT entry per selector-compatible Name". -/
def Pit.KeysDistinct (p : Pit) : Prop := (p.entries.map (fun e => e.key)).Nodup

/-- Every timer handle kept in a PIT entry was issued by the scheduler. -/
def Forwarder.TimersIssued (f : Forwarder) : Prop :=
  ∀ e ∈ f.pit.entries, ∀ h, e.expiryTimer = some h → h < f.scheduler.nextId

namespace pit

/-- An entry holds one in-record per downstream face and one out-record per upstream
face. -/
def Entry.WellFormed (e : Entry) : Prop :=
  (e.inRecords.map (fun r => r.face)).Nodup ∧ (e.outRecords.map (fun r => r.face)).Nodup

/-- What a pipeline may do to an entry in place: the Interest, hence the key, and the
timer handle stay; a satisfied entry stays satisfied; the records stay one per face. -/
def Entry.Update (g : Entry → Entry) : Prop :=
  ∀ e, (g e).interest = e.interest ∧ (g e).expiryTimer = e.expiryTimer ∧
    (e.isSatisfied = true → (g e).isSatisfied = true) ∧ (e.WellFormed → (g e).WellFormed)

end pit

namespace Forwarder

/-- The PIT and the scheduler agree: keys are distinct, records are one per face, every
handle was issued, no two entries hold the same handle, handles of pending events are
distinct, and every pending event is the expiry timer of a PIT entry, which holds its
handle. -/
structure Inv (f : Forwarder) : Prop where
  keys : f.pit.KeysDistinct
  records : ∀ e ∈ f.pit.entries, e.WellFormed
  timers : f.TimersIssued
  unique : ∀ a ∈ f.pit.entries, ∀ b ∈ f.pit.entries, ∀ t,
    a.expiryTimer = some t → b.expiryTimer = some t → a = b
  issued : ∀ ev ∈ f.scheduler.events, ev.id < f.scheduler.nextId
  distinct : (f.scheduler.events.map (fun ev => ev.id)).Nodup
  owned : ∀ ev ∈ f.scheduler.events,
    ∃ e ∈ f.pit.entries, e.key = ev.pitEntry ∧ e.expiryTimer = some ev.id

/-- The steps the pipelines are made of, apart from the erasure of an entry: a step that
leaves the PIT and the scheduler alone, an update of an entry in place, a PIT insert, a
re-arming of the expiry timer of an entry of the PIT, and their compositions. -/
inductive Evolves : Forwarder → Forwarder → Prop where
  | refl (f : Forwarder) : Evolves f f
  | trans {f g h : Forwarder} : Evolves f g → Evolves g h → Evolves f h
  | other {f g : Forwarder} : g.pit = f.pit → g.scheduler = f.scheduler → Evolves f g
  | modify (f : Forwarder) (k : PitKey) (g : pit.Entry → pit.Entry) :
      pit.Entry.Update g → Evolves f { f with pit := f.pit.modify k g }
  | insert (f : Forwarder) (interest : Interest) :
      Evolves f { f with pit := (f.pit.insert interest).2 }
  | timer (f : Forwarder) (now : Int) (k : PitKey) (d : Int) :
      (f.pit.get? k).isSome = true → Evolves f (f.setExpiryTimer now k d)

/-- What happens to a Forwarder: a packet arrives on a face, an expiry timer fires, or a
strategy uses one of the primitives the Forwarder exposes to it.  The removal of a face
(`cleanupOnFaceRemoval`, outside the sources) is not among the operations; `onNewNextHop`
and `onDroppedInterest` only dispatch strategy triggers. -/
inductive Op where
  | incomingInterest (now : Int) (ingress : FaceEndpoint) (interest : Interest)
  | incomingData (now : Int) (ingress : FaceEndpoint) (data : Data)
  | incomingNack (now : Int) (ingress : FaceEndpoint) (nack : Nack)
  | interestFinalize (pitEntry : PitKey)
  | outgoingInterest (now : Int) (pitEntry : PitKey) (egress : FaceEndpoint)
      (interest : Interest)
  | outgoingNack (pitEntry : PitKey) (egress : FaceEndpoint) (reason : NackReason)
  | sendData (pitEntry : PitKey) (data : Data) (egress : FaceEndpoint)
  | setExpiryTimer (now : Int) (pitEntry : PitKey) (duration : Int)
deriving DecidableEq, Repr

/-- The Forwarder after an operation. -/
def step (f : Forwarder) : Op → Forwarder
  | Op.incomingInterest now ingress interest => f.onIncomingInterest now ingress interest
  | Op.incomingData now ingress data => f.onIncomingData now ingress data
  | Op.incomingNack now ingress nack => f.onIncomingNack now ingress nack
  | Op.interestFinalize pitEntry => f.onInterestFinalize pitEntry
  | Op.outgoingInterest now pitEntry egress interest =>
    f.onOutgoingInterest now pitEntry egress interest
  | Op.outgoingNack pitEntry egress reason => f.onOutgoingNack pitEntry egress reason
  | Op.sendData pitEntry data egress => f.strategySendData pitEntry data egress
  | Op.setExpiryTimer now pitEntry duration => f.setExpiryTimer now pitEntry duration

/-- When an operation can happen: `onInterestFinalize` runs when an expiry timer of the
entry is pending; a strategy acts on an entry that is in the PIT. -/
def enabled (f : Forwarder) : Op → Bool
  | Op.interestFinalize pitEntry => f.scheduler.events.any (fun ev => ev.pitEntry == pitEntry)
  | Op.outgoingInterest _ pitEntry _ _ => (f.pit.get? pitEntry).isSome
  | Op.outgoingNack pitEntry _ _ => (f.pit.get? pitEntry).isSome
  | Op.sendData pitEntry _ _ => (f.pit.get? pitEntry).isSome
  | Op.setExpiryTimer _ pitEntry _ => (f.pit.get? pitEntry).isSome
  | _ => true

/-- The states a Forwarder reaches from one with an empty PIT and no pending timer. -/
inductive Reachable : Forwarder → Prop where
  | init (f : Forwarder) : f.pit.entries = [] → f.scheduler.events = [] → Reachable f
  | step {f : Forwarder} (op : Op) : Reachable f → f.enabled op = true → Reachable (f.step op)

/-- The Forwarder after a sequence of operations. -/
def run (f : Forwarder) (ops : List Op) : Forwarder := ops.foldl step f

/-- The expiry events pending for a PIT entry. -/
def pendingTimers (f : Forwarder) (k : PitKey) : List ScheduledEvent :=
  f.scheduler.events.filter (fun ev => ev.pitEntry == k)

end Forwarder

namespace NccStrategy.MeasurementsEntryInfo

/-- The `MeasurementsEntryInfo` objects that the member functions make of a fresh one:
the constructor gives one, and `adjustPredictUp`, `adjustPredictDown`, `inheritFrom` (from
another such object), `updateBestFace`, `getBestFace` and `ageBestFace` keep it one. -/
inductive Reachable : MeasurementsEntryInfo → Prop
  | new : Reachable MeasurementsEntryInfo.new
  | adjustPredictUp {info : MeasurementsEntryInfo} :
      Reachable info → Reachable info.adjustPredictUp
  | adjustPredictDown {info : MeasurementsEntryInfo} :
      Reachable info → Reachable info.adjustPredictDown
  | inheritFrom {info other : MeasurementsEntryInfo} :
      Reachable info → Reachable other → Reachable (info.inheritFrom other)
  | updateBestFace {info : MeasurementsEntryInfo} (faceTable : List Face) (face : Face) :
      Reachable info → Reachable (info.updateBestFace faceTable face)
  | getBestFace {info : MeasurementsEntryInfo} (faceTable : List Face) :
      Reachable info → Reachable (info.getBestFace faceTable).2
  | ageBestFace {info : MeasurementsEntryInfo} :
      Reachable info → Reachable info.ageBestFace

end NccStrategy.MeasurementsEntryInfo

/-! ## States of the NCC strategy -/

namespace NccStrategy

/-- Every `MeasurementsEntryInfo` in the Measurements table was made from a fresh one by
the member functions. -/
def InfosReachable (m : Measurements) : Prop :=
  ∀ e ∈ m.entries, ∀ info, e.strategyInfo = some info → MeasurementsEntryInfo.Reachable info

/-- A `doPropagate` callback waits in the scheduler only under the handle `propagateTimer`
of the `PitEntryInfo` of its PIT entry, whose `maxInterval` is then at least 1 µs. -/
def TimersOk (s : NccStrategy) : Prop :=
  ∀ ev ∈ s.events, ∀ inFaceId pitEntry,
    ev.callback = Callback.doPropagate inFaceId pitEntry →
    ∃ i, s.getPitEntryInfo pitEntry = some i ∧ i.propagateTimer = some ev.id ∧
      1 ≤ i.maxInterval

/-- What the strategy keeps true of its tables. -/
structure Inv (s : NccStrategy) : Prop where
  infos : InfosReachable s.measurements
  timers : TimersOk s

/-- The states the NCC strategy goes through.  It starts with an empty Measurements
table, no `PitEntryInfo` and no timer.  Then the Forwarder calls its triggers
`afterReceiveInterest` and `beforeSatisfyInterest`; the scheduler fires a waiting timer,
which runs `doPropagate` or `timeoutOnBestFace`; a PIT entry goes, which destroys its
`PitEntryInfo`; and around the strategy the Forwarder, the FIB, the scope rule and the
namespace change and Measurements entries expire. -/
inductive Reachable : NccStrategy → Prop
  | init (s : NccStrategy) :
      s.measurements.entries = [] → s.pitEntryInfo = [] → s.events = [] → Reachable s
  | afterReceiveInterest {s : NccStrategy} (now : Int) (ingress : FaceEndpoint)
      (interest : Interest) (pitEntry : PitKey) :
      Reachable s → Reachable (s.afterReceiveInterest now ingress interest pitEntry)
  | beforeSatisfyInterest {s : NccStrategy} (now : Int) (pitEntry : PitKey)
      (ingress : FaceEndpoint) (data : Data) :
      Reachable s → Reachable (s.beforeSatisfyInterest now pitEntry ingress data)
  | doPropagate {s : NccStrategy} (now : Int) (drawn : Int) (ev : TimerEvent)
      (inFaceId : FaceId) (pitEntryWeak : PitKey) :
      Reachable s → ev ∈ s.events → ev.callback = Callback.doPropagate inFaceId pitEntryWeak →
      Reachable (({ s with events := s.events.erase ev } : NccStrategy).doPropagate
        now drawn inFaceId pitEntryWeak)
  | timeoutOnBestFace {s : NccStrategy} (now : Int) (ev : TimerEvent) (pitEntryWeak : PitKey) :
      Reachable s → ev ∈ s.events → ev.callback = Callback.timeoutOnBestFace pitEntryWeak →
      Reachable (({ s with events := s.events.erase ev } : NccStrategy).timeoutOnBestFace
        now pitEntryWeak)
  | destroyPitEntryInfo {s : NccStrategy} (pitEntry : PitKey) :
      Reachable s → Reachable (s.destroyPitEntryInfo pitEntry)
  | environment {s : NccStrategy} (forwarder : Forwarder) (lookupFib : PitKey → fib.Entry)
      (wouldViolateScope : Face → Interest → Face → Bool) (inNamespace : Name → Bool)
      (entries : List measurements.Entry) :
      Reachable s → entries.Sublist s.measurements.entries →
      Reachable { s with forwarder := forwarder
                         lookupFib := lookupFib
                         wouldViolateScope := wouldViolateScope
                         inNamespace := inNamespace
                         measurements := { entries := entries } }

end NccStrategy

/-! ## Reading the log -/

namespace Event

/-- The Interest loop pipeline was entered. -/
def isInterestLoop : Event → Bool
  | onInterestLoop _ _ => true
  | _ => false

/-- The Content Store miss pipeline was entered. -/
def isContentStoreMiss : Event → Bool
  | onContentStoreMiss _ _ _ => true
  | _ => false

/-- The strategy trigger `afterReceiveInterest` was dispatched. -/
def isStrategyAfterReceiveInterest : Event → Bool
  | strategyAfterReceiveInterest _ _ _ => true
  | _ => false

/-- The outgoing Interest pipeline was entered or an Interest was handed to a face. -/
def isOutgoingInterest : Event → Bool
  | onOutgoingInterest _ _ _ => true
  | sendInterest _ _ _ => true
  | _ => false

/-- The Content Store was asked (`Cs::find`). -/
def isCsFind : Event → Bool
  | csFind _ => true
  | _ => false

/-- The Content Store hit pipeline was entered or the signal `afterCsHit` was emitted. -/
def isContentStoreHit : Event → Bool
  | onContentStoreHit _ _ _ _ => true
  | afterCsHit _ _ => true
  | _ => false

/-- The egress of an entry into the outgoing Data pipeline. -/
def outgoingDataEgress : Event → Option FaceEndpoint
  | onOutgoingData _ egress => some egress
  | _ => none

/-- The step is the strategy trigger `afterReceiveLoopedInterest`. -/
def isStrategyAfterReceiveLoopedInterest : Event → Bool
  | strategyAfterReceiveLoopedInterest _ _ _ => true
  | _ => false

end Event

/-! ## Sample configurations -/

namespace Sample

def faceA : Face := { id := 1, scope := FaceScope.NON_LOCAL, linkType := LinkType.POINT_TO_POINT }

def faceB : Face := { id := 2, scope := FaceScope.NON_LOCAL, linkType := LinkType.POINT_TO_POINT }

def faceM : Face := { id := 3, scope := FaceScope.NON_LOCAL, linkType := LinkType.MULTI_ACCESS }

def faceH : Face := { id := 4, scope := FaceScope.NON_LOCAL, linkType := LinkType.AD_HOC }

def csFace : Face :=
  { id := FACEID_CONTENT_STORE, scope := FaceScope.LOCAL, linkType := LinkType.POINT_TO_POINT }

/-- An Interest for `/7` with Nonce 5 and a lifetime of four seconds. -/
def interest5 : Interest :=
  { name := [7], canBePrefix := false, mustBeFresh := false, nonce := 5, lifetime := 4000,
    forwardingHint := [], incomingFaceIdTag := none, nextHopFaceIdTag := none }

def zeroCounters : Counters :=
  { nInInterests := 0, nOutInterests := 0, nInData := 0, nOutData := 0, nInNacks := 0,
    nOutNacks := 0, nCsHits := 0, nCsMisses := 0, nSatisfiedInterests := 0,
    nUnsatisfiedInterests := 0 }

/-- A Forwarder over the four sample faces with empty tables and a store of ten packets. -/
def emptyForwarder : Forwarder :=
  { faceTable := [faceA, faceB, faceM, faceH]
    counters := zeroCounters
    pit := { entries := [] }
    cs := Cs.new 10
    deadNonceList := { entries := [], lifetime := 6000 }
    networkRegionTable := []
    unsolicitedDataPolicy := fun _ _ => fw.UnsolicitedDataDecision.DROP
    scheduler := { events := [], nextId := 0 }
    csFace := csFace
    log := [] }

/-- The empty Forwarder with the pair (`/7`, 5) in its Dead Nonce List. -/
def deadNonceForwarder : Forwarder :=
  { emptyForwarder with deadNonceList := { entries := [([7], 5)], lifetime := 6000 } }

/-- A PIT entry for `/7`: Nonce 5 came in on face A and went out on face B. -/
def pendingEntry : pit.Entry :=
  { interest := interest5
    inRecords := [{ face := faceA, lastNonce := 5, lastRenewed := 0, expiry := 4000000000,
                    interest := interest5 }]
    outRecords := [{ face := faceB, lastNonce := 5, lastRenewed := 0, expiry := 4000000000,
                     incomingNack := none }]
    isSatisfied := false
    dataFreshnessPeriod := 0
    expiryTimer := none }

/-- The empty Forwarder with `pendingEntry` in its PIT. -/
def pendingForwarder : Forwarder :=
  { emptyForwarder with pit := { entries := [pendingEntry] } }

/-- A Data packet named `/7`, fresh for one second. -/
def data7 : Data :=
  { name := [7], content := [42], implicitDigest := 99, freshnessPeriod := 1000,
    incomingFaceIdTag := none, cachePolicyTag := none }

/-- An Interest for `/7` with CanBePrefix and Nonce 6. -/
def interest6 : Interest :=
  { name := [7], canBePrefix := true, mustBeFresh := false, nonce := 6, lifetime := 4000,
    forwardingHint := [], incomingFaceIdTag := none, nextHopFaceIdTag := none }

/-- A PIT entry for `/7` without CanBePrefix: live in-records of faces A and M,
out-records of faces B and M. -/
def exactEntry : pit.Entry :=
  { interest := interest5
    inRecords := [{ face := faceA, lastNonce := 5, lastRenewed := 0, expiry := 4000000000,
                    interest := interest5 },
                  { face := faceM, lastNonce := 8, lastRenewed := 0, expiry := 4000000000,
                    interest := interest5 }]
    outRecords := [{ face := faceB, lastNonce := 5, lastRenewed := 0, expiry := 4000000000,
                     incomingNack := none },
                   { face := faceM, lastNonce := 5, lastRenewed := 0, expiry := 4000000000,
                     incomingNack := none }]
    isSatisfied := false
    dataFreshnessPeriod := 0
    expiryTimer := some 0 }

/-- A PIT entry for `/7` with CanBePrefix: live in-records of faces M and H, an in-record
of face B that expired at time 5, an out-record of face B. -/
def prefixEntry : pit.Entry :=
  { interest := interest6
    inRecords := [{ face := faceM, lastNonce := 6, lastRenewed := 0, expiry := 4000000000,
                    interest := interest6 },
                  { face := faceB, lastNonce := 6, lastRenewed := 0, expiry := 5,
                    interest := interest6 },
                  { face := faceH, lastNonce := 6, lastRenewed := 0, expiry := 4000000000,
                    interest := interest6 }]
    outRecords := [{ face := faceB, lastNonce := 6, lastRenewed := 0, expiry := 4000000000,
                     incomingNack := none }]
    isSatisfied := false
    dataFreshnessPeriod := 0
    expiryTimer := some 1 }

/-- The empty Forwarder with both entries for `/7` in its PIT and their expiry timers in
its scheduler; `data7` matches both entries. -/
def twoMatchForwarder : Forwarder :=
  { emptyForwarder with
    pit := { entries := [exactEntry, prefixEntry] }
    scheduler := { events := [{ id := 0, fireAt := 4000000000, pitEntry := interest5.pitKey },
                              { id := 1, fireAt := 4000000000, pitEntry := interest6.pitKey }],
                   nextId := 2 } }

/-- A Data packet named `/1`. -/
def dataX : Data :=
  { name := [1], content := [10], implicitDigest := 11, freshnessPeriod := 1000,
    incomingFaceIdTag := none, cachePolicyTag := none }

/-- A Data packet named `/2`. -/
def dataY : Data :=
  { name := [2], content := [20], implicitDigest := 22, freshnessPeriod := 1000,
    incomingFaceIdTag := none, cachePolicyTag := none }

/-- The Data `/1` carrying the CachePolicy tag `NO_CACHE`. -/
def dataNoCache : Data := { dataX with cachePolicyTag := some CachePolicyType.NO_CACHE }

/-- An Interest for `/1`. -/
def interestX : Interest :=
  { name := [1], canBePrefix := false, mustBeFresh := false, nonce := 1, lifetime := 4000,
    forwardingHint := [], incomingFaceIdTag := none, nextHopFaceIdTag := none }

/-- An Interest for `/2`. -/
def interestY : Interest :=
  { name := [2], canBePrefix := false, mustBeFresh := false, nonce := 2, lifetime := 4000,
    forwardingHint := [], incomingFaceIdTag := none, nextHopFaceIdTag := none }

/-- The Interest of Scenario A: `/7`, Nonce 5, a lifetime of two seconds. -/
def interestA : Interest :=
  { name := [7], canBePrefix := false, mustBeFresh := false, nonce := 5, lifetime := 2000,
    forwardingHint := [], incomingFaceIdTag := none, nextHopFaceIdTag := none }

/-- Scenario A before the entry expires: the Interest arrived on face A at time 0 on the
empty Forwarder. -/
def scenarioA : Forwarder :=
  emptyForwarder.step (Forwarder.Op.incomingInterest 0 { face := faceA, endpoint := 0 } interestA)

/-- The PIT entry of Scenario A: unsatisfied, with the in-record of face A. -/
def scenarioAEntry : pit.Entry :=
  { interest := { interestA with incomingFaceIdTag := some 1 }
    inRecords := [{ face := faceA, lastNonce := 5, lastRenewed := 0, expiry := 2000000000,
                    interest := { interestA with incomingFaceIdTag := some 1 } }]
    outRecords := []
    isSatisfied := false
    dataFreshnessPeriod := 0
    expiryTimer := some 0 }

/-- An Interest for `/7` with Nonce 9 and a lifetime of one second. -/
def interestShort : Interest :=
  { name := [7], canBePrefix := false, mustBeFresh := false, nonce := 9, lifetime := 1000,
    forwardingHint := [], incomingFaceIdTag := none, nextHopFaceIdTag := none }

/-- An Interest for `/7` with Nonce 9 and a lifetime of four seconds. -/
def interest9 : Interest :=
  { name := [7], canBePrefix := false, mustBeFresh := false, nonce := 9, lifetime := 4000,
    forwardingHint := [], incomingFaceIdTag := none, nextHopFaceIdTag := none }

/-- An Interest for `/7` with MustBeFresh and Nonce 5. -/
def interestFresh : Interest :=
  { name := [7], canBePrefix := false, mustBeFresh := true, nonce := 5, lifetime := 4000,
    forwardingHint := [], incomingFaceIdTag := none, nextHopFaceIdTag := none }

/-- A satisfied PIT entry for `/7` with MustBeFresh: the Data was fresh for one second;
out-records of face B (Nonce 5) and of face M (Nonce 8). -/
def satisfiedEntry : pit.Entry :=
  { interest := interestFresh
    inRecords := [{ face := faceA, lastNonce := 5, lastRenewed := 0, expiry := 4000000000,
                    interest := interestFresh }]
    outRecords := [{ face := faceB, lastNonce := 5, lastRenewed := 0, expiry := 4000000000,
                     incomingNack := none },
                   { face := faceM, lastNonce := 8, lastRenewed := 0, expiry := 4000000000,
                     incomingNack := none }]
    isSatisfied := true
    dataFreshnessPeriod := 1000
    expiryTimer := some 0 }

/-- The empty Forwarder with `satisfiedEntry` in its PIT and the entry's timer pending. -/
def satisfiedForwarder : Forwarder :=
  { emptyForwarder with
    pit := { entries := [satisfiedEntry] }
    scheduler := { events := [{ id := 0, fireAt := 10, pitEntry := interestFresh.pitKey }],
                   nextId := 1 } }

/-- The Nack with Reason NoRoute that answers `interest5`. -/
def nack5 : Nack := { interest := interest5, reason := NackReason.NO_ROUTE }

/-- The empty Forwarder with a Content Store of capacity 0. -/
def noCsForwarder : Forwarder := { emptyForwarder with cs := Cs.new 0 }

/-- The Interest `/7` with Nonce 5 arrives on face A at time 0 and is forwarded to face B;
one second later the Data comes back on face B and the strategy sends it on to face A. -/
def satisfiedTrace : List Forwarder.Op :=
  [Forwarder.Op.incomingInterest 0 { face := faceA, endpoint := 0 } interest5,
   Forwarder.Op.outgoingInterest 0 interest5.pitKey { face := faceB, endpoint := 0 } interest5,
   Forwarder.Op.incomingData 1000000000 { face := faceB, endpoint := 0 } data7,
   Forwarder.Op.sendData interest5.pitKey data7 { face := faceA, endpoint := 0 }]

/-- The Forwarder without Content Store after `satisfiedTrace`: the entry of `/7` is
satisfied and waits for its expiry timer, which is due at once. -/
def satisfiedState : Forwarder := noCsForwarder.run satisfiedTrace

/-- An Interest for `/localhost/1`. -/
def interestLocalhost : Interest :=
  { name := LOCALHOST ++ [1], canBePrefix := false, mustBeFresh := false, nonce := 3,
    lifetime := 4000, forwardingHint := [], incomingFaceIdTag := none,
    nextHopFaceIdTag := none }

/-- The empty Forwarder under an unsolicited-data policy that caches everything. -/
def admitAllForwarder : Forwarder :=
  { emptyForwarder with unsolicitedDataPolicy := fun _ _ => fw.UnsolicitedDataDecision.CACHE }

/-- The Forwarder with `pendingEntry` in its PIT, sitting in the network region `/9/1`. -/
def regionForwarder : Forwarder := { pendingForwarder with networkRegionTable := [[9, 1]] }

/-- The Interest `/7` with Nonce 5 carrying the forwarding hint `/9`. -/
def interestHint : Interest := { interest5 with forwardingHint := [[9]] }

/-- A Data packet named `/1/5`. -/
def dataX5 : Data :=
  { name := [1, 5], content := [15], implicitDigest := 3, freshnessPeriod := 1000,
    incomingFaceIdTag := none, cachePolicyTag := none }

/-- A Data packet named `/1/6`. -/
def dataX6 : Data :=
  { name := [1, 6], content := [16], implicitDigest := 4, freshnessPeriod := 1000,
    incomingFaceIdTag := none, cachePolicyTag := none }

/-- A store of ten packets after the Data `/2`, `/1/6`, `/1` and `/1/5` were inserted, in
that order. -/
def fourEntryCs : Cs :=
  (((((Cs.new 10).insert 0 dataY false).2.insert 1 dataX6 false).2.insert 2 dataX false).2.insert
    3 dataX5 false).2

/-- A strategy that opts into new-next-hop notifications. -/
def strategyOptIn : fw.Strategy := { instanceName := [100], wantNewNextHopTrigger := true }

/-- A strategy that does not opt into new-next-hop notifications. -/
def strategyOptOut : fw.Strategy := { instanceName := [101], wantNewNextHopTrigger := false }

/-- The PIT key of an Interest for the Name, without selectors. -/
def keyOf (name : Name) : PitKey := { name := name, canBePrefix := false, mustBeFresh := false }

/-- A name tree.  The root has a pending Interest.  `/1` has no FIB entry, its own
binding to the strategy that opts in, and a pending Interest; its child `/1/2` has a
pending Interest and no FIB entry but no binding of its own.  `/2` has a FIB entry, so
its child `/2/3` is out of reach although it qualifies.  `/3` is bound to the strategy
that does not opt in; its child `/3/4` qualifies. -/
def nameTree : NameTree :=
  NameTree.node
    { name := [], fibEntry := none, strategyChoiceEntry := none, pitEntries := [keyOf []] }
    [NameTree.node
       { name := [1], fibEntry := none
         strategyChoiceEntry := some { pfx := [1], strategy := strategyOptIn }
         pitEntries := [keyOf [1]] }
       [NameTree.node
          { name := [1, 2], fibEntry := none, strategyChoiceEntry := none
            pitEntries := [keyOf [1, 2]] } []],
     NameTree.node
       { name := [2], fibEntry := some { pfx := [2], nextHops := [{ face := faceB, cost := 0 }] }
         strategyChoiceEntry := some { pfx := [2], strategy := strategyOptIn }
         pitEntries := [keyOf [2]] }
       [NameTree.node
          { name := [2, 3], fibEntry := none
            strategyChoiceEntry := some { pfx := [2, 3], strategy := strategyOptIn }
            pitEntries := [keyOf [2, 3]] } []],
     NameTree.node
       { name := [3], fibEntry := none
         strategyChoiceEntry := some { pfx := [3], strategy := strategyOptOut }
         pitEntries := [keyOf [3]] }
       [NameTree.node
          { name := [3, 4], fibEntry := none
            strategyChoiceEntry := some { pfx := [3, 4], strategy := strategyOptIn }
            pitEntries := [keyOf [3, 4], keyOf [3, 4, 5]] } []]]

/-- The name tree entry of the node `/1/2` of the sample name tree. -/
def entryOneTwo : name_tree.Entry :=
  { name := [1, 2], fibEntry := none, strategyChoiceEntry := none
    pitEntries := [keyOf [1, 2]] }

/-- The empty Forwarder over the sample name tree. -/
def nameTreeForwarder : Forwarder := { emptyForwarder with nameTree := nameTree }

/-- Registries that know the policy `lru`, the strategies `/100` and `/101`, and the
unsolicited-data policy `admit-all`. -/
def registry : Registry :=
  { csPolicyCreate := fun policyName =>
      if policyName == "lru" then some { limit := 0, queue := [] } else none
    strategyCreate := fun strategy =>
      if strategy == [100] then some strategyOptIn
      else if strategy == [101] then some strategyOptOut
      else none
    unsolicitedDataPolicyCreate := fun policyKey =>
      if policyKey == "admit-all" then some (fun _ _ => fw.UnsolicitedDataDecision.CACHE)
      else none
    defaultUnsolicitedDataPolicy := fun _ _ => fw.UnsolicitedDataDecision.DROP }

/-- A section `tables` that sets every item. -/
def configSection : ConfigSection :=
  { cs_max_packets := some (some 100)
    cs_policy := some "lru"
    cs_unsolicited_policy := some "admit-all"
    strategy_choice := some [([2], [101]), ([], [100])]
    network_region := some [[9, 1], [8]] }

/-- A section `tables` that binds the prefix `/2` twice. -/
def configSectionDuplicate : ConfigSection :=
  { cs_max_packets := some (some 100)
    cs_policy := some "lru"
    cs_unsolicited_policy := some "admit-all"
    strategy_choice := some [([2], [101]), ([], [100]), ([2], [100])]
    network_region := some [[9, 1], [8]] }

/-- A PIT entry for `/7`: the Interest with Nonce 5 came in on face A and has not been
forwarded. -/
def nccEntry : pit.Entry :=
  { interest := interest5
    inRecords := [{ face := faceA, lastNonce := 5, lastRenewed := 0, expiry := 4000000000,
                    interest := interest5 }]
    outRecords := []
    isSatisfied := false
    dataFreshnessPeriod := 0
    expiryTimer := none }

/-- The NCC strategy bound to the prefix `/7`, with nothing learned yet: the Forwarder
holds `nccEntry`, the FIB entry of `/7` has the next hops B and M, no scope is violated. -/
def nccStrategy : NccStrategy :=
  { forwarder := { emptyForwarder with pit := { entries := [nccEntry] } }
    lookupFib := fun _ =>
      { pfx := [7], nextHops := [{ face := faceB, cost := 0 }, { face := faceM, cost := 1 }] }
    wouldViolateScope := fun _ _ _ => false
    inNamespace := fun name => Name.isPrefixOf [7] name
    measurements := { entries := [] }
    pitEntryInfo := []
    events := []
    nextEventId := 0 }

/-- The same strategy after it learned that face B is the best face for `/7` and face M
the previous-best one. -/
def nccLearned : NccStrategy :=
  { nccStrategy with
    measurements :=
      { entries := [{ name := [7], expiry := 16000000000,
                      strategyInfo := some { prediction := 8192, bestFace := some faceB,
                                             previousFace := some faceM } }] } }

/-- The NCC strategy bound to the root prefix, with the same knowledge. -/
def nccRoot : NccStrategy :=
  { nccLearned with inNamespace := fun _ => true }

/-- The Interest for `/7` arrived on face A at time 0 and the strategy bound to `/7`
forwarded it to its best face B. -/
def nccForwarded : NccStrategy :=
  nccLearned.afterReceiveInterest 0 { face := faceA, endpoint := 0 } interest5 interest5.pitKey

/-- The same under the strategy bound to the root prefix. -/
def nccRootForwarded : NccStrategy :=
  nccRoot.afterReceiveInterest 0 { face := faceA, endpoint := 0 } interest5 interest5.pitKey

/-- The Interest for `/7` arrived on face A at time 0 and the strategy bound to `/7`, with
nothing learned, forwarded it to the first next hop B. -/
def nccFirst : NccStrategy :=
  nccStrategy.afterReceiveInterest 0 { face := faceA, endpoint := 0 } interest5 interest5.pitKey

/-- The state `nccFirst` when the scheduler has taken the propagate timer (event 0) to run
its callback. -/
def nccFirstFired : NccStrategy :=
  { nccFirst with events := [] }

/-- The state `nccForwarded` when the scheduler has taken the propagate timer (event 1) to
run its callback; the best-face timeout (event 0) still waits. -/
def nccForwardedFired : NccStrategy :=
  { nccForwarded with
    events := [{ id := 0, fireAt := 8192000,
                 callback := NccStrategy.Callback.timeoutOnBestFace interest5.pitKey }] }

end Sample

/-! # Theorems -/

/-! ## Properties of the inbound Interest pipeline -/

namespace fw

theorem foldl_out_testBit_mono (nonce : Nonce) (face : Face) (rs : List pit.OutRecord) (i : Nat) :
    ∀ init : Nat, init.testBit i = true →
    (rs.foldl (fun dnw r =>
      if r.lastNonce == nonce then
        (if r.face == face then dnw ||| DUPLICATE_NONCE_OUT_SAME
         else dnw ||| DUPLICATE_NONCE_OUT_OTHER)
      else dnw) init).testBit i = true := by
  induction rs with
  | nil => intro init h; simpa using h
  | cons r rs ih =>
    intro init h
    simp only [List.foldl_cons]
    apply ih
    split
    · split <;> simp [h]
    · exact h

theorem foldl_out_ne_zero (nonce : Nonce) (face : Face) (rs : List pit.OutRecord)
    (h : ∃ r ∈ rs, r.lastNonce = nonce) :
    ∀ init : Nat,
    (rs.foldl (fun dnw r =>
      if r.lastNonce == nonce then
        (if r.face == face then dnw ||| DUPLICATE_NONCE_OUT_SAME
         else dnw ||| DUPLICATE_NONCE_OUT_OTHER)
      else dnw) init) ≠ 0 := by
  induction rs with
  | nil => obtain ⟨r, hr, _⟩ := h; cases hr
  | cons r rs ih =>
    intro init
    simp only [List.foldl_cons]
    obtain ⟨r0, hr0, hn⟩ := h
    rcases List.mem_cons.mp hr0 with rfl | hmem
    · have hbit : ∃ i, (if (r0.lastNonce == nonce) = true then
          (if (r0.face == face) = true then init ||| DUPLICATE_NONCE_OUT_SAME
           else init ||| DUPLICATE_NONCE_OUT_OTHER) else init).testBit i = true := by
        by_cases hf : r0.face = face
        · exact ⟨2, by simp [hn, hf, DUPLICATE_NONCE_OUT_SAME]; right; decide⟩
        · exact ⟨3, by simp [hn, hf, DUPLICATE_NONCE_OUT_OTHER]; right; decide⟩
      obtain ⟨i, hi⟩ := hbit
      intro h0
      have := foldl_out_testBit_mono nonce face rs i _ hi
      rw [h0] at this
      simp at this
    · exact ih ⟨r0, hmem, hn⟩ _

theorem foldl_out_bit0 (nonce : Nonce) (face : Face) (rs : List pit.OutRecord) :
    ∀ init : Nat, init.testBit 0 = false →
    (rs.foldl (fun dnw r =>
      if r.lastNonce == nonce then
        (if r.face == face then dnw ||| DUPLICATE_NONCE_OUT_SAME
         else dnw ||| DUPLICATE_NONCE_OUT_OTHER)
      else dnw) init).testBit 0 = false := by
  induction rs with
  | nil => intro init h; simpa using h
  | cons r rs ih =>
    intro init h
    simp only [List.foldl_cons]
    apply ih
    split
    · split
      · rw [Nat.testBit_or, h]; decide
      · rw [Nat.testBit_or, h]; decide
    · exact h

theorem foldl_in_bit0 (nonce : Nonce) (face : Face) (rs : List pit.InRecord)
    (h : ∀ r ∈ rs, r.face = face → r.lastNonce ≠ nonce) :
    ∀ init : Nat, init.testBit 0 = false →
    (rs.foldl (fun dnw r =>
      if r.lastNonce == nonce then
        (if r.face == face then dnw ||| DUPLICATE_NONCE_IN_SAME
         else dnw ||| DUPLICATE_NONCE_IN_OTHER)
      else dnw) init).testBit 0 = false := by
  induction rs with
  | nil => intro init h; simpa using h
  | cons r rs ih =>
    intro init hi
    simp only [List.foldl_cons]
    apply ih (fun x hx => h x (List.mem_cons_of_mem _ hx))
    by_cases hn : r.lastNonce = nonce
    · have hf : r.face ≠ face := fun hf => h r (List.mem_cons_self _ _) hf hn
      simp only [hn, beq_self_eq_true, if_true, beq_iff_eq, hf, if_false]
      rw [Nat.testBit_or, hi]; decide
    · simpa [hn] using hi

theorem findDuplicateNonce_ne_none (e : pit.Entry) (nonce : Nonce) (face : Face)
    (h : ∃ r ∈ e.outRecords, r.lastNonce = nonce) :
    findDuplicateNonce e nonce face ≠ DUPLICATE_NONCE_NONE := by
  unfold findDuplicateNonce DUPLICATE_NONCE_NONE
  exact foldl_out_ne_zero nonce face e.outRecords h _

theorem findDuplicateNonce_not_in_same (e : pit.Entry) (nonce : Nonce) (face : Face)
    (h : ∀ r ∈ e.inRecords, r.face = face → r.lastNonce ≠ nonce) :
    findDuplicateNonce e nonce face &&& DUPLICATE_NONCE_IN_SAME = 0 := by
  have key : ∀ x : Nat, x.testBit 0 = false → x &&& DUPLICATE_NONCE_IN_SAME = 0 := by
    intro x hx
    rw [Nat.testBit_zero] at hx
    simp only [decide_eq_false_iff_not] at hx
    show x &&& 1 = 0
    rw [Nat.and_one_is_mod]
    omega
  exact key _ (foldl_out_bit0 nonce face e.outRecords _
    (foldl_in_bit0 nonce face e.inRecords h DUPLICATE_NONCE_NONE (by decide)))

end fw

theorem Pit.insert_existing (p : Pit) (i : Interest) (e : pit.Entry)
    (h : p.get? i.pitKey = some e) : p.insert i = ((i.pitKey, false), p) := by
  unfold Pit.get? at h
  have hk : e.key = i.pitKey := by
    have := List.find?_some h
    simpa using this
  unfold Pit.insert
  have : p.entries.find? (fun e => e.canMatch i) = some e := by
    simpa [pit.Entry.canMatch] using h
  rw [this]
  simp only [hk]

namespace Forwarder

theorem log_onInterestLoop (f : Forwarder) (ingress : FaceEndpoint) (interest : Interest) :
    (f.onInterestLoop ingress interest).log = f.log ++
      (Event.onInterestLoop ingress interest ::
        if ingress.face.linkType = LinkType.POINT_TO_POINT then
          [Event.sendNack ingress.face ingress.endpoint
            { interest := interest, reason := NackReason.DUPLICATE }]
        else []) := by
  unfold onInterestLoop emit
  by_cases h : ingress.face.linkType = LinkType.POINT_TO_POINT <;> simp [h]

/-- C1: an inbound Interest that passes the `/localhost` scope check and whose
(Name, Nonce) is in the Dead Nonce List changes nothing but the inbound counter and the
log: no PIT insert, no CS lookup, no strategy trigger, no outgoing Interest, no timer.
The log gains the entry into the loop pipeline, followed on a point-to-point ingress by
exactly one Nack with reason Duplicate that wraps the Interest (carrying its
IncomingFaceId tag) and goes to the ingress face and endpoint; on any other link type
nothing is sent. -/
theorem onIncomingInterest_dead_nonce (f : Forwarder) (now : Int) (ingress : FaceEndpoint)
    (interest : Interest)
    (hscope : (ingress.face.scope == FaceScope.NON_LOCAL
                && Name.isPrefixOf LOCALHOST interest.name) = false)
    (hdnl : f.deadNonceList.has interest.name interest.nonce = true) :
    f.onIncomingInterest now ingress interest =
      { f with
        counters := { f.counters with nInInterests := f.counters.nInInterests + 1 }
        log := f.log ++
          (Event.onInterestLoop ingress
              { interest with incomingFaceIdTag := some ingress.face.id } ::
            if ingress.face.linkType = LinkType.POINT_TO_POINT then
              [Event.sendNack ingress.face ingress.endpoint
                { interest := { interest with incomingFaceIdTag := some ingress.face.id },
                  reason := NackReason.DUPLICATE }]
            else []) } := by
  unfold onIncomingInterest
  simp only [hscope, hdnl, Bool.false_eq_true, if_false, if_true]
  unfold onInterestLoop emit
  by_cases h : ingress.face.linkType = LinkType.POINT_TO_POINT <;> simp [h]

/-- C1 (witness): the Interest `/7` with Nonce 5 arrives on the point-to-point face A while
(`/7`, 5) is in the Dead Nonce List. -/
theorem onIncomingInterest_dead_nonce_witness :
    (Sample.deadNonceForwarder.onIncomingInterest 0
        { face := Sample.faceA, endpoint := 0 } Sample.interest5).log =
      [Event.onInterestLoop { face := Sample.faceA, endpoint := 0 }
          { Sample.interest5 with incomingFaceIdTag := some 1 },
       Event.sendNack Sample.faceA 0
          { interest := { Sample.interest5 with incomingFaceIdTag := some 1 },
            reason := NackReason.DUPLICATE }] := by
  rw [onIncomingInterest_dead_nonce Sample.deadNonceForwarder 0
        { face := Sample.faceA, endpoint := 0 } Sample.interest5 (by decide) (by decide)]
  rfl

/-- C2 (amended): an inbound Interest that passes the `/localhost` scope check and whose
Nonce is the last Nonce of an out-record of its PIT entry takes the loop pipeline and
reaches neither `onContentStoreMiss` nor the strategy trigger `afterReceiveInterest` nor
the outgoing Interest pipeline, provided that the ingress link is not point-to-point or
no in-record of the ingress face carries that Nonce. -/
theorem onIncomingInterest_duplicate_out_nonce (f : Forwarder) (now : Int)
    (ingress : FaceEndpoint) (interest : Interest) (e : pit.Entry)
    (hscope : (ingress.face.scope == FaceScope.NON_LOCAL
                && Name.isPrefixOf LOCALHOST interest.name) = false)
    (hentry : f.pit.get? interest.pitKey = some e)
    (hout : ∃ r ∈ e.outRecords, r.lastNonce = interest.nonce)
    (hsame : ingress.face.linkType = LinkType.POINT_TO_POINT →
        ∀ r ∈ e.inRecords, r.face = ingress.face → r.lastNonce ≠ interest.nonce) :
    ∃ steps, (f.onIncomingInterest now ingress interest).log = f.log ++ steps ∧
      (∃ ev ∈ steps, ev.isInterestLoop = true) ∧
      ∀ ev ∈ steps, ev.isContentStoreMiss = false ∧
        ev.isStrategyAfterReceiveInterest = false ∧ ev.isOutgoingInterest = false := by
  unfold onIncomingInterest
  simp only [hscope, Bool.false_eq_true, if_false]
  split
  · -- Dead Nonce List hit
    rw [log_onInterestLoop]
    refine ⟨_, rfl, ⟨_, List.mem_cons_self _ _, rfl⟩, ?_⟩
    intro ev hev
    split at hev <;> simp at hev <;> rcases hev with rfl | rfl <;> simp [Event.isContentStoreMiss, Event.isStrategyAfterReceiveInterest, Event.isOutgoingInterest]
  · -- PIT path
    rename_i hdnl
    have hkey : ∀ i2 : Interest, i2.pitKey = interest.pitKey → f.pit.get? i2.pitKey = some e := by
      intro i2 h2; rw [h2]; exact hentry
    generalize hi2 : (if (!({ interest with incomingFaceIdTag := some ingress.face.id } : Interest).forwardingHint.isEmpty
            && isInProducerRegion f.networkRegionTable
                ({ interest with incomingFaceIdTag := some ingress.face.id } : Interest).forwardingHint) = true then
          ({ ({ interest with incomingFaceIdTag := some ingress.face.id } : Interest) with forwardingHint := [] } : Interest)
        else { interest with incomingFaceIdTag := some ingress.face.id }) = i2
    have hk2 : i2.pitKey = interest.pitKey := by
      rw [← hi2]; split <;> rfl
    have hn2 : i2.nonce = interest.nonce := by
      rw [← hi2]; split <;> rfl
    have hins : f.pit.insert i2 = ((i2.pitKey, false), f.pit) :=
      Pit.insert_existing f.pit i2 e (hkey i2 hk2)
    have hdup : (if (ingress.face.linkType == LinkType.POINT_TO_POINT) = true then
        (fw.findDuplicateNonce e i2.nonce ingress.face != fw.DUPLICATE_NONCE_NONE
          && !(fw.findDuplicateNonce e i2.nonce ingress.face &&& fw.DUPLICATE_NONCE_IN_SAME != 0))
        else (fw.findDuplicateNonce e i2.nonce ingress.face != fw.DUPLICATE_NONCE_NONE)) = true := by
      rw [hn2]
      have h1 := fw.findDuplicateNonce_ne_none e interest.nonce ingress.face hout
      split
      · rename_i hp
        have h2 := fw.findDuplicateNonce_not_in_same e interest.nonce ingress.face
          (hsame (by simpa using hp))
        simp [h1, h2]
      · simp [h1]
    simp only [emit, hins, hkey i2 hk2]
    rw [if_pos hdup]
    simp only [log_onInterestLoop, List.append_assoc]
    refine ⟨_, rfl, ⟨Event.onInterestLoop ingress i2, by simp, rfl⟩, ?_⟩
    intro ev hev
    by_cases hp : ingress.face.linkType = LinkType.POINT_TO_POINT
    · simp only [hp, if_true, List.mem_append, List.mem_cons, List.mem_singleton,
        List.not_mem_nil, or_false] at hev
      rcases hev with rfl | (rfl | rfl) | rfl <;>
        simp [Event.isContentStoreMiss, Event.isStrategyAfterReceiveInterest,
          Event.isOutgoingInterest]
    · simp only [hp, if_false, List.mem_append, List.mem_cons, List.mem_singleton,
        List.not_mem_nil, or_false] at hev
      rcases hev with rfl | rfl | rfl <;>
        simp [Event.isContentStoreMiss, Event.isStrategyAfterReceiveInterest,
          Event.isOutgoingInterest]

/-- C2 (witness): the Interest with Nonce 5 arrives on face B, which holds no in-record,
while the out-record of the entry carries Nonce 5. -/
theorem onIncomingInterest_duplicate_out_nonce_witness :
    ∃ steps, (Sample.pendingForwarder.onIncomingInterest 10
        { face := Sample.faceB, endpoint := 0 } Sample.interest5).log
          = Sample.pendingForwarder.log ++ steps ∧
      (∃ ev ∈ steps, ev.isInterestLoop = true) ∧
      ∀ ev ∈ steps, ev.isContentStoreMiss = false ∧
        ev.isStrategyAfterReceiveInterest = false ∧ ev.isOutgoingInterest = false :=
  onIncomingInterest_duplicate_out_nonce Sample.pendingForwarder 10
    { face := Sample.faceB, endpoint := 0 } Sample.interest5 Sample.pendingEntry
    (by decide) (by decide) (by decide) (by decide)

/-- C2 (counterexample): the PIT entry of `/7` has an out-record whose last Nonce is 5 and
an in-record of the point-to-point face A with the same Nonce.  The Interest with Nonce 5
arriving again on face A is not sent to the loop pipeline: it reaches
`onContentStoreMiss` and the strategy trigger `afterReceiveInterest`. -/
theorem onIncomingInterest_same_face_duplicate_not_loop :
    (∃ e, Sample.pendingForwarder.pit.get? Sample.interest5.pitKey = some e ∧
        ∃ r ∈ e.outRecords, r.lastNonce = Sample.interest5.nonce) ∧
    (∀ ev ∈ (Sample.pendingForwarder.onIncomingInterest 10
        { face := Sample.faceA, endpoint := 0 } Sample.interest5).log,
        ev.isInterestLoop = false) ∧
    (∃ ev ∈ (Sample.pendingForwarder.onIncomingInterest 10
        { face := Sample.faceA, endpoint := 0 } Sample.interest5).log,
        ev.isContentStoreMiss = true) ∧
    (∃ ev ∈ (Sample.pendingForwarder.onIncomingInterest 10
        { face := Sample.faceA, endpoint := 0 } Sample.interest5).log,
        ev.isStrategyAfterReceiveInterest = true) := by
  refine ⟨⟨Sample.pendingEntry, by decide, by decide⟩, by decide, by decide, by decide⟩

end Forwarder

/-! ## Properties of the inbound Data pipeline -/

namespace Pit

theorem key_of_get? {p : Pit} {k : PitKey} {e : pit.Entry} (h : p.get? k = some e) :
    e.key = k := by
  unfold Pit.get? at h
  simpa using List.find?_some h

theorem get?_modify (p : Pit) (k k2 : PitKey) (g : pit.Entry → pit.Entry)
    (hg : ∀ e, (g e).key = e.key) :
    (p.modify k g).get? k2 = (p.get? k2).map (fun e => if e.key == k then g e else e) := by
  unfold Pit.modify Pit.get?
  simp only [List.find?_map]
  have hfun : ((fun e : pit.Entry => e.key == k2) ∘
      fun e => if (e.key == k) = true then g e else e) = (fun e => e.key == k2) := by
    funext e
    simp only [Function.comp]
    split <;> simp [hg]
  rw [hfun]

theorem inRecords_modify_of_ne (p : Pit) (k k2 : PitKey) (g : pit.Entry → pit.Entry)
    (hg : ∀ e, (g e).key = e.key) (hne : k2 ≠ k) :
    (p.modify k g).inRecords k2 = p.inRecords k2 := by
  unfold Pit.inRecords
  rw [get?_modify p k k2 g hg]
  cases h : p.get? k2 with
  | none => rfl
  | some e =>
    have hk := key_of_get? h
    simp [hk, hne]

theorem inRecords_modify_same (p : Pit) (k : PitKey) (g : pit.Entry → pit.Entry)
    (hg : ∀ e, (g e).key = e.key) :
    (p.modify k g).inRecords k = match p.get? k with
      | some e => (g e).inRecords
      | none => [] := by
  unfold Pit.inRecords
  rw [get?_modify p k k g hg]
  cases h : p.get? k with
  | none => rfl
  | some e =>
    have hk := key_of_get? h
    simp [hk]

theorem modify_modify (p : Pit) (k : PitKey) (g h : pit.Entry → pit.Entry)
    (hg : ∀ e, (g e).key = e.key) :
    (p.modify k g).modify k h = p.modify k (fun e => h (g e)) := by
  unfold Pit.modify
  simp only [List.map_map]
  congr 1
  apply List.map_congr_left
  intro e _
  simp only [Function.comp]
  by_cases hk : e.key = k
  · simp [hk, hg]
  · simp [hk]

theorem mem_modify {p : Pit} {k : PitKey} {g : pit.Entry → pit.Entry} {x : pit.Entry} :
    x ∈ (p.modify k g).entries ↔ ∃ e ∈ p.entries, x = if e.key == k then g e else e := by
  unfold Pit.modify
  simp only [List.mem_map]
  constructor
  · rintro ⟨e, he, rfl⟩; exact ⟨e, he, rfl⟩
  · rintro ⟨e, he, rfl⟩; exact ⟨e, he, rfl⟩

end Pit

namespace Forwarder

theorem insertDeadNonceList_eq (f : Forwarder) (k : PitKey) (u : Option Face) :
    ∃ d, f.insertDeadNonceList k u = { f with deadNonceList := d } := by
  unfold insertDeadNonceList
  cases f.pit.get? k with
  | none => exact ⟨f.deadNonceList, rfl⟩
  | some e =>
    dsimp only
    generalize (if e.isSatisfied = true then
        (e.interest.mustBeFresh && decide (e.dataFreshnessPeriod < f.deadNonceList.lifetime))
      else true) = b
    cases b
    · exact ⟨f.deadNonceList, rfl⟩
    · cases u with
      | none => exact ⟨_, rfl⟩
      | some face =>
        dsimp only
        cases e.getOutRecord face with
        | none => exact ⟨f.deadNonceList, rfl⟩
        | some r => exact ⟨_, rfl⟩

theorem insertDeadNonceList_log (f : Forwarder) (k : PitKey) (u : Option Face) :
    (f.insertDeadNonceList k u).log = f.log := by
  obtain ⟨d, h⟩ := insertDeadNonceList_eq f k u
  rw [h]

theorem insertDeadNonceList_pit (f : Forwarder) (k : PitKey) (u : Option Face) :
    (f.insertDeadNonceList k u).pit = f.pit := by
  obtain ⟨d, h⟩ := insertDeadNonceList_eq f k u
  rw [h]

theorem satisfyMatchedEntry_log (f : Forwarder) (now : Int) (ingress : FaceEndpoint)
    (data : Data) (k : PitKey) :
    (f.satisfyMatchedEntry now ingress data k).log = f.log ++
      [Event.beforeSatisfyInterest k ingress.face data,
       Event.strategyBeforeSatisfyInterest k ingress data] := by
  simp [satisfyMatchedEntry, insertDeadNonceList_log, emit, setExpiryTimer]

/-- What the loop body of the multi-match branch leaves of a matched entry. -/
theorem satisfyMatchedEntry_pit (f : Forwarder) (now : Int) (ingress : FaceEndpoint)
    (data : Data) (k : PitKey) :
    (f.satisfyMatchedEntry now ingress data k).pit = f.pit.modify k (fun e =>
      { e with
        inRecords := []
        outRecords := e.outRecords.eraseP (fun r => r.face == ingress.face)
        isSatisfied := true
        dataFreshnessPeriod := data.freshnessPeriod
        expiryTimer := some ((f.scheduler.cancel
          (match f.pit.get? k with
           | some e => e.expiryTimer
           | none => none)).schedule now 0 k).1 }) := by
  simp only [satisfyMatchedEntry, insertDeadNonceList_pit, emit, setExpiryTimer]
  rw [Pit.modify_modify, Pit.modify_modify, Pit.modify_modify]
  · rfl
  all_goals intro e; rfl

theorem satisfyMatchedEntry_inRecords (f : Forwarder) (now : Int) (ingress : FaceEndpoint)
    (data : Data) (k k2 : PitKey) :
    (f.satisfyMatchedEntry now ingress data k).pit.inRecords k2 =
      if k2 = k then [] else f.pit.inRecords k2 := by
  rw [satisfyMatchedEntry_pit]
  by_cases h : k2 = k
  · subst h
    rw [Pit.inRecords_modify_same]
    · cases f.pit.get? k2 <;> simp
    · intro e; rfl
  · rw [Pit.inRecords_modify_of_ne _ _ _ _ _ h]
    · simp [h]
    · intro e; rfl

theorem mem_emplaceDownstream {s : List (Face × EndpointId)} {x y : Face × EndpointId} :
    y ∈ emplaceDownstream s x ↔ y = x ∨ y ∈ s := by
  unfold emplaceDownstream
  split
  · constructor
    · intro h; exact Or.inr h
    · rintro (rfl | h)
      · assumption
      · exact h
  · simp [List.mem_append, or_comm]

theorem nodup_emplaceDownstream {s : List (Face × EndpointId)} (x : Face × EndpointId)
    (h : s.Nodup) : (emplaceDownstream s x).Nodup := by
  unfold emplaceDownstream
  split
  · exact h
  · rename_i hx
    rw [List.nodup_append]
    refine ⟨h, List.nodup_singleton x, ?_⟩
    intro a ha hb
    simp only [List.mem_singleton] at hb
    subst hb
    exact hx ha

theorem mem_rememberPendingDownstreams (now : Int) (rs : List pit.InRecord) :
    ∀ (s : List (Face × EndpointId)) (x : Face × EndpointId),
      x ∈ rememberPendingDownstreams now rs s ↔
        x ∈ s ∨ (x.2 = 0 ∧ ∃ r ∈ rs, r.face = x.1 ∧ now < r.expiry) := by
  induction rs with
  | nil => intro s x; simp [rememberPendingDownstreams]
  | cons r rs ih =>
    intro s x
    unfold rememberPendingDownstreams at ih ⊢
    simp only [List.foldl_cons]
    rw [ih]
    by_cases hr : now < r.expiry
    · simp only [hr, if_true, mem_emplaceDownstream, List.mem_cons, exists_eq_or_imp, and_true]
      constructor
      · rintro ((rfl | h) | h)
        · exact Or.inr ⟨rfl, Or.inl rfl⟩
        · exact Or.inl h
        · exact Or.inr ⟨h.1, Or.inr h.2⟩
      · rintro (h | ⟨h0, h | h⟩)
        · exact Or.inl (Or.inr h)
        · exact Or.inl (Or.inl (Prod.ext h.symm h0))
        · exact Or.inr ⟨h0, h⟩
    · simp only [hr, if_false, List.mem_cons, exists_eq_or_imp, and_false, false_or]

theorem nodup_rememberPendingDownstreams (now : Int) (rs : List pit.InRecord) :
    ∀ (s : List (Face × EndpointId)), s.Nodup → (rememberPendingDownstreams now rs s).Nodup := by
  induction rs with
  | nil => intro s h; simpa [rememberPendingDownstreams] using h
  | cons r rs ih =>
    intro s h
    unfold rememberPendingDownstreams at ih ⊢
    simp only [List.foldl_cons]
    apply ih
    split
    · exact nodup_emplaceDownstream _ h
    · exact h

theorem satisfyMatches_spec (now : Int) (ingress : FaceEndpoint) (data : Data)
    (ks : List PitKey) :
    ∀ (s : List (Face × EndpointId)) (g : Forwarder),
      let r := ks.foldl (fun acc pitEntry =>
        (rememberPendingDownstreams now (acc.2.pit.inRecords pitEntry) acc.1,
         acc.2.satisfyMatchedEntry now ingress data pitEntry)) (s, g)
      r.2.log = g.log ++ ks.flatMap (fun k =>
        [Event.beforeSatisfyInterest k ingress.face data,
         Event.strategyBeforeSatisfyInterest k ingress data]) ∧
      (s.Nodup → r.1.Nodup) ∧
      ∀ x, x ∈ r.1 ↔ x ∈ s ∨ (x.2 = 0 ∧ ∃ k ∈ ks, ∃ r ∈ g.pit.inRecords k,
        r.face = x.1 ∧ now < r.expiry) := by
  induction ks with
  | nil => intro s g; simp
  | cons k ks ih =>
    intro s g
    simp only [List.foldl_cons]
    obtain ⟨h1, h2, h3⟩ := ih (rememberPendingDownstreams now (g.pit.inRecords k) s)
      (g.satisfyMatchedEntry now ingress data k)
    refine ⟨?_, ?_, ?_⟩
    · rw [h1, satisfyMatchedEntry_log]
      simp [List.flatMap_cons]
    · intro hs
      exact h2 (nodup_rememberPendingDownstreams now _ s hs)
    · intro x
      rw [h3 x, mem_rememberPendingDownstreams]
      simp only [satisfyMatchedEntry_inRecords, List.mem_cons, exists_eq_or_imp]
      constructor
      · rintro ((h | h) | ⟨h0, k2, hk2, r, hr, hrest⟩)
        · exact Or.inl h
        · exact Or.inr ⟨h.1, Or.inl h.2⟩
        · by_cases hkk : k2 = k
          · simp [hkk] at hr
          · simp only [hkk, if_false] at hr
            exact Or.inr ⟨h0, Or.inr ⟨k2, hk2, r, hr, hrest⟩⟩
      · rintro (h | ⟨h0, h | ⟨k2, hk2, r, hr, hrest⟩⟩)
        · exact Or.inl (Or.inl h)
        · exact Or.inl (Or.inr ⟨h0, h⟩)
        · by_cases hkk : k2 = k
          · subst hkk
            exact Or.inl (Or.inr ⟨h0, r, hr, hrest⟩)
          · refine Or.inr ⟨h0, k2, hk2, r, ?_, hrest⟩
            simpa [hkk] using hr

theorem onOutgoingData_log (f : Forwarder) (data : Data) (egress : FaceEndpoint) :
    (f.onOutgoingData data egress).log = f.log ++
      (Event.onOutgoingData data egress ::
        if (egress.face.id == INVALID_FACEID
            || (egress.face.scope == FaceScope.NON_LOCAL
                && Name.isPrefixOf LOCALHOST data.name)) = true then []
        else [Event.sendData egress.face egress.endpoint data]) := by
  unfold onOutgoingData emit
  by_cases h1 : egress.face.id = INVALID_FACEID
  · simp [h1]
  · by_cases h2 : (egress.face.scope == FaceScope.NON_LOCAL
        && Name.isPrefixOf LOCALHOST data.name) = true
    · simp [h1, h2]
    · simp only [Bool.not_eq_true] at h2
      simp [h1, h2]

theorem sendToPendingDownstreams_log (ingress : FaceEndpoint) (data : Data)
    (pend : List (Face × EndpointId)) :
    ∀ g : Forwarder, ∃ steps,
      (g.sendToPendingDownstreams ingress data pend).log = g.log ++ steps ∧
      steps.filterMap Event.outgoingDataEgress =
        (pend.filter (fun pd => !(pd.1.id == ingress.face.id && pd.2 == ingress.endpoint
            && pd.1.linkType != LinkType.AD_HOC))).map
          (fun pd => ({ face := pd.1, endpoint := pd.2 } : FaceEndpoint)) ∧
      (∀ ev ∈ steps, ∃ pd ∈ pend,
        (pd.1.id == ingress.face.id && pd.2 == ingress.endpoint
            && pd.1.linkType != LinkType.AD_HOC) = false ∧
        (ev = Event.onOutgoingData data { face := pd.1, endpoint := pd.2 } ∨
         ev = Event.sendData pd.1 pd.2 data)) ∧
      ∀ pd ∈ pend, (pd.1.id == ingress.face.id && pd.2 == ingress.endpoint
            && pd.1.linkType != LinkType.AD_HOC) = false →
        Event.onOutgoingData data { face := pd.1, endpoint := pd.2 } ∈ steps ∧
        ((pd.1.id == INVALID_FACEID || (pd.1.scope == FaceScope.NON_LOCAL
            && Name.isPrefixOf LOCALHOST data.name)) = false →
          Event.sendData pd.1 pd.2 data ∈ steps) := by
  induction pend with
  | nil => intro g; exact ⟨[], by simp [sendToPendingDownstreams], by simp, by simp, by simp⟩
  | cons pd pend ih =>
    intro g
    unfold sendToPendingDownstreams at ih ⊢
    simp only [List.foldl_cons]
    by_cases hskip : (pd.1.id == ingress.face.id && pd.2 == ingress.endpoint
            && pd.1.linkType != LinkType.AD_HOC) = true
    · obtain ⟨steps, h1, h2, h3, h4⟩ := ih g
      refine ⟨steps, ?_, ?_, ?_, ?_⟩
      · simp only [hskip, if_true]; exact h1
      · rw [h2, List.filter_cons]; simp [hskip]
      · intro ev hev
        obtain ⟨pd2, hpd2, h⟩ := h3 ev hev
        exact ⟨pd2, List.mem_cons_of_mem _ hpd2, h⟩
      · intro pd2 hpd2 hns
        rcases List.mem_cons.mp hpd2 with rfl | hmem
        · rw [hskip] at hns; cases hns
        · exact h4 pd2 hmem hns
    · obtain ⟨steps, h1, h2, h3, h4⟩ :=
        ih (g.onOutgoingData data { face := pd.1, endpoint := pd.2 })
      simp only [hskip, if_false, Bool.false_eq_true]
      rw [onOutgoingData_log, List.append_assoc] at h1
      refine ⟨_, h1, ?_, ?_, ?_⟩
      · rw [List.filterMap_append, h2, List.filter_cons]
        simp only [hskip, Bool.not_false, if_true, Bool.false_eq_true, List.map_cons]
        split <;> simp [Event.outgoingDataEgress]
      · intro ev hev
        rw [List.mem_append] at hev
        rcases hev with hev | hev
        · rw [List.mem_cons] at hev
          rcases hev with rfl | hev
          · exact ⟨pd, List.mem_cons_self _ _, by simpa using hskip, Or.inl rfl⟩
          · split at hev
            · simp at hev
            · simp only [List.mem_singleton] at hev
              subst hev
              exact ⟨pd, List.mem_cons_self _ _, by simpa using hskip, Or.inr rfl⟩
        · obtain ⟨pd2, hpd2, h⟩ := h3 ev hev
          exact ⟨pd2, List.mem_cons_of_mem _ hpd2, h⟩
      · intro pd2 hpd2 hns
        rcases List.mem_cons.mp hpd2 with rfl | hmem
        · refine ⟨List.mem_append_left _ (List.mem_cons_self _ _), ?_⟩
          intro hok
          apply List.mem_append_left
          simp only [hok, Bool.false_eq_true, if_false]
          simp
        · obtain ⟨ha, hb⟩ := h4 pd2 hmem hns
          exact ⟨List.mem_append_right _ ha, fun hok => List.mem_append_right _ (hb hok)⟩

theorem findAllDataMatches_tag (p : Pit) (data : Data) (t : Option FaceId) :
    p.findAllDataMatches { data with incomingFaceIdTag := t } = p.findAllDataMatches data := rfl

/-- The multi-match branch of `onIncomingData`: after the counter and the CS insert, the
loop over the matches and the loop over the pending downstreams. -/
theorem onIncomingData_multi_match_eq (f : Forwarder) (now : Int) (ingress : FaceEndpoint)
    (data : Data)
    (hscope : (ingress.face.scope == FaceScope.NON_LOCAL
                && Name.isPrefixOf LOCALHOST data.name) = false)
    (hmulti : 2 ≤ (f.pit.findAllDataMatches data).length) :
    ∃ g : Forwarder, g.pit = f.pit ∧ g.scheduler = f.scheduler ∧
      g.log = f.log ++ [Event.csInsert { data with incomingFaceIdTag := some ingress.face.id }
        false] ∧
      f.onIncomingData now ingress data =
        (satisfyMatches now ingress { data with incomingFaceIdTag := some ingress.face.id }
          (f.pit.findAllDataMatches data) g).2.sendToPendingDownstreams ingress
          { data with incomingFaceIdTag := some ingress.face.id }
          (satisfyMatches now ingress { data with incomingFaceIdTag := some ingress.face.id }
            (f.pit.findAllDataMatches data) g).1 := by
  refine ⟨{ ({ f with counters := { f.counters with nInData := f.counters.nInData + 1 } }.emit
            (Event.csInsert { data with incomingFaceIdTag := some ingress.face.id } false)) with
          cs := (f.cs.insert now { data with incomingFaceIdTag := some ingress.face.id } false).2 },
          rfl, rfl, rfl, ?_⟩
  unfold onIncomingData
  simp only [hscope, Bool.false_eq_true, if_false, findAllDataMatches_tag]
  have h0 : ((f.pit.findAllDataMatches data).length == 0) = false := by
    simp only [beq_eq_false_iff_ne]; omega
  have h1 : ((f.pit.findAllDataMatches data).length == 1) = false := by
    simp only [beq_eq_false_iff_ne]; omega
  simp only [h0, h1, Bool.false_eq_true, if_false]
  rfl

/-- C3 (amended): when inbound Data that passes the scope check matches two or more PIT
entries, the Forwarder enters `onOutgoingData` exactly once for each distinct face that
holds an in-record with expiry after now in some matched entry (always with endpoint 0),
except for the face with the ingress face's id when its link is not ad hoc and the
ingress endpoint id is 0; an in-record whose expiry is not after now contributes
nothing. -/
theorem onIncomingData_multi_match_targets (f : Forwarder) (now : Int)
    (ingress : FaceEndpoint) (data : Data)
    (hscope : (ingress.face.scope == FaceScope.NON_LOCAL
                && Name.isPrefixOf LOCALHOST data.name) = false)
    (hmulti : 2 ≤ (f.pit.findAllDataMatches data).length) :
    ∃ steps, (f.onIncomingData now ingress data).log = f.log ++ steps ∧
      (steps.filterMap Event.outgoingDataEgress).Nodup ∧
      ∀ egress, egress ∈ steps.filterMap Event.outgoingDataEgress ↔
        (egress.endpoint = 0 ∧
         (∃ k ∈ f.pit.findAllDataMatches data, ∃ r ∈ f.pit.inRecords k,
            r.face = egress.face ∧ now < r.expiry) ∧
         ¬ (egress.face.id = ingress.face.id ∧ ingress.endpoint = 0 ∧
            egress.face.linkType ≠ LinkType.AD_HOC)) := by
  obtain ⟨g, hpit, _, hlog, heq⟩ := onIncomingData_multi_match_eq f now ingress data hscope hmulti
  obtain ⟨hl, hnd, hmem⟩ := satisfyMatches_spec now ingress
    { data with incomingFaceIdTag := some ingress.face.id } (f.pit.findAllDataMatches data) [] g
  obtain ⟨sends, hs1, hs2, _, _⟩ := sendToPendingDownstreams_log ingress
    { data with incomingFaceIdTag := some ingress.face.id }
    (satisfyMatches now ingress { data with incomingFaceIdTag := some ingress.face.id }
      (f.pit.findAllDataMatches data) g).1
    (satisfyMatches now ingress { data with incomingFaceIdTag := some ingress.face.id }
      (f.pit.findAllDataMatches data) g).2
  have hfm : ∀ ks : List PitKey, (ks.flatMap (fun k =>
        [Event.beforeSatisfyInterest k ingress.face
           { data with incomingFaceIdTag := some ingress.face.id },
         Event.strategyBeforeSatisfyInterest k ingress
           { data with incomingFaceIdTag := some ingress.face.id }])).filterMap
        Event.outgoingDataEgress = [] := by
    intro ks
    induction ks with
    | nil => rfl
    | cons k ks ih =>
      rw [List.flatMap_cons, List.filterMap_append, ih]
      rfl
  unfold satisfyMatches at hs1 hs2 heq
  refine ⟨[Event.csInsert { data with incomingFaceIdTag := some ingress.face.id } false] ++
    ((f.pit.findAllDataMatches data).flatMap (fun k =>
        [Event.beforeSatisfyInterest k ingress.face
           { data with incomingFaceIdTag := some ingress.face.id },
         Event.strategyBeforeSatisfyInterest k ingress
           { data with incomingFaceIdTag := some ingress.face.id }]) ++ sends), ?_, ?_, ?_⟩
  · rw [heq, hs1, hl, hlog, List.append_assoc, List.append_assoc]
  · rw [List.filterMap_append, List.filterMap_append, hfm, hs2]
    simp only [List.filterMap_cons, Event.outgoingDataEgress, List.filterMap_nil, List.nil_append]
    apply List.Nodup.map
    · intro a b hab
      simp only [FaceEndpoint.mk.injEq] at hab
      exact Prod.ext hab.1 hab.2
    · exact List.Nodup.filter _ (hnd List.nodup_nil)
  · intro egress
    rw [List.filterMap_append, List.filterMap_append, hfm, hs2]
    simp only [List.filterMap_cons, Event.outgoingDataEgress, List.filterMap_nil, List.nil_append,
      List.mem_map, List.mem_filter, hmem, List.not_mem_nil, false_or, hpit]
    constructor
    · rintro ⟨pd, ⟨⟨h0, hex⟩, hskip⟩, rfl⟩
      refine ⟨h0, hex, ?_⟩
      rintro ⟨hid, hep, hlt⟩
      have hlt2 : pd.1.linkType ≠ LinkType.AD_HOC := hlt
      have hid2 : pd.1.id = ingress.face.id := hid
      simp [h0, hep, hlt2, hid2] at hskip
    · rintro ⟨h0, hex, hskip⟩
      refine ⟨(egress.face, egress.endpoint), ⟨⟨h0, hex⟩, ?_⟩, rfl⟩
      simp only [Bool.not_eq_true', Bool.and_eq_false_iff, beq_eq_false_iff_ne, ne_eq,
        bne_eq_false_iff_eq]
      by_cases hid : egress.face.id = ingress.face.id
      · by_cases hep : ingress.endpoint = 0
        · by_cases hlt : egress.face.linkType = LinkType.AD_HOC
          · exact Or.inr hlt
          · exact absurd ⟨hid, hep, hlt⟩ hskip
        · exact Or.inl (Or.inr (by rw [h0]; exact fun h => hep h.symm))
      · exact Or.inl (Or.inl hid)

/-- C3 (witness): `data7` matches both sample entries and arrives on face B, endpoint 0. -/
theorem onIncomingData_multi_match_targets_witness :
    ∃ steps, (Sample.twoMatchForwarder.onIncomingData 10
        { face := Sample.faceB, endpoint := 0 } Sample.data7).log
          = Sample.twoMatchForwarder.log ++ steps ∧
      (steps.filterMap Event.outgoingDataEgress).Nodup ∧
      ∀ egress, egress ∈ steps.filterMap Event.outgoingDataEgress ↔
        (egress.endpoint = 0 ∧
         (∃ k ∈ Sample.twoMatchForwarder.pit.findAllDataMatches Sample.data7,
            ∃ r ∈ Sample.twoMatchForwarder.pit.inRecords k,
              r.face = egress.face ∧ (10 : Int) < r.expiry) ∧
         ¬ (egress.face.id = Sample.faceB.id ∧ (0 : EndpointId) = 0 ∧
            egress.face.linkType ≠ LinkType.AD_HOC)) :=
  onIncomingData_multi_match_targets Sample.twoMatchForwarder 10
    { face := Sample.faceB, endpoint := 0 } Sample.data7 (by decide) (by decide)

/-- C3 (counterexample): `data7` matches two PIT entries and arrives on the multi-access
face M with ingress endpoint id 5.  Face M holds live in-records, its link is not ad hoc,
and yet `onOutgoingData` is entered for face M: the ingress face is not excluded. -/
theorem onIncomingData_multi_match_ingress_not_excluded :
    2 ≤ (Sample.twoMatchForwarder.pit.findAllDataMatches Sample.data7).length ∧
    Sample.faceM.linkType ≠ LinkType.AD_HOC ∧
    ({ face := Sample.faceM, endpoint := 0 } : FaceEndpoint) ∈
      (Sample.twoMatchForwarder.onIncomingData 10
        { face := Sample.faceM, endpoint := 5 } Sample.data7).log.filterMap
          Event.outgoingDataEgress := by
  decide

/-- C4 (amended): in the multi-match Data path, for every ingress face, the Data is not
passed back to the ingress face when that face's link type is not ad hoc and the ingress
endpoint id is 0; and for every ingress endpoint id it is passed to the outgoing Data
pipeline for the ingress face (endpoint 0), which sends it when the face id is valid,
when the link type is ad hoc and the face holds an in-record with expiry after now in a
matched entry. -/
theorem onIncomingData_multi_match_ingress_face (f : Forwarder) (now : Int)
    (ingress : FaceEndpoint) (data : Data)
    (hscope : (ingress.face.scope == FaceScope.NON_LOCAL
                && Name.isPrefixOf LOCALHOST data.name) = false)
    (hmulti : 2 ≤ (f.pit.findAllDataMatches data).length) :
    ∃ steps, (f.onIncomingData now ingress data).log = f.log ++ steps ∧
      (ingress.endpoint = 0 → ingress.face.linkType ≠ LinkType.AD_HOC →
        ∀ endpoint d,
          Event.onOutgoingData d { face := ingress.face, endpoint := endpoint } ∉ steps ∧
          Event.sendData ingress.face endpoint d ∉ steps) ∧
      (ingress.face.linkType = LinkType.AD_HOC →
        (∃ k ∈ f.pit.findAllDataMatches data, ∃ r ∈ f.pit.inRecords k,
            r.face = ingress.face ∧ now < r.expiry) →
        Event.onOutgoingData { data with incomingFaceIdTag := some ingress.face.id }
            { face := ingress.face, endpoint := 0 } ∈ steps ∧
        (ingress.face.id ≠ INVALID_FACEID →
          Event.sendData ingress.face 0
            { data with incomingFaceIdTag := some ingress.face.id } ∈ steps)) := by
  obtain ⟨g, hpit, _, hlog, heq⟩ := onIncomingData_multi_match_eq f now ingress data hscope hmulti
  obtain ⟨hl, _, hmem⟩ := satisfyMatches_spec now ingress
    { data with incomingFaceIdTag := some ingress.face.id } (f.pit.findAllDataMatches data) [] g
  obtain ⟨sends, hs1, _, hs3, hs4⟩ := sendToPendingDownstreams_log ingress
    { data with incomingFaceIdTag := some ingress.face.id }
    (satisfyMatches now ingress { data with incomingFaceIdTag := some ingress.face.id }
      (f.pit.findAllDataMatches data) g).1
    (satisfyMatches now ingress { data with incomingFaceIdTag := some ingress.face.id }
      (f.pit.findAllDataMatches data) g).2
  unfold satisfyMatches at hs1 hs3 hs4 heq
  simp only [List.not_mem_nil, false_or, hpit] at hmem
  refine ⟨[Event.csInsert { data with incomingFaceIdTag := some ingress.face.id } false] ++
    ((f.pit.findAllDataMatches data).flatMap (fun k =>
        [Event.beforeSatisfyInterest k ingress.face
           { data with incomingFaceIdTag := some ingress.face.id },
         Event.strategyBeforeSatisfyInterest k ingress
           { data with incomingFaceIdTag := some ingress.face.id }]) ++ sends), ?_, ?_, ?_⟩
  · rw [heq, hs1, hl, hlog, List.append_assoc, List.append_assoc]
  · intro hep hlt endpoint d
    have hnot : ∀ ev ∈ sends, ev ≠ Event.onOutgoingData d
          { face := ingress.face, endpoint := endpoint } ∧
        ev ≠ Event.sendData ingress.face endpoint d := by
      intro ev hev
      obtain ⟨pd, hpd, hns, hev2⟩ := hs3 ev hev
      have hpd0 : pd.2 = 0 := ((hmem pd).mp hpd).1
      have hcontra : pd.1 = ingress.face → False := by
        intro hface
        rw [hface, hpd0, hep] at hns
        simp [hlt] at hns
      constructor
      · rintro rfl
        rcases hev2 with h | h
        · simp only [Event.onOutgoingData.injEq, FaceEndpoint.mk.injEq] at h
          exact hcontra h.2.1.symm
        · cases h
      · rintro rfl
        rcases hev2 with h | h
        · cases h
        · simp only [Event.sendData.injEq] at h
          exact hcontra h.1.symm
    constructor
    · intro hin
      simp only [List.mem_append, List.mem_singleton, List.mem_flatMap, List.mem_cons,
        List.not_mem_nil, or_false] at hin
      rcases hin with h | ⟨k, _, h | h⟩ | h
      · cases h
      · cases h
      · cases h
      · exact (hnot _ h).1 rfl
    · intro hin
      simp only [List.mem_append, List.mem_singleton, List.mem_flatMap, List.mem_cons,
        List.not_mem_nil, or_false] at hin
      rcases hin with h | ⟨k, _, h | h⟩ | h
      · cases h
      · cases h
      · cases h
      · exact (hnot _ h).2 rfl
  · intro had hex
    have hin : (ingress.face, (0 : EndpointId)) ∈ (List.foldl
        (fun acc pitEntry =>
          (rememberPendingDownstreams now (acc.2.pit.inRecords pitEntry) acc.1,
           acc.2.satisfyMatchedEntry now ingress
             { data with incomingFaceIdTag := some ingress.face.id } pitEntry))
        ([], g) (f.pit.findAllDataMatches data)).1 := (hmem _).mpr ⟨rfl, hex⟩
    have hns : ((ingress.face, (0 : EndpointId)).1.id == ingress.face.id
        && (ingress.face, (0 : EndpointId)).2 == ingress.endpoint
        && (ingress.face, (0 : EndpointId)).1.linkType != LinkType.AD_HOC) = false := by
      simp [had]
    obtain ⟨ha, hb⟩ := hs4 _ hin hns
    refine ⟨?_, ?_⟩
    · exact List.mem_append_right _ (List.mem_append_right _ ha)
    · intro hvalid
      apply List.mem_append_right _ (List.mem_append_right _ (hb ?_))
      have hsc : (ingress.face.scope == FaceScope.NON_LOCAL
          && Name.isPrefixOf LOCALHOST data.name) = false := hscope
      simp only [Bool.or_eq_false_iff, beq_eq_false_iff_ne]
      exact ⟨hvalid, hsc⟩

/-- C4 (witness): `data7` matches both sample entries and arrives on the ad hoc face H,
which holds a live in-record: the Data is sent back to face H. -/
theorem onIncomingData_multi_match_ingress_face_witness :
    Event.sendData Sample.faceH 0 { Sample.data7 with incomingFaceIdTag := some 4 } ∈
      (Sample.twoMatchForwarder.onIncomingData 10
        { face := Sample.faceH, endpoint := 3 } Sample.data7).log := by
  obtain ⟨steps, hlog, _, h⟩ := onIncomingData_multi_match_ingress_face
    Sample.twoMatchForwarder 10 { face := Sample.faceH, endpoint := 3 } Sample.data7
    (by decide) (by decide)
  rw [hlog]
  exact List.mem_append_right _ ((h (by decide) (by decide)).2 (by decide))

/-- C4 (counterexample): `data7` matches two PIT entries and arrives on the point-to-point
face A with ingress endpoint id 9.  Face A holds a live in-record in a matched entry and
its link is not ad hoc, and yet the Data is sent back to face A. -/
theorem onIncomingData_multi_match_sent_back_to_ingress :
    2 ≤ (Sample.twoMatchForwarder.pit.findAllDataMatches Sample.data7).length ∧
    Sample.faceA.linkType ≠ LinkType.AD_HOC ∧
    Event.sendData Sample.faceA 0 { Sample.data7 with incomingFaceIdTag := some 1 } ∈
      (Sample.twoMatchForwarder.onIncomingData 10
        { face := Sample.faceA, endpoint := 9 } Sample.data7).log := by
  decide

theorem insertDeadNonceList_scheduler (f : Forwarder) (k : PitKey) (u : Option Face) :
    (f.insertDeadNonceList k u).scheduler = f.scheduler := by
  obtain ⟨d, h⟩ := insertDeadNonceList_eq f k u
  rw [h]

theorem satisfyMatchedEntry_scheduler (f : Forwarder) (now : Int) (ingress : FaceEndpoint)
    (data : Data) (k : PitKey) :
    (f.satisfyMatchedEntry now ingress data k).scheduler =
      ((f.scheduler.cancel (match f.pit.get? k with
           | some e => e.expiryTimer
           | none => none)).schedule now 0 k).2 := by
  simp only [satisfyMatchedEntry, insertDeadNonceList_scheduler, emit, setExpiryTimer]

theorem Scheduler_cancel_nextId (s : Scheduler) (h : Option Nat) :
    (s.cancel h).nextId = s.nextId := by
  cases h <;> rfl

theorem onOutgoingData_pit (f : Forwarder) (data : Data) (egress : FaceEndpoint) :
    (f.onOutgoingData data egress).pit = f.pit ∧
      (f.onOutgoingData data egress).scheduler = f.scheduler := by
  unfold onOutgoingData emit
  by_cases h1 : egress.face.id = INVALID_FACEID
  · simp [h1]
  · by_cases h2 : (egress.face.scope == FaceScope.NON_LOCAL
        && Name.isPrefixOf LOCALHOST data.name) = true
    · simp [h1, h2]
    · simp only [Bool.not_eq_true] at h2
      simp [h1, h2]

theorem sendToPendingDownstreams_pit (ingress : FaceEndpoint) (data : Data)
    (pend : List (Face × EndpointId)) :
    ∀ g : Forwarder, (g.sendToPendingDownstreams ingress data pend).pit = g.pit ∧
      (g.sendToPendingDownstreams ingress data pend).scheduler = g.scheduler := by
  induction pend with
  | nil => intro g; exact ⟨rfl, rfl⟩
  | cons pd pend ih =>
    intro g
    unfold sendToPendingDownstreams at ih ⊢
    simp only [List.foldl_cons]
    split
    · exact ih g
    · obtain ⟨h1, h2⟩ := ih (g.onOutgoingData data { face := pd.1, endpoint := pd.2 })
      rw [h1, h2]
      exact onOutgoingData_pit g data _

theorem satisfyMatches_entries (now : Int) (ingress : FaceEndpoint) (data : Data)
    (ks : List PitKey) :
    ∀ (s : List (Face × EndpointId)) (g : Forwarder), ks.Nodup → g.TimersIssued →
      (ks.foldl (fun acc pitEntry =>
        (rememberPendingDownstreams now (acc.2.pit.inRecords pitEntry) acc.1,
         acc.2.satisfyMatchedEntry now ingress data pitEntry)) (s, g)).2.TimersIssued ∧
      (∀ ev ∈ g.scheduler.events,
        (∀ e ∈ g.pit.entries, e.key ∈ ks → e.expiryTimer ≠ some ev.id) →
        ev ∈ (ks.foldl (fun acc pitEntry =>
          (rememberPendingDownstreams now (acc.2.pit.inRecords pitEntry) acc.1,
           acc.2.satisfyMatchedEntry now ingress data pitEntry)) (s, g)).2.scheduler.events) ∧
      (∀ e2 ∈ (ks.foldl (fun acc pitEntry =>
          (rememberPendingDownstreams now (acc.2.pit.inRecords pitEntry) acc.1,
           acc.2.satisfyMatchedEntry now ingress data pitEntry)) (s, g)).2.pit.entries,
        ∃ e ∈ g.pit.entries, e.key = e2.key ∧
          (e2.key ∉ ks → e2 = e) ∧
          (e2.key ∈ ks →
            e2.isSatisfied = true ∧ e2.dataFreshnessPeriod = data.freshnessPeriod ∧
            e2.inRecords = [] ∧
            e2.outRecords = e.outRecords.eraseP (fun r => r.face == ingress.face) ∧
            ∃ h, e2.expiryTimer = some h ∧
              ({ id := h, fireAt := now, pitEntry := e2.key } : ScheduledEvent) ∈
                (ks.foldl (fun acc pitEntry =>
                  (rememberPendingDownstreams now (acc.2.pit.inRecords pitEntry) acc.1,
                   acc.2.satisfyMatchedEntry now ingress data pitEntry))
                  (s, g)).2.scheduler.events)) := by
  induction ks with
  | nil =>
    intro s g _ hti
    refine ⟨hti, fun ev hev _ => hev, ?_⟩
    intro e2 he2
    exact ⟨e2, he2, rfl, fun _ => rfl, fun h => absurd h (List.not_mem_nil _)⟩
  | cons k ks ih =>
    intro s g hnd hti
    simp only [List.foldl_cons]
    have hk : k ∉ ks := (List.nodup_cons.mp hnd).1
    have hnd2 : ks.Nodup := (List.nodup_cons.mp hnd).2
    -- the state after the loop body for `k`
    have hpit := satisfyMatchedEntry_pit g now ingress data k
    have hsch := satisfyMatchedEntry_scheduler g now ingress data k
    have hid : ((g.scheduler.cancel (match g.pit.get? k with
           | some e => e.expiryTimer
           | none => none)).schedule now 0 k).1 = g.scheduler.nextId := by
      simp [Scheduler.schedule, Scheduler_cancel_nextId]
    have hnext : (g.satisfyMatchedEntry now ingress data k).scheduler.nextId
        = g.scheduler.nextId + 1 := by
      rw [hsch]; simp [Scheduler.schedule, Scheduler_cancel_nextId]
    have hnew : ({ id := g.scheduler.nextId, fireAt := now, pitEntry := k } : ScheduledEvent) ∈
        (g.satisfyMatchedEntry now ingress data k).scheduler.events := by
      rw [hsch]; simp [Scheduler.schedule, Scheduler_cancel_nextId]
    have hkeep : ∀ ev ∈ g.scheduler.events,
        (∀ e ∈ g.pit.entries, e.key = k → e.expiryTimer ≠ some ev.id) →
        ev ∈ (g.satisfyMatchedEntry now ingress data k).scheduler.events := by
      intro ev hev hne
      rw [hsch]
      simp only [Scheduler.schedule, List.mem_append, List.mem_singleton]
      left
      cases hget : g.pit.get? k with
      | none => simpa [Scheduler.cancel] using hev
      | some e0 =>
        have he0 : e0 ∈ g.pit.entries := List.mem_of_find?_eq_some hget
        have hk0 := Pit.key_of_get? hget
        cases hh : e0.expiryTimer with
        | none => simpa [Scheduler.cancel, hh] using hev
        | some h0 =>
          simp only [Scheduler.cancel, hh, List.mem_filter, bne_iff_ne, ne_eq]
          refine ⟨hev, ?_⟩
          intro hidEq
          exact hne e0 he0 hk0 (by rw [hh, hidEq])
    have hti1 : (g.satisfyMatchedEntry now ingress data k).TimersIssued := by
      intro e1 he1 h hh
      rw [hnext]
      rw [hpit] at he1
      obtain ⟨e, he, rfl⟩ := Pit.mem_modify.mp he1
      by_cases hek : e.key = k
      · simp only [hek, beq_self_eq_true, if_true, hid, Option.some.injEq] at hh
        omega
      · have hb : (e.key == k) = false := by simpa using hek
        simp only [hb, Bool.false_eq_true, if_false] at hh
        exact Nat.lt_succ_of_lt (hti e he h hh)
    obtain ⟨ih1, ih2, ih3⟩ := ih (rememberPendingDownstreams now (g.pit.inRecords k) s)
      (g.satisfyMatchedEntry now ingress data k) hnd2 hti1
    refine ⟨ih1, ?_, ?_⟩
    · intro ev hev hne
      apply ih2 ev (hkeep ev hev (fun e he hek => hne e he (hek ▸ List.mem_cons_self _ _)))
      intro e1 he1 hks
      rw [hpit] at he1
      obtain ⟨e, he, rfl⟩ := Pit.mem_modify.mp he1
      by_cases hek : e.key = k
      · have hb : (e.key == k) = true := by simpa using hek
        rw [if_pos hb] at hks
        exact absurd (show k ∈ ks from hek ▸ hks) hk
      · have hb : (e.key == k) = false := by simpa using hek
        simp only [hb, Bool.false_eq_true, if_false] at hks ⊢
        exact hne e he (List.mem_cons_of_mem _ hks)
    · intro e2 he2
      obtain ⟨e1, he1, hkey, hout, hin⟩ := ih3 e2 he2
      rw [hpit] at he1
      obtain ⟨e, he, rfl⟩ := Pit.mem_modify.mp he1
      by_cases hek : e.key = k
      · have hb : (e.key == k) = true := by simpa using hek
        rw [if_pos hb] at hkey hout hin
        have hk2 : e2.key = k := by rw [← hkey]; exact hek
        have hk2n : e2.key ∉ ks := hk2 ▸ hk
        have he2eq := hout hk2n
        refine ⟨e, he, by rw [hk2, hek], ?_, ?_⟩
        · intro hnot
          exact absurd (hk2 ▸ List.mem_cons_self k ks) hnot
        · intro _
          subst he2eq
          refine ⟨rfl, rfl, rfl, rfl, g.scheduler.nextId, by simp only [hid], ?_⟩
          apply ih2 _ (by rw [show pit.Entry.key _ = k from hk2]; exact hnew)
          intro e1 he1 hks
          rw [hpit] at he1
          obtain ⟨e3, he3, rfl⟩ := Pit.mem_modify.mp he1
          by_cases hek3 : e3.key = k
          · have hb3 : (e3.key == k) = true := by simpa using hek3
            rw [if_pos hb3] at hks
            exact absurd (show k ∈ ks from hek3 ▸ hks) hk
          · have hb3 : (e3.key == k) = false := by simpa using hek3
            simp only [hb3, Bool.false_eq_true, if_false] at hks ⊢
            intro hh
            have := hti e3 he3 _ hh
            simp at this
      · have hb : (e.key == k) = false := by simpa using hek
        simp only [hb, Bool.false_eq_true, if_false] at hkey hout hin
        have hk2 : e2.key ≠ k := by rw [← hkey]; exact hek
        refine ⟨e, he, hkey, ?_, ?_⟩
        · intro hnot
          exact hout (fun h => hnot (List.mem_cons_of_mem _ h))
        · intro hmem
          rcases List.mem_cons.mp hmem with h | h
          · exact absurd h hk2
          · exact hin h

theorem nodup_findAllDataMatches (p : Pit) (data : Data) (h : p.KeysDistinct) :
    (p.findAllDataMatches data).Nodup := by
  unfold Pit.findAllDataMatches
  exact List.Nodup.sublist (List.Sublist.map _ (List.filter_sublist _)) h

theorem satisfyMatches_keys (now : Int) (ingress : FaceEndpoint) (data : Data)
    (ks : List PitKey) :
    ∀ (s : List (Face × EndpointId)) (g : Forwarder),
      (ks.foldl (fun acc pitEntry =>
        (rememberPendingDownstreams now (acc.2.pit.inRecords pitEntry) acc.1,
         acc.2.satisfyMatchedEntry now ingress data pitEntry)) (s, g)).2.pit.entries.map
          (fun e => e.key) = g.pit.entries.map (fun e => e.key) := by
  induction ks with
  | nil => intro s g; rfl
  | cons k ks ih =>
    intro s g
    simp only [List.foldl_cons]
    rw [ih, satisfyMatchedEntry_pit]
    unfold Pit.modify
    simp only [List.map_map]
    apply List.map_congr_left
    intro e _
    simp only [Function.comp]
    split <;> rfl

/-- C5 (amended): after the multi-match Data path on a Forwarder whose PIT keys are
distinct and whose timer handles were issued by its scheduler, the PIT holds the same
keys as before, and every matched PIT entry is marked satisfied with the Data's
freshness period, has its expiry timer scheduled to fire now (0 ms), has all of its
in-records cleared, and has lost the out-record of the ingress face only: its other
out-records are kept. -/
theorem onIncomingData_multi_match_entries (f : Forwarder) (now : Int)
    (ingress : FaceEndpoint) (data : Data)
    (hscope : (ingress.face.scope == FaceScope.NON_LOCAL
                && Name.isPrefixOf LOCALHOST data.name) = false)
    (hmulti : 2 ≤ (f.pit.findAllDataMatches data).length)
    (hkeys : f.pit.KeysDistinct) (htimers : f.TimersIssued) :
    (f.onIncomingData now ingress data).pit.entries.map (fun e => e.key)
      = f.pit.entries.map (fun e => e.key) ∧
    ∀ e2 ∈ (f.onIncomingData now ingress data).pit.entries,
      e2.key ∈ f.pit.findAllDataMatches data →
      e2.isSatisfied = true ∧ e2.dataFreshnessPeriod = data.freshnessPeriod ∧
      e2.inRecords = [] ∧
      (∃ h, e2.expiryTimer = some h ∧
        ({ id := h, fireAt := now, pitEntry := e2.key } : ScheduledEvent) ∈
          (f.onIncomingData now ingress data).scheduler.events) ∧
      ∃ e ∈ f.pit.entries, e.key = e2.key ∧
        e2.outRecords = e.outRecords.eraseP (fun r => r.face == ingress.face) := by
  obtain ⟨g, hpit, hsch, _, heq⟩ := onIncomingData_multi_match_eq f now ingress data hscope hmulti
  have hti : g.TimersIssued := by
    intro e he h hh
    rw [hsch]
    rw [hpit] at he
    exact htimers e he h hh
  obtain ⟨_, _, h3⟩ := satisfyMatches_entries now ingress
    { data with incomingFaceIdTag := some ingress.face.id } (f.pit.findAllDataMatches data) [] g
    (nodup_findAllDataMatches f.pit data hkeys) hti
  have hkeys2 := satisfyMatches_keys now ingress
    { data with incomingFaceIdTag := some ingress.face.id } (f.pit.findAllDataMatches data) [] g
  obtain ⟨hp, hs⟩ := sendToPendingDownstreams_pit ingress
    { data with incomingFaceIdTag := some ingress.face.id }
    (satisfyMatches now ingress { data with incomingFaceIdTag := some ingress.face.id }
      (f.pit.findAllDataMatches data) g).1
    (satisfyMatches now ingress { data with incomingFaceIdTag := some ingress.face.id }
      (f.pit.findAllDataMatches data) g).2
  rw [heq, hp, hs]
  unfold satisfyMatches
  refine ⟨by rw [hkeys2, hpit], ?_⟩
  intro e2 he2 hmatch
  obtain ⟨e, he, hkey, _, hin⟩ := h3 e2 he2
  obtain ⟨h1, h2, h3, h4, h5⟩ := hin hmatch
  rw [hpit] at he
  exact ⟨h1, h2, h3, h5, e, he, hkey, h4⟩

/-- C5 (witness): `data7` matches both sample entries and arrives on face B. -/
theorem onIncomingData_multi_match_entries_witness :
    (Sample.twoMatchForwarder.onIncomingData 10
        { face := Sample.faceB, endpoint := 0 } Sample.data7).pit.entries.map (fun e => e.key)
      = Sample.twoMatchForwarder.pit.entries.map (fun e => e.key) ∧
    ∀ e2 ∈ (Sample.twoMatchForwarder.onIncomingData 10
        { face := Sample.faceB, endpoint := 0 } Sample.data7).pit.entries,
      e2.key ∈ Sample.twoMatchForwarder.pit.findAllDataMatches Sample.data7 →
      e2.isSatisfied = true ∧ e2.dataFreshnessPeriod = Sample.data7.freshnessPeriod ∧
      e2.inRecords = [] ∧
      (∃ h, e2.expiryTimer = some h ∧
        ({ id := h, fireAt := 10, pitEntry := e2.key } : ScheduledEvent) ∈
          (Sample.twoMatchForwarder.onIncomingData 10
            { face := Sample.faceB, endpoint := 0 } Sample.data7).scheduler.events) ∧
      ∃ e ∈ Sample.twoMatchForwarder.pit.entries, e.key = e2.key ∧
        e2.outRecords = e.outRecords.eraseP (fun r => r.face == Sample.faceB) :=
  onIncomingData_multi_match_entries Sample.twoMatchForwarder 10
    { face := Sample.faceB, endpoint := 0 } Sample.data7 (by decide) (by decide)
    (by unfold Pit.KeysDistinct; decide)
    (by
      intro e he h hh
      simp only [Sample.twoMatchForwarder, List.mem_cons, List.mem_singleton,
        List.not_mem_nil, or_false] at he
      rcases he with rfl | rfl
      · simp only [Sample.exactEntry, Option.some.injEq] at hh
        subst hh; decide
      · simp only [Sample.prefixEntry, Option.some.injEq] at hh
        subst hh; decide)

/-- C5 (counterexample): `data7` matches two PIT entries and arrives on face B.  The
matched entry of `interest5` held out-records of faces B and M; after the multi-match
path its out-record of face M is still there. -/
theorem onIncomingData_multi_match_keeps_out_record :
    2 ≤ (Sample.twoMatchForwarder.pit.findAllDataMatches Sample.data7).length ∧
    Sample.interest5.pitKey ∈ Sample.twoMatchForwarder.pit.findAllDataMatches Sample.data7 ∧
    (Sample.twoMatchForwarder.onIncomingData 10
        { face := Sample.faceB, endpoint := 0 } Sample.data7).pit.outRecords
          Sample.interest5.pitKey =
      [{ face := Sample.faceM, lastNonce := 5, lastRenewed := 0, expiry := 4000000000,
         incomingNack := none }] := by
  decide

theorem satisfySingleMatch_log (f : Forwarder) (now : Int) (ingress : FaceEndpoint)
    (data : Data) (k : PitKey) :
    (f.satisfySingleMatch now ingress data k).log = f.log ++
      [Event.beforeSatisfyInterest k ingress.face data,
       Event.strategyAfterReceiveData k ingress data] := by
  simp [satisfySingleMatch, insertDeadNonceList_log, emit, setExpiryTimer]

theorem satisfySingleMatch_pit (f : Forwarder) (now : Int) (ingress : FaceEndpoint)
    (data : Data) (k : PitKey) :
    (f.satisfySingleMatch now ingress data k).pit = f.pit.modify k (fun e =>
      { e with
        outRecords := e.outRecords.eraseP (fun r => r.face == ingress.face)
        isSatisfied := true
        dataFreshnessPeriod := data.freshnessPeriod
        expiryTimer := some f.scheduler.nextId }) := by
  simp only [satisfySingleMatch, insertDeadNonceList_pit, emit, setExpiryTimer]
  rw [Pit.modify_modify, Pit.modify_modify]
  · simp only [Scheduler.schedule, Scheduler_cancel_nextId]
    rfl
  all_goals intro e; rfl

theorem satisfySingleMatch_scheduler (f : Forwarder) (now : Int) (ingress : FaceEndpoint)
    (data : Data) (k : PitKey) :
    (f.satisfySingleMatch now ingress data k).scheduler =
      ((f.scheduler.cancel (match f.pit.get? k with
           | some e => e.expiryTimer
           | none => none)).schedule now 0 k).2 := by
  simp only [satisfySingleMatch, insertDeadNonceList_scheduler, emit, setExpiryTimer]

theorem satisfySingleMatch_cs (f : Forwarder) (now : Int) (ingress : FaceEndpoint)
    (data : Data) (k : PitKey) :
    (f.satisfySingleMatch now ingress data k).cs = f.cs := by
  unfold satisfySingleMatch
  dsimp only
  obtain ⟨d, h⟩ := insertDeadNonceList_eq
    ({ ((f.setExpiryTimer now k 0).emit (Event.beforeSatisfyInterest k ingress.face data)).emit
        (Event.strategyAfterReceiveData k ingress data) with
      pit := (((f.setExpiryTimer now k 0).emit
        (Event.beforeSatisfyInterest k ingress.face data)).emit
          (Event.strategyAfterReceiveData k ingress data)).pit.modify k (fun e =>
            { e with isSatisfied := true, dataFreshnessPeriod := data.freshnessPeriod }) })
    k (some ingress.face)
  rw [h]
  rfl

/-- C6: when inbound Data that passes the scope check matches exactly one PIT entry, the
Forwarder offers the Data to the CS as solicited (`Cs::insert` with `isUnsolicited`
false), re-arms the entry's expiry timer to fire now (0 ms), and dispatches
`afterReceiveData` to the strategy exactly once: the log gains the CS insert, the
`beforeSatisfyInterest` signal and that one trigger, and no Data send of the Forwarder's
own.  In the PIT only the matched entry changes: it is marked satisfied with the Data's
freshness period, holds the new timer handle and loses the out-record of the ingress
face; its in-records and its out-records of other faces stay as they were. -/
theorem onIncomingData_single_match (f : Forwarder) (now : Int) (ingress : FaceEndpoint)
    (data : Data) (k : PitKey)
    (hscope : (ingress.face.scope == FaceScope.NON_LOCAL
                && Name.isPrefixOf LOCALHOST data.name) = false)
    (hone : f.pit.findAllDataMatches data = [k]) :
    (f.onIncomingData now ingress data).log = f.log ++
      [Event.csInsert { data with incomingFaceIdTag := some ingress.face.id } false,
       Event.beforeSatisfyInterest k ingress.face
         { data with incomingFaceIdTag := some ingress.face.id },
       Event.strategyAfterReceiveData k ingress
         { data with incomingFaceIdTag := some ingress.face.id }] ∧
    (f.onIncomingData now ingress data).cs =
      (f.cs.insert now { data with incomingFaceIdTag := some ingress.face.id } false).2 ∧
    (f.onIncomingData now ingress data).pit = f.pit.modify k (fun e =>
      { e with
        outRecords := e.outRecords.eraseP (fun r => r.face == ingress.face)
        isSatisfied := true
        dataFreshnessPeriod := data.freshnessPeriod
        expiryTimer := some f.scheduler.nextId }) ∧
    ({ id := f.scheduler.nextId, fireAt := now, pitEntry := k } : ScheduledEvent) ∈
      (f.onIncomingData now ingress data).scheduler.events := by
  unfold onIncomingData
  simp only [hscope, Bool.false_eq_true, if_false, findAllDataMatches_tag, hone,
    List.length_singleton, List.head?_cons]
  simp only [show ((1 : Nat) == 0) = false from rfl, show ((1 : Nat) == 1) = true from rfl,
    Bool.false_eq_true, if_false, if_true]
  refine ⟨?_, ?_, ?_, ?_⟩
  · rw [satisfySingleMatch_log]
    simp [emit]
  · rw [satisfySingleMatch_cs]
    rfl
  · rw [satisfySingleMatch_pit]
    rfl
  · rw [satisfySingleMatch_scheduler]
    simp [Scheduler.schedule, Scheduler_cancel_nextId, emit]

/-- C6 (witness): `data7` matches the one entry of the sample PIT and arrives on face B. -/
theorem onIncomingData_single_match_witness :
    (Sample.pendingForwarder.onIncomingData 10
        { face := Sample.faceB, endpoint := 0 } Sample.data7).log =
      Sample.pendingForwarder.log ++
      [Event.csInsert { Sample.data7 with incomingFaceIdTag := some Sample.faceB.id } false,
       Event.beforeSatisfyInterest Sample.interest5.pitKey Sample.faceB
         { Sample.data7 with incomingFaceIdTag := some Sample.faceB.id },
       Event.strategyAfterReceiveData Sample.interest5.pitKey
         { face := Sample.faceB, endpoint := 0 }
         { Sample.data7 with incomingFaceIdTag := some Sample.faceB.id }] :=
  (onIncomingData_single_match Sample.pendingForwarder 10
    { face := Sample.faceB, endpoint := 0 } Sample.data7 Sample.interest5.pitKey
    (by decide) (by decide)).1

end Forwarder

/-! ## The order of Names -/

namespace Name

theorem lt_nil_right (a : Name) : Name.lt a [] = false := by
  cases a <;> rfl

theorem lt_irrefl (a : Name) : Name.lt a a = false := by
  induction a with
  | nil => rfl
  | cons x xs ih => simp [Name.lt, ih]

theorem lt_trans {a b c : Name} (h1 : Name.lt a b = true) (h2 : Name.lt b c = true) :
    Name.lt a c = true := by
  induction a generalizing b c with
  | nil =>
    cases b with
    | nil => simp [Name.lt] at h1
    | cons y ys =>
      cases c with
      | nil => simp [Name.lt] at h2
      | cons z zs => rfl
  | cons x xs ih =>
    cases b with
    | nil => simp [Name.lt] at h1
    | cons y ys =>
      cases c with
      | nil => simp [Name.lt] at h2
      | cons z zs =>
        simp only [Name.lt, Bool.or_eq_true, decide_eq_true_eq, Bool.and_eq_true,
          beq_iff_eq] at h1 h2 ⊢
        rcases h1 with h1 | ⟨h1, h1'⟩
        · rcases h2 with h2 | ⟨h2, _⟩
          · left; omega
          · left; omega
        · rcases h2 with h2 | ⟨h2, h2'⟩
          · left; omega
          · right; exact ⟨h1.trans h2, ih h1' h2'⟩

theorem lt_total {a b : Name} (h : Name.lt a b = false) (hne : a ≠ b) : Name.lt b a = true := by
  induction a generalizing b with
  | nil =>
    cases b with
    | nil => exact absurd rfl hne
    | cons y ys => simp [Name.lt] at h
  | cons x xs ih =>
    cases b with
    | nil => rfl
    | cons y ys =>
      simp only [Name.lt, Bool.or_eq_false_iff, decide_eq_false_iff_not, Bool.and_eq_false_iff,
        beq_eq_false_iff_ne, ne_eq] at h
      simp only [Name.lt, Bool.or_eq_true, decide_eq_true_eq, Bool.and_eq_true, beq_iff_eq]
      obtain ⟨h1, h2⟩ := h
      by_cases hxy : x = y
      · subst hxy
        right
        refine ⟨rfl, ih ?_ ?_⟩
        · rcases h2 with h2 | h2
          · exact absurd rfl h2
          · exact h2
        · intro hxs; exact hne (by rw [hxs])
      · left; omega

theorem lt_asymm {a b : Name} (h : Name.lt a b = true) : Name.lt b a = false := by
  cases hba : Name.lt b a with
  | false => rfl
  | true =>
    have := lt_trans h hba
    rw [lt_irrefl] at this
    cases this

theorem lt_getSuccessor (p : Name) : Name.lt p p.getSuccessor = true := by
  induction p with
  | nil => rfl
  | cons c cs ih =>
    cases cs with
    | nil => simp [Name.getSuccessor, Name.lt]
    | cons c2 cs2 =>
      simp only [Name.getSuccessor, Name.lt, Bool.or_eq_true, decide_eq_true_eq,
        Bool.and_eq_true, beq_iff_eq]
      right
      exact ⟨trivial, ih⟩

/-- The Names between a non-empty prefix and its successor are the Names under the
prefix. -/
theorem isPrefixOf_iff_between (p n : Name) (hp : p ≠ []) :
    Name.isPrefixOf p n = true ↔
      (Name.lt n p = false ∧ Name.lt n p.getSuccessor = true) := by
  induction p generalizing n with
  | nil => exact absurd rfl hp
  | cons c cs ih =>
    cases cs with
    | nil =>
      cases n with
      | nil => simp [Name.isPrefixOf, Name.lt]
      | cons x xs =>
        simp only [Name.isPrefixOf, Name.getSuccessor, Name.lt, lt_nil_right, Bool.and_false,
          Bool.or_false, Bool.and_true, beq_iff_eq, decide_eq_false_iff_not,
          decide_eq_true_eq]
        omega
    | cons c2 cs2 =>
      cases n with
      | nil => simp [Name.isPrefixOf, Name.lt]
      | cons x xs =>
        have ih2 := ih xs (by simp)
        simp only [Name.isPrefixOf, Bool.and_eq_true, beq_iff_eq] at ih2 ⊢
        simp only [Name.getSuccessor, Name.lt, Bool.or_eq_false_iff, decide_eq_false_iff_not,
          Bool.and_eq_false_iff, beq_eq_false_iff_ne, ne_eq, Bool.or_eq_true,
          decide_eq_true_eq, Bool.and_eq_true, beq_iff_eq]
        constructor
        · rintro ⟨hcx, hpre⟩
          subst hcx
          have := (ih xs (by simp)).mp hpre
          exact ⟨⟨Nat.lt_irrefl _, Or.inr this.1⟩, Or.inr ⟨rfl, this.2⟩⟩
        · rintro ⟨⟨h1, h2⟩, h3⟩
          rcases h3 with h3 | ⟨h3, h4⟩
          · exact absurd h3 h1
          · subst h3
            rcases h2 with h2 | h2
            · exact absurd rfl h2
            · exact ⟨rfl, (ih xs (by simp)).mpr ⟨h2, h4⟩⟩

theorem isPrefixOf_nil (n : Name) : Name.isPrefixOf [] n = true := by
  cases n <;> rfl

end Name

/-! ## Properties of the Content Store -/

namespace cs

theorem Table.keys_erase (t : Table) (i : Name) (hnd : (Table.keys t).Nodup) :
    Table.keys (Table.erase t i) = (Table.keys t).filter (fun x => x != i) := by
  unfold Table.keys Table.erase at *
  induction t with
  | nil => rfl
  | cons x xs ih =>
    have hnd2 := (List.nodup_cons.mp hnd).2
    have hx := (List.nodup_cons.mp hnd).1
    by_cases h : x.getFullName = i
    · have hb : (x.getFullName == i) = true := by simpa using h
      rw [List.eraseP_cons, hb, cond_true, List.map_cons, List.filter_cons]
      have : (x.getFullName != i) = false := by simp [h]
      rw [this]
      simp only [Bool.false_eq_true, if_false]
      symm
      rw [List.filter_eq_self]
      intro a ha
      simp only [bne_iff_ne, ne_eq]
      intro hai
      exact hx (by rw [h, ← hai]; exact ha)
    · have hb : (x.getFullName == i) = false := by simpa using h
      rw [List.eraseP_cons, hb, cond_false, List.map_cons, List.map_cons, List.filter_cons,
        ih hnd2]
      have : (x.getFullName != i) = true := by simpa using h
      rw [this]
      simp

theorem Table.keys_modify (t : Table) (i : Name) (g : Entry → Entry)
    (hg : ∀ e, (g e).getFullName = e.getFullName) :
    Table.keys (Table.modify t i g) = Table.keys t := by
  unfold Table.keys Table.modify
  rw [List.map_map]
  apply List.map_congr_left
  intro e _
  simp only [Function.comp]
  split
  · exact hg e
  · rfl

theorem Table.length_modify (t : Table) (i : Name) (g : Entry → Entry) :
    (Table.modify t i g).length = t.length := by
  simp [Table.modify]

theorem Table.insertSorted_perm (e : Entry) (t : Table) :
    (Table.insertSorted e t).Perm (e :: t) := by
  induction t with
  | nil => exact List.Perm.refl _
  | cons x xs ih =>
    unfold Table.insertSorted
    split
    · exact List.Perm.refl _
    · exact (List.Perm.cons x ih).trans (List.Perm.swap e x xs)

theorem evictEntries_spec (limit : Nat) (q : List Name) :
    ∀ t : Table, q.Perm (Table.keys t) → (Table.keys t).Nodup →
      (evictEntries limit t q).1.length ≤ limit ∧
      (evictEntries limit t q).2.Perm (Table.keys (evictEntries limit t q).1) ∧
      (Table.keys (evictEntries limit t q).1).Nodup ∧
      (∃ evicted, q = evicted ++ (evictEntries limit t q).2) ∧
      min t.length limit ≤ (evictEntries limit t q).1.length := by
  induction q with
  | nil =>
    intro t hp _
    have ht : t = [] := by
      have := hp.length_eq
      simp [Table.keys] at this
      exact List.eq_nil_of_length_eq_zero this.symm
    subst ht
    simp [evictEntries, Table.keys]
  | cons i q ih =>
    intro t hp hnd
    unfold evictEntries
    by_cases hlt : limit < t.length
    · simp only [hlt, if_true]
      have hndq : (i :: q).Nodup := hp.nodup_iff.mpr hnd
      have hiq : i ∉ q := (List.nodup_cons.mp hndq).1
      have hp2 : q.Perm (Table.keys (Table.erase t i)) := by
        rw [Table.keys_erase t i hnd]
        have h1 := hp.filter (fun x => x != i)
        rw [List.filter_cons] at h1
        simp only [bne_self_eq_false, Bool.false_eq_true, if_false] at h1
        have h2 : q.filter (fun x => x != i) = q := by
          rw [List.filter_eq_self]
          intro a ha
          simp only [bne_iff_ne, ne_eq]
          intro hai
          exact hiq (hai ▸ ha)
        rw [h2] at h1
        exact h1
      have hnd2 : (Table.keys (Table.erase t i)).Nodup := by
        rw [Table.keys_erase t i hnd]
        exact hnd.filter _
      obtain ⟨h1, h2, h3, ⟨ev, h4⟩, h5⟩ := ih (Table.erase t i) hp2 hnd2
      refine ⟨h1, h2, h3, ⟨i :: ev, by rw [List.cons_append, ← h4]⟩, ?_⟩
      have hlen : (Table.erase t i).length = t.length - 1 := by
        have hik : i ∈ Table.keys t := hp.mem_iff.mp (List.mem_cons_self _ _)
        obtain ⟨x, hx, hxi⟩ := List.mem_map.mp hik
        exact List.length_eraseP_of_mem hx (by simpa using hxi)
      rw [hlen] at h5
      omega
    · simp only [hlt, if_false]
      exact ⟨Nat.le_of_not_lt hlt, hp, hnd, ⟨[], rfl⟩, Nat.min_le_left _ _⟩

theorem filter_ne_self_of_not_mem (q : List Name) (i : Name) (h : i ∉ q) :
    q.filter (fun x => x != i) = q := by
  rw [List.filter_eq_self]
  intro a ha
  simp only [bne_iff_ne, ne_eq]
  intro hai
  exact h (hai ▸ ha)

theorem move_back_perm (q : List Name) (i : Name) (hnd : q.Nodup) (hi : i ∈ q) :
    (q.filter (fun x => x != i) ++ [i]).Perm q := by
  induction q with
  | nil => cases hi
  | cons x xs ih =>
    have hx := (List.nodup_cons.mp hnd).1
    have hnd2 := (List.nodup_cons.mp hnd).2
    by_cases hxi : x = i
    · subst hxi
      rw [List.filter_cons]
      simp only [bne_self_eq_false, Bool.false_eq_true, if_false]
      rw [filter_ne_self_of_not_mem xs x hx]
      exact List.perm_append_singleton x xs
    · have hb : (x != i) = true := by simpa using hxi
      rw [List.filter_cons, hb]
      simp only [if_true, List.cons_append]
      have hi2 : i ∈ xs := by
        rcases List.mem_cons.mp hi with h | h
        · exact absurd h.symm hxi
        · exact h
      exact List.Perm.cons x (ih hnd2 hi2)

end cs

namespace Cs

open cs

theorem policyEvictEntries_inv (c : Cs) (hp : c.policy.queue.Perm (Table.keys c.table))
    (hnd : (Table.keys c.table).Nodup) : c.policyEvictEntries.Inv := by
  obtain ⟨h1, h2, h3, _, _⟩ := evictEntries_spec c.policy.limit c.policy.queue c.table hp hnd
  exact ⟨h1, h2, h3⟩

theorem policyEvictEntries_limit (c : Cs) : c.policyEvictEntries.policy.limit = c.policy.limit :=
  rfl

theorem setLimit_inv (c : Cs) (n : Nat) (h : c.Inv) : (c.setLimit n).Inv := by
  unfold setLimit policySetLimit
  exact policyEvictEntries_inv _ h.2.1 h.2.2

theorem new_inv (n : Nat) : (Cs.new n).Inv := by
  unfold Cs.new policySetLimit
  apply policyEvictEntries_inv
  · exact List.Perm.refl _
  · exact List.nodup_nil

theorem policyBeforeUse_inv (c : Cs) (i : Name) (h : c.Inv) (hi : i ∈ Table.keys c.table) :
    (c.policyBeforeUse i).Inv := by
  obtain ⟨h1, h2, h3⟩ := h
  have hq : i ∈ c.policy.queue := h2.mem_iff.mpr hi
  have hndq : c.policy.queue.Nodup := h2.nodup_iff.mpr h3
  refine ⟨h1, ?_, h3⟩
  show (c.policy.insertToQueue i false).queue.Perm (Table.keys c.table)
  unfold Policy.insertToQueue
  simp only [hq, if_true, Bool.false_eq_true, if_false]
  exact (move_back_perm _ i hndq hq).trans h2

theorem findImpl_inv (c : Cs) (now : Int) (interest : Interest) (h : c.Inv) :
    (c.findImpl now interest).2.Inv := by
  unfold findImpl
  split
  · exact h
  · dsimp only
    split
    · exact h
    · rename_i e he
      apply policyBeforeUse_inv c _ h
      have hmem : e ∈ Table.range c.table (c.findPrefixRange interest.name) :=
        List.mem_of_find?_eq_some he
      unfold Table.range at hmem
      have : e ∈ c.table := List.mem_of_mem_drop (List.mem_of_mem_take hmem)
      exact List.mem_map_of_mem _ this

theorem find_snd (c : Cs) (now : Int) (interest : Interest) :
    (c.find now interest).2 = (c.findImpl now interest).2 := by
  unfold find
  dsimp only
  cases (c.findImpl now interest).1 <;> rfl

theorem eraseStep_inv (c : Cs) (k : Name) (h : c.Inv) :
    Inv { c.policyBeforeErase k with table := Table.erase (c.policyBeforeErase k).table k } := by
  obtain ⟨h1, h2, h3⟩ := h
  refine ⟨?_, ?_, ?_⟩
  · show (Table.erase c.table k).length ≤ c.policy.limit
    exact Nat.le_trans (List.length_eraseP_le _) h1
  · show (c.policy.queue.filter (fun x => x != k)).Perm (Table.keys (Table.erase c.table k))
    rw [Table.keys_erase c.table k h3]
    exact h2.filter _
  · show (Table.keys (Table.erase c.table k)).Nodup
    rw [Table.keys_erase c.table k h3]
    exact h3.filter _

theorem eraseLoop_inv (limit : Nat) (es : List Entry) :
    ∀ (n : Nat) (c : Cs), c.Inv → (eraseLoop limit es n c).2.Inv := by
  induction es with
  | nil => intro n c h; exact h
  | cons e es ih =>
    intro n c h
    unfold eraseLoop
    split
    · exact ih _ _ (eraseStep_inv c e.getFullName h)
    · exact h

theorem erase_inv (c : Cs) (pfx : Name) (limit : Nat) (h : c.Inv) : (c.erase pfx limit).Inv :=
  eraseLoop_inv limit _ 0 c h

theorem insert_fst (c : Cs) (now : Int) (data : Data) (u : Bool) :
    (c.insert now data u).1 = (c.shouldAdmit && c.policy.limit != 0
      && data.cachePolicyTag != some CachePolicyType.NO_CACHE && c.cacheDecisionImpl data) := by
  unfold insert
  by_cases h1 : (!c.shouldAdmit || c.policy.limit == 0) = true
  · rw [if_pos h1]
    simp only [Bool.or_eq_true, Bool.not_eq_true', beq_iff_eq] at h1
    rcases h1 with h | h <;> simp [h]
  · rw [if_neg h1]
    simp only [Bool.or_eq_true, Bool.not_eq_true', beq_iff_eq, not_or] at h1
    by_cases h2 : (data.cachePolicyTag == some CachePolicyType.NO_CACHE) = true
    · rw [if_pos h2]
      simp only [beq_iff_eq] at h2
      simp [h2]
    · rw [if_neg h2]
      by_cases h3 : (!c.cacheDecisionImpl data) = true
      · rw [if_pos h3]
        simp only [Bool.not_eq_true'] at h3
        simp [h3]
      · rw [if_neg h3]
        simp only [Bool.not_eq_true', Bool.not_eq_false] at h3
        have h1a : c.shouldAdmit = true := by simpa using h1.1
        have h1b : (c.policy.limit != 0) = true := by simpa using h1.2
        have h2b : (data.cachePolicyTag != some CachePolicyType.NO_CACHE) = true := by
          simpa using h2
        rw [h1a, h1b, h2b, h3]
        dsimp only
        split <;> rfl

theorem insert_of_not_admitted (c : Cs) (now : Int) (data : Data) (u : Bool)
    (h : (c.insert now data u).1 = false) : (c.insert now data u).2 = c := by
  unfold insert at h ⊢
  by_cases h1 : (!c.shouldAdmit || c.policy.limit == 0) = true
  · rw [if_pos h1]
  · rw [if_neg h1] at h ⊢
    by_cases h2 : (data.cachePolicyTag == some CachePolicyType.NO_CACHE) = true
    · rw [if_pos h2]
    · rw [if_neg h2] at h ⊢
      by_cases h3 : (!c.cacheDecisionImpl data) = true
      · rw [if_pos h3]
      · rw [if_neg h3] at h
        dsimp only at h
        split at h <;> cases h

/-- The two ways in which `Cs::insert` admits a Data: refresh of the entry stored under
its full Name, or a new entry. -/
theorem insert_admitted (c : Cs) (now : Int) (data : Data) (u : Bool)
    (h : (c.insert now data u).1 = true) :
    (c.insert now data u).2 =
      if c.table.any (fun x => x.getFullName == data.getFullName) then
        policyAfterRefresh { c with table :=
          (Table.modify (Table.modify c.table data.getFullName
              (fun e => e.updateFreshUntil now)) data.getFullName
            (fun e => if e.isUnsolicited && !u then e.clearUnsolicited else e)) }
          data.getFullName
      else
        policyAfterInsert { c with table :=
          (Table.modify (Table.insertSorted
              { data := data, isUnsolicited := u, freshUntil := 0 } c.table)
            data.getFullName (fun e => e.updateFreshUntil now)) }
          data.getFullName := by
  have hf := insert_fst c now data u
  rw [h] at hf
  have hf := hf.symm
  simp only [Bool.and_eq_true, bne_iff_ne, ne_eq] at hf
  obtain ⟨⟨⟨h1, h2⟩, h3⟩, h4⟩ := hf
  unfold insert
  have c1 : ¬ (!c.shouldAdmit || c.policy.limit == 0) = true := by simp [h1, h2]
  have c2 : ¬ (data.cachePolicyTag == some CachePolicyType.NO_CACHE) = true := by simpa using h3
  have c3 : ¬ (!c.cacheDecisionImpl data) = true := by simp [h4]
  rw [if_neg c1, if_neg c2, if_neg c3]
  dsimp only
  unfold Table.emplace
  by_cases hany : c.table.any (fun x => x.getFullName == data.getFullName) = true
  · have : (c.table.any (fun x => x.getFullName ==
        ({ data := data, isUnsolicited := u, freshUntil := 0 } : Entry).getFullName)) = true :=
      hany
    rw [if_pos this, if_pos hany]
    rfl
  · have : ¬ (c.table.any (fun x => x.getFullName ==
        ({ data := data, isUnsolicited := u, freshUntil := 0 } : Entry).getFullName)) = true :=
      hany
    rw [if_neg this, if_neg hany]
    rfl

theorem keys_insertSorted_modify (t : Table) (e : Entry) (g : Entry → Entry)
    (hg : ∀ x, (g x).getFullName = x.getFullName) :
    (Table.keys (Table.modify (Table.insertSorted e t) e.getFullName g)).Perm
      (e.getFullName :: Table.keys t) := by
  rw [Table.keys_modify _ _ _ hg]
  exact (Table.insertSorted_perm e t).map _

theorem not_mem_keys_of_any_false (t : Table) (k : Name)
    (h : ¬ t.any (fun x => x.getFullName == k) = true) : k ∉ Table.keys t := by
  intro hk
  apply h
  obtain ⟨x, hx, hxk⟩ := List.mem_map.mp hk
  exact List.any_eq_true.mpr ⟨x, hx, by simpa using hxk⟩

theorem mem_keys_of_any (t : Table) (k : Name)
    (h : t.any (fun x => x.getFullName == k) = true) : k ∈ Table.keys t := by
  obtain ⟨x, hx, hxk⟩ := List.any_eq_true.mp h
  exact List.mem_map.mpr ⟨x, hx, by simpa using hxk⟩

theorem keys_refresh (t : Table) (it : Name) (now : Int) (u : Bool) :
    Table.keys (Table.modify (Table.modify t it (fun e => e.updateFreshUntil now)) it
      (fun e => if e.isUnsolicited && !u then e.clearUnsolicited else e)) = Table.keys t := by
  rw [Table.keys_modify, Table.keys_modify]
  · intro e; rfl
  · intro e; split <;> rfl

theorem insert_inv (c : Cs) (now : Int) (data : Data) (u : Bool) (h : c.Inv) :
    (c.insert now data u).2.Inv := by
  cases hadm : (c.insert now data u).1 with
  | false => rw [insert_of_not_admitted c now data u hadm]; exact h
  | true =>
    rw [insert_admitted c now data u hadm]
    obtain ⟨h1, h2, h3⟩ := h
    split
    · rename_i hany
      apply policyBeforeUse_inv
      · refine ⟨?_, ?_, ?_⟩
        · show (Table.modify _ _ _).length ≤ c.policy.limit
          rw [Table.length_modify, Table.length_modify]; exact h1
        · show c.policy.queue.Perm (Table.keys (Table.modify _ _ _))
          rw [keys_refresh]
          exact h2
        · show (Table.keys (Table.modify _ _ _)).Nodup
          rw [keys_refresh]
          exact h3
      · show data.getFullName ∈ Table.keys (Table.modify _ _ _)
        rw [keys_refresh]
        exact mem_keys_of_any _ _ hany
    · rename_i hany
      have hk : data.getFullName ∉ Table.keys c.table := not_mem_keys_of_any_false _ _ hany
      have hq : data.getFullName ∉ c.policy.queue := fun hq => hk (h2.mem_iff.mp hq)
      have hperm := keys_insertSorted_modify c.table
        { data := data, isUnsolicited := u, freshUntil := 0 }
        (fun e => e.updateFreshUntil now) (fun _ => rfl)
      unfold policyAfterInsert
      apply policyEvictEntries_inv
      · show (c.policy.insertToQueue data.getFullName true).queue.Perm _
        unfold Policy.insertToQueue
        simp only [hq, if_false, if_true]
        refine List.Perm.trans ?_ hperm.symm
        exact (List.perm_append_singleton _ _).trans (List.Perm.cons _ h2)
      · show (Table.keys (Table.modify _ _ _)).Nodup
        exact hperm.nodup_iff.mpr (List.nodup_cons.mpr ⟨hk, h3⟩)

theorem step_inv (c : Cs) (op : Op) (h : c.Inv) : (c.step op).Inv := by
  cases op with
  | insert now data u => exact insert_inv c now data u h
  | find now interest => show (c.find now interest).2.Inv; rw [find_snd]; exact findImpl_inv c now interest h
  | erase pfx limit => exact erase_inv c pfx limit h
  | setLimit n => exact setLimit_inv c n h

theorem reachable_inv {c : Cs} (h : c.Reachable) : c.Inv := by
  induction h with
  | init n => exact new_inv n
  | step op _ ih => exact step_inv _ op ih

theorem mem_of_append_singleton_eq {l ev q : List Name} {a : Name}
    (h : l ++ [a] = ev ++ q) (hq : q ≠ []) : a ∈ q := by
  have hlast : (l ++ [a]).getLast? = some a := by simp
  rw [h] at hlast
  have hq2 : (ev ++ q).getLast? = q.getLast? := by
    cases q with
    | nil => exact absurd rfl hq
    | cons y ys =>
      rw [List.getLast?_append]
      cases hl : (y :: ys).getLast? with
      | none => simp at hl
      | some z => rfl
  rw [hq2] at hlast
  exact List.mem_of_getLast?_eq_some hlast

theorem insert_stores (c : Cs) (now : Int) (data : Data) (u : Bool) (h : c.Inv)
    (hadm : (c.insert now data u).1 = true) :
    data.getFullName ∈ Table.keys (c.insert now data u).2.table := by
  have hf := insert_fst c now data u
  rw [hadm] at hf
  have hlim : c.policy.limit ≠ 0 := by
    have hf := hf.symm
    simp only [Bool.and_eq_true, bne_iff_ne, ne_eq] at hf
    exact hf.1.1.2
  rw [insert_admitted c now data u hadm]
  obtain ⟨h1, h2, h3⟩ := h
  split
  · rename_i hany
    show data.getFullName ∈ Table.keys (Table.modify _ _ _)
    rw [keys_refresh]
    exact mem_keys_of_any _ _ hany
  · rename_i hany
    have hk : data.getFullName ∉ Table.keys c.table := not_mem_keys_of_any_false _ _ hany
    have hq : data.getFullName ∉ c.policy.queue := fun hq => hk (h2.mem_iff.mp hq)
    have hperm := keys_insertSorted_modify c.table
      { data := data, isUnsolicited := u, freshUntil := 0 }
      (fun e => e.updateFreshUntil now) (fun _ => rfl)
    have hqp : (c.policy.queue ++ [data.getFullName]).Perm
        (Table.keys (Table.modify (Table.insertSorted
          { data := data, isUnsolicited := u, freshUntil := 0 } c.table)
          data.getFullName (fun e => e.updateFreshUntil now))) :=
      ((List.perm_append_singleton _ _).trans (List.Perm.cons _ h2)).trans hperm.symm
    have hnd : (Table.keys (Table.modify (Table.insertSorted
          { data := data, isUnsolicited := u, freshUntil := 0 } c.table)
          data.getFullName (fun e => e.updateFreshUntil now))).Nodup :=
      hperm.nodup_iff.mpr (List.nodup_cons.mpr ⟨hk, h3⟩)
    obtain ⟨_, e2, _, ⟨ev, e4⟩, e5⟩ := evictEntries_spec c.policy.limit _ _ hqp hnd
    unfold policyAfterInsert policyEvictEntries
    show data.getFullName ∈ Table.keys (evictEntries _ _ (c.policy.insertToQueue _ true).queue).1
    have hqq : (c.policy.insertToQueue data.getFullName true).queue
        = c.policy.queue ++ [data.getFullName] := by
      unfold Policy.insertToQueue
      simp only [hq, if_false, if_true]
    rw [hqq]
    apply e2.mem_iff.mp
    apply mem_of_append_singleton_eq e4
    intro hnil
    rw [hnil] at e2
    have hlen := e2.length_eq
    simp only [List.length_nil, Table.keys, List.length_map] at hlen
    have hpos : 0 < (Table.modify (Table.insertSorted
          { data := data, isUnsolicited := u, freshUntil := 0 } c.table)
          data.getFullName (fun e => e.updateFreshUntil now)).length := by
      rw [Table.length_modify, (Table.insertSorted_perm _ _).length_eq]
      simp
    omega

/-- C7: `Cs::insert` returns true exactly when the admit flag is set, the policy limit is
not zero, the Data carries no CachePolicy tag `NO_CACHE`, and `cacheDecisionImpl`
accepts it.  When it returns false the table and the policy are unchanged; when it
returns true on a store that satisfies the store invariant, an entry with the Data's full
Name is in the table afterwards.  A Data tagged `NO_CACHE` is never admitted, whatever
the flags and the limit. -/
theorem insert_admits_iff (c : Cs) (now : Int) (data : Data) (isUnsolicited : Bool) :
    ((c.insert now data isUnsolicited).1 = true ↔
      (c.shouldAdmit = true ∧ c.policy.limit ≠ 0 ∧
       data.cachePolicyTag ≠ some CachePolicyType.NO_CACHE ∧
       c.cacheDecisionImpl data = true)) ∧
    ((c.insert now data isUnsolicited).1 = false →
      (c.insert now data isUnsolicited).2 = c) ∧
    (c.Inv → (c.insert now data isUnsolicited).1 = true →
      ∃ e ∈ (c.insert now data isUnsolicited).2.table, e.getFullName = data.getFullName) ∧
    (data.cachePolicyTag = some CachePolicyType.NO_CACHE →
      c.insert now data isUnsolicited = (false, c)) := by
  have hiff : (c.insert now data isUnsolicited).1 = true ↔
      (c.shouldAdmit = true ∧ c.policy.limit ≠ 0 ∧
       data.cachePolicyTag ≠ some CachePolicyType.NO_CACHE ∧
       c.cacheDecisionImpl data = true) := by
    rw [insert_fst]
    simp only [Bool.and_eq_true, bne_iff_ne, ne_eq, and_assoc]
  refine ⟨hiff, insert_of_not_admitted c now data isUnsolicited, ?_, ?_⟩
  · intro hinv hadm
    have := insert_stores c now data isUnsolicited hinv hadm
    obtain ⟨e, he, hk⟩ := List.mem_map.mp this
    exact ⟨e, he, hk⟩
  · intro htag
    have hf : (c.insert now data isUnsolicited).1 = false := by
      cases hb : (c.insert now data isUnsolicited).1 with
      | false => rfl
      | true => exact absurd htag (hiff.mp hb).2.2.1
    exact Prod.ext hf (insert_of_not_admitted c now data isUnsolicited hf)

/-- C7 (witness): a fresh store of capacity 1 stores Data `/1` and refuses the same Data
tagged `NO_CACHE`. -/
theorem insert_admits_iff_witness :
    (∃ e ∈ ((Cs.new 1).insert 0 Sample.dataX false).2.table,
      e.getFullName = Sample.dataX.getFullName) ∧
    (Cs.new 1).insert 0 Sample.dataNoCache false = (false, Cs.new 1) :=
  ⟨(insert_admits_iff (Cs.new 1) 0 Sample.dataX false).2.2.1 (new_inv 1) (by decide),
   (insert_admits_iff (Cs.new 1) 0 Sample.dataNoCache false).2.2.2 (by decide)⟩

/-- C8: in every state reachable from a freshly constructed store through `insert`,
`erase`, `find` and `setLimit`, `size()` is at most `getLimit()`. -/
theorem size_le_getLimit (c : Cs) (h : c.Reachable) : c.size ≤ c.getLimit :=
  (reachable_inv h).1

/-- C8 (witness): a store of capacity 1 after two inserts. -/
theorem size_le_getLimit_witness :
    (((Cs.new 1).step (Op.insert 0 Sample.dataX false)).step
        (Op.insert 0 Sample.dataY false)).size ≤
      (((Cs.new 1).step (Op.insert 0 Sample.dataX false)).step
        (Op.insert 0 Sample.dataY false)).getLimit :=
  size_le_getLimit _ (Reachable.step _ (Reachable.step _ (Reachable.init 1)))

theorem usedAfter_append {log : List Name} {a b k : Name}
    (h : UsedAfterLastUseOf log b a) (hak : a ≠ k) : UsedAfterLastUseOf (log ++ [k]) b a := by
  obtain ⟨l1, l2, hlog, hnot, hne⟩ := h
  refine ⟨l1, l2 ++ [k], by rw [hlog]; simp, ?_, hne⟩
  intro hmem
  rcases List.mem_append.mp hmem with h | h
  · exact hnot h
  · exact hak (List.mem_singleton.mp h)

theorem usedAfter_last (log : List Name) {a k : Name} (hak : a ≠ k) :
    UsedAfterLastUseOf (log ++ [k]) k a :=
  ⟨log, [], rfl, List.not_mem_nil _, hak⟩

theorem recency_use (q log : List Name) (k : Name)
    (h : q.Pairwise (fun a b => UsedAfterLastUseOf log b a)) :
    (q.filter (fun x => x != k) ++ [k]).Pairwise
      (fun a b => UsedAfterLastUseOf (log ++ [k]) b a) := by
  rw [List.pairwise_append]
  refine ⟨?_, List.pairwise_singleton _ _, ?_⟩
  · apply List.Pairwise.imp_of_mem _ (h.filter _)
    intro a b ha _ hab
    have hak : a ≠ k := by simpa using (List.mem_filter.mp ha).2
    exact usedAfter_append hab hak
  · intro a ha b hb
    have hak : a ≠ k := by simpa using (List.mem_filter.mp ha).2
    rw [List.mem_singleton.mp hb]
    exact usedAfter_last log hak

theorem insertToQueue_false_queue (p : Policy) (i : Name) :
    (p.insertToQueue i false).queue = p.queue.filter (fun x => x != i) ++ [i] := by
  unfold Policy.insertToQueue
  by_cases h : i ∈ p.queue
  · simp [h]
  · simp [h, List.filter_append]

theorem eraseLoop_queue_sublist (limit : Nat) (es : List Entry) :
    ∀ (n : Nat) (c : Cs), (eraseLoop limit es n c).2.policy.queue.Sublist c.policy.queue := by
  induction es with
  | nil => intro n c; exact List.Sublist.refl _
  | cons e es ih =>
    intro n c
    unfold eraseLoop
    split
    · exact (ih _ _).trans (List.filter_sublist _)
    · exact List.Sublist.refl _

theorem policyEvictEntries_queue_sublist (c : Cs) (hp : c.policy.queue.Perm (Table.keys c.table))
    (hnd : (Table.keys c.table).Nodup) :
    c.policyEvictEntries.policy.queue.Sublist c.policy.queue := by
  obtain ⟨_, _, _, ⟨ev, h4⟩, _⟩ := evictEntries_spec c.policy.limit c.policy.queue c.table hp hnd
  show (evictEntries c.policy.limit c.table c.policy.queue).2.Sublist c.policy.queue
  have hs : (evictEntries c.policy.limit c.table c.policy.queue).2.Sublist
      (ev ++ (evictEntries c.policy.limit c.table c.policy.queue).2) :=
    List.sublist_append_right _ _
  rw [← h4] at hs
  exact hs

theorem findImpl_cases (c : Cs) (now : Int) (interest : Interest) :
    c.findImpl now interest = (none, c) ∨
    ∃ e, (Table.range c.table (c.findPrefixRange interest.name)).find?
          (fun e => e.canSatisfy interest now) = some e ∧
      c.shouldServe = true ∧ c.policy.limit ≠ 0 ∧
      c.findImpl now interest = (some e, c.policyBeforeUse e.getFullName) := by
  unfold findImpl
  by_cases h : (!c.shouldServe || c.policy.limit == 0) = true
  · left; rw [if_pos h]
  · rw [if_neg h]
    dsimp only
    simp only [Bool.or_eq_true, Bool.not_eq_true', beq_iff_eq, not_or, Bool.not_eq_false] at h
    cases hf : (Table.range c.table (c.findPrefixRange interest.name)).find?
        (fun e => e.canSatisfy interest now) with
    | none => left; rfl
    | some e => right; exact ⟨e, rfl, h.1, h.2, rfl⟩

/-- The queue of the policy is ordered by recency of use: this is kept by every
operation of the store. -/
theorem step_recency (c : Cs) (op : Op) (log : List Name) (hinv : c.Inv)
    (h : c.policy.queue.Pairwise (fun a b => UsedAfterLastUseOf log b a)) :
    (c.step op).policy.queue.Pairwise
      (fun a b => UsedAfterLastUseOf (log ++ (c.used op).toList) b a) := by
  cases op with
  | insert now data u =>
    show (c.insert now data u).2.policy.queue.Pairwise _
    have hu : c.used (Op.insert now data u) =
        if (c.insert now data u).1 = true then some data.getFullName else none := rfl
    rw [hu]
    cases hadm : (c.insert now data u).1 with
    | false =>
      rw [insert_of_not_admitted c now data u hadm]
      simpa using h
    | true =>
      simp only [if_true, Option.toList_some]
      rw [insert_admitted c now data u hadm]
      by_cases hany : c.table.any (fun x => x.getFullName == data.getFullName) = true
      · rw [if_pos hany]
        show (c.policy.insertToQueue data.getFullName false).queue.Pairwise _
        rw [insertToQueue_false_queue]
        exact recency_use _ _ _ h
      · rw [if_neg hany]
        have hk : data.getFullName ∉ Table.keys c.table := not_mem_keys_of_any_false _ _ hany
        have hq : data.getFullName ∉ c.policy.queue := fun hq => hk (hinv.2.1.mem_iff.mp hq)
        have hperm := keys_insertSorted_modify c.table
          { data := data, isUnsolicited := u, freshUntil := 0 }
          (fun e => e.updateFreshUntil now) (fun _ => rfl)
        have hqq : (c.policy.insertToQueue data.getFullName true).queue
            = c.policy.queue.filter (fun x => x != data.getFullName) ++ [data.getFullName] := by
          unfold Policy.insertToQueue
          simp only [hq, if_false, if_true]
          rw [filter_ne_self_of_not_mem _ _ hq]
        unfold policyAfterInsert
        refine List.Pairwise.sublist (policyEvictEntries_queue_sublist _ ?_ ?_) ?_
        · show (c.policy.insertToQueue data.getFullName true).queue.Perm _
          rw [hqq, filter_ne_self_of_not_mem _ _ hq]
          exact ((List.perm_append_singleton _ _).trans
            (List.Perm.cons _ hinv.2.1)).trans hperm.symm
        · exact hperm.nodup_iff.mpr (List.nodup_cons.mpr ⟨hk, hinv.2.2⟩)
        · show (c.policy.insertToQueue data.getFullName true).queue.Pairwise _
          rw [hqq]
          exact recency_use _ _ _ h
  | find now interest =>
    show (c.find now interest).2.policy.queue.Pairwise _
    rw [find_snd]
    have hu : c.used (Op.find now interest) =
        match (c.findImpl now interest).1 with
        | some e => some e.getFullName
        | none => none := rfl
    rw [hu]
    rcases findImpl_cases c now interest with h0 | ⟨e, _, _, _, h1⟩
    · rw [h0]
      simpa using h
    · rw [h1]
      simp only [Option.toList_some]
      show (c.policy.insertToQueue _ false).queue.Pairwise _
      rw [insertToQueue_false_queue]
      exact recency_use _ _ _ h
  | erase pfx limit =>
    show (eraseLoop limit _ 0 c).2.policy.queue.Pairwise _
    simp only [used, Option.toList_none, List.append_nil]
    exact h.sublist (eraseLoop_queue_sublist _ _ _ _)
  | setLimit n =>
    show (policyEvictEntries _).policy.queue.Pairwise _
    simp only [used, Option.toList_none, List.append_nil]
    exact h.sublist (policyEvictEntries_queue_sublist _ hinv.2.1 hinv.2.2)

theorem run_recency (ops : List Op) :
    ∀ (c : Cs) (log : List Name), c.Inv →
      c.policy.queue.Pairwise (fun a b => UsedAfterLastUseOf log b a) →
      (c.run ops).1.Inv ∧
      (c.run ops).1.policy.queue.Pairwise
        (fun a b => UsedAfterLastUseOf (log ++ (c.run ops).2) b a) := by
  induction ops with
  | nil => intro c log hinv h; exact ⟨hinv, by simpa [run] using h⟩
  | cons op ops ih =>
    intro c log hinv h
    unfold run
    dsimp only
    obtain ⟨h1, h2⟩ := ih (c.step op) (log ++ (c.used op).toList) (step_inv c op hinv)
      (step_recency c op log hinv h)
    exact ⟨h1, by rw [← List.append_assoc]; exact h2⟩

/-- C9: under the LRU policy, whenever an `insert` on a store built by any sequence of
operations from a fresh store evicts an entry, every entry stored afterwards was used
(inserted, refreshed or returned by `find`) after the last use of the evicted one.  And
with capacity 1, after `insert` of Data `/1` and then of Data `/2`, `find` of `/1`
misses and `find` of `/2` hits. -/
theorem insert_evicts_least_recently_used :
    (∀ (nMaxPackets : Nat) (ops : List Op) (now : Int) (data : Data) (isUnsolicited : Bool)
        (k k2 : Name),
      k ∈ Table.keys ((Cs.new nMaxPackets).run ops).1.table →
      k ∉ Table.keys
        (((Cs.new nMaxPackets).run ops).1.insert now data isUnsolicited).2.table →
      k2 ∈ Table.keys
        (((Cs.new nMaxPackets).run ops).1.insert now data isUnsolicited).2.table →
      UsedAfterLastUseOf (((Cs.new nMaxPackets).run ops).2 ++ [data.getFullName]) k2 k) ∧
    ((((Cs.new 1).insert 0 Sample.dataX false).2.insert 1 Sample.dataY false).2.find 2
        Sample.interestX).1 = [Callback.miss Sample.interestX] ∧
    ((((Cs.new 1).insert 0 Sample.dataX false).2.insert 1 Sample.dataY false).2.find 2
        Sample.interestY).1 = [Callback.hit Sample.interestY Sample.dataY] := by
  refine ⟨?_, by decide, by decide⟩
  intro n ops now data u k k2 hk hk' hk2
  obtain ⟨hinv, hrec⟩ := run_recency ops (Cs.new n) [] (new_inv n)
    (by show List.Pairwise _ []; exact List.Pairwise.nil)
  rw [List.nil_append] at hrec
  generalize ((Cs.new n).run ops).1 = c at hk hk' hk2 hinv hrec
  generalize ((Cs.new n).run ops).2 = log at hrec
  cases hadm : (c.insert now data u).1 with
  | false =>
    rw [insert_of_not_admitted c now data u hadm] at hk'
    exact absurd hk hk'
  | true =>
    rw [insert_admitted c now data u hadm] at hk' hk2
    by_cases hany : c.table.any (fun x => x.getFullName == data.getFullName) = true
    · rw [if_pos hany] at hk'
      have : k ∈ Table.keys (Table.modify (Table.modify c.table data.getFullName
          (fun e => e.updateFreshUntil now)) data.getFullName
            (fun e => if e.isUnsolicited && !u then e.clearUnsolicited else e)) := by
        rw [keys_refresh]; exact hk
      exact absurd this hk'
    · rw [if_neg hany] at hk' hk2
      have hkd : data.getFullName ∉ Table.keys c.table := not_mem_keys_of_any_false _ _ hany
      have hq : data.getFullName ∉ c.policy.queue := fun hq => hkd (hinv.2.1.mem_iff.mp hq)
      have hperm := keys_insertSorted_modify c.table
        { data := data, isUnsolicited := u, freshUntil := 0 }
        (fun e => e.updateFreshUntil now) (fun _ => rfl)
      have hqp : (c.policy.queue ++ [data.getFullName]).Perm
          (Table.keys (Table.modify (Table.insertSorted
            { data := data, isUnsolicited := u, freshUntil := 0 } c.table)
            data.getFullName (fun e => e.updateFreshUntil now))) :=
        ((List.perm_append_singleton _ _).trans (List.Perm.cons _ hinv.2.1)).trans hperm.symm
      have hnd : (Table.keys (Table.modify (Table.insertSorted
            { data := data, isUnsolicited := u, freshUntil := 0 } c.table)
            data.getFullName (fun e => e.updateFreshUntil now))).Nodup :=
        hperm.nodup_iff.mpr (List.nodup_cons.mpr ⟨hkd, hinv.2.2⟩)
      obtain ⟨_, e2, _, ⟨ev, e4⟩, _⟩ := evictEntries_spec c.policy.limit _ _ hqp hnd
      have hqq : (c.policy.insertToQueue data.getFullName true).queue
          = c.policy.queue ++ [data.getFullName] := by
        unfold Policy.insertToQueue
        simp only [hq, if_false, if_true]
      have hk'2 : k ∉ Table.keys (evictEntries c.policy.limit
          (Table.modify (Table.insertSorted
            { data := data, isUnsolicited := u, freshUntil := 0 } c.table)
            data.getFullName (fun e => e.updateFreshUntil now))
          (c.policy.queue ++ [data.getFullName])).1 := by
        rw [← hqq]; exact hk'
      have hk22 : k2 ∈ Table.keys (evictEntries c.policy.limit
          (Table.modify (Table.insertSorted
            { data := data, isUnsolicited := u, freshUntil := 0 } c.table)
            data.getFullName (fun e => e.updateFreshUntil now))
          (c.policy.queue ++ [data.getFullName])).1 := by
        rw [← hqq]; exact hk2
      have hrec2 : (c.policy.queue ++ [data.getFullName]).Pairwise
          (fun a b => UsedAfterLastUseOf (log ++ [data.getFullName]) b a) := by
        have := recency_use c.policy.queue log data.getFullName hrec
        rw [filter_ne_self_of_not_mem _ _ hq] at this
        exact this
      have hkq : k ∈ c.policy.queue ++ [data.getFullName] :=
        List.mem_append_left _ (hinv.2.1.mem_iff.mpr hk)
      have hk2q := e2.mem_iff.mpr hk22
      have hknq : k ∉ (evictEntries c.policy.limit
          (Table.modify (Table.insertSorted
            { data := data, isUnsolicited := u, freshUntil := 0 } c.table)
            data.getFullName (fun e => e.updateFreshUntil now))
          (c.policy.queue ++ [data.getFullName])).2 := fun hx => hk'2 (e2.mem_iff.mp hx)
      rw [e4] at hrec2 hkq
      have hkev : k ∈ ev := by
        rcases List.mem_append.mp hkq with h | h
        · exact h
        · exact absurd h hknq
      exact (List.pairwise_append.mp hrec2).2.2 k hkev k2 hk2q

/-- C9 (witness): with capacity 1, inserting Data `/2` evicts Data `/1`, and `/2` was used
after the last use of `/1`. -/
theorem insert_evicts_least_recently_used_witness :
    UsedAfterLastUseOf
      (((Cs.new 1).run [Op.insert 0 Sample.dataX false]).2 ++ [Sample.dataY.getFullName])
      Sample.dataY.getFullName Sample.dataX.getFullName :=
  insert_evicts_least_recently_used.1 1 [Op.insert 0 Sample.dataX false] 1 Sample.dataY false
    Sample.dataX.getFullName Sample.dataY.getFullName (by decide) (by decide) (by decide)

end Cs

namespace cs

theorem Table.mem_insertSorted {e x : Entry} {t : Table} :
    x ∈ Table.insertSorted e t ↔ x = e ∨ x ∈ t := by
  rw [(Table.insertSorted_perm e t).mem_iff, List.mem_cons]

theorem Table.insertSorted_sorted (e : Entry) (t : Table) (hs : Table.Sorted t)
    (hk : e.getFullName ∉ Table.keys t) : Table.Sorted (Table.insertSorted e t) := by
  unfold Table.Sorted at *
  induction t with
  | nil => exact List.pairwise_singleton _ _
  | cons x xs ih =>
    have hx := List.pairwise_cons.mp hs
    unfold Table.insertSorted
    by_cases hlt : Name.lt e.getFullName x.getFullName = true
    · rw [if_pos hlt]
      refine List.pairwise_cons.mpr ⟨?_, hs⟩
      intro y hy
      rcases List.mem_cons.mp hy with rfl | hy
      · exact hlt
      · exact Name.lt_trans hlt (hx.1 y hy)
    · rw [if_neg hlt]
      have hne : e.getFullName ≠ x.getFullName := by
        intro h
        exact hk (by rw [h]; exact List.mem_map_of_mem _ (List.mem_cons_self _ _))
      have hxe : Name.lt x.getFullName e.getFullName = true :=
        Name.lt_total (by simpa using hlt) hne
      refine List.pairwise_cons.mpr ⟨?_, ih hx.2 ?_⟩
      · intro y hy
        rcases Table.mem_insertSorted.mp hy with rfl | hy
        · exact hxe
        · exact hx.1 y hy
      · intro h
        exact hk (List.mem_cons_of_mem _ h)

theorem Table.modify_sorted (t : Table) (i : Name) (g : Entry → Entry)
    (hg : ∀ e, (g e).getFullName = e.getFullName) (hs : Table.Sorted t) :
    Table.Sorted (Table.modify t i g) := by
  unfold Table.Sorted Table.modify at *
  rw [List.pairwise_map]
  apply hs.imp
  intro a b hab
  have ha : (if (a.getFullName == i) = true then g a else a).getFullName = a.getFullName := by
    split
    · exact hg a
    · rfl
  have hb : (if (b.getFullName == i) = true then g b else b).getFullName = b.getFullName := by
    split
    · exact hg b
    · rfl
  rw [ha, hb]
  exact hab

theorem Table.erase_sorted (t : Table) (i : Name) (hs : Table.Sorted t) :
    Table.Sorted (Table.erase t i) :=
  List.Pairwise.sublist (List.eraseP_sublist _) hs

theorem evictEntries_sorted (limit : Nat) (q : List Name) :
    ∀ t : Table, Table.Sorted t → Table.Sorted (evictEntries limit t q).1 := by
  induction q with
  | nil => intro t hs; exact hs
  | cons i q ih =>
    intro t hs
    unfold evictEntries
    split
    · exact ih _ (Table.erase_sorted t i hs)
    · exact hs

theorem evictEntries_sublist (limit : Nat) (q : List Name) :
    ∀ t : Table, (evictEntries limit t q).1.Sublist t := by
  induction q with
  | nil => intro t; exact List.Sublist.refl _
  | cons i q ih =>
    intro t
    unfold evictEntries
    split
    · exact (ih _).trans (List.eraseP_sublist _)
    · exact List.Sublist.refl _

end cs

namespace Cs

open cs

theorem insert_sorted (c : Cs) (now : Int) (data : Data) (u : Bool)
    (hs : Table.Sorted c.table) : Table.Sorted (c.insert now data u).2.table := by
  cases hadm : (c.insert now data u).1 with
  | false => rw [insert_of_not_admitted c now data u hadm]; exact hs
  | true =>
    rw [insert_admitted c now data u hadm]
    by_cases hany : c.table.any (fun x => x.getFullName == data.getFullName) = true
    · rw [if_pos hany]
      show Table.Sorted (Table.modify (Table.modify c.table _ _) _ _)
      apply Table.modify_sorted
      · intro e; split <;> rfl
      · apply Table.modify_sorted
        · intro e; rfl
        · exact hs
    · rw [if_neg hany]
      unfold policyAfterInsert policyEvictEntries
      apply evictEntries_sorted
      show Table.Sorted (Table.modify (Table.insertSorted _ c.table) _ _)
      apply Table.modify_sorted
      · intro e; rfl
      · exact Table.insertSorted_sorted _ _ hs (not_mem_keys_of_any_false _ _ hany)

theorem findImpl_table (c : Cs) (now : Int) (interest : Interest) :
    (c.findImpl now interest).2.table = c.table := by
  rcases findImpl_cases c now interest with h | ⟨e, _, _, _, h⟩
  · rw [h]
  · rw [h]; rfl

theorem eraseLoop_sorted (limit : Nat) (es : List Entry) :
    ∀ (n : Nat) (c : Cs), Table.Sorted c.table →
      Table.Sorted (eraseLoop limit es n c).2.table := by
  induction es with
  | nil => intro n c h; exact h
  | cons e es ih =>
    intro n c h
    unfold eraseLoop
    split
    · exact ih _ _ (Table.erase_sorted _ _ h)
    · exact h

theorem step_sorted (c : Cs) (op : Op) (hs : Table.Sorted c.table) :
    Table.Sorted (c.step op).table := by
  cases op with
  | insert now data u => exact insert_sorted c now data u hs
  | find now interest =>
    show Table.Sorted (c.find now interest).2.table
    rw [find_snd, findImpl_table]; exact hs
  | erase pfx limit => exact eraseLoop_sorted _ _ _ _ hs
  | setLimit n => exact evictEntries_sorted _ _ _ hs

theorem reachable_sorted {c : Cs} (h : c.Reachable) : Table.Sorted c.table := by
  induction h with
  | init n => exact evictEntries_sorted _ _ _ List.Pairwise.nil
  | step op _ ih => exact step_sorted _ op ih

end Cs

namespace cs

theorem take_length_takeWhile (q : Entry → Bool) (l : List Entry) :
    l.take (l.takeWhile q).length = l.takeWhile q := by
  induction l with
  | nil => rfl
  | cons x xs ih =>
    by_cases h : q x = true
    · simp [List.takeWhile_cons, h, ih]
    · simp [List.takeWhile_cons, h]

theorem takeWhile_eq_filter_of_sorted (R : Entry → Entry → Prop) (q : Entry → Bool)
    (hq : ∀ a b, R a b → q b = true → q a = true) :
    ∀ t : List Entry, t.Pairwise R → t.takeWhile q = t.filter q := by
  intro t
  induction t with
  | nil => intro _; rfl
  | cons x xs ih =>
    intro hs
    have hx := List.pairwise_cons.mp hs
    by_cases h : q x = true
    · rw [List.takeWhile_cons, List.filter_cons, if_pos h, if_pos h, ih hx.2]
    · rw [List.takeWhile_cons, List.filter_cons, if_neg h, if_neg h]
      symm
      rw [List.filter_eq_nil_iff]
      intro y hy hqy
      exact h (hq x y (hx.1 y hy) hqy)

theorem range_eq_filter_aux (R : Entry → Entry → Prop) (p q : Entry → Bool)
    (hp : ∀ a b, R a b → p b = true → p a = true)
    (hq : ∀ a b, R a b → q b = true → q a = true)
    (hpq : ∀ a, p a = true → q a = true) :
    ∀ t : List Entry, t.Pairwise R →
      (t.drop (t.takeWhile p).length).take ((t.takeWhile q).length - (t.takeWhile p).length)
        = t.filter (fun x => !p x && q x) := by
  intro t
  induction t with
  | nil => intro _; rfl
  | cons x xs ih =>
    intro hs
    have hx := List.pairwise_cons.mp hs
    by_cases h1 : p x = true
    · have h2 := hpq x h1
      rw [List.takeWhile_cons, List.takeWhile_cons, if_pos h1, if_pos h2, List.filter_cons]
      simp only [List.length_cons, List.drop_succ_cons, h1, Bool.not_true, Bool.false_and,
        Bool.false_eq_true, if_false]
      rw [Nat.add_sub_add_right]
      exact ih hx.2
    · have hnp : ∀ y ∈ xs, p y = false := by
        intro y hy
        cases hpy : p y with
        | false => rfl
        | true => exact absurd (hp x y (hx.1 y hy) hpy) h1
      by_cases h2 : q x = true
      · rw [List.takeWhile_cons, List.takeWhile_cons, if_neg h1, if_pos h2, List.filter_cons]
        have h1f : p x = false := by simpa using h1
        simp only [List.length_nil, List.drop_zero, List.length_cons, Nat.sub_zero,
          List.take_succ_cons, h1f, h2, Bool.not_false, Bool.and_self, if_true]
        congr 1
        rw [take_length_takeWhile, takeWhile_eq_filter_of_sorted R q hq xs hx.2]
        apply List.filter_congr
        intro y hy
        simp [hnp y hy]
      · rw [List.takeWhile_cons, List.takeWhile_cons, if_neg h1, if_neg h2, List.filter_cons]
        have h2f : q x = false := by simpa using h2
        simp only [List.length_nil, Nat.sub_zero, List.take_zero, h2f, Bool.and_false,
          Bool.false_eq_true, if_false]
        symm
        rw [List.filter_eq_nil_iff]
        intro y hy hqy
        simp only [Bool.and_eq_true] at hqy
        exact h2 (hq x y (hx.1 y hy) hqy.2)

end cs

namespace Cs

open cs

/-- On a table in Name order, the range of `findPrefixRange` holds exactly the entries
whose full Name starts with the prefix. -/
theorem range_findPrefixRange (c : Cs) (pfx : Name) (hs : Table.Sorted c.table) :
    Table.range c.table (c.findPrefixRange pfx) =
      c.table.filter (fun e => Name.isPrefixOf pfx e.getFullName) := by
  unfold Table.range findPrefixRange Table.lowerBound
  dsimp only
  by_cases hp : pfx = []
  · subst hp
    have h0 : c.table.takeWhile (fun x => Name.lt x.getFullName []) = [] := by
      cases c.table with
      | nil => rfl
      | cons x xs => simp [List.takeWhile_cons, Name.lt_nil_right]
    simp only [h0, List.length_nil, List.drop_zero, Nat.lt_irrefl, if_false, Nat.sub_zero,
      List.take_length]
    symm
    rw [List.filter_eq_self]
    intro e _
    exact Name.isPrefixOf_nil _
  · have hlen : 0 < pfx.length := List.length_pos.mpr hp
    rw [if_pos hlen]
    rw [range_eq_filter_aux (fun a b => Name.lt a.getFullName b.getFullName = true)
      (fun x => Name.lt x.getFullName pfx) (fun x => Name.lt x.getFullName pfx.getSuccessor)
      (fun a b hab hb => Name.lt_trans hab hb) (fun a b hab hb => Name.lt_trans hab hb)
      (fun a ha => Name.lt_trans ha (Name.lt_getSuccessor pfx)) c.table hs]
    apply List.filter_congr
    intro e _
    cases hpre : Name.isPrefixOf pfx e.getFullName with
    | true =>
      obtain ⟨h1, h2⟩ := (Name.isPrefixOf_iff_between pfx e.getFullName hp).mp hpre
      simp [h1, h2]
    | false =>
      cases h1 : Name.lt e.getFullName pfx with
      | true => simp
      | false =>
        cases h2 : Name.lt e.getFullName pfx.getSuccessor with
        | false => simp
        | true =>
          have := (Name.isPrefixOf_iff_between pfx e.getFullName hp).mpr ⟨h1, h2⟩
          rw [hpre] at this
          cases this

/-- C10: on a store whose table is in Name order, `Cs::find` invokes exactly one callback,
exactly once, and leaves the table as it is.  It is `miss`, with the policy not notified
(the store is unchanged), when the serve flag is false, or the limit is 0, or no stored
entry whose full Name starts with the Interest's Name can satisfy the Interest.
Otherwise it is `hit` with the entry that is least in Name order among the entries under
the Interest's Name that can satisfy the Interest, and the store becomes the one in which
the policy was notified of `beforeUse` for that entry. -/
theorem find_spec (c : Cs) (now : Int) (interest : Interest) (hs : Table.Sorted c.table) :
    (∃ cb, (c.find now interest).1 = [cb]) ∧
    (c.find now interest).2.table = c.table ∧
    ((c.shouldServe = false ∨ c.policy.limit = 0 ∨
        ∀ e ∈ c.table, Name.isPrefixOf interest.name e.getFullName = true →
          e.canSatisfy interest now = false) →
      c.find now interest = ([Callback.miss interest], c)) ∧
    (c.shouldServe = true → c.policy.limit ≠ 0 →
      (∃ e ∈ c.table, Name.isPrefixOf interest.name e.getFullName = true ∧
          e.canSatisfy interest now = true) →
      ∃ e ∈ c.table, Name.isPrefixOf interest.name e.getFullName = true ∧
        e.canSatisfy interest now = true ∧
        (∀ e2 ∈ c.table, Name.isPrefixOf interest.name e2.getFullName = true →
          e2.canSatisfy interest now = true →
          e2 = e ∨ Name.lt e.getFullName e2.getFullName = true) ∧
        c.find now interest =
          ([Callback.hit interest e.data], c.policyBeforeUse e.getFullName)) := by
  have hrange := range_findPrefixRange c interest.name hs
  have hfind : ∀ r : Option Entry × Cs, c.findImpl now interest = r →
      c.find now interest = (match r.1 with
        | none => ([Callback.miss interest], r.2)
        | some e => ([Callback.hit interest e.data], r.2)) := by
    intro r hr
    unfold find
    rw [hr]
  refine ⟨?_, ?_, ?_, ?_⟩
  · rcases findImpl_cases c now interest with h | ⟨e, _, _, _, h⟩
    · exact ⟨_, by rw [hfind _ h]⟩
    · exact ⟨_, by rw [hfind _ h]⟩
  · rw [find_snd, findImpl_table]
  · intro hmiss
    rcases findImpl_cases c now interest with h | ⟨e, he, hserve, hlim, h⟩
    · rw [hfind _ h]
    · exfalso
      rw [hrange] at he
      have hmem := List.mem_of_find?_eq_some he
      have hsat := List.find?_some he
      rw [List.mem_filter] at hmem
      rcases hmiss with h1 | h1 | h1
      · rw [hserve] at h1; cases h1
      · exact hlim h1
      · rw [h1 e hmem.1 hmem.2] at hsat; cases hsat
  · intro hserve hlim ⟨e0, he0, hpre0, hsat0⟩
    rcases findImpl_cases c now interest with h | ⟨e, he, _, _, h⟩
    · exfalso
      unfold findImpl at h
      have hc : ¬ (!c.shouldServe || c.policy.limit == 0) = true := by simp [hserve, hlim]
      rw [if_neg hc] at h
      dsimp only at h
      rw [hrange] at h
      cases hf : (c.table.filter (fun e => Name.isPrefixOf interest.name e.getFullName)).find?
          (fun e => e.canSatisfy interest now) with
      | none =>
        rw [List.find?_eq_none] at hf
        exact hf e0 (List.mem_filter.mpr ⟨he0, hpre0⟩) hsat0
      | some e1 =>
        rw [hf] at h
        cases h
    · rw [hrange] at he
      have hmem := List.mem_of_find?_eq_some he
      have hsat := List.find?_some he
      rw [List.mem_filter] at hmem
      refine ⟨e, hmem.1, hmem.2, hsat, ?_, by rw [hfind _ h]⟩
      intro e2 he2 hpre2 hsat2
      obtain ⟨_, as, bs, hsplit, hnone⟩ := List.find?_eq_some.mp he
      have hsorted : (c.table.filter
          (fun e => Name.isPrefixOf interest.name e.getFullName)).Pairwise
          (fun a b => Name.lt a.getFullName b.getFullName = true) :=
        List.Pairwise.sublist (List.filter_sublist _) hs
      rw [hsplit] at hsorted
      have he2mem : e2 ∈ as ++ e :: bs := by
        rw [← hsplit]; exact List.mem_filter.mpr ⟨he2, hpre2⟩
      rcases List.mem_append.mp he2mem with h2 | h2
      · have := hnone e2 h2
        rw [hsat2] at this
        cases this
      · rcases List.mem_cons.mp h2 with h2 | h2
        · exact Or.inl h2
        · right
          exact (List.pairwise_cons.mp (List.pairwise_append.mp hsorted).2.1).1 e2 h2

/-- C10 (witness): with capacity 1, after the inserts of `/1` and `/2`, `find` of `/2` hits
a stored entry and the policy is notified. -/
theorem find_spec_witness :
    ∃ e ∈ (((Cs.new 1).insert 0 Sample.dataX false).2.insert 1 Sample.dataY false).2.table,
      (((Cs.new 1).insert 0 Sample.dataX false).2.insert 1 Sample.dataY false).2.find 2
          Sample.interestY =
        ([Callback.hit Sample.interestY e.data],
         (((Cs.new 1).insert 0 Sample.dataX false).2.insert 1
            Sample.dataY false).2.policyBeforeUse e.getFullName) := by
  obtain ⟨e, he, _, _, _, h⟩ := (find_spec
    (((Cs.new 1).insert 0 Sample.dataX false).2.insert 1 Sample.dataY false).2 2
    Sample.interestY (by unfold Table.Sorted; decide)).2.2.2 (by decide) (by decide)
    (by decide)
  exact ⟨e, he, h⟩

end Cs

/-! ## Properties of the Dead Nonce List insertion -/

theorem DeadNonceList.foldl_add (name : Name) (rs : List pit.OutRecord) :
    ∀ d : DeadNonceList, rs.foldl (fun d r => d.add name r.lastNonce) d =
      { d with entries := d.entries ++ rs.map (fun r => (name, r.lastNonce)) } := by
  induction rs with
  | nil => intro d; simp
  | cons r rs ih =>
    intro d
    rw [List.foldl_cons, ih]
    simp [DeadNonceList.add]

namespace Forwarder

/-- The pairs `insertDeadNonceList` adds for an entry once the insertion is needed: the
last Nonce of the out-record of the upstream face, or of every out-record when no
upstream face is given. -/
theorem insertDeadNonceList_needed (f : Forwarder) (k : PitKey) (e : pit.Entry)
    (upstream : Option Face) (hget : f.pit.get? k = some e)
    (hneed : (if e.isSatisfied then
        e.interest.mustBeFresh && decide (e.dataFreshnessPeriod < f.deadNonceList.lifetime)
      else true) = true) :
    f.insertDeadNonceList k upstream =
      { f with deadNonceList := { f.deadNonceList with entries := f.deadNonceList.entries ++
          match upstream with
          | some face => ((e.getOutRecord face).map (fun r => (e.getName, r.lastNonce))).toList
          | none => e.outRecords.map (fun r => (e.getName, r.lastNonce)) } } := by
  unfold insertDeadNonceList
  simp only [hget, hneed, Bool.not_true, Bool.false_eq_true, if_false]
  cases upstream with
  | none => simp only [DeadNonceList.foldl_add]
  | some face =>
    dsimp only
    cases e.getOutRecord face with
    | none => simp
    | some r => simp [DeadNonceList.add]

theorem insertDeadNonceList_not_needed (f : Forwarder) (k : PitKey) (e : pit.Entry)
    (upstream : Option Face) (hget : f.pit.get? k = some e)
    (hneed : (if e.isSatisfied then
        e.interest.mustBeFresh && decide (e.dataFreshnessPeriod < f.deadNonceList.lifetime)
      else true) = false) :
    f.insertDeadNonceList k upstream = f := by
  unfold insertDeadNonceList
  simp only [hget, hneed, Bool.not_false, if_true]

/-- C12: for a satisfied PIT entry, `insertDeadNonceList` leaves everything but the Dead
Nonce List alone and appends pairs to the list if and only if the entry's Interest has
MustBeFresh set and the freshness period of the satisfying Data is strictly less than the
lifetime of the list.  The pairs appended are then the entry's Name with the last Nonce
of the out-record of the upstream face when one is given (nothing if that face has no
out-record), and the entry's Name with the last Nonce of every out-record when none is
given. -/
theorem insertDeadNonceList_satisfied (f : Forwarder) (k : PitKey) (e : pit.Entry)
    (upstream : Option Face) (hget : f.pit.get? k = some e) (hsat : e.isSatisfied = true) :
    ∃ added : List (Name × Nonce),
      f.insertDeadNonceList k upstream =
        { f with deadNonceList :=
            { f.deadNonceList with entries := f.deadNonceList.entries ++ added } } ∧
      (added ≠ [] → e.interest.mustBeFresh = true ∧
        e.dataFreshnessPeriod < f.deadNonceList.lifetime) ∧
      (e.interest.mustBeFresh = true ∧ e.dataFreshnessPeriod < f.deadNonceList.lifetime →
        added = match upstream with
          | some face => ((e.getOutRecord face).map (fun r => (e.getName, r.lastNonce))).toList
          | none => e.outRecords.map (fun r => (e.getName, r.lastNonce))) := by
  by_cases hc : e.interest.mustBeFresh = true ∧ e.dataFreshnessPeriod < f.deadNonceList.lifetime
  · refine ⟨_, insertDeadNonceList_needed f k e upstream hget ?_, fun _ => hc, fun _ => rfl⟩
    simp [hsat, hc.1, hc.2]
  · refine ⟨[], ?_, fun h => absurd rfl h, fun h => absurd h hc⟩
    rw [insertDeadNonceList_not_needed f k e upstream hget]
    · simp
    · simp only [hsat, if_true]
      by_cases hm : e.interest.mustBeFresh = true
      · have : ¬ e.dataFreshnessPeriod < f.deadNonceList.lifetime := fun h => hc ⟨hm, h⟩
        simp [hm, this]
      · simp [hm]

/-- C12 (witness): the satisfied sample entry carries MustBeFresh and its Data was fresh
for one second, less than the six seconds of the Dead Nonce List.  With face B as
upstream only the Nonce of the out-record of face B is added; without upstream the
Nonces of both out-records are added. -/
theorem insertDeadNonceList_satisfied_witness :
    (Sample.satisfiedForwarder.insertDeadNonceList Sample.interestFresh.pitKey
        (some Sample.faceB)).deadNonceList.entries = [([7], 5)] ∧
    (Sample.satisfiedForwarder.insertDeadNonceList Sample.interestFresh.pitKey
        none).deadNonceList.entries = [([7], 5), ([7], 8)] := by
  obtain ⟨a1, h1, _, h3⟩ := insertDeadNonceList_satisfied Sample.satisfiedForwarder
    Sample.interestFresh.pitKey Sample.satisfiedEntry (some Sample.faceB) (by decide) (by decide)
  obtain ⟨a2, g1, _, g3⟩ := insertDeadNonceList_satisfied Sample.satisfiedForwarder
    Sample.interestFresh.pitKey Sample.satisfiedEntry none (by decide) (by decide)
  rw [h1, g1, h3 (by decide), g3 (by decide)]
  exact ⟨by decide, by decide⟩

end Forwarder

/-! ## Properties of the Content Store hit and outgoing Interest pipelines -/

namespace Forwarder

theorem setExpiryTimer_pit (f : Forwarder) (now : Int) (k : PitKey) (d : Int) :
    (f.setExpiryTimer now k d).pit =
      f.pit.modify k (fun e => { e with expiryTimer := some f.scheduler.nextId }) := by
  simp only [setExpiryTimer, Scheduler.schedule, Scheduler_cancel_nextId]

theorem setExpiryTimer_scheduler (f : Forwarder) (now : Int) (k : PitKey) (d : Int) :
    (f.setExpiryTimer now k d).scheduler =
      { events := (f.scheduler.cancel (match f.pit.get? k with
            | some e => e.expiryTimer
            | none => none)).events ++
          [{ id := f.scheduler.nextId, fireAt := now + d * 1000000, pitEntry := k }]
        nextId := f.scheduler.nextId + 1 } := by
  simp only [setExpiryTimer, Scheduler.schedule, Scheduler_cancel_nextId]
  try rfl

/-- C17: the Content Store hit pipeline increments `nCsHits` by one and no other counter;
it emits `afterCsHit` and `beforeSatisfyInterest` and dispatches the strategy triggers
`beforeSatisfyInterest` and then `afterContentStoreHit`, and enters no outgoing Data
pipeline; in the PIT it sets `isSatisfied` and the Data's freshness period on the entry
and gives it a new timer handle, leaving in-records and out-records as they were; the
entry's previous timer is cancelled and the new one is scheduled after 0 ms, at `now`. -/
theorem onContentStoreHit_spec (f : Forwarder) (now : Int) (ingress : FaceEndpoint)
    (k : PitKey) (interest : Interest) (data : Data) :
    (f.onContentStoreHit now ingress k interest data).counters =
      { f.counters with nCsHits := f.counters.nCsHits + 1 } ∧
    (f.onContentStoreHit now ingress k interest data).log = f.log ++
      [Event.onContentStoreHit ingress k interest data,
       Event.afterCsHit interest data,
       Event.beforeSatisfyInterest k f.csFace
         { data with incomingFaceIdTag := some FACEID_CONTENT_STORE },
       Event.strategyBeforeSatisfyInterest k { face := f.csFace, endpoint := 0 }
         { data with incomingFaceIdTag := some FACEID_CONTENT_STORE },
       Event.strategyAfterContentStoreHit k ingress
         { data with incomingFaceIdTag := some FACEID_CONTENT_STORE }] ∧
    (f.onContentStoreHit now ingress k interest data).pit = f.pit.modify k (fun e =>
      { e with
        isSatisfied := true
        dataFreshnessPeriod := data.freshnessPeriod
        expiryTimer := some f.scheduler.nextId }) ∧
    (f.onContentStoreHit now ingress k interest data).scheduler =
      { events := (f.scheduler.cancel (match f.pit.get? k with
            | some e => e.expiryTimer
            | none => none)).events ++
          [{ id := f.scheduler.nextId, fireAt := now, pitEntry := k }]
        nextId := f.scheduler.nextId + 1 } := by
  refine ⟨?_, ?_, ?_, ?_⟩
  · simp [onContentStoreHit, emit, setExpiryTimer]
  · simp [onContentStoreHit, emit, setExpiryTimer]
  · simp only [onContentStoreHit, emit, setExpiryTimer_pit]
    rw [Pit.modify_modify]
    intro e; rfl
  · simp only [onContentStoreHit, emit, setExpiryTimer_scheduler]
    rw [Pit.get?_modify]
    · cases hget : f.pit.get? k with
      | none => simp
      | some e => simp [Pit.key_of_get? hget]
    · intro e; rfl

end Forwarder

namespace pit

theorem insertOrUpdateOutRecord_interest (e : Entry) (now : Int) (face : Face)
    (interest : Interest) :
    (e.insertOrUpdateOutRecord now face interest).interest = e.interest ∧
    (e.insertOrUpdateOutRecord now face interest).inRecords = e.inRecords ∧
    (e.insertOrUpdateOutRecord now face interest).isSatisfied = e.isSatisfied ∧
    (e.insertOrUpdateOutRecord now face interest).dataFreshnessPeriod = e.dataFreshnessPeriod ∧
    (e.insertOrUpdateOutRecord now face interest).expiryTimer = e.expiryTimer := by
  unfold Entry.insertOrUpdateOutRecord
  split <;> exact ⟨rfl, rfl, rfl, rfl, rfl⟩

theorem filter_face_map (l : List OutRecord) (face : Face) (upd : OutRecord → OutRecord)
    (hupd : ∀ x, (upd x).face = x.face) :
    (l.map (fun x => if x.face == face then upd x else x)).filter (fun r => r.face == face)
        = (l.filter (fun r => r.face == face)).map upd ∧
    (l.map (fun x => if x.face == face then upd x else x)).filter (fun r => r.face != face)
        = l.filter (fun r => r.face != face) := by
  induction l with
  | nil => exact ⟨rfl, rfl⟩
  | cons x l ih =>
    obtain ⟨ih1, ih2⟩ := ih
    by_cases hx : x.face = face
    · have hb : (x.face == face) = true := by simpa using hx
      have hu : ((upd x).face == face) = true := by rw [hupd]; exact hb
      have hb2 : (x.face != face) = false := by simp [hx]
      have hu2 : ((upd x).face != face) = false := by rw [hupd]; exact hb2
      simp only [List.map_cons, hb, if_true, List.filter_cons, hu, hb2, hu2,
        Bool.false_eq_true, if_false, ih1, ih2]
      exact ⟨trivial, trivial⟩
    · have hb : (x.face == face) = false := by simpa using hx
      have hb2 : (x.face != face) = true := by simp [hx]
      simp only [List.map_cons, hb, Bool.false_eq_true, if_false, List.filter_cons, hb2,
        if_true, ih1, ih2]
      exact ⟨trivial, trivial⟩

/-- What `insertOrUpdateOutRecord` leaves of the out-records: the records of the face
are updated in place, or a new record is added at the back when the face has none; the
records of other faces are untouched. -/
theorem insertOrUpdateOutRecord_outRecords (e : Entry) (now : Int) (face : Face)
    (interest : Interest) :
    ((e.insertOrUpdateOutRecord now face interest).outRecords.filter (fun r => r.face == face)
        = if e.outRecords.any (fun x => x.face == face) then
            (e.outRecords.filter (fun r => r.face == face)).map (fun x =>
              { x with lastNonce := interest.nonce, lastRenewed := now,
                       expiry := now + interest.lifetime * 1000000 })
          else [{ face := face, lastNonce := interest.nonce, lastRenewed := now,
                  expiry := now + interest.lifetime * 1000000, incomingNack := none }]) ∧
    (e.insertOrUpdateOutRecord now face interest).outRecords.filter (fun r => r.face != face)
        = e.outRecords.filter (fun r => r.face != face) := by
  unfold Entry.insertOrUpdateOutRecord
  by_cases hany : e.outRecords.any (fun x => x.face == face) = true
  · simp only [hany, if_true]
    exact filter_face_map e.outRecords face _ (fun x => rfl)
  · have hnone : ∀ x ∈ e.outRecords, ¬ x.face = face := by
      simpa using hany
    simp only [hany, Bool.false_eq_true, if_false, List.filter_append]
    have h1 : e.outRecords.filter (fun r => r.face == face) = [] := by
      rw [List.filter_eq_nil_iff]
      intro x hx
      simpa using hnone x hx
    rw [h1]
    simp

end pit

namespace Forwarder

/-- C18: on a PIT entry that holds at most one out-record of the egress face, the
outgoing Interest pipeline leaves exactly one out-record of the egress face, which
carries the Nonce of the Interest and expires one Interest lifetime from now: a record
that was there is updated in place, else a new one is added.  The out-records of other
faces, the in-records and every other field of the entry stay as they were, and so do
the other PIT entries, the scheduler, the CS and the Dead Nonce List.  The log gains the
entry into the pipeline and exactly one `sendInterest` on the egress face and endpoint;
`nOutInterests` grows by one and no other counter changes. -/
theorem onOutgoingInterest_spec (f : Forwarder) (now : Int) (k : PitKey)
    (egress : FaceEndpoint) (interest : Interest) (e : pit.Entry)
    (hget : f.pit.get? k = some e)
    (hone : (e.outRecords.filter (fun r => r.face == egress.face)).length ≤ 1) :
    (∃ e2 r, (f.onOutgoingInterest now k egress interest).pit.get? k = some e2 ∧
      e2.outRecords.filter (fun x => x.face == egress.face) = [r] ∧
      r.face = egress.face ∧ r.lastNonce = interest.nonce ∧
      r.expiry = now + interest.lifetime * 1000000 ∧
      (∀ r0 ∈ e.outRecords, r0.face = egress.face →
        r = { r0 with lastNonce := interest.nonce, lastRenewed := now,
                      expiry := now + interest.lifetime * 1000000 }) ∧
      e2.outRecords.filter (fun x => x.face != egress.face)
        = e.outRecords.filter (fun x => x.face != egress.face) ∧
      e2.inRecords = e.inRecords ∧ e2.interest = e.interest ∧
      e2.isSatisfied = e.isSatisfied ∧ e2.dataFreshnessPeriod = e.dataFreshnessPeriod ∧
      e2.expiryTimer = e.expiryTimer) ∧
    (∀ k2, k2 ≠ k → (f.onOutgoingInterest now k egress interest).pit.get? k2 = f.pit.get? k2) ∧
    (f.onOutgoingInterest now k egress interest).log = f.log ++
      [Event.onOutgoingInterest k egress interest,
       Event.sendInterest egress.face egress.endpoint interest] ∧
    (f.onOutgoingInterest now k egress interest).counters =
      { f.counters with nOutInterests := f.counters.nOutInterests + 1 } ∧
    (f.onOutgoingInterest now k egress interest).scheduler = f.scheduler ∧
    (f.onOutgoingInterest now k egress interest).cs = f.cs ∧
    (f.onOutgoingInterest now k egress interest).deadNonceList = f.deadNonceList := by
  have hpit : (f.onOutgoingInterest now k egress interest).pit =
      f.pit.modify k (fun e => e.insertOrUpdateOutRecord now egress.face interest) := rfl
  have hkey : ∀ x : pit.Entry, (x.insertOrUpdateOutRecord now egress.face interest).key = x.key := by
    intro x
    unfold pit.Entry.key
    rw [(pit.insertOrUpdateOutRecord_interest x now egress.face interest).1]
  refine ⟨?_, ?_, ?_, rfl, rfl, rfl, rfl⟩
  · obtain ⟨h1, h2, h3, h4, h5⟩ := pit.insertOrUpdateOutRecord_interest e now egress.face interest
    obtain ⟨ho1, ho2⟩ := pit.insertOrUpdateOutRecord_outRecords e now egress.face interest
    have hg : (f.onOutgoingInterest now k egress interest).pit.get? k =
        some (e.insertOrUpdateOutRecord now egress.face interest) := by
      rw [hpit, Pit.get?_modify _ _ _ _ hkey, hget]
      simp [Pit.key_of_get? hget]
    by_cases hany : e.outRecords.any (fun x => x.face == egress.face) = true
    · rw [if_pos hany] at ho1
      obtain ⟨r0, hr0, hf0⟩ : ∃ r0 ∈ e.outRecords, r0.face = egress.face := by
        simpa using hany
      have hmem : r0 ∈ e.outRecords.filter (fun r => r.face == egress.face) := by
        simp [List.mem_filter, hr0, hf0]
      have hlen : e.outRecords.filter (fun r => r.face == egress.face) = [r0] := by
        generalize e.outRecords.filter (fun r => r.face == egress.face) = l at hone hmem
        match l, hone, hmem with
        | [], _, hm => cases hm
        | [a], _, hm =>
          simp only [List.mem_singleton] at hm
          rw [hm]
        | a :: b :: l, hon, _ => simp at hon
      rw [hlen] at ho1
      refine ⟨_, _, hg, ho1, hf0, rfl, rfl, ?_, ho2, h2, h1, h3, h4, h5⟩
      intro r1 hr1 hf1
      have hmem1 : r1 ∈ e.outRecords.filter (fun r => r.face == egress.face) := by
        simp [List.mem_filter, hr1, hf1]
      rw [hlen] at hmem1
      simp only [List.mem_singleton] at hmem1
      rw [hmem1]
    · rw [if_neg hany] at ho1
      refine ⟨_, _, hg, ho1, rfl, rfl, rfl, ?_, ho2, h2, h1, h3, h4, h5⟩
      intro r1 hr1 hf1
      exfalso
      apply hany
      simp only [List.any_eq_true, beq_iff_eq]
      exact ⟨r1, hr1, hf1⟩
  · intro k2 hne
    rw [hpit, Pit.get?_modify _ _ _ _ hkey]
    cases hg2 : f.pit.get? k2 with
    | none => rfl
    | some e2 =>
      have := Pit.key_of_get? hg2
      simp [this, hne]
  · simp [onOutgoingInterest, emit]

/-- C18 (witness): the sample entry of `/7` holds an out-record of face B with Nonce 5.
Sending the Interest with Nonce 9 to face B leaves one out-record of face B, with
Nonce 9, and one `sendInterest`. -/
theorem onOutgoingInterest_spec_witness :
    (Sample.pendingForwarder.onOutgoingInterest 10 Sample.interest5.pitKey
        { face := Sample.faceB, endpoint := 0 } Sample.interestShort).log =
      Sample.pendingForwarder.log ++
        [Event.onOutgoingInterest Sample.interest5.pitKey
           { face := Sample.faceB, endpoint := 0 } Sample.interestShort,
         Event.sendInterest Sample.faceB 0 Sample.interestShort] ∧
    (Sample.pendingForwarder.onOutgoingInterest 10 Sample.interest5.pitKey
        { face := Sample.faceB, endpoint := 0 } Sample.interestShort).counters =
      { Sample.pendingForwarder.counters with nOutInterests := 1 } ∧
    (Sample.pendingForwarder.onOutgoingInterest 10 Sample.interest5.pitKey
        { face := Sample.faceB, endpoint := 0 } Sample.interestShort).pit.outRecords
          Sample.interest5.pitKey =
      [{ face := Sample.faceB, lastNonce := 9, lastRenewed := 10, expiry := 1000000010,
         incomingNack := none }] := by
  have h := onOutgoingInterest_spec Sample.pendingForwarder 10 Sample.interest5.pitKey
    { face := Sample.faceB, endpoint := 0 } Sample.interestShort Sample.pendingEntry
    (by decide) (by decide)
  exact ⟨h.2.2.1, h.2.2.2.1, by decide⟩

end Forwarder

/-! ## Properties of the Content Store miss pipeline -/

namespace pit

theorem insertOrUpdateInRecord_fields (e : Entry) (now : Int) (face : Face)
    (interest : Interest) :
    (e.insertOrUpdateInRecord now face interest).interest = e.interest ∧
    (e.insertOrUpdateInRecord now face interest).outRecords = e.outRecords ∧
    (e.insertOrUpdateInRecord now face interest).isSatisfied = e.isSatisfied ∧
    (e.insertOrUpdateInRecord now face interest).dataFreshnessPeriod = e.dataFreshnessPeriod ∧
    (e.insertOrUpdateInRecord now face interest).expiryTimer = e.expiryTimer := by
  unfold Entry.insertOrUpdateInRecord
  dsimp only
  split <;> exact ⟨rfl, rfl, rfl, rfl, rfl⟩

theorem find?_map_replace (l : List InRecord) (face : Face) (r : InRecord) (hr : r.face = face)
    (hany : l.any (fun x => x.face == face) = true) :
    (l.map (fun x => if x.face == face then r else x)).find? (fun x => x.face == face)
      = some r := by
  induction l with
  | nil => simp at hany
  | cons x l ih =>
    by_cases hx : x.face = face
    · simp [hx, hr]
    · have hb : (x.face == face) = false := by simpa using hx
      have hany2 : l.any (fun x => x.face == face) = true := by
        simpa [List.any_cons, hb] using hany
      simp only [List.map_cons, hb, Bool.false_eq_true, if_false, List.find?_cons]
      exact ih hany2

/-- After `insertOrUpdateInRecord` the in-record of the face holds the Interest, its
Nonce, and the expiry one Interest lifetime from now. -/
theorem getInRecord_insertOrUpdateInRecord (e : Entry) (now : Int) (face : Face)
    (interest : Interest) :
    (e.insertOrUpdateInRecord now face interest).getInRecord face =
      some { face := face, lastNonce := interest.nonce, lastRenewed := now,
             expiry := now + interest.lifetime * 1000000, interest := interest } := by
  unfold Entry.insertOrUpdateInRecord Entry.getInRecord
  dsimp only
  by_cases hany : e.inRecords.any (fun x => x.face == face) = true
  · simp only [hany, if_true]
    exact find?_map_replace e.inRecords face _ rfl hany
  · simp only [hany, Bool.false_eq_true, if_false, List.find?_append]
    have : e.inRecords.find? (fun r => r.face == face) = none := by
      rw [List.find?_eq_none]
      intro x hx hf
      apply hany
      rw [List.any_eq_true]
      exact ⟨x, hx, hf⟩
    rw [this]
    simp

end pit

namespace Forwarder

theorem lastExpiry_foldl (rs : List pit.InRecord) :
    ∀ init : Int,
      init ≤ rs.foldl (fun m x => if m < x.expiry then x.expiry else m) init ∧
      (∀ r ∈ rs, r.expiry ≤ rs.foldl (fun m x => if m < x.expiry then x.expiry else m) init) ∧
      (rs.foldl (fun m x => if m < x.expiry then x.expiry else m) init = init ∨
        ∃ r ∈ rs, r.expiry = rs.foldl (fun m x => if m < x.expiry then x.expiry else m) init) := by
  induction rs with
  | nil => intro init; simp
  | cons x rs ih =>
    intro init
    simp only [List.foldl_cons]
    obtain ⟨h1, h2, h3⟩ := ih (if init < x.expiry then x.expiry else init)
    have hle : init ≤ (if init < x.expiry then x.expiry else init) := by
      split <;> omega
    have hxle : x.expiry ≤ (if init < x.expiry then x.expiry else init) := by
      split <;> omega
    refine ⟨le_trans hle h1, ?_, ?_⟩
    · intro r hr
      rcases List.mem_cons.mp hr with rfl | hr
      · exact le_trans hxle h1
      · exact h2 r hr
    · rcases h3 with h3 | ⟨r, hr, h3⟩
      · by_cases hlt : init < x.expiry
        · right
          refine ⟨x, List.mem_cons_self _ _, ?_⟩
          rw [h3]; simp [hlt]
        · left
          rw [h3]; simp [hlt]
      · exact Or.inr ⟨r, List.mem_cons_of_mem _ hr, h3⟩

/-- The `std::max_element` over a non-empty range of in-records: an in-record of the
range that no other in-record outlives. -/
theorem lastExpiry_spec (now : Int) (rs : List pit.InRecord) (hne : rs ≠ []) :
    ∃ last ∈ rs, lastExpiry now rs = last.expiry ∧ ∀ r ∈ rs, r.expiry ≤ last.expiry := by
  match rs, hne with
  | x :: rs, _ =>
    unfold lastExpiry
    obtain ⟨h1, h2, h3⟩ := lastExpiry_foldl rs x.expiry
    rcases h3 with h3 | ⟨r, hr, h3⟩
    · refine ⟨x, List.mem_cons_self _ _, h3, ?_⟩
      intro r hr
      rcases List.mem_cons.mp hr with rfl | hr
      · exact le_refl _
      · rw [← h3]; exact h2 r hr
    · refine ⟨r, List.mem_cons_of_mem _ hr, h3.symm, ?_⟩
      intro r2 hr2
      rw [h3]
      rcases List.mem_cons.mp hr2 with rfl | hr2
      · exact h1
      · exact h2 r2 hr2

/-- The Forwarder inside `onContentStoreMiss` when the expiry timer has been re-armed,
before the NextHopFaceId tag is looked at. -/
theorem onContentStoreMiss_eq (f : Forwarder) (now : Int) (ingress : FaceEndpoint)
    (k : PitKey) (interest : Interest) :
    ∃ g : Forwarder,
      g = ({ f with
              counters := { f.counters with nCsMisses := f.counters.nCsMisses + 1 }
              log := f.log ++ [Event.onContentStoreMiss ingress k interest,
                               Event.afterCsMiss interest]
              pit := (f.pit.modify k
                (fun e => e.insertOrUpdateInRecord now ingress.face interest)) } :
            Forwarder).setExpiryTimer now k
              (toMilliseconds (lastExpiry now ((f.pit.modify k
                (fun e => e.insertOrUpdateInRecord now ingress.face interest)).inRecords k)
                - now)) ∧
      f.onContentStoreMiss now ingress k interest =
        match interest.nextHopFaceIdTag with
        | some nextHopTag =>
          match faceTableGet f.faceTable nextHopTag with
          | some nextHopFace =>
            g.onOutgoingInterest now k { face := nextHopFace, endpoint := 0 } interest
          | none => g
        | none =>
          g.emit (Event.strategyAfterReceiveInterest { face := ingress.face, endpoint := 0 }
            interest k) := by
  refine ⟨_, rfl, ?_⟩
  simp only [onContentStoreMiss, emit, List.append_assoc, List.singleton_append]
  rfl

/-- The PIT entry and the scheduler after `onContentStoreMiss`. -/
theorem onContentStoreMiss_entry (f : Forwarder) (now : Int) (ingress : FaceEndpoint)
    (k : PitKey) (interest : Interest) (e : pit.Entry) (hget : f.pit.get? k = some e) :
    ∃ e2, (f.onContentStoreMiss now ingress k interest).pit.get? k = some e2 ∧
      e2.interest = e.interest ∧
      e2.isSatisfied = e.isSatisfied ∧
      e2.inRecords = (e.insertOrUpdateInRecord now ingress.face interest).inRecords ∧
      e2.expiryTimer = some f.scheduler.nextId ∧
      (f.onContentStoreMiss now ingress k interest).scheduler =
        { events := (f.scheduler.cancel e.expiryTimer).events ++
            [{ id := f.scheduler.nextId,
               fireAt := now + toMilliseconds (lastExpiry now
                 (e.insertOrUpdateInRecord now ingress.face interest).inRecords - now) * 1000000,
               pitEntry := k }]
          nextId := f.scheduler.nextId + 1 } := by
  obtain ⟨g, hg, heq⟩ := onContentStoreMiss_eq f now ingress k interest
  have hk := Pit.key_of_get? hget
  have hkey1 : ∀ x : pit.Entry, (x.insertOrUpdateInRecord now ingress.face interest).key = x.key := by
    intro x
    unfold pit.Entry.key
    rw [(pit.insertOrUpdateInRecord_fields x now ingress.face interest).1]
  have hget1 : (f.pit.modify k (fun e => e.insertOrUpdateInRecord now ingress.face interest)).get? k
      = some (e.insertOrUpdateInRecord now ingress.face interest) := by
    rw [Pit.get?_modify _ _ _ _ hkey1, hget]
    simp [hk]
  have hin1 : (f.pit.modify k (fun e => e.insertOrUpdateInRecord now ingress.face interest)).inRecords k
      = (e.insertOrUpdateInRecord now ingress.face interest).inRecords := by
    unfold Pit.inRecords
    rw [hget1]
  obtain ⟨hf1, hf2, hf3, hf4, hf5⟩ := pit.insertOrUpdateInRecord_fields e now ingress.face interest
  have hgpit : g.pit.get? k = some
      { e.insertOrUpdateInRecord now ingress.face interest with
        expiryTimer := some f.scheduler.nextId } := by
    rw [hg, setExpiryTimer_pit, Pit.get?_modify, hget1]
    · simp [pit.Entry.key, hf1, show e.interest.pitKey = k from hk]
    · intro x; rfl
  have hgsch : g.scheduler =
      { events := (f.scheduler.cancel e.expiryTimer).events ++
          [{ id := f.scheduler.nextId,
             fireAt := now + toMilliseconds (lastExpiry now
               (e.insertOrUpdateInRecord now ingress.face interest).inRecords - now) * 1000000,
             pitEntry := k }]
        nextId := f.scheduler.nextId + 1 } := by
    rw [hg, setExpiryTimer_scheduler]
    simp only [hget1, hin1, hf5]
  rw [heq]
  cases htag : interest.nextHopFaceIdTag with
  | none =>
    exact ⟨_, hgpit, hf1, hf3, rfl, rfl, hgsch⟩
  | some t =>
    dsimp only
    cases hface : faceTableGet f.faceTable t with
    | none => exact ⟨_, hgpit, hf1, hf3, rfl, rfl, hgsch⟩
    | some nh =>
      dsimp only
      have hkey2 : ∀ x : pit.Entry, (x.insertOrUpdateOutRecord now nh interest).key = x.key := by
        intro x
        unfold pit.Entry.key
        rw [(pit.insertOrUpdateOutRecord_interest x now nh interest).1]
      obtain ⟨ho1, ho2, ho3, _, ho5⟩ := pit.insertOrUpdateOutRecord_interest
        { e.insertOrUpdateInRecord now ingress.face interest with
          expiryTimer := some f.scheduler.nextId } now nh interest
      refine ⟨({ e.insertOrUpdateInRecord now ingress.face interest with
          expiryTimer := some f.scheduler.nextId } : pit.Entry).insertOrUpdateOutRecord now nh
            interest, ?_, ?_, ?_, ho2, ho5, hgsch⟩
      · show (g.pit.modify k _).get? k = _
        rw [Pit.get?_modify _ _ _ _ hkey2, hgpit]
        simp [pit.Entry.key, hf1, show e.interest.pitKey = k from hk]
      · rw [ho1]; exact hf1
      · rw [ho3]; exact hf3

/-- C16: after `onContentStoreMiss` on an entry of the PIT, the entry has an in-record
of the ingress face that holds the Interest, its Nonce and the expiry one Interest
lifetime from now; the entry's previous expiry timer is cancelled and its new timer is
scheduled after the whole milliseconds between now and the expiry of an in-record that
none of the entry's current in-records outlives, which need not be the in-record just
inserted. -/
theorem onContentStoreMiss_spec (f : Forwarder) (now : Int) (ingress : FaceEndpoint)
    (k : PitKey) (interest : Interest) (e : pit.Entry) (hget : f.pit.get? k = some e) :
    ∃ e2, (f.onContentStoreMiss now ingress k interest).pit.get? k = some e2 ∧
      e2.getInRecord ingress.face =
        some { face := ingress.face, lastNonce := interest.nonce, lastRenewed := now,
               expiry := now + interest.lifetime * 1000000, interest := interest } ∧
      e2.expiryTimer = some f.scheduler.nextId ∧
      ∃ last ∈ e2.inRecords, (∀ r ∈ e2.inRecords, r.expiry ≤ last.expiry) ∧
        (f.onContentStoreMiss now ingress k interest).scheduler.events =
          (f.scheduler.cancel e.expiryTimer).events ++
            [{ id := f.scheduler.nextId,
               fireAt := now + toMilliseconds (last.expiry - now) * 1000000,
               pitEntry := k }] := by
  obtain ⟨e2, h1, _, _, h3, h4, h5⟩ := onContentStoreMiss_entry f now ingress k interest e hget
  have hrec := pit.getInRecord_insertOrUpdateInRecord e now ingress.face interest
  have hne : (e.insertOrUpdateInRecord now ingress.face interest).inRecords ≠ [] := by
    intro hnil
    unfold pit.Entry.getInRecord at hrec
    rw [hnil] at hrec
    simp at hrec
  obtain ⟨last, hl1, hl2, hl3⟩ := lastExpiry_spec now _ hne
  refine ⟨e2, h1, ?_, h4, last, by rw [h3]; exact hl1, by rw [h3]; exact hl3, ?_⟩
  · unfold pit.Entry.getInRecord at hrec ⊢
    rw [h3]; exact hrec
  · rw [h5, hl2]

/-- C16 (witness): the sample entry of `/7` holds an in-record of face A that expires at
4 s.  At 1 s an Interest with a lifetime of one second arrives on face M: its in-record
expires at 2 s, and the timer is armed for 4 s, the expiry of the in-record of face A. -/
theorem onContentStoreMiss_spec_witness :
    (∃ e2, (Sample.pendingForwarder.onContentStoreMiss 1000000000
        { face := Sample.faceM, endpoint := 0 } Sample.interest5.pitKey
        Sample.interestShort).pit.get? Sample.interest5.pitKey = some e2 ∧
      e2.getInRecord Sample.faceM =
        some { face := Sample.faceM, lastNonce := 9, lastRenewed := 1000000000,
               expiry := 1000000000 + 1000 * 1000000, interest := Sample.interestShort } ∧
      e2.expiryTimer = some 0 ∧
      ∃ last ∈ e2.inRecords, (∀ r ∈ e2.inRecords, r.expiry ≤ last.expiry) ∧
        (Sample.pendingForwarder.onContentStoreMiss 1000000000
          { face := Sample.faceM, endpoint := 0 } Sample.interest5.pitKey
          Sample.interestShort).scheduler.events =
          (Sample.pendingForwarder.scheduler.cancel Sample.pendingEntry.expiryTimer).events ++
            [{ id := 0,
               fireAt := 1000000000 + toMilliseconds (last.expiry - 1000000000) * 1000000,
               pitEntry := Sample.interest5.pitKey }]) ∧
    (Sample.pendingForwarder.onContentStoreMiss 1000000000
        { face := Sample.faceM, endpoint := 0 } Sample.interest5.pitKey
        Sample.interestShort).pendingTimers Sample.interest5.pitKey =
      [{ id := 0, fireAt := 4000000000, pitEntry := Sample.interest5.pitKey }] :=
  ⟨onContentStoreMiss_spec Sample.pendingForwarder 1000000000
    { face := Sample.faceM, endpoint := 0 } Sample.interest5.pitKey Sample.interestShort
    Sample.pendingEntry (by decide), by decide⟩

end Forwarder

/-! ## Properties of the Interest finalize pipeline -/

namespace Pit

theorem find?_eraseP_of_ne (l : List pit.Entry) (k k2 : PitKey) (hne : k2 ≠ k) :
    (l.eraseP (fun e => e.key == k)).find? (fun e => e.key == k2)
      = l.find? (fun e => e.key == k2) := by
  induction l with
  | nil => rfl
  | cons x l ih =>
    by_cases hx : x.key = k
    · have hb : (x.key == k) = true := by simpa using hx
      have hb2 : (x.key == k2) = false := by
        simp only [beq_eq_false_iff_ne, ne_eq, hx]
        exact fun h => hne h.symm
      rw [List.eraseP_cons, hb, cond_true, List.find?_cons, hb2]
    · have hb : (x.key == k) = false := by simpa using hx
      rw [List.eraseP_cons, hb, cond_false, List.find?_cons, List.find?_cons, ih]

theorem get?_erase_of_ne (p : Pit) (k k2 : PitKey) (hne : k2 ≠ k) :
    (p.erase k).get? k2 = p.get? k2 := by
  unfold Pit.erase Pit.get?
  exact find?_eraseP_of_ne p.entries k k2 hne

theorem find?_eraseP_same (l : List pit.Entry) (k : PitKey)
    (hnd : (l.map (fun e => e.key)).Nodup) :
    (l.eraseP (fun e => e.key == k)).find? (fun e => e.key == k) = none := by
  induction l with
  | nil => rfl
  | cons x l ih =>
    simp only [List.map_cons, List.nodup_cons] at hnd
    by_cases hx : x.key = k
    · have hb : (x.key == k) = true := by simpa using hx
      rw [List.eraseP_cons, hb, cond_true, List.find?_eq_none]
      intro y hy hyk
      apply hnd.1
      rw [hx]
      simp only [beq_iff_eq] at hyk
      rw [← hyk]
      exact List.mem_map_of_mem _ hy
    · have hb : (x.key == k) = false := by simpa using hx
      rw [List.eraseP_cons, hb, cond_false, List.find?_cons, hb]
      exact ih hnd.2

theorem get?_erase_same (p : Pit) (k : PitKey) (h : p.KeysDistinct) :
    (p.erase k).get? k = none := by
  unfold Pit.erase Pit.get?
  exact find?_eraseP_same p.entries k h

theorem eraseP_key_eq_erase (k : PitKey) (e : pit.Entry) (l : List pit.Entry)
    (h : l.find? (fun e => e.key == k) = some e) :
    l.eraseP (fun e => e.key == k) = l.erase e := by
  induction l with
  | nil => cases h
  | cons x l ih =>
    by_cases hx : x.key = k
    · have hb : (x.key == k) = true := by simpa using hx
      rw [List.find?_cons, hb] at h
      simp only [Option.some.injEq] at h
      subst h
      rw [List.eraseP_cons, hb, cond_true, List.erase_cons_head]
    · have hb : (x.key == k) = false := by simpa using hx
      rw [List.find?_cons, hb] at h
      have hxe : x ≠ e := by
        intro hxe
        have := List.find?_some h
        simp only [beq_iff_eq] at this
        rw [hxe] at hx
        exact hx this
      have hbe : (x == e) = false := by simpa using hxe
      rw [List.eraseP_cons, hb, cond_false, List.erase_cons, hbe, ih h]
      rfl

theorem erase_entries (p : Pit) (k : PitKey) (e : pit.Entry) (h : p.get? k = some e) :
    (p.erase k).entries = p.entries.erase e :=
  eraseP_key_eq_erase k e p.entries h

end Pit

namespace Forwarder

theorem onInterestFinalize_eq (f : Forwarder) (k : PitKey) (e : pit.Entry)
    (hget : f.pit.get? k = some e) :
    ∃ d, f.onInterestFinalize k =
      { f with
        counters :=
          if e.isSatisfied then
            { f.counters with nSatisfiedInterests := f.counters.nSatisfiedInterests + 1 }
          else
            { f.counters with nUnsatisfiedInterests := f.counters.nUnsatisfiedInterests + 1 }
        log := f.log ++ (Event.onInterestFinalize k ::
          if e.isSatisfied then [] else [Event.beforeExpirePendingInterest k])
        deadNonceList := d
        scheduler := f.scheduler.cancel e.expiryTimer
        pit := f.pit.erase k } := by
  unfold onInterestFinalize
  simp only [emit, hget]
  cases hsat : e.isSatisfied
  · obtain ⟨d, hd⟩ := insertDeadNonceList_eq
      ({ f with log := f.log ++ [Event.onInterestFinalize k] ++
          [Event.beforeExpirePendingInterest k] } : Forwarder) k none
    refine ⟨d, ?_⟩
    simp only [Bool.not_false, if_true, Bool.false_eq_true, if_false]
    rw [hd]
    simp
  · obtain ⟨d, hd⟩ := insertDeadNonceList_eq
      ({ f with log := f.log ++ [Event.onInterestFinalize k] } : Forwarder) k none
    refine ⟨d, ?_⟩
    simp only [Bool.not_true, Bool.false_eq_true, if_false, if_true]
    rw [hd]

/-- C11: a run of `onInterestFinalize` on an entry of the PIT increments
`nSatisfiedInterests` by one when the entry is satisfied and `nUnsatisfiedInterests` by
one when it is not, and touches no other counter; it emits `beforeExpirePendingInterest`
exactly when the entry is unsatisfied; it cancels the entry's expiry timer, so that no
pending event carries the entry's handle any more; and it erases the entry from the PIT:
the table is one entry shorter, no entry is filed under the key any more when keys are
distinct, and the entries under other keys are untouched. -/
theorem onInterestFinalize_spec (f : Forwarder) (k : PitKey) (e : pit.Entry)
    (hget : f.pit.get? k = some e) :
    (f.onInterestFinalize k).counters =
      (if e.isSatisfied then
        { f.counters with nSatisfiedInterests := f.counters.nSatisfiedInterests + 1 }
      else
        { f.counters with nUnsatisfiedInterests := f.counters.nUnsatisfiedInterests + 1 }) ∧
    (f.onInterestFinalize k).log = f.log ++ (Event.onInterestFinalize k ::
      if e.isSatisfied then [] else [Event.beforeExpirePendingInterest k]) ∧
    (f.onInterestFinalize k).scheduler = f.scheduler.cancel e.expiryTimer ∧
    (∀ ev ∈ (f.onInterestFinalize k).scheduler.events, some ev.id ≠ e.expiryTimer) ∧
    (f.onInterestFinalize k).pit.entries = f.pit.entries.erase e ∧
    (f.onInterestFinalize k).pit.entries.length + 1 = f.pit.entries.length ∧
    (f.pit.KeysDistinct → (f.onInterestFinalize k).pit.get? k = none) ∧
    (∀ k2, k2 ≠ k → (f.onInterestFinalize k).pit.get? k2 = f.pit.get? k2) := by
  obtain ⟨d, heq⟩ := onInterestFinalize_eq f k e hget
  have hmem : e ∈ f.pit.entries := List.mem_of_find?_eq_some hget
  rw [heq]
  refine ⟨rfl, rfl, rfl, ?_, Pit.erase_entries f.pit k e hget, ?_,
    fun h => Pit.get?_erase_same f.pit k h, fun k2 hne => Pit.get?_erase_of_ne f.pit k k2 hne⟩
  · intro ev hev
    show some ev.id ≠ e.expiryTimer
    have hev2 : ev ∈ (f.scheduler.cancel e.expiryTimer).events := hev
    intro hid
    rw [← hid] at hev2
    simp [Scheduler.cancel] at hev2
  · show (f.pit.erase k).entries.length + 1 = f.pit.entries.length
    rw [Pit.erase_entries f.pit k e hget, List.length_erase_of_mem hmem]
    have : 0 < f.pit.entries.length := List.length_pos_of_mem hmem
    omega

/-- C11 (witness): Scenario A.  The entry of the Interest that arrived on face A is
finalized unsatisfied: the unsatisfied counter goes from 0 to 1, the observer
`beforeExpirePendingInterest` is notified, and the PIT and the scheduler are empty
afterwards. -/
theorem onInterestFinalize_spec_witness :
    Sample.scenarioA.pit.get? Sample.interestA.pitKey = some Sample.scenarioAEntry ∧
    (Sample.scenarioA.onInterestFinalize Sample.interestA.pitKey).counters =
      { Sample.scenarioA.counters with nUnsatisfiedInterests := 1 } ∧
    (Sample.scenarioA.onInterestFinalize Sample.interestA.pitKey).log =
      Sample.scenarioA.log ++ [Event.onInterestFinalize Sample.interestA.pitKey,
        Event.beforeExpirePendingInterest Sample.interestA.pitKey] ∧
    (Sample.scenarioA.onInterestFinalize Sample.interestA.pitKey).scheduler.events = [] ∧
    (Sample.scenarioA.onInterestFinalize Sample.interestA.pitKey).pit.entries = [] := by
  have h := onInterestFinalize_spec Sample.scenarioA Sample.interestA.pitKey
    Sample.scenarioAEntry (by decide)
  refine ⟨by decide, h.1, h.2.1, ?_, ?_⟩
  · rw [h.2.2.1]; decide
  · rw [h.2.2.2.2.1]; decide

end Forwarder

/-! ## Properties of the inbound Nack pipeline -/

namespace Pit

theorem find_eq_get? (p : Pit) (interest : Interest) :
    p.find interest = (p.get? interest.pitKey).map (fun e => e.key) := by
  unfold Pit.find Pit.get?
  rfl

theorem find_eq_some {p : Pit} {interest : Interest} {k : PitKey}
    (h : p.find interest = some k) : k = interest.pitKey ∧ ∃ e, p.get? k = some e := by
  rw [find_eq_get?] at h
  cases hg : p.get? interest.pitKey with
  | none => rw [hg] at h; cases h
  | some e =>
    rw [hg] at h
    simp only [Option.map_some', Option.some.injEq] at h
    have hk := key_of_get? hg
    rw [hk] at h
    subst h
    exact ⟨rfl, e, hg⟩

theorem get?_modify_of_ne (p : Pit) (k k2 : PitKey) (g : pit.Entry → pit.Entry)
    (hg : ∀ e, (g e).key = e.key) (hne : k2 ≠ k) :
    (p.modify k g).get? k2 = p.get? k2 := by
  rw [get?_modify p k k2 g hg]
  cases h : p.get? k2 with
  | none => rfl
  | some e => simp [key_of_get? h, hne]

theorem get?_modify_same (p : Pit) (k : PitKey) (g : pit.Entry → pit.Entry)
    (hg : ∀ e, (g e).key = e.key) (e : pit.Entry) (h : p.get? k = some e) :
    (p.modify k g).get? k = some (g e) := by
  rw [get?_modify p k k g hg, h]
  simp [key_of_get? h]

end Pit

namespace pit

theorem find?_map_update (l : List OutRecord) (face : Face) (upd : OutRecord → OutRecord)
    (hupd : ∀ x, (upd x).face = x.face) :
    (l.map (fun x => if x.face == face then upd x else x)).find? (fun r => r.face == face)
      = (l.find? (fun r => r.face == face)).map upd := by
  induction l with
  | nil => rfl
  | cons x l ih =>
    by_cases hx : x.face = face
    · have hb : (x.face == face) = true := by simpa using hx
      have hu : ((upd x).face == face) = true := by rw [hupd]; exact hb
      simp only [List.map_cons, hb, if_true, List.find?_cons, hu, Option.map_some']
    · have hb : (x.face == face) = false := by simpa using hx
      simp only [List.map_cons, hb, Bool.false_eq_true, if_false, List.find?_cons, ih]

theorem setIncomingNack_getOutRecord (e : Entry) (face : Face) (nack : Nack) :
    (e.setIncomingNack face nack).getOutRecord face =
      (e.getOutRecord face).map (fun r => r.setIncomingNack nack) := by
  unfold Entry.setIncomingNack Entry.getOutRecord
  exact find?_map_update e.outRecords face _ (by intro x; rfl)

end pit

namespace Forwarder

/-- The inbound Nack pipeline on a Nack it accepts. -/
theorem onIncomingNack_accepted (f : Forwarder) (now : Int) (ingress : FaceEndpoint)
    (nack : Nack) (k : PitKey) (e : pit.Entry) (r : pit.OutRecord)
    (hp2p : ingress.face.linkType = LinkType.POINT_TO_POINT)
    (hfind : f.pit.find nack.interest = some k)
    (hget : f.pit.get? k = some e)
    (hout : e.getOutRecord ingress.face = some r)
    (hnonce : nack.interest.nonce = r.lastNonce) :
    f.onIncomingNack now ingress nack =
      (if fw.hasPendingOutRecords (e.setIncomingNack ingress.face nack) now then
        ({ f with
            counters := { f.counters with nInNacks := f.counters.nInNacks + 1 }
            pit := (f.pit.modify k (fun e => e.setIncomingNack ingress.face nack)) } : Forwarder)
       else
        ({ f with
            counters := { f.counters with nInNacks := f.counters.nInNacks + 1 }
            pit := (f.pit.modify k (fun e => e.setIncomingNack ingress.face nack)) } :
          Forwarder).setExpiryTimer now k 0).emit
        (Event.strategyAfterReceiveNack ingress nack k) := by
  have hget1 : (f.pit.modify k (fun e => e.setIncomingNack ingress.face nack)).get? k
      = some (e.setIncomingNack ingress.face nack) :=
    Pit.get?_modify_same _ _ _ (by intro x; rfl) e hget
  have hb : (ingress.face.linkType != LinkType.POINT_TO_POINT) = false := by simp [hp2p]
  have hn : (nack.interest.nonce != r.lastNonce) = false := by simp [hnonce]
  unfold onIncomingNack
  simp only [hb, Bool.false_eq_true, if_false, hfind, Pit.getOutRecord, hget, hout, hn, hget1]
  cases fw.hasPendingOutRecords (e.setIncomingNack ingress.face nack) now <;> rfl

/-- The inbound Nack pipeline on a Nack it drops. -/
theorem onIncomingNack_dropped (f : Forwarder) (now : Int) (ingress : FaceEndpoint)
    (nack : Nack)
    (hdrop : ¬ (ingress.face.linkType = LinkType.POINT_TO_POINT ∧
      ∃ k r, f.pit.find nack.interest = some k ∧
        f.pit.getOutRecord k ingress.face = some r ∧ nack.interest.nonce = r.lastNonce)) :
    f.onIncomingNack now ingress nack =
      { f with counters := { f.counters with nInNacks := f.counters.nInNacks + 1 } } := by
  unfold onIncomingNack
  by_cases hp2p : ingress.face.linkType = LinkType.POINT_TO_POINT
  · have hb : (ingress.face.linkType != LinkType.POINT_TO_POINT) = false := by simp [hp2p]
    simp only [hb, Bool.false_eq_true, if_false]
    cases hfind : f.pit.find nack.interest with
    | none => rfl
    | some k =>
      dsimp only
      cases hout : f.pit.getOutRecord k ingress.face with
      | none => rfl
      | some r =>
        dsimp only
        by_cases hnonce : nack.interest.nonce = r.lastNonce
        · exact absurd ⟨hp2p, k, r, hfind, hout, hnonce⟩ hdrop
        · have hn : (nack.interest.nonce != r.lastNonce) = true := by simp [hnonce]
          simp only [hn, if_true]
  · have hb : (ingress.face.linkType != LinkType.POINT_TO_POINT) = true := by simp [hp2p]
    simp only [hb, if_true]

/-- C19: the inbound Nack pipeline increments `nInNacks` by one in every case.  When the
ingress face is point-to-point, a PIT entry is filed under the Nack's Interest, the entry
has an out-record of the ingress face and the Nack's Nonce is the last Nonce of that
out-record, the out-record is marked with the Reason of the Nack, the rest of the entry
but its timer handle and every other PIT entry stay as they were, and the log gains
exactly the strategy trigger `afterReceiveNack`.  In every other case nothing but the
counter changes: the PIT, the scheduler and the log are as before. -/
theorem onIncomingNack_spec (f : Forwarder) (now : Int) (ingress : FaceEndpoint)
    (nack : Nack) :
    (f.onIncomingNack now ingress nack).counters =
      { f.counters with nInNacks := f.counters.nInNacks + 1 } ∧
    (∀ k r, ingress.face.linkType = LinkType.POINT_TO_POINT →
      f.pit.find nack.interest = some k →
      f.pit.getOutRecord k ingress.face = some r →
      nack.interest.nonce = r.lastNonce →
      (f.onIncomingNack now ingress nack).log =
        f.log ++ [Event.strategyAfterReceiveNack ingress nack k] ∧
      (∃ e e2, f.pit.get? k = some e ∧
        (f.onIncomingNack now ingress nack).pit.get? k = some e2 ∧
        e2.getOutRecord ingress.face = some { r with incomingNack := some nack.reason } ∧
        e2.outRecords = e.outRecords.map (fun x =>
          if x.face == ingress.face then { x with incomingNack := some nack.reason } else x) ∧
        e2.inRecords = e.inRecords ∧ e2.interest = e.interest ∧
        e2.isSatisfied = e.isSatisfied ∧ e2.dataFreshnessPeriod = e.dataFreshnessPeriod) ∧
      ∀ k2, k2 ≠ k → (f.onIncomingNack now ingress nack).pit.get? k2 = f.pit.get? k2) ∧
    (¬ (ingress.face.linkType = LinkType.POINT_TO_POINT ∧
        ∃ k r, f.pit.find nack.interest = some k ∧
          f.pit.getOutRecord k ingress.face = some r ∧ nack.interest.nonce = r.lastNonce) →
      f.onIncomingNack now ingress nack =
        { f with counters := { f.counters with nInNacks := f.counters.nInNacks + 1 } }) := by
  have hcases : (ingress.face.linkType = LinkType.POINT_TO_POINT ∧
        ∃ k r, f.pit.find nack.interest = some k ∧
          f.pit.getOutRecord k ingress.face = some r ∧ nack.interest.nonce = r.lastNonce) ∨
      ¬ (ingress.face.linkType = LinkType.POINT_TO_POINT ∧
        ∃ k r, f.pit.find nack.interest = some k ∧
          f.pit.getOutRecord k ingress.face = some r ∧ nack.interest.nonce = r.lastNonce) :=
    Classical.em _
  have hacc : ∀ k r, ingress.face.linkType = LinkType.POINT_TO_POINT →
      f.pit.find nack.interest = some k →
      f.pit.getOutRecord k ingress.face = some r →
      nack.interest.nonce = r.lastNonce →
      ∃ e, f.pit.get? k = some e ∧ e.getOutRecord ingress.face = some r ∧
        f.onIncomingNack now ingress nack =
          (if fw.hasPendingOutRecords (e.setIncomingNack ingress.face nack) now then
            ({ f with
                counters := { f.counters with nInNacks := f.counters.nInNacks + 1 }
                pit := (f.pit.modify k (fun e => e.setIncomingNack ingress.face nack)) } :
              Forwarder)
           else
            ({ f with
                counters := { f.counters with nInNacks := f.counters.nInNacks + 1 }
                pit := (f.pit.modify k (fun e => e.setIncomingNack ingress.face nack)) } :
              Forwarder).setExpiryTimer now k 0).emit
            (Event.strategyAfterReceiveNack ingress nack k) := by
    intro k r hp2p hfind hout hnonce
    obtain ⟨_, e, hget⟩ := Pit.find_eq_some hfind
    have hout2 : e.getOutRecord ingress.face = some r := by
      simpa [Pit.getOutRecord, hget] using hout
    exact ⟨e, hget, hout2, onIncomingNack_accepted f now ingress nack k e r hp2p hfind hget
      hout2 hnonce⟩
  refine ⟨?_, ?_, ?_⟩
  · rcases hcases with ⟨hp2p, k, r, hfind, hout, hnonce⟩ | hdrop
    · obtain ⟨e, _, _, heq⟩ := hacc k r hp2p hfind hout hnonce
      rw [heq]
      split <;> simp [emit, setExpiryTimer]
    · rw [onIncomingNack_dropped f now ingress nack hdrop]
  · intro k r hp2p hfind hout hnonce
    obtain ⟨e, hget, hout2, heq⟩ := hacc k r hp2p hfind hout hnonce
    have hk := Pit.key_of_get? hget
    have hget1 : (f.pit.modify k (fun e => e.setIncomingNack ingress.face nack)).get? k
        = some (e.setIncomingNack ingress.face nack) :=
      Pit.get?_modify_same _ _ _ (by intro x; rfl) e hget
    have hrec := pit.setIncomingNack_getOutRecord e ingress.face nack
    rw [hout2] at hrec
    rw [heq]
    refine ⟨?_, ?_, ?_⟩
    · split <;> simp [emit, setExpiryTimer]
    · by_cases hpend : fw.hasPendingOutRecords (e.setIncomingNack ingress.face nack) now = true
      · rw [if_pos hpend]
        exact ⟨e, _, hget, hget1, hrec, rfl, rfl, rfl, rfl, rfl⟩
      · rw [if_neg hpend]
        refine ⟨e, { e.setIncomingNack ingress.face nack with
          expiryTimer := some f.scheduler.nextId }, hget, ?_, hrec, rfl, rfl, rfl, rfl, rfl⟩
        show ((({ f with
            counters := { f.counters with nInNacks := f.counters.nInNacks + 1 }
            pit := (f.pit.modify k (fun e => e.setIncomingNack ingress.face nack)) } :
          Forwarder).setExpiryTimer now k 0).pit).get? k = _
        rw [setExpiryTimer_pit]
        exact Pit.get?_modify_same _ _ _ (by intro x; rfl) _ hget1
    · intro k2 hne
      have h1 : (f.pit.modify k (fun e => e.setIncomingNack ingress.face nack)).get? k2
            = f.pit.get? k2 :=
        Pit.get?_modify_of_ne _ _ _ _ (by intro x; rfl) hne
      by_cases hpend : fw.hasPendingOutRecords (e.setIncomingNack ingress.face nack) now = true
      · rw [if_pos hpend]
        exact h1
      · rw [if_neg hpend]
        show ((({ f with
            counters := { f.counters with nInNacks := f.counters.nInNacks + 1 }
            pit := (f.pit.modify k (fun e => e.setIncomingNack ingress.face nack)) } :
          Forwarder).setExpiryTimer now k 0).pit).get? k2 = _
        rw [setExpiryTimer_pit, Pit.get?_modify_of_ne _ _ _ _ (by intro x; rfl) hne]
        exact h1
  · intro hdrop
    exact onIncomingNack_dropped f now ingress nack hdrop

/-- C19 (witness): the Nack for `/7` with Nonce 5 arriving on the point-to-point face B,
whose out-record carries Nonce 5, is dispatched to the strategy; arriving on the
multi-access face M it changes nothing but the counter. -/
theorem onIncomingNack_spec_witness :
    (Sample.pendingForwarder.onIncomingNack 10 { face := Sample.faceB, endpoint := 0 }
        Sample.nack5).log =
      Sample.pendingForwarder.log ++
        [Event.strategyAfterReceiveNack { face := Sample.faceB, endpoint := 0 } Sample.nack5
          Sample.interest5.pitKey] ∧
    Sample.pendingForwarder.onIncomingNack 10 { face := Sample.faceM, endpoint := 0 }
        Sample.nack5 =
      { Sample.pendingForwarder with
        counters := { Sample.pendingForwarder.counters with
          nInNacks := Sample.pendingForwarder.counters.nInNacks + 1 } } :=
  ⟨((onIncomingNack_spec Sample.pendingForwarder 10 { face := Sample.faceB, endpoint := 0 }
      Sample.nack5).2.1 Sample.interest5.pitKey
      { face := Sample.faceB, lastNonce := 5, lastRenewed := 0, expiry := 4000000000,
        incomingNack := none }
      (by decide) (by decide) (by decide) (by decide)).1,
   (onIncomingNack_spec Sample.pendingForwarder 10 { face := Sample.faceM, endpoint := 0 }
      Sample.nack5).2.2 (fun h => absurd h.1 (by decide))⟩

theorem hasPendingOutRecords_eq_false (e : pit.Entry) (now : Int) :
    fw.hasPendingOutRecords e now = false ↔
      ∀ x ∈ e.outRecords, x.incomingNack ≠ none ∨ x.expiry < now := by
  unfold fw.hasPendingOutRecords
  rw [List.any_eq_false]
  constructor
  · intro h x hx
    have := h x hx
    simp only [Bool.and_eq_true, decide_eq_true_eq, Option.isNone_iff_eq_none, not_and] at this
    by_cases hn : x.incomingNack = none
    · right
      by_contra hlt
      exact this (not_lt.mp hlt) hn
    · exact Or.inl hn
  · intro h x hx
    simp only [Bool.and_eq_true, decide_eq_true_eq, Option.isNone_iff_eq_none, not_and]
    intro hle hn
    rcases h x hx with h1 | h1
    · exact h1 hn
    · omega

/-- C20: let a Nack be accepted by the inbound Nack pipeline and consider the
out-records of its PIT entry once the Nack is recorded.  When each of them is nacked or
expired, in particular when each of them is nacked, the entry's previous expiry timer is
cancelled and a new one is scheduled after 0 ms, at `now`, and only then is
`afterReceiveNack` dispatched to the strategy.  When one of them is still pending, that
is unexpired and not nacked, the scheduler and the entry's timer handle are left as they
were. -/
theorem onIncomingNack_expiry (f : Forwarder) (now : Int) (ingress : FaceEndpoint)
    (nack : Nack) (k : PitKey) (e : pit.Entry) (r : pit.OutRecord)
    (hp2p : ingress.face.linkType = LinkType.POINT_TO_POINT)
    (hfind : f.pit.find nack.interest = some k)
    (hget : f.pit.get? k = some e)
    (hout : e.getOutRecord ingress.face = some r)
    (hnonce : nack.interest.nonce = r.lastNonce) :
    ((∀ x ∈ (e.setIncomingNack ingress.face nack).outRecords,
        x.incomingNack ≠ none ∨ x.expiry < now) →
      f.onIncomingNack now ingress nack =
        (({ f with
            counters := { f.counters with nInNacks := f.counters.nInNacks + 1 }
            pit := (f.pit.modify k (fun e => e.setIncomingNack ingress.face nack)) } :
          Forwarder).setExpiryTimer now k 0).emit
            (Event.strategyAfterReceiveNack ingress nack k) ∧
      (f.onIncomingNack now ingress nack).scheduler.events =
        (f.scheduler.cancel e.expiryTimer).events ++
          [{ id := f.scheduler.nextId, fireAt := now, pitEntry := k }] ∧
      ∃ e2, (f.onIncomingNack now ingress nack).pit.get? k = some e2 ∧
        e2.expiryTimer = some f.scheduler.nextId) ∧
    ((∃ x ∈ (e.setIncomingNack ingress.face nack).outRecords,
        now ≤ x.expiry ∧ x.incomingNack = none) →
      f.onIncomingNack now ingress nack =
        ({ f with
            counters := { f.counters with nInNacks := f.counters.nInNacks + 1 }
            pit := (f.pit.modify k (fun e => e.setIncomingNack ingress.face nack)) } :
          Forwarder).emit (Event.strategyAfterReceiveNack ingress nack k) ∧
      (f.onIncomingNack now ingress nack).scheduler = f.scheduler ∧
      ∃ e2, (f.onIncomingNack now ingress nack).pit.get? k = some e2 ∧
        e2.expiryTimer = e.expiryTimer) := by
  have heq := onIncomingNack_accepted f now ingress nack k e r hp2p hfind hget hout hnonce
  have hget1 : (f.pit.modify k (fun e => e.setIncomingNack ingress.face nack)).get? k
      = some (e.setIncomingNack ingress.face nack) :=
    Pit.get?_modify_same _ _ _ (by intro x; rfl) e hget
  constructor
  · intro hall
    have hpend := (hasPendingOutRecords_eq_false _ now).mpr hall
    rw [hpend] at heq
    simp only [Bool.false_eq_true, if_false] at heq
    refine ⟨heq, ?_, ?_⟩
    · rw [heq]
      show ((({ f with
            counters := { f.counters with nInNacks := f.counters.nInNacks + 1 }
            pit := (f.pit.modify k (fun e => e.setIncomingNack ingress.face nack)) } :
          Forwarder).setExpiryTimer now k 0).scheduler).events = _
      rw [setExpiryTimer_scheduler]
      simp only [hget1]
      simp [pit.Entry.setIncomingNack]
    · rw [heq]
      refine ⟨{ e.setIncomingNack ingress.face nack with
        expiryTimer := some f.scheduler.nextId }, ?_, rfl⟩
      show ((({ f with
            counters := { f.counters with nInNacks := f.counters.nInNacks + 1 }
            pit := (f.pit.modify k (fun e => e.setIncomingNack ingress.face nack)) } :
          Forwarder).setExpiryTimer now k 0).pit).get? k = _
      rw [setExpiryTimer_pit]
      exact Pit.get?_modify_same _ _ _ (by intro x; rfl) _ hget1
  · rintro ⟨x, hx, hle, hn⟩
    have hpend : fw.hasPendingOutRecords (e.setIncomingNack ingress.face nack) now = true := by
      unfold fw.hasPendingOutRecords
      rw [List.any_eq_true]
      exact ⟨x, hx, by simp [hle, hn]⟩
    rw [hpend] at heq
    simp only [if_true] at heq
    refine ⟨heq, by rw [heq]; rfl, ?_⟩
    rw [heq]
    exact ⟨_, hget1, rfl⟩

/-- C20 (witness): the entry of `pendingForwarder` has the one out-record of face B, so
the Nack from face B leaves every out-record nacked and the timer is set to fire now.
The entry `exactEntry` of `twoMatchForwarder` also has an out-record of face M that is
still pending, so the Nack from face B leaves the scheduler as it was. -/
theorem onIncomingNack_expiry_witness :
    (Sample.pendingForwarder.onIncomingNack 10 { face := Sample.faceB, endpoint := 0 }
        Sample.nack5).scheduler.events =
      [{ id := 0, fireAt := 10, pitEntry := Sample.interest5.pitKey }] ∧
    (Sample.twoMatchForwarder.onIncomingNack 10 { face := Sample.faceB, endpoint := 0 }
        Sample.nack5).scheduler = Sample.twoMatchForwarder.scheduler :=
  ⟨((onIncomingNack_expiry Sample.pendingForwarder 10 { face := Sample.faceB, endpoint := 0 }
      Sample.nack5 Sample.interest5.pitKey Sample.pendingEntry
      { face := Sample.faceB, lastNonce := 5, lastRenewed := 0, expiry := 4000000000,
        incomingNack := none }
      (by decide) (by decide) (by decide) (by decide) (by decide)).1 (by decide)).2.1,
   ((onIncomingNack_expiry Sample.twoMatchForwarder 10 { face := Sample.faceB, endpoint := 0 }
      Sample.nack5 Sample.interest5.pitKey Sample.exactEntry
      { face := Sample.faceB, lastNonce := 5, lastRenewed := 0, expiry := 4000000000,
        incomingNack := none }
      (by decide) (by decide) (by decide) (by decide) (by decide)).2
      ⟨{ face := Sample.faceM, lastNonce := 5, lastRenewed := 0, expiry := 4000000000,
         incomingNack := none }, by decide, by decide, by decide⟩).2.1⟩

end Forwarder

/-! ## The Content Store is asked for an Interest without pending downstream only -/

namespace Pit

/-- The in-records of the entry `Pit::insert` returns are those the PIT held under the
key of the Interest. -/
theorem inRecords_insert (p : Pit) (interest : Interest) :
    (p.insert interest).2.inRecords (p.insert interest).1.1 = p.inRecords interest.pitKey := by
  unfold Pit.insert Pit.inRecords Pit.get?
  have hpred : (fun e : pit.Entry => e.canMatch interest)
      = (fun e : pit.Entry => e.key == interest.pitKey) := rfl
  rw [hpred]
  cases hfind : p.entries.find? (fun e => e.key == interest.pitKey) with
  | some e =>
    have hk : e.key = interest.pitKey := by simpa using List.find?_some hfind
    simp only [hk, hfind]
  | none =>
    simp only [List.find?_append, hfind, Option.none_or]
    simp [pit.Entry.key]

end Pit

namespace Forwarder

theorem emit_pit (f : Forwarder) (ev : Event) : (f.emit ev).pit = f.pit := rfl

theorem emit_scheduler (f : Forwarder) (ev : Event) : (f.emit ev).scheduler = f.scheduler := rfl

theorem emit_cs (f : Forwarder) (ev : Event) : (f.emit ev).cs = f.cs := rfl

theorem emit_log (f : Forwarder) (ev : Event) : (f.emit ev).log = f.log ++ [ev] := rfl

theorem emit_counters (f : Forwarder) (ev : Event) : (f.emit ev).counters = f.counters := rfl

/-- What `onContentStoreMiss` leaves of the Content Store, of the hit and miss counters
and of the log. -/
theorem onContentStoreMiss_frame (f : Forwarder) (now : Int) (ingress : FaceEndpoint)
    (k : PitKey) (interest : Interest) :
    (f.onContentStoreMiss now ingress k interest).cs = f.cs ∧
    (f.onContentStoreMiss now ingress k interest).counters.nCsMisses
      = f.counters.nCsMisses + 1 ∧
    (f.onContentStoreMiss now ingress k interest).counters.nCsHits = f.counters.nCsHits ∧
    ∃ tail, (f.onContentStoreMiss now ingress k interest).log = f.log ++
        (Event.onContentStoreMiss ingress k interest :: Event.afterCsMiss interest :: tail) ∧
      ∀ ev ∈ tail, ev.isCsFind = false ∧ ev.isContentStoreHit = false := by
  obtain ⟨g, hg, heq⟩ := onContentStoreMiss_eq f now ingress k interest
  have hgcs : g.cs = f.cs := by rw [hg]; rfl
  have hgm : g.counters.nCsMisses = f.counters.nCsMisses + 1 := by rw [hg]; rfl
  have hgh : g.counters.nCsHits = f.counters.nCsHits := by rw [hg]; rfl
  have hglog : g.log = f.log ++
      [Event.onContentStoreMiss ingress k interest, Event.afterCsMiss interest] := by
    rw [hg]; rfl
  rw [heq]
  cases interest.nextHopFaceIdTag with
  | none =>
    refine ⟨hgcs, hgm, hgh, [Event.strategyAfterReceiveInterest
      { face := ingress.face, endpoint := 0 } interest k], ?_, ?_⟩
    · simp [emit, hglog]
    · intro ev hev
      simp only [List.mem_singleton] at hev
      subst hev
      exact ⟨rfl, rfl⟩
  | some t =>
    dsimp only
    cases faceTableGet f.faceTable t with
    | none =>
      refine ⟨hgcs, hgm, hgh, [], ?_, ?_⟩
      · simp [hglog]
      · intro ev hev; cases hev
    | some nh =>
      refine ⟨hgcs, hgm, hgh, [Event.onOutgoingInterest k { face := nh, endpoint := 0 } interest,
        Event.sendInterest nh 0 interest], ?_, ?_⟩
      · simp [onOutgoingInterest, emit, hglog]
      · intro ev hev
        simp only [List.mem_cons, List.mem_singleton, List.not_mem_nil, or_false] at hev
        rcases hev with rfl | rfl <;> exact ⟨rfl, rfl⟩

/-- The Interest as `onIncomingInterest` works on it past the Dead Nonce List check: it
carries the IncomingFaceId tag and may have lost its forwarding hint. -/
theorem onIncomingInterest_eq (f : Forwarder) (now : Int) (ingress : FaceEndpoint)
    (interest : Interest)
    (hscope : (ingress.face.scope == FaceScope.NON_LOCAL
                && Name.isPrefixOf LOCALHOST interest.name) = false)
    (hdnl : f.deadNonceList.has interest.name interest.nonce = false) :
    ∃ (i2 : Interest) (g : Forwarder),
      i2 = { interest with incomingFaceIdTag := some ingress.face.id,
                           forwardingHint := i2.forwardingHint } ∧
      g = { f with
            counters := { f.counters with nInInterests := f.counters.nInInterests + 1 }
            log := f.log ++ [Event.pitInsert i2]
            pit := (f.pit.insert i2).2 } ∧
      f.onIncomingInterest now ingress interest =
        if (match g.pit.get? (f.pit.insert i2).1.1 with
            | some e => hasDuplicateNonceInPit e i2.nonce ingress.face
            | none => false) then
          (g.onInterestLoop ingress i2).emit
            (Event.strategyAfterReceiveLoopedInterest ingress i2 (f.pit.insert i2).1.1)
        else if (g.pit.inRecords (f.pit.insert i2).1.1).isEmpty then
          (g.cs.find now i2).1.foldl (fun acc cb =>
            match cb with
            | Cs.Callback.hit i d => acc.onContentStoreHit now ingress (f.pit.insert i2).1.1 i d
            | Cs.Callback.miss i => acc.onContentStoreMiss now ingress (f.pit.insert i2).1.1 i)
            ({ g with log := g.log ++ [Event.csFind i2], cs := (g.cs.find now i2).2 } : Forwarder)
        else g.onContentStoreMiss now ingress (f.pit.insert i2).1.1 i2 := by
  refine ⟨if (!interest.forwardingHint.isEmpty
            && isInProducerRegion f.networkRegionTable interest.forwardingHint) = true then
          ({ interest with incomingFaceIdTag := some ingress.face.id, forwardingHint := [] } :
            Interest)
        else { interest with incomingFaceIdTag := some ingress.face.id }, _, ?_, rfl, ?_⟩
  · split <;> rfl
  · unfold onIncomingInterest
    simp only [hscope, hdnl, Bool.false_eq_true, if_false, hasDuplicateNonceInPit, emit_pit,
      emit_cs]
    generalize (if (!interest.forwardingHint.isEmpty
            && isInProducerRegion f.networkRegionTable interest.forwardingHint) = true then
          ({ name := interest.name, canBePrefix := interest.canBePrefix,
             mustBeFresh := interest.mustBeFresh, nonce := interest.nonce,
             lifetime := interest.lifetime, forwardingHint := [],
             incomingFaceIdTag := some ingress.face.id,
             nextHopFaceIdTag := interest.nextHopFaceIdTag } : Interest)
        else { name := interest.name, canBePrefix := interest.canBePrefix,
               mustBeFresh := interest.mustBeFresh, nonce := interest.nonce,
               lifetime := interest.lifetime, forwardingHint := interest.forwardingHint,
               incomingFaceIdTag := some ingress.face.id,
               nextHopFaceIdTag := interest.nextHopFaceIdTag }) = i2
    cases (f.pit.insert i2).2.get? (f.pit.insert i2).1.1 with
    | none =>
      simp only [bne_self_eq_false, Bool.false_and, ite_self, Bool.false_eq_true, if_false]
      rfl
    | some e => rfl

theorem onIncomingInterest_dead_nonce_log (f : Forwarder) (now : Int) (ingress : FaceEndpoint)
    (interest : Interest)
    (hscope : (ingress.face.scope == FaceScope.NON_LOCAL
                && Name.isPrefixOf LOCALHOST interest.name) = false)
    (hdnl : f.deadNonceList.has interest.name interest.nonce = true) :
    (f.onIncomingInterest now ingress interest).log = f.log ++
      (Event.onInterestLoop ingress
          { interest with incomingFaceIdTag := some ingress.face.id } ::
        if ingress.face.linkType = LinkType.POINT_TO_POINT then
          [Event.sendNack ingress.face ingress.endpoint
            { interest := { interest with incomingFaceIdTag := some ingress.face.id },
              reason := NackReason.DUPLICATE }]
        else []) := by
  unfold onIncomingInterest
  simp only [hscope, hdnl, Bool.false_eq_true, if_false, if_true]
  rw [log_onInterestLoop]

/-- C15: `onIncomingInterest` asks the Content Store only for an Interest whose PIT entry
has no in-record.  When the entry of an inbound Interest that is neither dropped nor
looped already has an in-record, the pipeline is the PIT insert followed by
`onContentStoreMiss` on the unchanged Content Store: `Cs::find` is not called, no CS hit
is taken, `nCsMisses` grows by one and `afterCsMiss` is emitted.  And whenever the log of
`onIncomingInterest` gains a `Cs::find`, the PIT held no in-record under the key of the
Interest. -/
theorem onIncomingInterest_pending_skips_cs (f : Forwarder) (now : Int)
    (ingress : FaceEndpoint) (interest : Interest) :
    (∀ e : pit.Entry,
      (ingress.face.scope == FaceScope.NON_LOCAL
        && Name.isPrefixOf LOCALHOST interest.name) = false →
      f.deadNonceList.has interest.name interest.nonce = false →
      f.pit.get? interest.pitKey = some e →
      e.hasInRecords = true →
      hasDuplicateNonceInPit e interest.nonce ingress.face = false →
      ∃ i2 : Interest,
        i2 = { interest with incomingFaceIdTag := some ingress.face.id,
                             forwardingHint := i2.forwardingHint } ∧
        f.onIncomingInterest now ingress interest =
          ({ f with
              counters := { f.counters with nInInterests := f.counters.nInInterests + 1 }
              log := f.log ++ [Event.pitInsert i2] } : Forwarder).onContentStoreMiss
            now ingress interest.pitKey i2 ∧
        (f.onIncomingInterest now ingress interest).cs = f.cs ∧
        (f.onIncomingInterest now ingress interest).counters.nCsMisses
          = f.counters.nCsMisses + 1 ∧
        (f.onIncomingInterest now ingress interest).counters.nCsHits = f.counters.nCsHits ∧
        ∃ tail, (f.onIncomingInterest now ingress interest).log = f.log ++
            (Event.pitInsert i2 :: Event.onContentStoreMiss ingress interest.pitKey i2 ::
              Event.afterCsMiss i2 :: tail) ∧
          ∀ ev ∈ tail, ev.isCsFind = false ∧ ev.isContentStoreHit = false) ∧
    (∀ steps, (f.onIncomingInterest now ingress interest).log = f.log ++ steps →
      (∃ ev ∈ steps, ev.isCsFind = true) → f.pit.inRecords interest.pitKey = []) := by
  constructor
  · intro e hscope hdnl hentry hin hloop
    obtain ⟨i2, g, hi2, hg, heq⟩ := onIncomingInterest_eq f now ingress interest hscope hdnl
    have hk2 : i2.pitKey = interest.pitKey := by rw [hi2]; rfl
    have hn2 : i2.nonce = interest.nonce := by rw [hi2]
    have hins : f.pit.insert i2 = ((i2.pitKey, false), f.pit) :=
      Pit.insert_existing f.pit i2 e (by rw [hk2]; exact hentry)
    have hgpit : g.pit = f.pit := by rw [hg, hins]
    have hgeq : g = ({ f with
        counters := { f.counters with nInInterests := f.counters.nInInterests + 1 }
        log := f.log ++ [Event.pitInsert i2] } : Forwarder) := by
      rw [hg, hins]
    have hinr : (g.pit.inRecords interest.pitKey).isEmpty = false := by
      rw [hgpit]
      unfold Pit.inRecords
      rw [hentry]
      unfold pit.Entry.hasInRecords at hin
      simpa using hin
    rw [hins, hgpit] at heq
    simp only [hk2, hentry, hn2, hloop, Bool.false_eq_true, if_false] at heq
    rw [← hgpit, hinr] at heq
    simp only [Bool.false_eq_true, if_false] at heq
    rw [hgeq] at heq
    obtain ⟨h1, h2, h3, tail, h4, h5⟩ := onContentStoreMiss_frame
      ({ f with
        counters := { f.counters with nInInterests := f.counters.nInInterests + 1 }
        log := f.log ++ [Event.pitInsert i2] } : Forwarder) now ingress interest.pitKey i2
    refine ⟨i2, hi2, heq, ?_, ?_, ?_, tail, ?_, h5⟩
    · rw [heq, h1]
    · rw [heq, h2]
    · rw [heq, h3]
    · rw [heq, h4]
      simp
  · intro steps hlog hfind
    obtain ⟨ev, hev, hisfind⟩ := hfind
    by_cases hscope : (ingress.face.scope == FaceScope.NON_LOCAL
        && Name.isPrefixOf LOCALHOST interest.name) = true
    · exfalso
      have : (f.onIncomingInterest now ingress interest).log = f.log := by
        unfold onIncomingInterest
        simp only [hscope, if_true]
      rw [this] at hlog
      have hnil : steps = [] := by
        have := congrArg List.length hlog
        simp only [List.length_append] at this
        exact List.eq_nil_of_length_eq_zero (by omega)
      rw [hnil] at hev
      cases hev
    · simp only [Bool.not_eq_true] at hscope
      by_cases hdnl : f.deadNonceList.has interest.name interest.nonce = true
      · exfalso
        have h1 := onIncomingInterest_dead_nonce_log f now ingress interest hscope hdnl
        rw [h1] at hlog
        have hsteps := List.append_cancel_left hlog
        rw [← hsteps] at hev
        split at hev
        · simp only [List.mem_cons, List.mem_singleton, List.not_mem_nil, or_false] at hev
          rcases hev with rfl | rfl <;> cases hisfind
        · simp only [List.mem_cons, List.not_mem_nil, or_false] at hev
          subst hev
          cases hisfind
      · simp only [Bool.not_eq_true] at hdnl
        obtain ⟨i2, g, hi2, hg, heq⟩ := onIncomingInterest_eq f now ingress interest hscope hdnl
        have hk2 : i2.pitKey = interest.pitKey := by rw [hi2]; rfl
        have hglog : g.log = f.log ++ [Event.pitInsert i2] := by rw [hg]
        have hgpit : g.pit = (f.pit.insert i2).2 := by rw [hg]
        rw [heq] at hlog
        split at hlog
        · exfalso
          rw [emit_log, log_onInterestLoop, hglog] at hlog
          simp only [List.append_assoc] at hlog
          have hsteps := List.append_cancel_left hlog
          rw [← hsteps] at hev
          split at hev
          · simp only [List.singleton_append, List.cons_append, List.nil_append, List.mem_cons,
              List.mem_singleton, List.not_mem_nil, or_false] at hev
            rcases hev with rfl | rfl | rfl | rfl <;> cases hisfind
          · simp only [List.singleton_append, List.cons_append, List.nil_append, List.mem_cons,
              List.mem_singleton, List.not_mem_nil, or_false] at hev
            rcases hev with rfl | rfl | rfl <;> cases hisfind
        · split at hlog
          · rename_i hempty
            rw [hgpit, Pit.inRecords_insert, hk2] at hempty
            simpa using hempty
          · exfalso
            obtain ⟨_, _, _, tail, h4, h5⟩ := onContentStoreMiss_frame g now ingress
              (f.pit.insert i2).1.1 i2
            rw [h4, hglog] at hlog
            simp only [List.append_assoc] at hlog
            have hsteps := List.append_cancel_left hlog
            rw [← hsteps] at hev
            simp only [List.singleton_append, List.mem_cons] at hev
            rcases hev with rfl | rfl | rfl | hev
            · cases hisfind
            · cases hisfind
            · cases hisfind
            · rw [(h5 ev hev).1] at hisfind
              cases hisfind

/-- C15 (witness): the sample entry of `/7` holds an in-record of face A when the
Interest with Nonce 9 arrives on face M: the Content Store is left alone, the miss is
counted and no hit is. -/
theorem onIncomingInterest_pending_skips_cs_witness :
    (Sample.pendingForwarder.onIncomingInterest 10
        { face := Sample.faceM, endpoint := 0 } Sample.interest9).cs
      = Sample.pendingForwarder.cs ∧
    (Sample.pendingForwarder.onIncomingInterest 10
        { face := Sample.faceM, endpoint := 0 } Sample.interest9).counters.nCsMisses = 1 ∧
    (Sample.pendingForwarder.onIncomingInterest 10
        { face := Sample.faceM, endpoint := 0 } Sample.interest9).counters.nCsHits = 0 ∧
    ∀ ev ∈ (Sample.pendingForwarder.onIncomingInterest 10
        { face := Sample.faceM, endpoint := 0 } Sample.interest9).log, ev.isCsFind = false := by
  obtain ⟨i2, _, _, h3, h4, h5, _⟩ := (onIncomingInterest_pending_skips_cs
    Sample.pendingForwarder 10 { face := Sample.faceM, endpoint := 0 } Sample.interest9).1
    Sample.pendingEntry (by decide) (by decide) (by decide) (by decide) (by decide)
  exact ⟨h3, h4, h5, by decide⟩

end Forwarder

/-! ## The PIT and the scheduler over the life of a Forwarder -/

namespace Pit

theorem find?_key_of_mem (l : List pit.Entry) (h : (l.map (fun e => e.key)).Nodup)
    {e : pit.Entry} (he : e ∈ l) : l.find? (fun x => x.key == e.key) = some e := by
  induction l with
  | nil => cases he
  | cons x l ih =>
    simp only [List.map_cons, List.nodup_cons] at h
    rcases List.mem_cons.mp he with rfl | hmem
    · rw [List.find?_cons, beq_self_eq_true]
    · have hne : x.key ≠ e.key := by
        intro heq
        apply h.1
        rw [heq]
        exact List.mem_map_of_mem _ hmem
      have hb : (x.key == e.key) = false := by simpa using hne
      rw [List.find?_cons, hb]
      exact ih h.2 hmem

theorem get?_of_mem {p : Pit} (h : p.KeysDistinct) {e : pit.Entry} (he : e ∈ p.entries) :
    p.get? e.key = some e :=
  find?_key_of_mem p.entries h he

theorem mem_of_get? {p : Pit} {k : PitKey} {e : pit.Entry} (h : p.get? k = some e) :
    e ∈ p.entries := List.mem_of_find?_eq_some h

/-- An entry of the PIT is still there after `Pit::insert`. -/
theorem get?_insert_of_some (p : Pit) (interest : Interest) (k : PitKey) (e : pit.Entry)
    (h : p.get? k = some e) : (p.insert interest).2.get? k = some e := by
  unfold Pit.insert
  cases p.entries.find? (fun e => e.canMatch interest) with
  | some e0 => exact h
  | none =>
    unfold Pit.get? at h ⊢
    simp only [List.find?_append, h]
    rfl

/-- The entry `Pit::insert` returns is in the PIT. -/
theorem get?_insert_isSome (p : Pit) (interest : Interest) :
    ((p.insert interest).2.get? (p.insert interest).1.1).isSome = true := by
  unfold Pit.insert Pit.get?
  have hpred : (fun e : pit.Entry => e.canMatch interest)
      = (fun e : pit.Entry => e.key == interest.pitKey) := rfl
  rw [hpred]
  cases hfind : p.entries.find? (fun e => e.key == interest.pitKey) with
  | some e =>
    have hk : e.key = interest.pitKey := by simpa using List.find?_some hfind
    simp only [hk, hfind, Option.isSome_some]
  | none =>
    simp only [List.find?_append, hfind, Option.none_or]
    simp [pit.Entry.key]

theorem get?_isSome_of_mem_findAllDataMatches {p : Pit} {data : Data} {k : PitKey}
    (h : k ∈ p.findAllDataMatches data) : (p.get? k).isSome = true := by
  unfold Pit.findAllDataMatches at h
  obtain ⟨e, he, hk⟩ := List.mem_map.mp h
  have hmem : e ∈ p.entries := (List.mem_filter.mp he).1
  unfold Pit.get?
  rw [List.find?_isSome]
  exact ⟨e, hmem, by simpa using hk⟩

theorem get?_isSome_of_find {p : Pit} {interest : Interest} {k : PitKey}
    (h : p.find interest = some k) : (p.get? k).isSome = true := by
  obtain ⟨_, e, he⟩ := find_eq_some h
  rw [he]; rfl

end Pit

namespace Forwarder

namespace Evolves

/-- An entry of the PIT stays in the PIT, under its key and with its Interest, and once
satisfied it stays satisfied, as long as it is not erased. -/
theorem persist {f g : Forwarder} (h : Evolves f g) :
    ∀ k e, f.pit.get? k = some e →
      ∃ e2, g.pit.get? k = some e2 ∧ e2.interest = e.interest ∧
        (e.isSatisfied = true → e2.isSatisfied = true) := by
  induction h with
  | refl f => intro k e he; exact ⟨e, he, rfl, fun h => h⟩
  | trans _ _ ih1 ih2 =>
    intro k e he
    obtain ⟨e1, h1, h2, h3⟩ := ih1 k e he
    obtain ⟨e2, h4, h5, h6⟩ := ih2 k e1 h1
    exact ⟨e2, h4, h5.trans h2, fun h => h6 (h3 h)⟩
  | other hp _ =>
    intro k e he
    rw [hp]
    exact ⟨e, he, rfl, fun h => h⟩
  | modify f k0 upd hupd =>
    intro k e he
    have hkey : ∀ x, (upd x).key = x.key := by
      intro x
      unfold pit.Entry.key
      rw [(hupd x).1]
    show ∃ e2, (f.pit.modify k0 upd).get? k = some e2 ∧ _
    rw [Pit.get?_modify f.pit k0 k upd hkey, he]
    by_cases hk : e.key = k0
    · refine ⟨upd e, by simp [hk], (hupd e).1, (hupd e).2.2.1⟩
    · exact ⟨e, by simp [hk], rfl, fun h => h⟩
  | insert f interest =>
    intro k e he
    exact ⟨e, Pit.get?_insert_of_some f.pit interest k e he, rfl, fun h => h⟩
  | timer f now k0 d _ =>
    intro k e he
    rw [setExpiryTimer_pit, Pit.get?_modify f.pit k0 k _ (by intro x; rfl), he]
    by_cases hk : e.key = k0
    · exact ⟨{ e with expiryTimer := some f.scheduler.nextId }, by simp [hk], rfl, fun h => h⟩
    · exact ⟨e, by simp [hk], rfl, fun h => h⟩

theorem live {f g : Forwarder} (h : Evolves f g) {k : PitKey}
    (hk : (f.pit.get? k).isSome = true) : (g.pit.get? k).isSome = true := by
  obtain ⟨e, he⟩ := Option.isSome_iff_exists.mp hk
  obtain ⟨e2, h2, _⟩ := h.persist k e he
  rw [h2]; rfl

theorem of_eq {f g h : Forwarder} (hfg : Evolves f g) (hp : h.pit = g.pit)
    (hs : h.scheduler = g.scheduler) : Evolves f h :=
  Evolves.trans hfg (Evolves.other hp hs)

theorem of_modify {f g : Forwarder} (k : PitKey) (upd : pit.Entry → pit.Entry)
    (hupd : pit.Entry.Update upd) (hp : g.pit = f.pit.modify k upd)
    (hs : g.scheduler = f.scheduler) : Evolves f g :=
  Evolves.trans (Evolves.modify f k upd hupd) (Evolves.other hp hs)

theorem of_insert {f g : Forwarder} (interest : Interest) (hp : g.pit = (f.pit.insert interest).2)
    (hs : g.scheduler = f.scheduler) : Evolves f g :=
  Evolves.trans (Evolves.insert f interest) (Evolves.other hp hs)

/-- Re-arming the timer of an entry at the end of a run of steps. -/
theorem then_timer {f g : Forwarder} (now : Int) (k : PitKey) (d : Int) (hfg : Evolves f g)
    (hk : (f.pit.get? k).isSome = true) : Evolves f (g.setExpiryTimer now k d) :=
  Evolves.trans hfg (Evolves.timer g now k d (hfg.live hk))

/-- A pipeline that runs on an entry of the PIT after a run of steps. -/
theorem then_live {f g h : Forwarder} {k : PitKey} (hfg : Evolves f g)
    (hgh : (g.pit.get? k).isSome = true → Evolves g h)
    (hk : (f.pit.get? k).isSome = true) : Evolves f h :=
  Evolves.trans hfg (hgh (hfg.live hk))

end Evolves

end Forwarder

namespace pit

theorem map_face_replace (l : List InRecord) (face : Face) (r : InRecord) (hr : r.face = face) :
    (l.map (fun x => if x.face == face then r else x)).map (fun x => x.face)
      = l.map (fun x => x.face) := by
  rw [List.map_map]
  apply List.map_congr_left
  intro x _
  simp only [Function.comp]
  by_cases hx : x.face = face
  · simp [hx, hr]
  · simp [hx]

theorem map_face_update (l : List OutRecord) (face : Face) (upd : OutRecord → OutRecord)
    (hupd : ∀ x, (upd x).face = x.face) :
    (l.map (fun x => if x.face == face then upd x else x)).map (fun x => x.face)
      = l.map (fun x => x.face) := by
  rw [List.map_map]
  apply List.map_congr_left
  intro x _
  simp only [Function.comp]
  split
  · exact hupd x
  · rfl

theorem nodup_append_singleton {α : Type} (l : List α) (a : α) (h : l.Nodup) (ha : a ∉ l) :
    (l ++ [a]).Nodup := by
  rw [List.nodup_append]
  refine ⟨h, List.nodup_singleton a, ?_⟩
  intro x hx hx2
  simp only [List.mem_singleton] at hx2
  subst hx2
  exact ha hx

theorem update_insertOrUpdateInRecord (now : Int) (face : Face) (interest : Interest) :
    Entry.Update (fun e => e.insertOrUpdateInRecord now face interest) := by
  intro e
  obtain ⟨h1, h2, h3, _, h5⟩ := insertOrUpdateInRecord_fields e now face interest
  refine ⟨h1, h5, fun h => by rw [h3]; exact h, ?_⟩
  rintro ⟨hin, hout⟩
  refine ⟨?_, by rw [h2]; exact hout⟩
  unfold Entry.insertOrUpdateInRecord
  dsimp only
  by_cases hany : e.inRecords.any (fun x => x.face == face) = true
  · simp only [hany, if_true]
    rw [map_face_replace]
    · exact hin
    · rfl
  · simp only [hany, Bool.false_eq_true, if_false, List.map_append, List.map_cons, List.map_nil]
    apply nodup_append_singleton _ _ hin
    intro hmem
    apply hany
    obtain ⟨x, hx, hxf⟩ := List.mem_map.mp hmem
    rw [List.any_eq_true]
    exact ⟨x, hx, by simpa using hxf⟩

theorem update_insertOrUpdateOutRecord (now : Int) (face : Face) (interest : Interest) :
    Entry.Update (fun e => e.insertOrUpdateOutRecord now face interest) := by
  intro e
  obtain ⟨h1, h2, h3, _, h5⟩ := insertOrUpdateOutRecord_interest e now face interest
  refine ⟨h1, h5, fun h => by rw [h3]; exact h, ?_⟩
  rintro ⟨hin, hout⟩
  refine ⟨by rw [h2]; exact hin, ?_⟩
  unfold Entry.insertOrUpdateOutRecord
  by_cases hany : e.outRecords.any (fun x => x.face == face) = true
  · simp only [hany, if_true]
    rw [map_face_update]
    · exact hout
    · intro x; rfl
  · simp only [hany, Bool.false_eq_true, if_false, List.map_append, List.map_cons, List.map_nil]
    apply nodup_append_singleton _ _ hout
    intro hmem
    apply hany
    obtain ⟨x, hx, hxf⟩ := List.mem_map.mp hmem
    rw [List.any_eq_true]
    exact ⟨x, hx, by simpa using hxf⟩

theorem update_deleteInRecord (face : Face) : Entry.Update (fun e => e.deleteInRecord face) := by
  intro e
  refine ⟨rfl, rfl, fun h => h, ?_⟩
  rintro ⟨hin, hout⟩
  exact ⟨List.Nodup.sublist (List.Sublist.map _ (List.eraseP_sublist _)) hin, hout⟩

theorem update_deleteOutRecord (face : Face) : Entry.Update (fun e => e.deleteOutRecord face) := by
  intro e
  refine ⟨rfl, rfl, fun h => h, ?_⟩
  rintro ⟨hin, hout⟩
  exact ⟨hin, List.Nodup.sublist (List.Sublist.map _ (List.eraseP_sublist _)) hout⟩

theorem update_clearInRecords : Entry.Update (fun e => e.clearInRecords) := by
  intro e
  refine ⟨rfl, rfl, fun h => h, ?_⟩
  rintro ⟨_, hout⟩
  exact ⟨List.nodup_nil, hout⟩

theorem update_satisfy (d : Int) :
    Entry.Update (fun e => { e with isSatisfied := true, dataFreshnessPeriod := d }) := by
  intro e
  exact ⟨rfl, rfl, fun _ => rfl, fun h => h⟩

theorem update_setIncomingNack (face : Face) (nack : Nack) :
    Entry.Update (fun e => e.setIncomingNack face nack) := by
  intro e
  refine ⟨rfl, rfl, fun h => h, ?_⟩
  rintro ⟨hin, hout⟩
  refine ⟨hin, ?_⟩
  unfold Entry.setIncomingNack
  dsimp only
  rw [map_face_update]
  · exact hout
  · intro x; rfl

end pit

namespace Forwarder

theorem evolves_emit (f : Forwarder) (ev : Event) : Evolves f (f.emit ev) :=
  Evolves.other rfl rfl

theorem evolves_insertDeadNonceList (f : Forwarder) (k : PitKey) (u : Option Face) :
    Evolves f (f.insertDeadNonceList k u) :=
  Evolves.other (insertDeadNonceList_pit f k u) (insertDeadNonceList_scheduler f k u)

theorem evolves_onInterestLoop (f : Forwarder) (ingress : FaceEndpoint) (interest : Interest) :
    Evolves f (f.onInterestLoop ingress interest) := by
  unfold onInterestLoop
  dsimp only
  split
  · exact evolves_emit _ _
  · exact Evolves.trans (evolves_emit _ _) (evolves_emit _ _)

theorem evolves_onOutgoingInterest (f : Forwarder) (now : Int) (k : PitKey)
    (egress : FaceEndpoint) (interest : Interest) :
    Evolves f (f.onOutgoingInterest now k egress interest) :=
  Evolves.of_modify k _ (pit.update_insertOrUpdateOutRecord now egress.face interest) rfl rfl

theorem evolves_onOutgoingData (f : Forwarder) (data : Data) (egress : FaceEndpoint) :
    Evolves f (f.onOutgoingData data egress) :=
  Evolves.other (onOutgoingData_pit f data egress).1 (onOutgoingData_pit f data egress).2

theorem evolves_strategySendData (f : Forwarder) (k : PitKey) (data : Data)
    (egress : FaceEndpoint) : Evolves f (f.strategySendData k data egress) := by
  unfold strategySendData
  exact Evolves.trans
    (Evolves.modify f k _ (pit.update_deleteInRecord egress.face))
    (evolves_onOutgoingData _ data egress)

theorem evolves_onContentStoreMiss (f : Forwarder) (now : Int) (ingress : FaceEndpoint)
    (k : PitKey) (interest : Interest) (hlive : (f.pit.get? k).isSome = true) :
    Evolves f (f.onContentStoreMiss now ingress k interest) := by
  obtain ⟨g, hg, heq⟩ := onContentStoreMiss_eq f now ingress k interest
  have hfg : Evolves f g := by
    rw [hg]
    refine Evolves.then_timer now k _ ?_ hlive
    exact Evolves.of_modify k _ (pit.update_insertOrUpdateInRecord now ingress.face interest)
      rfl rfl
  rw [heq]
  cases interest.nextHopFaceIdTag with
  | none => exact Evolves.trans hfg (evolves_emit _ _)
  | some t =>
    dsimp only
    cases faceTableGet f.faceTable t with
    | none => exact hfg
    | some nh => exact Evolves.trans hfg (evolves_onOutgoingInterest _ _ _ _ _)

theorem evolves_onContentStoreHit (f : Forwarder) (now : Int) (ingress : FaceEndpoint)
    (k : PitKey) (interest : Interest) (data : Data) (hlive : (f.pit.get? k).isSome = true) :
    Evolves f (f.onContentStoreHit now ingress k interest data) := by
  unfold onContentStoreHit
  dsimp only
  refine Evolves.trans ?_ (evolves_emit _ _)
  refine Evolves.trans ?_ (evolves_emit _ _)
  refine Evolves.trans ?_ (evolves_emit _ _)
  refine Evolves.then_timer now k 0 ?_ hlive
  exact Evolves.of_modify k _ (pit.update_satisfy data.freshnessPeriod) rfl rfl

theorem evolves_onIncomingInterest (f : Forwarder) (now : Int) (ingress : FaceEndpoint)
    (interest : Interest) : Evolves f (f.onIncomingInterest now ingress interest) := by
  by_cases hscope : (ingress.face.scope == FaceScope.NON_LOCAL
      && Name.isPrefixOf LOCALHOST interest.name) = true
  · have : f.onIncomingInterest now ingress interest =
        { f with counters := { f.counters with nInInterests := f.counters.nInInterests + 1 } } := by
      unfold onIncomingInterest
      simp only [hscope, if_true]
    rw [this]
    exact Evolves.other rfl rfl
  · simp only [Bool.not_eq_true] at hscope
    by_cases hdnl : f.deadNonceList.has interest.name interest.nonce = true
    · have : f.onIncomingInterest now ingress interest =
          ({ f with counters :=
              { f.counters with nInInterests := f.counters.nInInterests + 1 } } :
            Forwarder).onInterestLoop ingress
              { interest with incomingFaceIdTag := some ingress.face.id } := by
        unfold onIncomingInterest
        simp only [hscope, hdnl, Bool.false_eq_true, if_false, if_true]
      rw [this]
      refine Evolves.trans ?_ (evolves_onInterestLoop _ _ _)
      exact Evolves.other rfl rfl
    · simp only [Bool.not_eq_true] at hdnl
      obtain ⟨i2, g, _, hg, heq⟩ := onIncomingInterest_eq f now ingress interest hscope hdnl
      have hfg : Evolves f g := by
        rw [hg]
        exact Evolves.of_insert i2 rfl rfl
      have hlive : (g.pit.get? (f.pit.insert i2).1.1).isSome = true := by
        rw [hg]
        exact Pit.get?_insert_isSome f.pit i2
      rw [heq]
      refine Evolves.trans hfg ?_
      split
      · exact Evolves.trans (evolves_onInterestLoop _ _ _) (evolves_emit _ _)
      · split
        · have hfold : ∀ (cbs : List Cs.Callback) (acc : Forwarder),
              (acc.pit.get? (f.pit.insert i2).1.1).isSome = true →
              Evolves acc (cbs.foldl (fun acc cb =>
                match cb with
                | Cs.Callback.hit i d =>
                  acc.onContentStoreHit now ingress (f.pit.insert i2).1.1 i d
                | Cs.Callback.miss i =>
                  acc.onContentStoreMiss now ingress (f.pit.insert i2).1.1 i) acc) := by
            intro cbs
            induction cbs with
            | nil => intro acc _; exact Evolves.refl _
            | cons cb cbs ih =>
              intro acc hacc
              simp only [List.foldl_cons]
              cases cb with
              | hit i d =>
                have h1 := evolves_onContentStoreHit acc now ingress _ i d hacc
                exact Evolves.trans h1 (ih _ (h1.live hacc))
              | miss i =>
                have h1 := evolves_onContentStoreMiss acc now ingress _ i hacc
                exact Evolves.trans h1 (ih _ (h1.live hacc))
          refine Evolves.trans ?_ (hfold _ _ hlive)
          exact Evolves.other rfl rfl
        · exact evolves_onContentStoreMiss _ _ _ _ _ hlive

theorem evolves_satisfyMatchedEntry (f : Forwarder) (now : Int) (ingress : FaceEndpoint)
    (data : Data) (k : PitKey) (hlive : (f.pit.get? k).isSome = true) :
    Evolves f (f.satisfyMatchedEntry now ingress data k) := by
  refine Evolves.trans (Evolves.timer f now k 0 hlive) ?_
  refine Evolves.of_modify k (fun e =>
    { e with
      inRecords := []
      outRecords := e.outRecords.eraseP (fun r => r.face == ingress.face)
      isSatisfied := true
      dataFreshnessPeriod := data.freshnessPeriod }) ?_ ?_ ?_
  · intro e
    refine ⟨rfl, rfl, fun _ => rfl, ?_⟩
    rintro ⟨_, hout⟩
    exact ⟨List.nodup_nil, List.Nodup.sublist (List.Sublist.map _ (List.eraseP_sublist _)) hout⟩
  · rw [satisfyMatchedEntry_pit, setExpiryTimer_pit, Pit.modify_modify]
    · simp only [Scheduler.schedule, Scheduler_cancel_nextId]
    · intro e; rfl
  · rw [satisfyMatchedEntry_scheduler]
    rfl

theorem evolves_satisfySingleMatch (f : Forwarder) (now : Int) (ingress : FaceEndpoint)
    (data : Data) (k : PitKey) (hlive : (f.pit.get? k).isSome = true) :
    Evolves f (f.satisfySingleMatch now ingress data k) := by
  refine Evolves.trans (Evolves.timer f now k 0 hlive) ?_
  refine Evolves.of_modify k (fun e =>
    { e with
      outRecords := e.outRecords.eraseP (fun r => r.face == ingress.face)
      isSatisfied := true
      dataFreshnessPeriod := data.freshnessPeriod }) ?_ ?_ ?_
  · intro e
    refine ⟨rfl, rfl, fun _ => rfl, ?_⟩
    rintro ⟨hin, hout⟩
    exact ⟨hin, List.Nodup.sublist (List.Sublist.map _ (List.eraseP_sublist _)) hout⟩
  · rw [satisfySingleMatch_pit, setExpiryTimer_pit, Pit.modify_modify]
    intro e; rfl
  · rw [satisfySingleMatch_scheduler]
    rfl

theorem evolves_satisfyMatches (now : Int) (ingress : FaceEndpoint) (data : Data)
    (ks : List PitKey) :
    ∀ (s : List (Face × EndpointId)) (g : Forwarder),
      (∀ k ∈ ks, (g.pit.get? k).isSome = true) →
      Evolves g (ks.foldl (fun acc pitEntry =>
        (rememberPendingDownstreams now (acc.2.pit.inRecords pitEntry) acc.1,
         acc.2.satisfyMatchedEntry now ingress data pitEntry)) (s, g)).2 := by
  induction ks with
  | nil => intro s g _; exact Evolves.refl _
  | cons k ks ih =>
    intro s g hlive
    simp only [List.foldl_cons]
    have h1 := evolves_satisfyMatchedEntry g now ingress data k
      (hlive k (List.mem_cons_self _ _))
    exact Evolves.trans h1
      (ih _ _ (fun k2 hk2 => h1.live (hlive k2 (List.mem_cons_of_mem _ hk2))))

theorem evolves_onDataUnsolicited (f : Forwarder) (now : Int) (ingress : FaceEndpoint)
    (data : Data) : Evolves f (f.onDataUnsolicited now ingress data) := by
  unfold onDataUnsolicited
  dsimp only
  split
  · exact Evolves.other rfl rfl
  · exact Evolves.other rfl rfl

theorem evolves_onIncomingData (f : Forwarder) (now : Int) (ingress : FaceEndpoint)
    (data : Data) : Evolves f (f.onIncomingData now ingress data) := by
  unfold onIncomingData
  dsimp only
  split
  · exact Evolves.other rfl rfl
  · split
    · refine Evolves.trans ?_ (evolves_onDataUnsolicited _ _ _ _)
      exact Evolves.other rfl rfl
    · split
      · split
        · rename_i k hhead
          refine Evolves.trans ?_ (evolves_satisfySingleMatch _ _ _ _ _ ?_)
          · exact Evolves.other rfl rfl
          · exact Pit.get?_isSome_of_mem_findAllDataMatches (List.mem_of_mem_head? hhead)
        · exact Evolves.other rfl rfl
      · refine Evolves.trans ?_
          (Evolves.other (sendToPendingDownstreams_pit ingress _ _ _).1
            (sendToPendingDownstreams_pit ingress _ _ _).2)
        unfold satisfyMatches
        refine Evolves.trans ?_ (evolves_satisfyMatches now ingress _ _ _ _ ?_)
        · exact Evolves.other rfl rfl
        · intro k hk
          exact Pit.get?_isSome_of_mem_findAllDataMatches hk

theorem evolves_onIncomingNack (f : Forwarder) (now : Int) (ingress : FaceEndpoint)
    (nack : Nack) : Evolves f (f.onIncomingNack now ingress nack) := by
  unfold onIncomingNack
  dsimp only
  split
  · exact Evolves.other rfl rfl
  · split
    · exact Evolves.other rfl rfl
    · split
      · exact Evolves.other rfl rfl
      · split
        · exact Evolves.other rfl rfl
        · rename_i k hfind _ _ _ _
          refine Evolves.trans ?_ (evolves_emit _ _)
          split
          · refine Evolves.then_timer now _ 0 ?_ (Pit.get?_isSome_of_find hfind)
            exact Evolves.of_modify _ _ (pit.update_setIncomingNack ingress.face nack) rfl rfl
          · exact Evolves.of_modify _ _ (pit.update_setIncomingNack ingress.face nack) rfl rfl

theorem evolves_onOutgoingNack (f : Forwarder) (k : PitKey) (egress : FaceEndpoint)
    (reason : NackReason) : Evolves f (f.onOutgoingNack k egress reason) := by
  unfold onOutgoingNack
  dsimp only
  split
  · exact evolves_emit _ _
  · split
    · exact evolves_emit _ _
    · split
      · exact evolves_emit _ _
      · exact Evolves.of_modify k _ (pit.update_deleteInRecord egress.face) rfl rfl

end Forwarder

namespace Pit

theorem map_key_modify (p : Pit) (k : PitKey) (upd : pit.Entry → pit.Entry)
    (hkey : ∀ e, (upd e).key = e.key) :
    (p.modify k upd).entries.map (fun e => e.key) = p.entries.map (fun e => e.key) := by
  unfold Pit.modify
  simp only [List.map_map]
  apply List.map_congr_left
  intro e _
  simp only [Function.comp]
  split
  · exact hkey e
  · rfl

theorem eq_of_key_eq {p : Pit} (h : p.KeysDistinct) {a b : pit.Entry} (ha : a ∈ p.entries)
    (hb : b ∈ p.entries) (hk : a.key = b.key) : a = b := by
  have h1 := get?_of_mem h ha
  have h2 := get?_of_mem h hb
  rw [hk, h2] at h1
  exact (Option.some.inj h1).symm

end Pit

namespace Forwarder

theorem inv_of_eq {f g : Forwarder} (hp : g.pit = f.pit) (hs : g.scheduler = f.scheduler)
    (h : f.Inv) : g.Inv where
  keys := by rw [hp]; exact h.keys
  records := by rw [hp]; exact h.records
  timers := by unfold TimersIssued; rw [hp, hs]; exact h.timers
  unique := by rw [hp]; exact h.unique
  issued := by rw [hs]; exact h.issued
  distinct := by rw [hs]; exact h.distinct
  owned := by rw [hp, hs]; exact h.owned

theorem inv_modify (f : Forwarder) (k : PitKey) (upd : pit.Entry → pit.Entry)
    (hupd : pit.Entry.Update upd) (h : f.Inv) :
    ({ f with pit := f.pit.modify k upd } : Forwarder).Inv where
  keys := by
    show ((f.pit.modify k upd).entries.map (fun e => e.key)).Nodup
    rw [Pit.map_key_modify]
    · exact h.keys
    · intro e
      unfold pit.Entry.key
      rw [(hupd e).1]
  records := by
    intro e2 he2
    obtain ⟨e, he, rfl⟩ := Pit.mem_modify.mp he2
    split
    · exact (hupd e).2.2.2 (h.records e he)
    · exact h.records e he
  timers := by
    intro e2 he2 t ht
    obtain ⟨e, he, rfl⟩ := Pit.mem_modify.mp he2
    apply h.timers e he t
    split at ht
    · rw [← (hupd e).2.1]; exact ht
    · exact ht
  unique := by
    intro a2 ha2 b2 hb2 t hta htb
    obtain ⟨a, ha, rfl⟩ := Pit.mem_modify.mp ha2
    obtain ⟨b, hb, rfl⟩ := Pit.mem_modify.mp hb2
    have hta1 : a.expiryTimer = some t := by
      split at hta
      · rw [← (hupd a).2.1]; exact hta
      · exact hta
    have htb1 : b.expiryTimer = some t := by
      split at htb
      · rw [← (hupd b).2.1]; exact htb
      · exact htb
    rw [h.unique a ha b hb t hta1 htb1]
  issued := h.issued
  distinct := h.distinct
  owned := by
    intro ev hev
    obtain ⟨e, he, hk, ht⟩ := h.owned ev hev
    refine ⟨if e.key == k then upd e else e, Pit.mem_modify.mpr ⟨e, he, rfl⟩, ?_, ?_⟩
    · split
      · unfold pit.Entry.key
        rw [(hupd e).1]
        exact hk
      · exact hk
    · split
      · rw [(hupd e).2.1]; exact ht
      · exact ht

theorem inv_insert (f : Forwarder) (interest : Interest) (h : f.Inv) :
    ({ f with pit := (f.pit.insert interest).2 } : Forwarder).Inv := by
  unfold Pit.insert
  cases hfind : f.pit.entries.find? (fun e => e.canMatch interest) with
  | some e => exact inv_of_eq rfl rfl h
  | none =>
    have hnew : ∀ e ∈ f.pit.entries, e.key ≠ interest.pitKey := by
      intro e he hk
      have := List.find?_eq_none.mp hfind e he
      apply this
      unfold pit.Entry.canMatch
      simpa using hk
    exact {
      keys := by
        show ((f.pit.entries ++ [_]).map (fun e : pit.Entry => e.key)).Nodup
        rw [List.map_append]
        apply pit.nodup_append_singleton _ _ h.keys
        intro hmem
        obtain ⟨e, he, hk⟩ := List.mem_map.mp hmem
        exact hnew e he hk
      records := by
        intro e he
        rcases List.mem_append.mp he with he | he
        · exact h.records e he
        · simp only [List.mem_singleton] at he
          subst he
          exact ⟨List.nodup_nil, List.nodup_nil⟩
      timers := by
        intro e he t ht
        rcases List.mem_append.mp he with he | he
        · exact h.timers e he t ht
        · simp only [List.mem_singleton] at he
          subst he
          cases ht
      unique := by
        intro a ha b hb t hta htb
        rcases List.mem_append.mp ha with ha | ha
        · rcases List.mem_append.mp hb with hb | hb
          · exact h.unique a ha b hb t hta htb
          · simp only [List.mem_singleton] at hb
            subst hb
            cases htb
        · simp only [List.mem_singleton] at ha
          subst ha
          cases hta
      issued := h.issued
      distinct := h.distinct
      owned := by
        intro ev hev
        obtain ⟨e, he, hk, ht⟩ := h.owned ev hev
        exact ⟨e, List.mem_append_left _ he, hk, ht⟩ }

theorem mem_cancel {s : Scheduler} {t : Option Nat} {ev : ScheduledEvent}
    (h : ev ∈ (s.cancel t).events) : ev ∈ s.events ∧ t ≠ some ev.id := by
  cases t with
  | none => exact ⟨h, fun h2 => by cases h2⟩
  | some x =>
    simp only [Scheduler.cancel, List.mem_filter, bne_iff_ne, ne_eq] at h
    refine ⟨h.1, ?_⟩
    intro h2
    exact h.2 (Option.some.inj h2).symm

theorem cancel_sublist (s : Scheduler) (t : Option Nat) :
    (s.cancel t).events.Sublist s.events := by
  cases t with
  | none => exact List.Sublist.refl _
  | some x => exact List.filter_sublist _

theorem inv_timer (f : Forwarder) (now : Int) (k : PitKey) (d : Int)
    (hlive : (f.pit.get? k).isSome = true) (h : f.Inv) : (f.setExpiryTimer now k d).Inv := by
  obtain ⟨e0, he0⟩ := Option.isSome_iff_exists.mp hlive
  have hk0 := Pit.key_of_get? he0
  have hm0 := Pit.mem_of_get? he0
  have hp := setExpiryTimer_pit f now k d
  have hs := setExpiryTimer_scheduler f now k d
  rw [he0] at hs
  exact {
    keys := by
      rw [hp]
      show ((f.pit.modify k _).entries.map (fun e => e.key)).Nodup
      rw [Pit.map_key_modify]
      · exact h.keys
      · intro e; rfl
    records := by
      rw [hp]
      intro e2 he2
      obtain ⟨e, he, rfl⟩ := Pit.mem_modify.mp he2
      split
      · exact h.records e he
      · exact h.records e he
    timers := by
      unfold TimersIssued
      rw [hp, hs]
      intro e2 he2 t ht
      obtain ⟨e, he, rfl⟩ := Pit.mem_modify.mp he2
      show t < f.scheduler.nextId + 1
      split at ht
      · simp only [Option.some.injEq] at ht
        omega
      · exact Nat.lt_succ_of_lt (h.timers e he t ht)
    unique := by
      rw [hp]
      intro a2 ha2 b2 hb2 t hta htb
      obtain ⟨a, ha, rfl⟩ := Pit.mem_modify.mp ha2
      obtain ⟨b, hb, rfl⟩ := Pit.mem_modify.mp hb2
      by_cases hka : a.key = k
      · by_cases hkb : b.key = k
        · rw [Pit.eq_of_key_eq h.keys ha hb (by rw [hka, hkb])]
        · exfalso
          simp only [hka, beq_self_eq_true, if_true, Option.some.injEq] at hta
          have hbb : (b.key == k) = false := by simpa using hkb
          simp only [hbb, Bool.false_eq_true, if_false] at htb
          have := h.timers b hb t htb
          omega
      · have hab : (a.key == k) = false := by simpa using hka
        simp only [hab, Bool.false_eq_true, if_false] at hta ⊢
        by_cases hkb : b.key = k
        · exfalso
          simp only [hkb, beq_self_eq_true, if_true, Option.some.injEq] at htb
          have := h.timers a ha t hta
          omega
        · have hbb : (b.key == k) = false := by simpa using hkb
          simp only [hbb, Bool.false_eq_true, if_false] at htb ⊢
          exact h.unique a ha b hb t hta htb
    issued := by
      rw [hs]
      intro ev hev
      show ev.id < f.scheduler.nextId + 1
      rcases List.mem_append.mp hev with hev | hev
      · exact Nat.lt_succ_of_lt (h.issued ev (mem_cancel hev).1)
      · simp only [List.mem_singleton] at hev
        subst hev
        exact Nat.lt_succ_self _
    distinct := by
      rw [hs]
      show (((f.scheduler.cancel e0.expiryTimer).events ++ [_]).map
        (fun ev : ScheduledEvent => ev.id)).Nodup
      rw [List.map_append]
      apply pit.nodup_append_singleton
      · exact List.Nodup.sublist (List.Sublist.map _ (cancel_sublist _ _)) h.distinct
      · intro hmem
        obtain ⟨ev, hev, hid⟩ := List.mem_map.mp hmem
        have := h.issued ev (mem_cancel hev).1
        rw [hid] at this
        exact Nat.lt_irrefl _ this
    owned := by
      rw [hp, hs]
      intro ev hev
      rcases List.mem_append.mp hev with hev | hev
      · obtain ⟨hev1, hne⟩ := mem_cancel hev
        obtain ⟨e, he, hk, ht⟩ := h.owned ev hev1
        have hek : e.key ≠ k := by
          intro hek
          have : e = e0 := Pit.eq_of_key_eq h.keys he hm0 (by rw [hek, hk0])
          rw [this] at ht
          exact hne ht
        refine ⟨e, Pit.mem_modify.mpr ⟨e, he, ?_⟩, hk, ht⟩
        simp [hek]
      · simp only [List.mem_singleton] at hev
        subst hev
        refine ⟨{ e0 with expiryTimer := some f.scheduler.nextId },
          Pit.mem_modify.mpr ⟨e0, hm0, ?_⟩, hk0, rfl⟩
        simp [hk0] }

/-- Every step of a pipeline keeps the PIT and the scheduler in agreement. -/
theorem Evolves.keeps_inv {f g : Forwarder} (h : Evolves f g) : f.Inv → g.Inv := by
  induction h with
  | refl f => exact fun h => h
  | trans _ _ ih1 ih2 => exact fun h => ih2 (ih1 h)
  | other hp hs => exact inv_of_eq hp hs
  | modify f k upd hupd => exact inv_modify f k upd hupd
  | insert f interest => exact inv_insert f interest
  | timer f now k d hlive => exact inv_timer f now k d hlive

theorem inv_onInterestFinalize (f : Forwarder) (k : PitKey) (h : f.Inv) :
    (f.onInterestFinalize k).Inv := by
  cases hget : f.pit.get? k with
  | none =>
    have : f.onInterestFinalize k = f.emit (Event.onInterestFinalize k) := by
      unfold onInterestFinalize
      simp only [emit_pit, hget]
    rw [this]
    exact @inv_of_eq f _ rfl rfl h
  | some e =>
    obtain ⟨dnl, heq⟩ := onInterestFinalize_eq f k e hget
    have hm := Pit.mem_of_get? hget
    have hent : (f.pit.erase k).entries = f.pit.entries.erase e := Pit.erase_entries f.pit k e hget
    have hsub : (f.pit.erase k).entries.Sublist f.pit.entries := by
      rw [hent]; exact List.erase_sublist _ _
    rw [heq]
    exact {
      keys := List.Nodup.sublist (List.Sublist.map _ hsub) h.keys
      records := fun e2 he2 => h.records e2 (hsub.subset he2)
      timers := by
        intro e2 he2 t ht
        show t < (f.scheduler.cancel e.expiryTimer).nextId
        rw [Scheduler_cancel_nextId]
        exact h.timers e2 (hsub.subset he2) t ht
      unique := fun a ha b hb t hta htb =>
        h.unique a (hsub.subset ha) b (hsub.subset hb) t hta htb
      issued := by
        intro ev hev
        show ev.id < (f.scheduler.cancel e.expiryTimer).nextId
        rw [Scheduler_cancel_nextId]
        exact h.issued ev (mem_cancel hev).1
      distinct := List.Nodup.sublist (List.Sublist.map _ (cancel_sublist _ _)) h.distinct
      owned := by
        intro ev hev
        obtain ⟨hev1, hne⟩ := mem_cancel hev
        obtain ⟨e1, he1, hk1, ht1⟩ := h.owned ev hev1
        have hne1 : e1 ≠ e := by
          intro heq1
          rw [heq1] at ht1
          exact hne ht1
        refine ⟨e1, ?_, hk1, ht1⟩
        show e1 ∈ (f.pit.erase k).entries
        rw [hent]
        exact (List.mem_erase_of_ne hne1).mpr he1 }

theorem evolves_step (f : Forwarder) (op : Op) (hen : f.enabled op = true)
    (hop : ∀ k, op ≠ Op.interestFinalize k) : Evolves f (f.step op) := by
  cases op with
  | incomingInterest now ingress interest => exact evolves_onIncomingInterest f now ingress interest
  | incomingData now ingress data => exact evolves_onIncomingData f now ingress data
  | incomingNack now ingress nack => exact evolves_onIncomingNack f now ingress nack
  | interestFinalize k => exact absurd rfl (hop k)
  | outgoingInterest now k egress interest =>
    exact evolves_onOutgoingInterest f now k egress interest
  | outgoingNack k egress reason => exact evolves_onOutgoingNack f k egress reason
  | sendData k data egress => exact evolves_strategySendData f k data egress
  | setExpiryTimer now k d => exact Evolves.timer f now k d hen

theorem inv_step (f : Forwarder) (op : Op) (hen : f.enabled op = true) (h : f.Inv) :
    (f.step op).Inv := by
  by_cases hop : ∃ k, op = Op.interestFinalize k
  · obtain ⟨k, rfl⟩ := hop
    exact inv_onInterestFinalize f k h
  · exact (evolves_step f op hen (fun k hk => hop ⟨k, hk⟩)).keeps_inv h

/-- In every reachable state the PIT and the scheduler agree. -/
theorem Reachable.to_inv {f : Forwarder} (h : f.Reachable) : f.Inv := by
  induction h with
  | init f hp hs =>
    exact {
      keys := by unfold Pit.KeysDistinct; rw [hp]; exact List.nodup_nil
      records := by rw [hp]; intro e he; cases he
      timers := by unfold TimersIssued; rw [hp]; intro e he; cases he
      unique := by rw [hp]; intro a ha; cases ha
      issued := by rw [hs]; intro ev hev; cases hev
      distinct := by rw [hs]; exact List.nodup_nil
      owned := by rw [hs]; intro ev hev; cases hev }
  | step op _ hen ih => exact inv_step _ op hen ih

/-- When the PIT and the scheduler agree, the events pending for an entry are the one
event whose handle the entry holds, if any. -/
theorem Inv.pendingTimers_le_one {f : Forwarder} (h : f.Inv) (k : PitKey) :
    (f.pendingTimers k).length ≤ 1 := by
  unfold pendingTimers
  have hnd : ((f.scheduler.events.filter (fun ev => ev.pitEntry == k)).map
      (fun ev => ev.id)).Nodup :=
    List.Nodup.sublist (List.Sublist.map _ (List.filter_sublist _)) h.distinct
  have hall : ∀ a ∈ f.scheduler.events.filter (fun ev => ev.pitEntry == k),
      ∀ b ∈ f.scheduler.events.filter (fun ev => ev.pitEntry == k), a.id = b.id := by
    intro a ha b hb
    obtain ⟨ha1, ha2⟩ := List.mem_filter.mp ha
    obtain ⟨hb1, hb2⟩ := List.mem_filter.mp hb
    simp only [beq_iff_eq] at ha2 hb2
    obtain ⟨ea, hea, hka, hta⟩ := h.owned a ha1
    obtain ⟨eb, heb, hkb, htb⟩ := h.owned b hb1
    have : ea = eb := Pit.eq_of_key_eq h.keys hea heb (by rw [hka, hkb, ha2, hb2])
    rw [this, htb] at hta
    exact (Option.some.inj hta).symm
  generalize f.scheduler.events.filter (fun ev => ev.pitEntry == k) = l at hnd hall
  match l, hnd, hall with
  | [], _, _ => simp
  | [a], _, _ => simp
  | a :: b :: l, hnd, hall =>
    exfalso
    simp only [List.map_cons, List.nodup_cons, List.mem_cons, not_or] at hnd
    exact hnd.1.1 (hall a (List.mem_cons_self _ _) b
      (List.mem_cons_of_mem _ (List.mem_cons_self _ _)))

/-- In every reachable state an entry of the PIT holds at most one out-record and at
most one in-record per face. -/
theorem Reachable.one_record_per_face {f : Forwarder} (h : f.Reachable) {k : PitKey}
    {e : pit.Entry} (hget : f.pit.get? k = some e) (face : Face) :
    (e.outRecords.filter (fun r => r.face == face)).length ≤ 1 ∧
    (e.inRecords.filter (fun r => r.face == face)).length ≤ 1 := by
  obtain ⟨hin, hout⟩ := h.to_inv.records e (Pit.mem_of_get? hget)
  have key : ∀ (l : List Face), l.Nodup → (∀ x ∈ l, x = face) → l.length ≤ 1 := by
    intro l hnd hall
    match l, hnd, hall with
    | [], _, _ => simp
    | [a], _, _ => simp
    | a :: b :: l, hnd, hall =>
      exfalso
      simp only [List.nodup_cons, List.mem_cons, not_or] at hnd
      exact hnd.1.1 ((hall a (List.mem_cons_self _ _)).trans
        (hall b (List.mem_cons_of_mem _ (List.mem_cons_self _ _))).symm)
  constructor
  · have := key ((e.outRecords.filter (fun r => r.face == face)).map (fun r => r.face))
      (List.Nodup.sublist (List.Sublist.map _ (List.filter_sublist _)) hout)
      (by
        intro x hx
        obtain ⟨r, hr, rfl⟩ := List.mem_map.mp hx
        simpa using (List.mem_filter.mp hr).2)
    simpa using this
  · have := key ((e.inRecords.filter (fun r => r.face == face)).map (fun r => r.face))
      (List.Nodup.sublist (List.Sublist.map _ (List.filter_sublist _)) hin)
      (by
        intro x hx
        obtain ⟨r, hr, rfl⟩ := List.mem_map.mp hx
        simpa using (List.mem_filter.mp hr).2)
    simpa using this

/-- After `setExpiryTimer` the one event pending for the entry is the new one; the events
pending for other entries are as before. -/
theorem pendingTimers_setExpiryTimer (f : Forwarder) (now : Int) (k : PitKey) (d : Int)
    (hlive : (f.pit.get? k).isSome = true) (h : f.Inv) :
    (f.setExpiryTimer now k d).pendingTimers k =
      [{ id := f.scheduler.nextId, fireAt := now + d * 1000000, pitEntry := k }] ∧
    ∀ k2, k2 ≠ k → (f.setExpiryTimer now k d).pendingTimers k2 = f.pendingTimers k2 := by
  obtain ⟨e0, he0⟩ := Option.isSome_iff_exists.mp hlive
  have hk0 := Pit.key_of_get? he0
  have hm0 := Pit.mem_of_get? he0
  have hs := setExpiryTimer_scheduler f now k d
  rw [he0] at hs
  unfold pendingTimers
  rw [hs]
  constructor
  · show List.filter _ ((f.scheduler.cancel e0.expiryTimer).events ++ [_]) = _
    rw [List.filter_append]
    have hnil : (f.scheduler.cancel e0.expiryTimer).events.filter
        (fun ev => ev.pitEntry == k) = [] := by
      rw [List.filter_eq_nil_iff]
      intro ev hev hk
      simp only [beq_iff_eq] at hk
      obtain ⟨hev1, hne⟩ := mem_cancel hev
      obtain ⟨e1, he1, hk1, ht1⟩ := h.owned ev hev1
      have : e1 = e0 := Pit.eq_of_key_eq h.keys he1 hm0 (by rw [hk1, hk, hk0])
      rw [this] at ht1
      exact hne ht1
    rw [hnil]
    simp
  · intro k2 hne
    show List.filter _ ((f.scheduler.cancel e0.expiryTimer).events ++ [_]) = _
    rw [List.filter_append]
    have hlast : List.filter (fun ev => ev.pitEntry == k2)
        [({ id := f.scheduler.nextId, fireAt := now + d * 1000000, pitEntry := k } :
          ScheduledEvent)] = [] := by
      have hb : (k == k2) = false := by
        simp only [beq_eq_false_iff_ne, ne_eq]
        exact fun h2 => hne h2.symm
      simp [List.filter_cons, hb]
    rw [hlast, List.append_nil]
    cases ht : e0.expiryTimer with
    | none => rfl
    | some t =>
      simp only [Scheduler.cancel, List.filter_filter]
      apply List.filter_congr
      intro ev hev
      by_cases hk : ev.pitEntry = k2
      · have hidne : ev.id ≠ t := by
          intro hid
          obtain ⟨e1, he1, hk1, ht1⟩ := h.owned ev hev
          rw [hid, ← ht] at ht1
          have : e1 = e0 := h.unique e1 he1 e0 hm0 t (by rw [ht1, ht]) ht
          rw [this, hk0, hk] at hk1
          exact hne hk1.symm
        simp [hk, hidne]
      · simp [hk]

/-- C13: in every reachable state at most one expiry event is pending for each PIT
entry.  Calling `setExpiryTimer(entry, d)` on an entry of the PIT leaves exactly one
event pending for the entry, scheduled `d` milliseconds after the call, and calling it a
second time leaves again exactly one, the event of the second call: the event of the
first call was cancelled.  The events pending for other entries are as they were, and the
state reached is one in which again at most one event is pending for each entry. -/
theorem setExpiryTimer_twice (f : Forwarder) (now1 now2 : Int) (k : PitKey) (d : Int)
    (hr : f.Reachable) (hlive : (f.pit.get? k).isSome = true) :
    (∀ k2, (f.pendingTimers k2).length ≤ 1) ∧
    (f.setExpiryTimer now1 k d).pendingTimers k =
      [{ id := f.scheduler.nextId, fireAt := now1 + d * 1000000, pitEntry := k }] ∧
    ((f.setExpiryTimer now1 k d).setExpiryTimer now2 k d).pendingTimers k =
      [{ id := f.scheduler.nextId + 1, fireAt := now2 + d * 1000000, pitEntry := k }] ∧
    (∀ k2, k2 ≠ k →
      ((f.setExpiryTimer now1 k d).setExpiryTimer now2 k d).pendingTimers k2
        = f.pendingTimers k2) ∧
    (∀ k2, (((f.setExpiryTimer now1 k d).setExpiryTimer now2 k d).pendingTimers k2).length
      ≤ 1) := by
  have h := hr.to_inv
  have hev1 : Evolves f (f.setExpiryTimer now1 k d) := Evolves.timer f now1 k d hlive
  have h1 : (f.setExpiryTimer now1 k d).Inv := hev1.keeps_inv h
  have hlive1 : ((f.setExpiryTimer now1 k d).pit.get? k).isSome = true := hev1.live hlive
  have h2 : ((f.setExpiryTimer now1 k d).setExpiryTimer now2 k d).Inv :=
    inv_timer _ now2 k d hlive1 h1
  obtain ⟨p1, p2⟩ := pendingTimers_setExpiryTimer f now1 k d hlive h
  obtain ⟨q1, q2⟩ := pendingTimers_setExpiryTimer (f.setExpiryTimer now1 k d) now2 k d hlive1 h1
  have hnext : (f.setExpiryTimer now1 k d).scheduler.nextId = f.scheduler.nextId + 1 := by
    rw [setExpiryTimer_scheduler]
  refine ⟨fun k2 => h.pendingTimers_le_one k2, p1, ?_, ?_, fun k2 => h2.pendingTimers_le_one k2⟩
  · rw [q1, hnext]
  · intro k2 hne
    rw [q2 k2 hne, p2 k2 hne]

theorem Sample_scenarioA_reachable : Sample.scenarioA.Reachable :=
  Reachable.step _ (Reachable.init Sample.emptyForwarder rfl rfl) rfl

/-- C13 (witness): in Scenario A the timer of the entry is pending with handle 0.
Re-arming it twice to one second, at times 5 and 7, leaves one pending event, that of the
second call. -/
theorem setExpiryTimer_twice_witness :
    (Sample.scenarioA.setExpiryTimer 5 Sample.interestA.pitKey 1000).pendingTimers
        Sample.interestA.pitKey =
      [{ id := 1, fireAt := 1000000005, pitEntry := Sample.interestA.pitKey }] ∧
    ((Sample.scenarioA.setExpiryTimer 5 Sample.interestA.pitKey 1000).setExpiryTimer 7
        Sample.interestA.pitKey 1000).pendingTimers Sample.interestA.pitKey =
      [{ id := 2, fireAt := 1000000007, pitEntry := Sample.interestA.pitKey }] := by
  have h := setExpiryTimer_twice Sample.scenarioA 5 7 Sample.interestA.pitKey 1000
    Sample_scenarioA_reachable (by decide)
  exact ⟨h.2.1, h.2.2.1⟩

theorem onInterestFinalize_get?_of_ne (f : Forwarder) (k k2 : PitKey) (hne : k2 ≠ k) :
    (f.onInterestFinalize k).pit.get? k2 = f.pit.get? k2 := by
  cases hget : f.pit.get? k with
  | none =>
    have : f.onInterestFinalize k = f.emit (Event.onInterestFinalize k) := by
      unfold onInterestFinalize
      simp only [emit_pit, hget]
    rw [this]
    rfl
  | some e =>
    obtain ⟨dnl, heq⟩ := onInterestFinalize_eq f k e hget
    rw [heq]
    exact Pit.get?_erase_of_ne f.pit k k2 hne

/-- C14 (amended): in every reachable state an entry, once satisfied, stays in the PIT
under its key and stays satisfied through every operation other than its own
`onInterestFinalize`, which erases it and counts it as satisfied.  The Forwarder does
not look at `isSatisfied` when an Interest comes in: `onContentStoreMiss` on a satisfied
entry inserts or updates the in-record of the ingress face as on a pending one, and the
entry remains satisfied. -/
theorem satisfied_until_finalize (f : Forwarder) (op : Op) (k : PitKey) (e : pit.Entry)
    (hr : f.Reachable) (hen : f.enabled op = true) (hget : f.pit.get? k = some e)
    (hsat : e.isSatisfied = true) :
    (op ≠ Op.interestFinalize k →
      ∃ e2, (f.step op).pit.get? k = some e2 ∧ e2.interest = e.interest ∧
        e2.isSatisfied = true) ∧
    (op = Op.interestFinalize k →
      (f.step op).pit.get? k = none ∧
      (f.step op).counters =
        { f.counters with nSatisfiedInterests := f.counters.nSatisfiedInterests + 1 } ∧
      (f.step op).log = f.log ++ [Event.onInterestFinalize k]) ∧
    (∀ now ingress interest,
      ∃ e2, (f.onContentStoreMiss now ingress k interest).pit.get? k = some e2 ∧
        e2.isSatisfied = true ∧
        e2.getInRecord ingress.face =
          some { face := ingress.face, lastNonce := interest.nonce, lastRenewed := now,
                 expiry := now + interest.lifetime * 1000000, interest := interest }) := by
  refine ⟨?_, ?_, ?_⟩
  · intro hne
    by_cases hfin : ∃ k2, op = Op.interestFinalize k2
    · obtain ⟨k2, rfl⟩ := hfin
      have hk : k ≠ k2 := fun h => hne (by rw [h])
      refine ⟨e, ?_, rfl, hsat⟩
      show (f.onInterestFinalize k2).pit.get? k = some e
      rw [onInterestFinalize_get?_of_ne f k2 k hk]
      exact hget
    · have hev := evolves_step f op hen (fun k2 hk2 => hfin ⟨k2, hk2⟩)
      obtain ⟨e2, h1, h2, h3⟩ := hev.persist k e hget
      exact ⟨e2, h1, h2, h3 hsat⟩
  · intro hop
    subst hop
    obtain ⟨dnl, heq⟩ := onInterestFinalize_eq f k e hget
    show (f.onInterestFinalize k).pit.get? k = none ∧
      (f.onInterestFinalize k).counters = _ ∧ (f.onInterestFinalize k).log = _
    rw [heq]
    refine ⟨Pit.get?_erase_same f.pit k hr.to_inv.keys, ?_, ?_⟩
    · simp [hsat]
    · simp [hsat]
  · intro now ingress interest
    obtain ⟨e2, h1, _, h3, h4, _⟩ := onContentStoreMiss_entry f now ingress k interest e hget
    refine ⟨e2, h1, by rw [h3]; exact hsat, ?_⟩
    have hrec := pit.getInRecord_insertOrUpdateInRecord e now ingress.face interest
    unfold pit.Entry.getInRecord at hrec ⊢
    rw [h4]
    exact hrec

theorem Sample_satisfiedState_reachable : Sample.satisfiedState.Reachable := by
  unfold Sample.satisfiedState Sample.satisfiedTrace run
  simp only [List.foldl_cons, List.foldl_nil]
  refine Reachable.step _ (Reachable.step _ (Reachable.step _ (Reachable.step _
    (Reachable.init Sample.noCsForwarder rfl rfl) ?_) ?_) ?_) ?_
  · decide
  · decide
  · decide
  · decide

/-- C14 (witness): the satisfied entry of `/7` in the sample state stays satisfied when
the Interest with Nonce 9 arrives on face M. -/
theorem satisfied_until_finalize_witness :
    ∃ e2, (Sample.satisfiedState.step (Op.incomingInterest 1000000000
        { face := Sample.faceM, endpoint := 0 } Sample.interest9)).pit.get?
          Sample.interest5.pitKey = some e2 ∧
      e2.interest = { Sample.interest5 with incomingFaceIdTag := some 1 } ∧
      e2.isSatisfied = true :=
  (satisfied_until_finalize Sample.satisfiedState
    (Op.incomingInterest 1000000000 { face := Sample.faceM, endpoint := 0 } Sample.interest9)
    Sample.interest5.pitKey
    { interest := { Sample.interest5 with incomingFaceIdTag := some 1 }
      inRecords := []
      outRecords := []
      isSatisfied := true
      dataFreshnessPeriod := 1000
      expiryTimer := some 1 }
    Sample_satisfiedState_reachable (by decide) (by decide) (by decide)).1 (by decide)

/-- C14 (counterexample): on a Forwarder whose Content Store has capacity 0 the Interest
`/7` arrives on face A and is forwarded to face B; one second later the Data comes back
on face B and is sent on to face A.  In the state reached the entry is satisfied, holds
no in-record, and its expiry timer is due at once.  Before the timer fires, at the same instant, an
Interest for `/7` with Nonce 9 arrives on face M: the satisfied entry gets an in-record
of face M and its expiry timer is re-armed to fire four seconds later. -/
theorem onIncomingInterest_repends_satisfied_entry :
    Sample.satisfiedState.Reachable ∧
    (Sample.satisfiedState.pit.get? Sample.interest5.pitKey).map (fun e => e.isSatisfied)
      = some true ∧
    Sample.satisfiedState.pit.inRecords Sample.interest5.pitKey = [] ∧
    Sample.satisfiedState.pendingTimers Sample.interest5.pitKey =
      [{ id := 1, fireAt := 1000000000, pitEntry := Sample.interest5.pitKey }] ∧
    ((Sample.satisfiedState.onIncomingInterest 1000000000
        { face := Sample.faceM, endpoint := 0 } Sample.interest9).pit.get?
          Sample.interest5.pitKey).map (fun e => e.isSatisfied) = some true ∧
    (Sample.satisfiedState.onIncomingInterest 1000000000
        { face := Sample.faceM, endpoint := 0 } Sample.interest9).pit.inRecords
          Sample.interest5.pitKey =
      [{ face := Sample.faceM, lastNonce := 9, lastRenewed := 1000000000,
         expiry := 5000000000,
         interest := { Sample.interest9 with incomingFaceIdTag := some 3 } }] ∧
    (Sample.satisfiedState.onIncomingInterest 1000000000
        { face := Sample.faceM, endpoint := 0 } Sample.interest9).pendingTimers
          Sample.interest5.pitKey =
      [{ id := 2, fireAt := 5000000000, pitEntry := Sample.interest5.pitKey }] :=
  ⟨Sample_satisfiedState_reachable, by decide⟩

end Forwarder

/-! ## Scope drop, unsolicited Data, next-hop tag, outgoing Nack -/

namespace Forwarder

/-- C25: an inbound Interest whose Name is under `/localhost` and whose ingress face has
non-local scope is dropped: the Forwarder afterwards is the Forwarder before with only
`nInInterests` incremented.  The Dead Nonce List, the PIT, the Content Store, the
scheduler and the log are the same, so no table was asked or changed, no strategy trigger
was dispatched and nothing was sent. -/
theorem onIncomingInterest_localhost_drop (f : Forwarder) (now : Int) (ingress : FaceEndpoint)
    (interest : Interest)
    (hface : ingress.face.scope = FaceScope.NON_LOCAL)
    (hname : Name.isPrefixOf LOCALHOST interest.name = true) :
    f.onIncomingInterest now ingress interest =
      { f with counters := { f.counters with nInInterests := f.counters.nInInterests + 1 } } ∧
    (f.onIncomingInterest now ingress interest).log = f.log ∧
    (f.onIncomingInterest now ingress interest).deadNonceList = f.deadNonceList ∧
    (f.onIncomingInterest now ingress interest).pit = f.pit ∧
    (f.onIncomingInterest now ingress interest).cs = f.cs ∧
    (f.onIncomingInterest now ingress interest).scheduler = f.scheduler := by
  have h : f.onIncomingInterest now ingress interest =
      { f with counters := { f.counters with nInInterests := f.counters.nInInterests + 1 } } := by
    unfold onIncomingInterest
    simp [hface, hname]
  rw [h]
  exact ⟨rfl, rfl, rfl, rfl, rfl, rfl⟩

/-- C25 (witness): the Interest `/localhost/1` arrives on the non-local face A of a
Forwarder whose PIT holds an entry. -/
theorem onIncomingInterest_localhost_drop_witness :
    Sample.pendingForwarder.onIncomingInterest 10 { face := Sample.faceA, endpoint := 0 }
        Sample.interestLocalhost =
      { Sample.pendingForwarder with
        counters := { Sample.pendingForwarder.counters with
          nInInterests := Sample.pendingForwarder.counters.nInInterests + 1 } } :=
  (onIncomingInterest_localhost_drop Sample.pendingForwarder 10
    { face := Sample.faceA, endpoint := 0 } Sample.interestLocalhost (by decide) (by decide)).1

/-- C22: an inbound Data that passes the `/localhost` scope check and matches no PIT entry
enters the unsolicited Data pipeline.  When the unsolicited-data policy decides `CACHE`
the Data (carrying its IncomingFaceId tag) is offered once to the Content Store with the
unsolicited flag set; for any other decision the Content Store is not called.  In both
cases nothing else happens: the PIT, the scheduler and the Dead Nonce List are unchanged,
no Data is sent and no strategy trigger is dispatched; `nInData` is incremented. -/
theorem onIncomingData_unsolicited (f : Forwarder) (now : Int) (ingress : FaceEndpoint)
    (data : Data)
    (hscope : (ingress.face.scope == FaceScope.NON_LOCAL
                && Name.isPrefixOf LOCALHOST data.name) = false)
    (hnone : f.pit.findAllDataMatches data = []) :
    f.onIncomingData now ingress data =
      if f.unsolicitedDataPolicy ingress.face
          { data with incomingFaceIdTag := some ingress.face.id }
            = fw.UnsolicitedDataDecision.CACHE then
        { f with
          counters := { f.counters with nInData := f.counters.nInData + 1 }
          log := f.log ++
            [Event.onDataUnsolicited ingress
               { data with incomingFaceIdTag := some ingress.face.id },
             Event.csInsert { data with incomingFaceIdTag := some ingress.face.id } true]
          cs := (f.cs.insert now
                  { data with incomingFaceIdTag := some ingress.face.id } true).2 }
      else
        { f with
          counters := { f.counters with nInData := f.counters.nInData + 1 }
          log := f.log ++
            [Event.onDataUnsolicited ingress
               { data with incomingFaceIdTag := some ingress.face.id }] } := by
  have hnone2 : f.pit.findAllDataMatches
      { data with incomingFaceIdTag := some ingress.face.id } = [] := by
    exact hnone
  unfold onIncomingData
  simp only [hscope, Bool.false_eq_true, if_false, hnone2, List.length_nil, beq_self_eq_true,
    if_true]
  unfold onDataUnsolicited emit
  by_cases hd : f.unsolicitedDataPolicy ingress.face
      { data with incomingFaceIdTag := some ingress.face.id } = fw.UnsolicitedDataDecision.CACHE
  · simp [hd]
  · simp [hd]

/-- C22 (witness): the Data `/1` arrives on face B of a Forwarder with an empty PIT whose
policy caches unsolicited Data: the Content Store then holds it as unsolicited. -/
theorem onIncomingData_unsolicited_witness :
    (Sample.admitAllForwarder.onIncomingData 10 { face := Sample.faceB, endpoint := 0 }
        Sample.dataX).log =
      [Event.onDataUnsolicited { face := Sample.faceB, endpoint := 0 }
         { Sample.dataX with incomingFaceIdTag := some 2 },
       Event.csInsert { Sample.dataX with incomingFaceIdTag := some 2 } true] ∧
    (Sample.admitAllForwarder.onIncomingData 10 { face := Sample.faceB, endpoint := 0 }
        Sample.dataX).cs.table =
      [{ data := { Sample.dataX with incomingFaceIdTag := some 2 }, isUnsolicited := true,
         freshUntil := 1000000010 }] := by
  rw [onIncomingData_unsolicited Sample.admitAllForwarder 10
    { face := Sample.faceB, endpoint := 0 } Sample.dataX (by decide) (by decide)]
  exact ⟨by decide, by decide⟩

end Forwarder

namespace pit

theorem eraseP_face_eq_erase (face : Face) (r : InRecord) (l : List InRecord)
    (h : l.find? (fun x => x.face == face) = some r) :
    l.eraseP (fun x => x.face == face) = l.erase r := by
  induction l with
  | nil => cases h
  | cons x l ih =>
    by_cases hx : x.face = face
    · have hb : (x.face == face) = true := by simpa using hx
      rw [List.find?_cons, hb] at h
      simp only [Option.some.injEq] at h
      subst h
      rw [List.eraseP_cons, hb, cond_true, List.erase_cons_head]
    · have hb : (x.face == face) = false := by simpa using hx
      rw [List.find?_cons, hb] at h
      have hr : r.face = face := by simpa using List.find?_some h
      have hne : (x == r) = false := by
        apply beq_false_of_ne
        intro hxr
        apply hx
        rw [hxr]; exact hr
      rw [List.eraseP_cons, hb, cond_false, List.erase_cons, hne, ih h]
      rfl

end pit

namespace Forwarder

/-- C23: what `onContentStoreMiss` appends to the log.  After the pipeline entry and the
`afterCsMiss` signal comes, for an Interest without NextHopFaceId tag, the strategy
trigger `afterReceiveInterest` and nothing else; for a tagged Interest whose face is in
the face table, one pass of the outgoing Interest pipeline to that face (endpoint 0) and
no strategy trigger; for a tagged Interest whose face is unknown, nothing at all. -/
theorem onContentStoreMiss_next_hop_tag (f : Forwarder) (now : Int) (ingress : FaceEndpoint)
    (k : PitKey) (interest : Interest) :
    (f.onContentStoreMiss now ingress k interest).log =
      f.log ++ [Event.onContentStoreMiss ingress k interest, Event.afterCsMiss interest] ++
        (match interest.nextHopFaceIdTag with
         | none =>
           [Event.strategyAfterReceiveInterest { face := ingress.face, endpoint := 0 }
              interest k]
         | some nextHopTag =>
           match faceTableGet f.faceTable nextHopTag with
           | some nextHopFace =>
             [Event.onOutgoingInterest k { face := nextHopFace, endpoint := 0 } interest,
              Event.sendInterest nextHopFace 0 interest]
           | none => []) ∧
    (f.onContentStoreMiss now ingress k interest).counters.nOutInterests =
      f.counters.nOutInterests +
        (match interest.nextHopFaceIdTag with
         | none => 0
         | some nextHopTag =>
           match faceTableGet f.faceTable nextHopTag with
           | some _ => 1
           | none => 0) := by
  obtain ⟨g, hg, heq⟩ := onContentStoreMiss_eq f now ingress k interest
  have hglog : g.log = f.log ++
      [Event.onContentStoreMiss ingress k interest, Event.afterCsMiss interest] := by
    rw [hg]; rfl
  have hgc : g.counters.nOutInterests = f.counters.nOutInterests := by rw [hg]; rfl
  rw [heq]
  cases interest.nextHopFaceIdTag with
  | none =>
    refine ⟨?_, ?_⟩
    · simp [emit, hglog]
    · exact hgc
  | some t =>
    dsimp only
    cases faceTableGet f.faceTable t with
    | none =>
      refine ⟨?_, ?_⟩
      · simp [hglog]
      · exact hgc
    | some nh =>
      refine ⟨?_, ?_⟩
      · simp [onOutgoingInterest, emit, hglog]
      · simp [onOutgoingInterest, emit, hgc]

/-- C21: the four outcomes of `onOutgoingNack` on an entry of the PIT.  When the egress
face id is valid, the entry has an in-record of the egress face and the egress link is
point-to-point, one Nack is sent on the egress face: it wraps the Interest kept in that
in-record and carries the given Reason; `nOutNacks` grows by one; the entry loses that
in-record and nothing else.  In every other case nothing is sent, no counter moves and
the PIT is unchanged. -/
theorem onOutgoingNack_spec (f : Forwarder) (k : PitKey) (egress : FaceEndpoint)
    (nack : NackReason) (e : pit.Entry) (hget : f.pit.get? k = some e) :
    if egress.face.id ≠ INVALID_FACEID ∧ (e.getInRecord egress.face).isSome = true
        ∧ egress.face.linkType = LinkType.POINT_TO_POINT then
      ∃ inRecord, e.getInRecord egress.face = some inRecord ∧
        f.onOutgoingNack k egress nack =
          { f with
            log := f.log ++ [Event.onOutgoingNack k egress nack,
              Event.sendNack egress.face egress.endpoint
                { interest := inRecord.interest, reason := nack }]
            counters := { f.counters with nOutNacks := f.counters.nOutNacks + 1 }
            pit := (f.pit.modify k (fun e => e.deleteInRecord egress.face)) } ∧
        (f.onOutgoingNack k egress nack).pit.get? k
          = some { e with inRecords := e.inRecords.erase inRecord } ∧
        ∀ k2, k2 ≠ k → (f.onOutgoingNack k egress nack).pit.get? k2 = f.pit.get? k2
    else
      f.onOutgoingNack k egress nack =
        { f with log := f.log ++ [Event.onOutgoingNack k egress nack] } := by
  have hkey : ∀ x : pit.Entry, (x.deleteInRecord egress.face).key = x.key := fun _ => rfl
  unfold onOutgoingNack Pit.getInRecord
  simp only [emit, hget]
  by_cases hid : egress.face.id = INVALID_FACEID
  · simp [hid]
  · cases hrec : e.getInRecord egress.face with
    | none => simp [hid]
    | some r =>
      by_cases hlt : egress.face.linkType = LinkType.POINT_TO_POINT
      · have hcond : egress.face.id ≠ INVALID_FACEID ∧ (some r).isSome = true
            ∧ egress.face.linkType = LinkType.POINT_TO_POINT := ⟨hid, rfl, hlt⟩
        rw [if_pos hcond]
        refine ⟨r, rfl, ?_, ?_, ?_⟩
        · simp [hid, hlt]
        · simp only [beq_iff_eq, hid, if_false, hlt, bne_self_eq_false, Bool.false_eq_true]
          rw [Pit.get?_modify_same f.pit k _ hkey e hget]
          unfold pit.Entry.deleteInRecord
          rw [pit.eraseP_face_eq_erase egress.face r e.inRecords hrec]
        · intro k2 hne
          simp only [beq_iff_eq, hid, if_false, hlt, bne_self_eq_false, Bool.false_eq_true]
          exact Pit.get?_modify_of_ne f.pit k k2 _ hkey hne
      · simp [hid, hlt]

/-- C21 (witness): a NoRoute Nack for the entry of `/7` towards face A, whose in-record
the entry holds: the Nack wraps the Interest of the in-record and the entry is left
without in-record, its out-record untouched. -/
theorem onOutgoingNack_spec_witness :
    ∃ inRecord, Sample.pendingEntry.getInRecord Sample.faceA = some inRecord ∧
      Sample.pendingForwarder.onOutgoingNack Sample.interest5.pitKey
          { face := Sample.faceA, endpoint := 0 } NackReason.NO_ROUTE =
        { Sample.pendingForwarder with
          log := Sample.pendingForwarder.log ++
            [Event.onOutgoingNack Sample.interest5.pitKey
               { face := Sample.faceA, endpoint := 0 } NackReason.NO_ROUTE,
             Event.sendNack Sample.faceA 0
               { interest := inRecord.interest, reason := NackReason.NO_ROUTE }]
          counters := { Sample.pendingForwarder.counters with
            nOutNacks := Sample.pendingForwarder.counters.nOutNacks + 1 }
          pit := (Sample.pendingForwarder.pit.modify Sample.interest5.pitKey
            (fun e => e.deleteInRecord Sample.faceA)) } ∧
      (Sample.pendingForwarder.onOutgoingNack Sample.interest5.pitKey
          { face := Sample.faceA, endpoint := 0 } NackReason.NO_ROUTE).pit.get?
            Sample.interest5.pitKey
        = some { Sample.pendingEntry with
                 inRecords := Sample.pendingEntry.inRecords.erase inRecord } ∧
      ∀ k2, k2 ≠ Sample.interest5.pitKey →
        (Sample.pendingForwarder.onOutgoingNack Sample.interest5.pitKey
          { face := Sample.faceA, endpoint := 0 } NackReason.NO_ROUTE).pit.get? k2
          = Sample.pendingForwarder.pit.get? k2 := by
  have h := onOutgoingNack_spec Sample.pendingForwarder Sample.interest5.pitKey
    { face := Sample.faceA, endpoint := 0 } NackReason.NO_ROUTE Sample.pendingEntry
    (by decide)
  rw [if_pos (by decide)] at h
  exact h

end Forwarder

/-! ## The PIT-nonce loop check and the forwarding hint -/

namespace Pit

/-- The call `Pit::insert` adds no in-record to any entry. -/
theorem inRecords_insert_all (p : Pit) (interest : Interest) (k : PitKey) :
    (p.insert interest).2.inRecords k = p.inRecords k := by
  unfold Pit.insert
  cases hfind : p.entries.find? (fun e => e.canMatch interest) with
  | some e => rfl
  | none =>
    unfold Pit.inRecords Pit.get?
    simp only [List.find?_append]
    cases hk : p.entries.find? (fun e => e.key == k) with
    | some e => rfl
    | none =>
      simp only [Option.none_or, List.find?_cons, List.find?_nil]
      cases (({ interest := interest, inRecords := [], outRecords := [], isSatisfied := false,
                dataFreshnessPeriod := 0, expiryTimer := none } : pit.Entry).key == k) <;> rfl

end Pit

namespace Forwarder

theorem onContentStoreHit_log (f : Forwarder) (now : Int) (ingress : FaceEndpoint)
    (k : PitKey) (interest : Interest) (data : Data) :
    (f.onContentStoreHit now ingress k interest data).log = f.log ++
      [Event.onContentStoreHit ingress k interest data,
       Event.afterCsHit interest data,
       Event.beforeSatisfyInterest k f.csFace
         { data with incomingFaceIdTag := some FACEID_CONTENT_STORE },
       Event.strategyBeforeSatisfyInterest k { face := f.csFace, endpoint := 0 }
         { data with incomingFaceIdTag := some FACEID_CONTENT_STORE },
       Event.strategyAfterContentStoreHit k ingress
         { data with incomingFaceIdTag := some FACEID_CONTENT_STORE }] := by
  simp [onContentStoreHit, emit, setExpiryTimer]

theorem onContentStoreMiss_log (f : Forwarder) (now : Int) (ingress : FaceEndpoint)
    (k : PitKey) (interest : Interest) :
    (f.onContentStoreMiss now ingress k interest).log =
      f.log ++ [Event.onContentStoreMiss ingress k interest, Event.afterCsMiss interest] ++
        (match interest.nextHopFaceIdTag with
         | none =>
           [Event.strategyAfterReceiveInterest { face := ingress.face, endpoint := 0 }
              interest k]
         | some nextHopTag =>
           match faceTableGet f.faceTable nextHopTag with
           | some nextHopFace =>
             [Event.onOutgoingInterest k { face := nextHopFace, endpoint := 0 } interest,
              Event.sendInterest nextHopFace 0 interest]
           | none => []) := by
  obtain ⟨g, hg, heq⟩ := onContentStoreMiss_eq f now ingress k interest
  have hglog : g.log = f.log ++
      [Event.onContentStoreMiss ingress k interest, Event.afterCsMiss interest] := by
    rw [hg]; rfl
  rw [heq]
  cases interest.nextHopFaceIdTag with
  | none => simp [emit, hglog]
  | some t =>
    dsimp only
    cases faceTableGet f.faceTable t with
    | none => simp [hglog]
    | some nh => simp [onOutgoingInterest, emit, hglog]

/-- Neither Content Store pipeline enters the loop pipeline. -/
theorem onContentStoreMiss_no_loop (f : Forwarder) (now : Int) (ingress : FaceEndpoint)
    (k : PitKey) (interest : Interest) :
    ∃ tail, (f.onContentStoreMiss now ingress k interest).log = f.log ++ tail ∧
      ∀ ev ∈ tail, ev.isInterestLoop = false ∧
        ev.isStrategyAfterReceiveLoopedInterest = false := by
  rw [onContentStoreMiss_log, List.append_assoc]
  refine ⟨_, rfl, ?_⟩
  intro ev hev
  cases htag : interest.nextHopFaceIdTag with
  | none =>
    rw [htag] at hev
    simp only [List.mem_append, List.mem_cons, List.mem_singleton, List.not_mem_nil,
      or_false] at hev
    rcases hev with (rfl | rfl) | rfl <;> exact ⟨rfl, rfl⟩
  | some t =>
    rw [htag] at hev
    dsimp only at hev
    cases hft : faceTableGet f.faceTable t with
    | none =>
      rw [hft] at hev
      simp only [List.mem_append, List.mem_cons, List.mem_singleton, List.not_mem_nil,
        or_false, List.append_nil] at hev
      rcases hev with rfl | rfl <;> exact ⟨rfl, rfl⟩
    | some nh =>
      rw [hft] at hev
      simp only [List.mem_append, List.mem_cons, List.mem_singleton, List.not_mem_nil,
        or_false] at hev
      rcases hev with (rfl | rfl) | (rfl | rfl) <;> exact ⟨rfl, rfl⟩

theorem onContentStoreHit_no_loop (f : Forwarder) (now : Int) (ingress : FaceEndpoint)
    (k : PitKey) (interest : Interest) (data : Data) :
    ∃ tail, (f.onContentStoreHit now ingress k interest data).log = f.log ++ tail ∧
      ∀ ev ∈ tail, ev.isInterestLoop = false ∧
        ev.isStrategyAfterReceiveLoopedInterest = false := by
  rw [onContentStoreHit_log]
  refine ⟨_, rfl, ?_⟩
  intro ev hev
  simp only [List.mem_cons, List.mem_singleton, List.not_mem_nil, or_false] at hev
  rcases hev with rfl | rfl | rfl | rfl | rfl <;> exact ⟨rfl, rfl⟩

/-- The Interest on which `onIncomingInterest` works past the Dead Nonce List check, made
explicit: the IncomingFaceId tag is set, and the forwarding hint is emptied when it is
not empty and lies in the producer region. -/
theorem onIncomingInterest_past_dnl (f : Forwarder) (now : Int) (ingress : FaceEndpoint)
    (interest : Interest)
    (hscope : (ingress.face.scope == FaceScope.NON_LOCAL
                && Name.isPrefixOf LOCALHOST interest.name) = false)
    (hdnl : f.deadNonceList.has interest.name interest.nonce = false)
    (i2 : Interest)
    (hi2 : i2 = { interest with
      incomingFaceIdTag := some ingress.face.id
      forwardingHint :=
        if (!interest.forwardingHint.isEmpty
            && isInProducerRegion f.networkRegionTable interest.forwardingHint) = true
        then [] else interest.forwardingHint })
    (g : Forwarder)
    (hg : g = { f with
            counters := { f.counters with nInInterests := f.counters.nInInterests + 1 }
            log := f.log ++ [Event.pitInsert i2]
            pit := (f.pit.insert i2).2 }) :
    f.onIncomingInterest now ingress interest =
      if (match g.pit.get? (f.pit.insert i2).1.1 with
          | some e => hasDuplicateNonceInPit e i2.nonce ingress.face
          | none => false) then
        (g.onInterestLoop ingress i2).emit
          (Event.strategyAfterReceiveLoopedInterest ingress i2 (f.pit.insert i2).1.1)
      else if (g.pit.inRecords (f.pit.insert i2).1.1).isEmpty then
        (g.cs.find now i2).1.foldl (fun acc cb =>
          match cb with
          | Cs.Callback.hit i d => acc.onContentStoreHit now ingress (f.pit.insert i2).1.1 i d
          | Cs.Callback.miss i => acc.onContentStoreMiss now ingress (f.pit.insert i2).1.1 i)
          ({ g with log := g.log ++ [Event.csFind i2], cs := (g.cs.find now i2).2 } : Forwarder)
      else g.onContentStoreMiss now ingress (f.pit.insert i2).1.1 i2 := by
  subst hg
  unfold onIncomingInterest
  simp only [hscope, hdnl, Bool.false_eq_true, if_false, hasDuplicateNonceInPit, emit_pit,
    emit_cs]
  have hgen : (if (!interest.forwardingHint.isEmpty
          && isInProducerRegion f.networkRegionTable interest.forwardingHint) = true then
        ({ name := interest.name, canBePrefix := interest.canBePrefix,
           mustBeFresh := interest.mustBeFresh, nonce := interest.nonce,
           lifetime := interest.lifetime, forwardingHint := [],
           incomingFaceIdTag := some ingress.face.id,
           nextHopFaceIdTag := interest.nextHopFaceIdTag } : Interest)
      else { name := interest.name, canBePrefix := interest.canBePrefix,
             mustBeFresh := interest.mustBeFresh, nonce := interest.nonce,
             lifetime := interest.lifetime, forwardingHint := interest.forwardingHint,
             incomingFaceIdTag := some ingress.face.id,
             nextHopFaceIdTag := interest.nextHopFaceIdTag }) = i2 := by
    rw [hi2]
    split <;> rfl
  rw [hgen]
  cases (f.pit.insert i2).2.get? (f.pit.insert i2).1.1 with
  | none =>
    simp only [bne_self_eq_false, Bool.false_and, ite_self, Bool.false_eq_true, if_false]
    rfl
  | some e => rfl

end Forwarder

namespace Forwarder

/-- The loop branch of `onIncomingInterest` written out. -/
theorem onInterestLoop_emit_eq (g : Forwarder) (ingress : FaceEndpoint) (i2 : Interest)
    (k : PitKey) :
    (g.onInterestLoop ingress i2).emit (Event.strategyAfterReceiveLoopedInterest ingress i2 k) =
      { g with log := g.log ++ [Event.onInterestLoop ingress i2] ++
          (if ingress.face.linkType = LinkType.POINT_TO_POINT then
            [Event.sendNack ingress.face ingress.endpoint
              { interest := i2, reason := NackReason.DUPLICATE }]
           else []) ++
          [Event.strategyAfterReceiveLoopedInterest ingress i2 k] } := by
  unfold onInterestLoop emit
  by_cases h : ingress.face.linkType = LinkType.POINT_TO_POINT <;> simp [h]

theorem hasDuplicateNonceInPit_iff (e : pit.Entry) (nonce : Nonce) (face : Face) :
    hasDuplicateNonceInPit e nonce face = true ↔
      (fw.findDuplicateNonce e nonce face ≠ fw.DUPLICATE_NONCE_NONE ∧
        (face.linkType = LinkType.POINT_TO_POINT →
          fw.findDuplicateNonce e nonce face &&& fw.DUPLICATE_NONCE_IN_SAME = 0)) := by
  unfold hasDuplicateNonceInPit
  by_cases hp : face.linkType = LinkType.POINT_TO_POINT
  · simp [hp]
  · simp [hp]

/-- C26: the PIT-nonce check of `onIncomingInterest`.  Let `e` be the PIT entry that
`Pit::insert` returns for an inbound Interest that passed the scope check and the Dead
Nonce List check.  The check reports a loop exactly when `findDuplicateNonce` on `e`
returns a non-empty result and, on a point-to-point ingress face, the result does not
include `DUPLICATE_NONCE_IN_SAME`.  When it reports a loop, the loop pipeline runs (with
its Duplicate Nack on a point-to-point face), the strategy trigger
`afterReceiveLoopedInterest` is dispatched, and the PIT is the one `Pit::insert` left: no
entry has gained an in-record.  When it does not, neither the loop pipeline nor that
trigger appears among the steps of the call. -/
theorem onIncomingInterest_pit_nonce_loop (f : Forwarder) (now : Int) (ingress : FaceEndpoint)
    (interest : Interest)
    (hscope : (ingress.face.scope == FaceScope.NON_LOCAL
                && Name.isPrefixOf LOCALHOST interest.name) = false)
    (hdnl : f.deadNonceList.has interest.name interest.nonce = false)
    (i2 : Interest)
    (hi2 : i2 = { interest with
      incomingFaceIdTag := some ingress.face.id
      forwardingHint :=
        if (!interest.forwardingHint.isEmpty
            && isInProducerRegion f.networkRegionTable interest.forwardingHint) = true
        then [] else interest.forwardingHint }) :
    ∃ e, (f.pit.insert i2).2.get? (f.pit.insert i2).1.1 = some e ∧
      ((fw.findDuplicateNonce e interest.nonce ingress.face ≠ fw.DUPLICATE_NONCE_NONE ∧
          (ingress.face.linkType = LinkType.POINT_TO_POINT →
            fw.findDuplicateNonce e interest.nonce ingress.face
              &&& fw.DUPLICATE_NONCE_IN_SAME = 0)) →
        f.onIncomingInterest now ingress interest =
          { f with
            counters := { f.counters with nInInterests := f.counters.nInInterests + 1 }
            pit := (f.pit.insert i2).2
            log := f.log ++ [Event.pitInsert i2, Event.onInterestLoop ingress i2] ++
              (if ingress.face.linkType = LinkType.POINT_TO_POINT then
                [Event.sendNack ingress.face ingress.endpoint
                  { interest := i2, reason := NackReason.DUPLICATE }]
               else []) ++
              [Event.strategyAfterReceiveLoopedInterest ingress i2 (f.pit.insert i2).1.1] } ∧
        ∀ k2, (f.onIncomingInterest now ingress interest).pit.inRecords k2
          = f.pit.inRecords k2) ∧
      (¬ (fw.findDuplicateNonce e interest.nonce ingress.face ≠ fw.DUPLICATE_NONCE_NONE ∧
          (ingress.face.linkType = LinkType.POINT_TO_POINT →
            fw.findDuplicateNonce e interest.nonce ingress.face
              &&& fw.DUPLICATE_NONCE_IN_SAME = 0)) →
        ∃ tail, (f.onIncomingInterest now ingress interest).log
            = f.log ++ Event.pitInsert i2 :: tail ∧
          ∀ ev ∈ tail, ev.isInterestLoop = false ∧
            ev.isStrategyAfterReceiveLoopedInterest = false) := by
  have hsome := Pit.get?_insert_isSome f.pit i2
  obtain ⟨e, he⟩ := Option.isSome_iff_exists.mp hsome
  have hnonce : i2.nonce = interest.nonce := by rw [hi2]
  have heq := onIncomingInterest_past_dnl f now ingress interest hscope hdnl i2 hi2 _ rfl
  refine ⟨e, he, ?_, ?_⟩
  · intro hL
    have hdup : hasDuplicateNonceInPit e i2.nonce ingress.face = true := by
      rw [hnonce]; exact (hasDuplicateNonceInPit_iff _ _ _).mpr hL
    have hres : f.onIncomingInterest now ingress interest =
        { f with
          counters := { f.counters with nInInterests := f.counters.nInInterests + 1 }
          pit := (f.pit.insert i2).2
          log := f.log ++ [Event.pitInsert i2, Event.onInterestLoop ingress i2] ++
            (if ingress.face.linkType = LinkType.POINT_TO_POINT then
              [Event.sendNack ingress.face ingress.endpoint
                { interest := i2, reason := NackReason.DUPLICATE }]
             else []) ++
            [Event.strategyAfterReceiveLoopedInterest ingress i2 (f.pit.insert i2).1.1] } := by
      rw [heq]
      simp only [he, hdup, if_true]
      rw [onInterestLoop_emit_eq]
      simp
    refine ⟨hres, ?_⟩
    intro k2
    rw [hres]
    exact Pit.inRecords_insert_all f.pit i2 k2
  · intro hL
    have hdup : hasDuplicateNonceInPit e i2.nonce ingress.face = false := by
      rw [hnonce]
      cases hb : hasDuplicateNonceInPit e interest.nonce ingress.face with
      | false => rfl
      | true => exact absurd ((hasDuplicateNonceInPit_iff _ _ _).mp hb) hL
    rw [heq]
    simp only [he, hdup, Bool.false_eq_true, if_false]
    split
    · unfold Cs.find
      dsimp only
      cases (Cs.findImpl (f.cs) now i2).1 with
      | none =>
        simp only [List.foldl_cons, List.foldl_nil]
        obtain ⟨tail, ht, hno⟩ := onContentStoreMiss_no_loop
          ({ f with
              counters := { f.counters with nInInterests := f.counters.nInInterests + 1 }
              log := f.log ++ [Event.pitInsert i2] ++ [Event.csFind i2]
              pit := (f.pit.insert i2).2
              cs := (Cs.findImpl f.cs now i2).2 } : Forwarder)
          now ingress (f.pit.insert i2).1.1 i2
        refine ⟨Event.csFind i2 :: tail, ?_, ?_⟩
        · rw [ht]; simp
        · intro ev hev
          rcases List.mem_cons.mp hev with rfl | hev
          · exact ⟨rfl, rfl⟩
          · exact hno ev hev
      | some ce =>
        simp only [List.foldl_cons, List.foldl_nil]
        obtain ⟨tail, ht, hno⟩ := onContentStoreHit_no_loop
          ({ f with
              counters := { f.counters with nInInterests := f.counters.nInInterests + 1 }
              log := f.log ++ [Event.pitInsert i2] ++ [Event.csFind i2]
              pit := (f.pit.insert i2).2
              cs := (Cs.findImpl f.cs now i2).2 } : Forwarder)
          now ingress (f.pit.insert i2).1.1 i2 ce.data
        refine ⟨Event.csFind i2 :: tail, ?_, ?_⟩
        · rw [ht]; simp
        · intro ev hev
          rcases List.mem_cons.mp hev with rfl | hev
          · exact ⟨rfl, rfl⟩
          · exact hno ev hev
    · obtain ⟨tail, ht, hno⟩ := onContentStoreMiss_no_loop
        ({ f with
            counters := { f.counters with nInInterests := f.counters.nInInterests + 1 }
            log := f.log ++ [Event.pitInsert i2]
            pit := (f.pit.insert i2).2 } : Forwarder)
        now ingress (f.pit.insert i2).1.1 i2
      refine ⟨tail, ?_, hno⟩
      rw [ht]; simp

end Forwarder

namespace Forwarder

/-- C26 (witness): the Interest `/7` with Nonce 5 arrives on the point-to-point face B
while the entry of `/7` holds that Nonce in the in-record of face A and in the out-record
of face B: a loop is reported, a Duplicate Nack goes back on face B and the in-records are
as before. -/
theorem onIncomingInterest_pit_nonce_loop_witness :
    (Sample.pendingForwarder.onIncomingInterest 10 { face := Sample.faceB, endpoint := 0 }
        Sample.interest5).log =
      [Event.pitInsert { Sample.interest5 with incomingFaceIdTag := some 2 },
       Event.onInterestLoop { face := Sample.faceB, endpoint := 0 }
         { Sample.interest5 with incomingFaceIdTag := some 2 },
       Event.sendNack Sample.faceB 0
         { interest := { Sample.interest5 with incomingFaceIdTag := some 2 },
           reason := NackReason.DUPLICATE },
       Event.strategyAfterReceiveLoopedInterest { face := Sample.faceB, endpoint := 0 }
         { Sample.interest5 with incomingFaceIdTag := some 2 } Sample.interest5.pitKey] ∧
    ∀ k2, (Sample.pendingForwarder.onIncomingInterest 10
        { face := Sample.faceB, endpoint := 0 } Sample.interest5).pit.inRecords k2
      = Sample.pendingForwarder.pit.inRecords k2 := by
  obtain ⟨e, he, hloop, _⟩ := onIncomingInterest_pit_nonce_loop Sample.pendingForwarder 10
    { face := Sample.faceB, endpoint := 0 } Sample.interest5 (by decide) (by decide) _ rfl
  have he2 : e = Sample.pendingEntry := by
    have h2 : some e = some Sample.pendingEntry := he.symm.trans (by decide)
    exact Option.some.inj h2
  subst he2
  obtain ⟨h1, h2⟩ := hloop (by decide)
  refine ⟨?_, h2⟩
  rw [h1]
  decide

/-- C27 (amended): `onIncomingInterest` strips the forwarding hint before the PIT insert
and before the PIT-nonce loop check.  When the hint of an inbound Interest that passed the
scope check and the Dead Nonce List check is not empty and lies in the producer region,
the PIT is asked for the Interest without hint, and an Interest that the PIT-nonce check
then diverts to the loop pipeline carries an empty forwarding hint in the loop pipeline,
in the Duplicate Nack and in the strategy trigger `afterReceiveLoopedInterest`. -/
theorem onIncomingInterest_loop_hint_stripped (f : Forwarder) (now : Int)
    (ingress : FaceEndpoint) (interest : Interest)
    (hscope : (ingress.face.scope == FaceScope.NON_LOCAL
                && Name.isPrefixOf LOCALHOST interest.name) = false)
    (hdnl : f.deadNonceList.has interest.name interest.nonce = false)
    (hregion : (!interest.forwardingHint.isEmpty
        && isInProducerRegion f.networkRegionTable interest.forwardingHint) = true)
    (e : pit.Entry)
    (he : (f.pit.insert { interest with incomingFaceIdTag := some ingress.face.id
                                        forwardingHint := [] }).2.get?
            (f.pit.insert { interest with incomingFaceIdTag := some ingress.face.id
                                          forwardingHint := [] }).1.1 = some e)
    (hloop : hasDuplicateNonceInPit e interest.nonce ingress.face = true) :
    (f.onIncomingInterest now ingress interest).log =
      f.log ++
        [Event.pitInsert { interest with incomingFaceIdTag := some ingress.face.id
                                         forwardingHint := [] },
         Event.onInterestLoop ingress
           { interest with incomingFaceIdTag := some ingress.face.id
                           forwardingHint := [] }] ++
        (if ingress.face.linkType = LinkType.POINT_TO_POINT then
          [Event.sendNack ingress.face ingress.endpoint
            { interest := { interest with incomingFaceIdTag := some ingress.face.id
                                          forwardingHint := [] },
              reason := NackReason.DUPLICATE }]
         else []) ++
        [Event.strategyAfterReceiveLoopedInterest ingress
           { interest with incomingFaceIdTag := some ingress.face.id
                           forwardingHint := [] }
           (f.pit.insert { interest with incomingFaceIdTag := some ingress.face.id
                                         forwardingHint := [] }).1.1] := by
  have heq := onIncomingInterest_past_dnl f now ingress interest hscope hdnl
    { interest with incomingFaceIdTag := some ingress.face.id
                    forwardingHint := [] }
    (by rw [if_pos hregion]) _ rfl
  rw [heq]
  simp only [he, hloop, if_true]
  rw [onInterestLoop_emit_eq]
  simp

/-- C27 (witness): in the region `/9/1`, the Interest `/7` with Nonce 5 and the
forwarding hint `/9` arrives on face B and is found looping by the PIT-nonce check. -/
theorem onIncomingInterest_loop_hint_stripped_witness :
    (Sample.regionForwarder.onIncomingInterest 10 { face := Sample.faceB, endpoint := 0 }
        Sample.interestHint).log =
      [Event.pitInsert { Sample.interest5 with incomingFaceIdTag := some 2 },
       Event.onInterestLoop { face := Sample.faceB, endpoint := 0 }
         { Sample.interest5 with incomingFaceIdTag := some 2 },
       Event.sendNack Sample.faceB 0
         { interest := { Sample.interest5 with incomingFaceIdTag := some 2 },
           reason := NackReason.DUPLICATE },
       Event.strategyAfterReceiveLoopedInterest { face := Sample.faceB, endpoint := 0 }
         { Sample.interest5 with incomingFaceIdTag := some 2 } Sample.interest5.pitKey] := by
  rw [onIncomingInterest_loop_hint_stripped Sample.regionForwarder 10
    { face := Sample.faceB, endpoint := 0 } Sample.interestHint (by decide) (by decide)
    (by decide) Sample.pendingEntry (by decide) (by decide)]
  decide

/-- C27 (counterexample): in the region `/9/1`, the Interest `/7` with Nonce 5 and the
forwarding hint `/9` arrives on the point-to-point face B while the entry of `/7` has an
out-record with Nonce 5.  The PIT-nonce check diverts it to the loop pipeline, and the
Interest wrapped in the Duplicate Nack and handed to `afterReceiveLoopedInterest` has an
empty forwarding hint, not the hint `/9` it arrived with. -/
theorem onIncomingInterest_loop_without_original_hint :
    Sample.interestHint.forwardingHint = [[9]] ∧
    Sample.regionForwarder.deadNonceList.has Sample.interestHint.name
      Sample.interestHint.nonce = false ∧
    ∃ looped : Interest, looped.forwardingHint = [] ∧
      (Sample.regionForwarder.onIncomingInterest 10 { face := Sample.faceB, endpoint := 0 }
          Sample.interestHint).log =
        [Event.pitInsert looped,
         Event.onInterestLoop { face := Sample.faceB, endpoint := 0 } looped,
         Event.sendNack Sample.faceB 0 { interest := looped, reason := NackReason.DUPLICATE },
         Event.strategyAfterReceiveLoopedInterest { face := Sample.faceB, endpoint := 0 }
           looped Sample.interest5.pitKey] :=
  ⟨by decide, by decide, { Sample.interest5 with incomingFaceIdTag := some 2 }, by decide,
    by decide⟩

end Forwarder

/-! ## Refresh and erase in the Content Store -/

namespace cs

theorem Table.modify_twice (t : Table) (i : Name) (g1 g2 : Entry → Entry)
    (hg : ∀ e, (g1 e).getFullName = e.getFullName) :
    Table.modify (Table.modify t i g1) i g2 = Table.modify t i (fun e => g2 (g1 e)) := by
  unfold Table.modify
  rw [List.map_map]
  apply List.map_congr_left
  intro e _
  simp only [Function.comp]
  by_cases h : (e.getFullName == i) = true
  · simp [h, hg]
  · simp [h]

theorem Table.modify_of_not_mem (t : Table) (i : Name) (g : Entry → Entry)
    (h : i ∉ Table.keys t) : Table.modify t i g = t := by
  unfold Table.modify
  conv => rhs; rw [← List.map_id t]
  apply List.map_congr_left
  intro e he
  have : (e.getFullName == i) = false := by
    apply beq_false_of_ne
    intro heq
    exact h (heq ▸ List.mem_map_of_mem _ he)
  simp [this]

theorem Table.modify_insertSorted (t : Table) (e : Entry) (g : Entry → Entry)
    (hg : (g e).getFullName = e.getFullName) (h : e.getFullName ∉ Table.keys t) :
    Table.modify (Table.insertSorted e t) e.getFullName g = Table.insertSorted (g e) t := by
  induction t with
  | nil => simp [Table.insertSorted, Table.modify]
  | cons x xs ih =>
    have hx : x.getFullName ≠ e.getFullName := by
      intro heq
      exact h (heq ▸ List.mem_map_of_mem _ (List.mem_cons_self _ _))
    have hxs : e.getFullName ∉ Table.keys xs := fun hm => h (List.mem_cons_of_mem _ hm)
    have hb : (x.getFullName == e.getFullName) = false := beq_false_of_ne hx
    unfold Table.insertSorted
    rw [hg]
    by_cases hlt : Name.lt e.getFullName x.getFullName = true
    · rw [if_pos hlt, if_pos hlt]
      have hrest := Table.modify_of_not_mem (x :: xs) e.getFullName g h
      unfold Table.modify at hrest ⊢
      rw [List.map_cons, hrest]
      simp
    · rw [if_neg hlt, if_neg hlt]
      have ih2 := ih hxs
      unfold Table.modify at ih2 ⊢
      rw [List.map_cons, ih2]
      simp [hb]

theorem Table.eq_of_full_name_eq (t : Table) (hnd : (Table.keys t).Nodup) {a b : Entry}
    (ha : a ∈ t) (hb : b ∈ t) (h : a.getFullName = b.getFullName) : a = b := by
  unfold Table.keys at hnd
  exact List.inj_on_of_nodup_map hnd ha hb h

theorem evictEntries_length_le (limit : Nat) (q : List Name) (t : Table) :
    (evictEntries limit t q).1.length ≤ t.length :=
  (evictEntries_sublist limit q t).length_le

end cs

namespace Cs

open cs

/-- C28: the two ways in which `Cs::insert` admits a Data, on a store that satisfies the
store invariant.  When the full Name is already stored, the table keeps its size and its
other entries; the stored entry gets a new freshness deadline and its unsolicited flag
becomes the conjunction of the old flag and `isUnsolicited`; the policy is told
`afterRefresh` (no eviction).  When the full Name is not stored, a new entry with the
given flag is put in Name order and the policy is told `afterInsert`; the new entry is in
the store afterwards, which holds at most one entry more than before. -/
theorem insert_refresh_or_new (c : Cs) (now : Int) (data : Data) (isUnsolicited : Bool)
    (hinv : c.Inv) (hadm : (c.insert now data isUnsolicited).1 = true) :
    if data.getFullName ∈ Table.keys c.table then
      (c.insert now data isUnsolicited).2 =
        policyAfterRefresh { c with table :=
          (Table.modify c.table data.getFullName (fun e =>
            { e with isUnsolicited := e.isUnsolicited && isUnsolicited
                     freshUntil := now + e.data.freshnessPeriod * 1000000 })) }
          data.getFullName ∧
      (c.insert now data isUnsolicited).2.size = c.size ∧
      (∀ old ∈ c.table, old.getFullName = data.getFullName →
        ({ old with isUnsolicited := old.isUnsolicited && isUnsolicited
                    freshUntil := now + old.data.freshnessPeriod * 1000000 } : Entry)
          ∈ (c.insert now data isUnsolicited).2.table) ∧
      (∀ x ∈ c.table, x.getFullName ≠ data.getFullName →
        x ∈ (c.insert now data isUnsolicited).2.table)
    else
      (c.insert now data isUnsolicited).2 =
        policyAfterInsert { c with table :=
          (Table.insertSorted
            { data := data, isUnsolicited := isUnsolicited
              freshUntil := now + data.freshnessPeriod * 1000000 } c.table) }
          data.getFullName ∧
      ({ data := data, isUnsolicited := isUnsolicited
         freshUntil := now + data.freshnessPeriod * 1000000 } : Entry)
        ∈ (c.insert now data isUnsolicited).2.table ∧
      (c.insert now data isUnsolicited).2.size ≤ c.size + 1 := by
  have hreq := insert_admitted c now data isUnsolicited hadm
  by_cases hk : data.getFullName ∈ Table.keys c.table
  · rw [if_pos hk]
    have hany : c.table.any (fun x => x.getFullName == data.getFullName) = true := by
      obtain ⟨x, hx, hxk⟩ := List.mem_map.mp hk
      exact List.any_eq_true.mpr ⟨x, hx, by simpa using hxk⟩
    rw [if_pos hany] at hreq
    have htab : Table.modify (Table.modify c.table data.getFullName
          (fun e => e.updateFreshUntil now)) data.getFullName
          (fun e => if e.isUnsolicited && !isUnsolicited then e.clearUnsolicited else e)
        = Table.modify c.table data.getFullName (fun e =>
            { e with isUnsolicited := e.isUnsolicited && isUnsolicited
                     freshUntil := now + e.data.freshnessPeriod * 1000000 }) := by
      rw [Table.modify_twice _ _ _ _ (by intro e; rfl)]
      congr 1
      funext e
      unfold Entry.updateFreshUntil Entry.clearUnsolicited
      cases e.isUnsolicited <;> cases isUnsolicited <;> rfl
    rw [htab] at hreq
    refine ⟨hreq, ?_, ?_, ?_⟩
    · rw [hreq]
      show (Table.modify _ _ _).length = c.table.length
      exact Table.length_modify _ _ _
    · intro old hold hname
      rw [hreq]
      show _ ∈ Table.modify _ _ _
      unfold Table.modify
      refine List.mem_map.mpr ⟨old, hold, ?_⟩
      simp [hname]
    · intro x hx hname
      rw [hreq]
      show _ ∈ Table.modify _ _ _
      unfold Table.modify
      refine List.mem_map.mpr ⟨x, hx, ?_⟩
      simp [hname]
  · rw [if_neg hk]
    have hany : ¬ c.table.any (fun x => x.getFullName == data.getFullName) = true := by
      intro h
      exact hk (mem_keys_of_any _ _ h)
    rw [if_neg hany] at hreq
    have htab : Table.modify (Table.insertSorted
          { data := data, isUnsolicited := isUnsolicited, freshUntil := 0 } c.table)
          data.getFullName (fun e => e.updateFreshUntil now)
        = Table.insertSorted
            { data := data, isUnsolicited := isUnsolicited
              freshUntil := now + data.freshnessPeriod * 1000000 } c.table :=
      Table.modify_insertSorted c.table
        { data := data, isUnsolicited := isUnsolicited, freshUntil := 0 }
        (fun e => e.updateFreshUntil now) rfl hk
    rw [htab] at hreq
    have hstored := insert_stores c now data isUnsolicited hinv hadm
    refine ⟨hreq, ?_, ?_⟩
    · obtain ⟨x, hx, hxk⟩ := List.mem_map.mp hstored
      rw [hreq] at hx
      have hsub : x ∈ Table.insertSorted
          { data := data, isUnsolicited := isUnsolicited
            freshUntil := now + data.freshnessPeriod * 1000000 } c.table :=
        (evictEntries_sublist _ _ _).subset hx
      rcases Table.mem_insertSorted.mp hsub with rfl | hold
      · rw [hreq]; exact hx
      · exact absurd (hxk ▸ List.mem_map_of_mem _ hold) hk
    · rw [hreq]
      show (evictEntries _ _ _).1.length ≤ c.table.length + 1
      refine Nat.le_trans (evictEntries_length_le _ _ _) ?_
      show (Table.insertSorted _ c.table).length ≤ _
      rw [(Table.insertSorted_perm _ _).length_eq]
      exact Nat.le_refl _

end Cs

namespace Cs

open cs

/-- C28 (witness): the solicited entry of Data `/1` is refreshed by an unsolicited copy:
the store keeps its single entry, which stays solicited. -/
theorem insert_refresh_or_new_witness :
    (((Cs.new 10).insert 0 Sample.dataX false).2.insert 5 Sample.dataX true).2.size = 1 ∧
    ({ data := Sample.dataX, isUnsolicited := false, freshUntil := 1000000005 } : Entry)
      ∈ (((Cs.new 10).insert 0 Sample.dataX false).2.insert 5 Sample.dataX true).2.table := by
  have h := insert_refresh_or_new ((Cs.new 10).insert 0 Sample.dataX false).2 5 Sample.dataX
    true (insert_inv _ _ _ _ (new_inv 10)) (by decide)
  rw [if_pos (by decide)] at h
  exact ⟨h.2.1, h.2.2.1 ⟨Sample.dataX, false, 1000000000⟩ (by decide) rfl⟩

end Cs

namespace cs

theorem Table.erase_eq_filter (t : Table) (i : Name) (hnd : (Table.keys t).Nodup) :
    Table.erase t i = t.filter (fun x => x.getFullName != i) := by
  unfold Table.erase
  induction t with
  | nil => rfl
  | cons x xs ih =>
    have hnd2 : (Table.keys xs).Nodup := (List.nodup_cons.mp hnd).2
    have hx : x.getFullName ∉ Table.keys xs := (List.nodup_cons.mp hnd).1
    by_cases h : x.getFullName = i
    · have hb : (x.getFullName == i) = true := by simpa using h
      have hb2 : (x.getFullName != i) = false := by simp [h]
      rw [List.eraseP_cons, hb, cond_true, List.filter_cons, hb2]
      simp only [Bool.false_eq_true, if_false]
      symm
      rw [List.filter_eq_self]
      intro a ha
      have : a.getFullName ≠ i := by
        intro hai
        apply hx
        rw [h, ← hai]
        exact List.mem_map_of_mem _ ha
      simpa using this
    · have hb : (x.getFullName == i) = false := by simpa using h
      have hb2 : (x.getFullName != i) = true := by simp [h]
      rw [List.eraseP_cons, hb, cond_false, List.filter_cons, hb2, if_pos rfl, ih hnd2]

theorem Table.keys_nodup_of_sublist {s t : Table} (h : s.Sublist t)
    (hnd : (Table.keys t).Nodup) : (Table.keys s).Nodup :=
  List.Nodup.sublist (h.map _) hnd

theorem Table.keys_nodup_of_sorted {t : Table} (hs : Table.Sorted t) :
    (Table.keys t).Nodup := by
  unfold Table.keys Table.Sorted at *
  rw [List.Nodup, List.pairwise_map]
  apply hs.imp
  intro a b hab heq
  rw [heq] at hab
  exact absurd hab (by rw [Name.lt_irrefl]; exact Bool.false_ne_true)

theorem filter_mem_of_sublist {l s : List Entry} (hs : s.Sublist l) (hnd : l.Nodup) :
    l.filter (fun x => decide (x ∈ s)) = s := by
  induction hs with
  | slnil => rfl
  | @cons s l a _ ih =>
    have hal : a ∉ l := (List.nodup_cons.mp hnd).1
    have has : a ∉ s := fun h => hal (by rename_i hsub; exact hsub.subset h)
    rw [List.filter_cons]
    simp only [has, decide_False, Bool.false_eq_true, if_false]
    exact ih (List.nodup_cons.mp hnd).2
  | @cons₂ s l a _ ih =>
    have hal : a ∉ l := (List.nodup_cons.mp hnd).1
    rw [List.filter_cons]
    simp only [List.mem_cons, true_or, decide_True, if_true]
    congr 1
    have hih := ih (List.nodup_cons.mp hnd).2
    conv => rhs; rw [← hih]
    apply List.filter_congr
    intro x hx
    have hxa : x ≠ a := fun h => hal (h ▸ hx)
    simp [hxa]

end cs

namespace Cs

open cs

/-- The loop of `eraseImpl` runs its body on the first `limit - nErased` elements. -/
theorem eraseLoop_eq (limit : Nat) (es : List Entry) :
    ∀ (n : Nat) (c : Cs), eraseLoop limit es n c =
      (n + (es.take (limit - n)).length,
       (es.take (limit - n)).foldl (fun acc e =>
          { acc.policyBeforeErase e.getFullName with
            table := Table.erase acc.table e.getFullName }) c) := by
  induction es with
  | nil => intro n c; simp [eraseLoop]
  | cons e es ih =>
    intro n c
    unfold eraseLoop
    by_cases hlt : n < limit
    · rw [if_pos hlt]
      dsimp only
      rw [ih]
      have hsub : limit - n = (limit - (n + 1)) + 1 := by omega
      rw [hsub, List.take_succ_cons, List.length_cons, List.foldl_cons]
      refine Prod.ext ?_ rfl
      show n + 1 + _ = n + (_ + 1)
      omega
    · rw [if_neg hlt]
      have hz : limit - n = 0 := by omega
      rw [hz]
      rfl

theorem eraseFold_table (l : List Entry) :
    ∀ c : Cs, (Table.keys c.table).Nodup →
      (l.foldl (fun acc e =>
          ({ acc.policyBeforeErase e.getFullName with
            table := Table.erase acc.table e.getFullName } : Cs)) c).table =
        c.table.filter (fun x => decide (x.getFullName ∉ l.map Entry.getFullName)) ∧
      (l.foldl (fun acc e =>
          ({ acc.policyBeforeErase e.getFullName with
            table := Table.erase acc.table e.getFullName } : Cs)) c).policy =
        { c.policy with queue :=
            (c.policy.queue.filter (fun i => decide (i ∉ l.map Entry.getFullName))) } := by
  induction l with
  | nil =>
    intro c _
    simp
  | cons e l ih =>
    intro c hnd
    rw [List.foldl_cons]
    have hnd2 : (Table.keys (Table.erase c.table e.getFullName)).Nodup :=
      Table.keys_nodup_of_sublist (List.eraseP_sublist _) hnd
    obtain ⟨h1, h2⟩ := ih ({ c.policyBeforeErase e.getFullName with
      table := Table.erase c.table e.getFullName } : Cs) hnd2
    refine ⟨?_, ?_⟩
    · rw [h1]
      show (Table.erase c.table e.getFullName).filter _ = _
      rw [Table.erase_eq_filter c.table e.getFullName hnd, List.filter_filter]
      apply List.filter_congr
      intro x _
      by_cases hx : x.getFullName = e.getFullName
      · simp [hx]
      · simp [hx]
    · rw [h2]
      show ({ (c.policyBeforeErase e.getFullName).policy with queue := _ } : Policy) = _
      unfold policyBeforeErase
      simp only [List.filter_filter, List.map_cons, List.mem_cons, not_or]
      congr 1
      apply List.filter_congr
      intro i _
      by_cases hi : i = e.getFullName
      · simp [hi]
      · simp [hi]

end Cs

namespace Cs

open cs

/-- C29: `Cs::erase(prefix, limit)` on a store whose table is in Name order.  Let
`removed` be the first `limit` entries, in table order, among the entries whose full Name
has the prefix (all entries for the empty prefix).  The count handed to the callback is
`min limit k`, `k` being the number of entries under the prefix; the loop body (one
`beforeErase` to the policy, one erase from the table) runs once per element of `removed`,
in order; the table afterwards is the old table without `removed`, so its size went down
by that count, and the policy's queue has lost the iterators of `removed` and no other;
every entry under the prefix that stays sorts after every removed one, and every entry
not under the prefix stays. -/
theorem eraseImpl_spec (c : Cs) (pfx : Name) (limit : Nat) (hs : Table.Sorted c.table) :
    ∃ removed : List Entry,
      removed = (c.table.filter (fun e => Name.isPrefixOf pfx e.getFullName)).take limit ∧
      (c.eraseImpl pfx limit).1
        = min limit (c.table.filter (fun e => Name.isPrefixOf pfx e.getFullName)).length ∧
      (c.eraseImpl pfx limit).1 = removed.length ∧
      c.erase pfx limit = (c.eraseImpl pfx limit).2 ∧
      (c.eraseImpl pfx limit).2 = removed.foldl (fun acc e =>
          { acc.policyBeforeErase e.getFullName with
            table := Table.erase acc.table e.getFullName }) c ∧
      (c.erase pfx limit).table = c.table.filter (fun x => decide (x ∉ removed)) ∧
      (c.erase pfx limit).size + removed.length = c.size ∧
      (c.erase pfx limit).policy = { c.policy with queue :=
          (c.policy.queue.filter (fun i => decide (i ∉ removed.map Entry.getFullName))) } ∧
      (∀ r ∈ removed, ∀ x ∈ c.table, Name.isPrefixOf pfx x.getFullName = true →
          x ∉ removed → Name.lt r.getFullName x.getFullName = true) ∧
      (∀ x ∈ c.table, Name.isPrefixOf pfx x.getFullName = false →
          x ∈ (c.erase pfx limit).table) ∧
      (pfx = [] → c.table.filter (fun e => Name.isPrefixOf pfx e.getFullName) = c.table) := by
  have hnd : (Table.keys c.table).Nodup := Table.keys_nodup_of_sorted hs
  have hndl : c.table.Nodup := List.Nodup.of_map _ hnd
  have hrange := range_findPrefixRange c pfx hs
  have himpl : c.eraseImpl pfx limit =
      (((c.table.filter (fun e => Name.isPrefixOf pfx e.getFullName)).take limit).length,
       ((c.table.filter (fun e => Name.isPrefixOf pfx e.getFullName)).take limit).foldl
         (fun acc e => { acc.policyBeforeErase e.getFullName with
            table := Table.erase acc.table e.getFullName }) c) := by
    unfold eraseImpl
    rw [eraseLoop_eq, hrange]
    simp
  have hsub : ((c.table.filter (fun e => Name.isPrefixOf pfx e.getFullName)).take limit).Sublist
      c.table := (List.take_sublist _ _).trans (List.filter_sublist _)
  obtain ⟨htab, hpol⟩ := eraseFold_table
    ((c.table.filter (fun e => Name.isPrefixOf pfx e.getFullName)).take limit) c hnd
  have hkey : ∀ x ∈ c.table,
      (x.getFullName ∈ ((c.table.filter (fun e => Name.isPrefixOf pfx e.getFullName)).take
          limit).map Entry.getFullName) ↔
      x ∈ (c.table.filter (fun e => Name.isPrefixOf pfx e.getFullName)).take limit := by
    intro x hx
    constructor
    · intro hk
      obtain ⟨r, hr, hrk⟩ := List.mem_map.mp hk
      have : r = x := Table.eq_of_full_name_eq c.table hnd (hsub.subset hr) hx hrk
      exact this ▸ hr
    · intro hm
      exact List.mem_map_of_mem _ hm
  have htab2 : (c.erase pfx limit).table = c.table.filter (fun x => decide
      (x ∉ (c.table.filter (fun e => Name.isPrefixOf pfx e.getFullName)).take limit)) := by
    show (c.eraseImpl pfx limit).2.table = _
    rw [himpl]
    dsimp only
    rw [htab]
    apply List.filter_congr
    intro x hx
    simp only [hkey x hx]
  refine ⟨_, rfl, ?_, ?_, rfl, ?_, htab2, ?_, ?_, ?_, ?_, ?_⟩
  · rw [himpl]
    simp [List.length_take]
  · rw [himpl]
  · rw [himpl]
  · show (c.erase pfx limit).table.length + _ = c.table.length
    rw [htab2]
    have hlen := @List.length_eq_length_filter_add _ c.table (fun x => decide
      (x ∈ (c.table.filter (fun e => Name.isPrefixOf pfx e.getFullName)).take limit))
    rw [filter_mem_of_sublist hsub hndl] at hlen
    have hf : c.table.filter (fun x => !(decide
        (x ∈ (c.table.filter (fun e => Name.isPrefixOf pfx e.getFullName)).take limit)))
        = c.table.filter (fun x => decide
        (x ∉ (c.table.filter (fun e => Name.isPrefixOf pfx e.getFullName)).take limit)) := by
      apply List.filter_congr
      intro x _
      simp
    rw [hf] at hlen
    omega
  · show (c.eraseImpl pfx limit).2.policy = _
    rw [himpl]
    exact hpol
  · intro r hr x hx hpx hnot
    have hunder : x ∈ c.table.filter (fun e => Name.isPrefixOf pfx e.getFullName) :=
      List.mem_filter.mpr ⟨hx, hpx⟩
    have hsorted : (c.table.filter (fun e => Name.isPrefixOf pfx e.getFullName)).Pairwise
        (fun a b => Name.lt a.getFullName b.getFullName = true) :=
      List.Pairwise.sublist (List.filter_sublist _) hs
    rw [← List.take_append_drop limit
      (c.table.filter (fun e => Name.isPrefixOf pfx e.getFullName))] at hsorted hunder
    rcases List.mem_append.mp hunder with h | h
    · exact absurd h hnot
    · exact (List.pairwise_append.mp hsorted).2.2 r hr x h
  · intro x hx hpx
    rw [htab2]
    refine List.mem_filter.mpr ⟨hx, ?_⟩
    have : x ∉ (c.table.filter (fun e => Name.isPrefixOf pfx e.getFullName)).take limit := by
      intro hm
      have := (List.mem_filter.mp (List.mem_of_mem_take hm)).2
      rw [hpx] at this
      exact Bool.false_ne_true this
    simpa using this
  · intro hp
    subst hp
    rw [List.filter_eq_self]
    intro a _
    exact Name.isPrefixOf_nil _

/-- C29 (witness): a store holds the full Names `/1/5/3`, `/1/6/4`, `/1/11` and `/2/22`.
Erasing at most two entries under `/1` removes `/1/5/3` and `/1/6/4`, the first two in
Name order, and leaves `/1/11` and `/2/22`. -/
theorem eraseImpl_spec_witness :
    (Sample.fourEntryCs.eraseImpl [1] 2).1 = 2 ∧
    Table.keys (Sample.fourEntryCs.erase [1] 2).table = [[1, 11], [2, 22]] ∧
    (Sample.fourEntryCs.erase [1] 2).policy.queue = [[2, 22], [1, 11]] := by
  obtain ⟨removed, hrem, h1, _, _, _, h5, _, h7, _⟩ := eraseImpl_spec Sample.fourEntryCs [1] 2
    (reachable_sorted (Reachable.step (Op.insert 3 Sample.dataX5 false)
      (Reachable.step (Op.insert 2 Sample.dataX false)
        (Reachable.step (Op.insert 1 Sample.dataX6 false)
          (Reachable.step (Op.insert 0 Sample.dataY false) (Reachable.init 10))))))
  subst hrem
  refine ⟨?_, ?_, ?_⟩
  · rw [h1]; decide
  · rw [h5]; decide
  · rw [h7]; decide

end Cs

/-! ## New next hop: the pruned enumeration of the name tree -/

namespace NameTree

theorem enumerateList_eq_flatMap (selector : name_tree.Entry → Bool × Bool)
    (cs : List NameTree) :
    enumerateList selector cs = cs.flatMap (fun c => c.enumerate selector) := by
  induction cs with
  | nil => rfl
  | cons c cs ih =>
    rw [enumerateList, ih, List.flatMap_cons]

theorem entriesList_eq_flatMap (cs : List NameTree) :
    entriesList cs = cs.flatMap (fun c => c.entries) := by
  induction cs with
  | nil => rfl
  | cons c cs ih =>
    rw [entriesList, ih, List.flatMap_cons]

theorem enumerate_node (selector : name_tree.Entry → Bool × Bool) (n : NameTree) :
    n.enumerate selector =
      (if (selector n.entry).1 then [n.entry] else []) ++
        (if (selector n.entry).2 then n.children.flatMap (fun c => c.enumerate selector)
         else []) := by
  cases n with
  | node e cs =>
    rw [enumerate, enumerateList_eq_flatMap]
    rfl

/-- What the enumeration from `n` collects lies on a path of visited nodes from `n`. -/
theorem mem_enumerate_of_reach (selector : name_tree.Entry → Bool × Bool)
    {n m : NameTree}
    (h : Relation.ReflTransGen
      (fun a c => (selector a.entry).2 = true ∧ c ∈ a.children) n m)
    (hm : (selector m.entry).1 = true) : m.entry ∈ n.enumerate selector := by
  induction h using Relation.ReflTransGen.head_induction_on with
  | refl =>
    rw [enumerate_node]
    simp [hm]
  | @head a c hstep _ ih =>
    rw [enumerate_node]
    apply List.mem_append_right
    rw [if_pos hstep.1]
    exact List.mem_flatMap.mpr ⟨c, hstep.2, ih⟩

mutual

theorem reach_of_mem_enumerate (selector : name_tree.Entry → Bool × Bool) :
    ∀ (n : NameTree) (x : name_tree.Entry), x ∈ n.enumerate selector →
      ∃ m, Relation.ReflTransGen
          (fun a c => (selector a.entry).2 = true ∧ c ∈ a.children) n m ∧
        m.entry = x ∧ (selector x).1 = true
  | node e cs, x, h => by
    rw [enumerate] at h
    rcases List.mem_append.mp h with h1 | h2
    · by_cases hs : (selector e).1 = true
      · rw [if_pos hs] at h1
        have hx : x = e := by simpa using h1
        subst hx
        exact ⟨node x cs, Relation.ReflTransGen.refl, rfl, hs⟩
      · rw [if_neg hs] at h1
        cases h1
    · by_cases hs : (selector e).2 = true
      · rw [if_pos hs] at h2
        obtain ⟨c, hc, m, hm, hmx⟩ := reach_of_mem_enumerateList selector cs x h2
        exact ⟨m, Relation.ReflTransGen.head ⟨hs, hc⟩ hm, hmx⟩
      · rw [if_neg hs] at h2
        cases h2

theorem reach_of_mem_enumerateList (selector : name_tree.Entry → Bool × Bool) :
    ∀ (cs : List NameTree) (x : name_tree.Entry), x ∈ enumerateList selector cs →
      ∃ c ∈ cs, ∃ m, Relation.ReflTransGen
          (fun a c => (selector a.entry).2 = true ∧ c ∈ a.children) c m ∧
        m.entry = x ∧ (selector x).1 = true
  | [], x, h => by
    rw [enumerateList] at h
    cases h
  | c :: cs, x, h => by
    rw [enumerateList] at h
    rcases List.mem_append.mp h with h1 | h2
    · obtain ⟨m, hm⟩ := reach_of_mem_enumerate selector c x h1
      exact ⟨c, List.mem_cons_self _ _, m, hm⟩
    · obtain ⟨c2, hc2, m, hm⟩ := reach_of_mem_enumerateList selector cs x h2
      exact ⟨c2, List.mem_cons_of_mem _ hc2, m, hm⟩

end

mutual

theorem enumerate_sublist (selector : name_tree.Entry → Bool × Bool) :
    ∀ n : NameTree, (n.enumerate selector).Sublist n.entries
  | node e cs => by
    rw [enumerate, entries]
    have hl := enumerateList_sublist selector cs
    by_cases h1 : (selector e).1 = true
    · rw [if_pos h1]
      by_cases h2 : (selector e).2 = true
      · rw [if_pos h2]
        exact List.Sublist.cons₂ _ hl
      · rw [if_neg h2]
        exact List.Sublist.cons₂ _ (List.nil_sublist _)
    · rw [if_neg h1]
      by_cases h2 : (selector e).2 = true
      · rw [if_pos h2]
        exact List.Sublist.cons _ hl
      · rw [if_neg h2]
        exact List.nil_sublist _

theorem enumerateList_sublist (selector : name_tree.Entry → Bool × Bool) :
    ∀ cs : List NameTree, (enumerateList selector cs).Sublist (entriesList cs)
  | [] => by
    rw [enumerateList, entriesList]
  | c :: cs => by
    rw [enumerateList, entriesList]
    exact List.Sublist.append (enumerate_sublist selector c) (enumerateList_sublist selector cs)

end

mutual

theorem findExactMatch_sublist (name : Name) :
    ∀ (t start : NameTree), t.findExactMatch name = some start →
      start.entries.Sublist t.entries
  | node e cs, start, h => by
    rw [findExactMatch] at h
    by_cases hn : (e.name == name) = true
    · rw [if_pos hn] at h
      cases h
      exact List.Sublist.refl _
    · rw [if_neg hn] at h
      rw [entries]
      exact List.Sublist.cons _ (findExactMatchList_sublist name cs start h)

theorem findExactMatchList_sublist (name : Name) :
    ∀ (cs : List NameTree) (start : NameTree), findExactMatchList name cs = some start →
      start.entries.Sublist (entriesList cs)
  | [], start, h => by
    rw [findExactMatchList] at h
    cases h
  | c :: cs, start, h => by
    rw [findExactMatchList] at h
    rw [entriesList]
    cases hc : c.findExactMatch name with
    | some n =>
      rw [hc] at h
      cases h
      exact (findExactMatch_sublist name c _ hc).trans (List.sublist_append_left _ _)
    | none =>
      rw [hc] at h
      exact (findExactMatchList_sublist name cs start h).trans (List.sublist_append_right _ _)

end

theorem partialEnumerate_sublist (t : NameTree) (pfx : Name)
    (selector : name_tree.Entry → Bool × Bool) :
    (t.partialEnumerate pfx selector).Sublist t.entries := by
  unfold partialEnumerate
  cases h : t.findExactMatch pfx with
  | none => exact List.nil_sublist _
  | some start =>
    exact (enumerate_sublist selector start).trans (findExactMatch_sublist pfx t start h)

theorem mem_partialEnumerate (t : NameTree) (pfx : Name)
    (selector : name_tree.Entry → Bool × Bool) (x : name_tree.Entry) :
    x ∈ t.partialEnumerate pfx selector ↔
      ∃ start m, t.findExactMatch pfx = some start ∧
        Relation.ReflTransGen
          (fun a c => (selector a.entry).2 = true ∧ c ∈ a.children) start m ∧
        m.entry = x ∧ (selector x).1 = true := by
  unfold partialEnumerate
  cases h : t.findExactMatch pfx with
  | none => simp
  | some start =>
    constructor
    · intro hx
      obtain ⟨m, hm⟩ := reach_of_mem_enumerate selector start x hx
      exact ⟨start, m, rfl, hm⟩
    · rintro ⟨s2, m, hs2, hreach, hmx, hsel⟩
      cases hs2
      rw [← hmx]
      exact mem_enumerate_of_reach selector hreach (hmx ▸ hsel)

end NameTree

namespace Forwarder

theorem foldl_emit_map {α : Type} (E : α → Event) (ks : List α) :
    ∀ f : Forwarder, ks.foldl (fun f k => f.emit (E k)) f
      = { f with log := f.log ++ ks.map E } := by
  induction ks with
  | nil => intro f; simp
  | cons k ks ih =>
    intro f
    rw [List.foldl_cons, ih]
    simp [emit]

theorem foldl_dispatch (E : PitKey → Event) (ntes : List name_tree.Entry) :
    ∀ f : Forwarder,
      ntes.foldl (fun f nte => nte.pitEntries.foldl (fun f k => f.emit (E k)) f) f
        = { f with log := f.log ++ ntes.flatMap (fun nte => nte.pitEntries.map E) } := by
  induction ntes with
  | nil => intro f; simp
  | cons nte ntes ih =>
    intro f
    rw [List.foldl_cons, foldl_emit_map, ih]
    simp

theorem onNewNextHopSelector_fst (nte : name_tree.Entry) :
    (onNewNextHopSelector nte).1 = true ↔
      (nte.name.length = 0 ∨
        (nte.hasPitEntries = true ∧ nte.fibEntry = none ∧
          ∃ sce, nte.strategyChoiceEntry = some sce ∧
            sce.strategy.wantNewNextHopTrigger = true)) := by
  unfold onNewNextHopSelector
  by_cases hroot : nte.name.length = 0
  · simp [hroot]
  · cases hsc : nte.strategyChoiceEntry with
    | none =>
      cases hfib : nte.fibEntry <;> simp [hroot]
    | some sce =>
      cases hfib : nte.fibEntry with
      | none =>
        cases hw : sce.strategy.wantNewNextHopTrigger <;>
          cases hp : nte.hasPitEntries <;> simp [hroot, hw]
      | some fe =>
        simp [hroot]

theorem onNewNextHopSelector_snd (nte : name_tree.Entry) :
    (onNewNextHopSelector nte).2 = true ↔
      ¬ (nte.name.length ≠ 0 ∧ nte.fibEntry.isSome = true) := by
  unfold onNewNextHopSelector
  by_cases hroot : nte.name.length = 0
  · simp [hroot]
  · cases hsc : nte.strategyChoiceEntry with
    | none =>
      cases hfib : nte.fibEntry <;> simp [hroot]
    | some sce =>
      cases hfib : nte.fibEntry with
      | none =>
        cases hw : sce.strategy.wantNewNextHopTrigger <;>
          cases hp : nte.hasPitEntries <;> simp [hroot, hw]
      | some fe =>
        simp [hroot]

theorem sublist_flatMap {α β : Type} (g : α → List β) {l1 l2 : List α}
    (h : l1.Sublist l2) : (l1.flatMap g).Sublist (l2.flatMap g) := by
  induction h with
  | slnil => exact List.Sublist.refl _
  | cons a _ ih =>
    rw [List.flatMap_cons]
    exact ih.trans (List.sublist_append_right _ _)
  | cons₂ a _ ih =>
    rw [List.flatMap_cons, List.flatMap_cons]
    exact List.Sublist.append (List.Sublist.refl _) ih

/-- C24 (amended): `onNewNextHop` dispatches the strategy trigger `afterNewNextHop` once
for each
PIT entry of each name tree entry that the pruned enumeration collects, in the order of
the enumeration, and does nothing else.  A name tree entry is collected exactly when it
is the entry of a node that the enumeration reaches from the node of the prefix and that
is the root (its Name is empty) or has PIT entries, no FIB entry and a StrategyChoice
entry of its own whose strategy wants the trigger.  The enumeration reaches the node of
the prefix, and the children of a node it reaches unless that node is a non-root node
with a FIB entry.  When no PIT entry is referenced twice in the name tree, no PIT entry
gets the trigger twice. -/
theorem onNewNextHop_spec (f : Forwarder) (pfx : Name) (nextHop : FaceId) :
    f.onNewNextHop pfx nextHop =
      { f with log := f.log ++
          (f.nameTree.partialEnumerate pfx onNewNextHopSelector).flatMap (fun nte =>
            nte.pitEntries.map (fun pitEntry =>
              Event.strategyAfterNewNextHop nextHop pitEntry)) } ∧
    (∀ nte, nte ∈ f.nameTree.partialEnumerate pfx onNewNextHopSelector ↔
      ∃ start node, f.nameTree.findExactMatch pfx = some start ∧
        Relation.ReflTransGen
          (fun a c => ¬ (a.entry.name.length ≠ 0 ∧ a.entry.fibEntry.isSome = true)
            ∧ c ∈ a.children) start node ∧
        node.entry = nte ∧
        (nte.name.length = 0 ∨
          (nte.hasPitEntries = true ∧ nte.fibEntry = none ∧
            ∃ sce, nte.strategyChoiceEntry = some sce ∧
              sce.strategy.wantNewNextHopTrigger = true))) ∧
    ((f.nameTree.entries.flatMap (fun nte => nte.pitEntries)).Nodup →
      ((f.nameTree.partialEnumerate pfx onNewNextHopSelector).flatMap
        (fun nte => nte.pitEntries)).Nodup) := by
  refine ⟨?_, ?_, ?_⟩
  · unfold onNewNextHop
    exact foldl_dispatch _ _ f
  · intro nte
    rw [NameTree.mem_partialEnumerate]
    have hrel : ∀ a c : NameTree,
        ((onNewNextHopSelector a.entry).2 = true ∧ c ∈ a.children) ↔
        (¬ (a.entry.name.length ≠ 0 ∧ a.entry.fibEntry.isSome = true) ∧ c ∈ a.children) := by
      intro a c
      rw [onNewNextHopSelector_snd]
    constructor
    · rintro ⟨start, node, hs, hreach, hn, hsel⟩
      exact ⟨start, node, hs, hreach.mono (fun a c h => (hrel a c).mp h), hn,
        (onNewNextHopSelector_fst nte).mp hsel⟩
    · rintro ⟨start, node, hs, hreach, hn, hsel⟩
      exact ⟨start, node, hs, hreach.mono (fun a c h => (hrel a c).mpr h), hn,
        (onNewNextHopSelector_fst nte).mpr hsel⟩
  · intro hnd
    exact List.Nodup.sublist
      (sublist_flatMap _ (NameTree.partialEnumerate_sublist _ _ _)) hnd

/-- C24 (witness): a next hop is added for the root prefix over the sample name tree.  The
trigger goes to the PIT entry of the root, to the PIT entry of `/1` and to the two PIT
entries of `/3/4`; not to `/1/2` (no binding of its own), not to `/2` (FIB entry) nor
`/2/3` (below a FIB entry), not to `/3` (its strategy does not want the trigger).  For the
prefix `/2`, whose node has a FIB entry, nothing is dispatched. -/
theorem onNewNextHop_spec_witness :
    (Sample.nameTreeForwarder.onNewNextHop [] 7).log =
      [Event.strategyAfterNewNextHop 7 (Sample.keyOf []),
       Event.strategyAfterNewNextHop 7 (Sample.keyOf [1]),
       Event.strategyAfterNewNextHop 7 (Sample.keyOf [3, 4]),
       Event.strategyAfterNewNextHop 7 (Sample.keyOf [3, 4, 5])] ∧
    (Sample.nameTreeForwarder.onNewNextHop [2] 7).log = [] := by
  rw [(onNewNextHop_spec Sample.nameTreeForwarder [] 7).1,
    (onNewNextHop_spec Sample.nameTreeForwarder [2] 7).1]
  exact ⟨by decide, by decide⟩

/-- C24 (counterexample): in the sample name tree the node `/1/2` is not the root, has a
pending PIT entry and no FIB entry, and the pruned enumeration from the root visits it
(its parent `/1` has no FIB entry).  The strategy bound to its namespace by longest-prefix
match is the strategy of `/1`, which wants the trigger.  The node has no StrategyChoice
entry of its own, so `onNewNextHop` for the root prefix does not collect it and its PIT
entry gets no `afterNewNextHop`. -/
theorem onNewNextHop_skips_inherited_strategy :
    Sample.entryOneTwo ∈ Sample.nameTree.entries ∧
    Sample.entryOneTwo.name.length ≠ 0 ∧
    Sample.entryOneTwo.hasPitEntries = true ∧
    Sample.entryOneTwo.fibEntry = none ∧
    Sample.entryOneTwo.pitEntries = [Sample.keyOf [1, 2]] ∧
    Sample.entryOneTwo ∈ Sample.nameTree.partialEnumerate []
      (fun nte => (true, (onNewNextHopSelector nte).2)) ∧
    Sample.nameTree.findEffectiveStrategy Sample.entryOneTwo.name
      = some Sample.strategyOptIn ∧
    Sample.strategyOptIn.wantNewNextHopTrigger = true ∧
    Sample.entryOneTwo.strategyChoiceEntry = none ∧
    Sample.entryOneTwo ∉ Sample.nameTree.partialEnumerate [] onNewNextHopSelector ∧
    Event.strategyAfterNewNextHop 7 (Sample.keyOf [1, 2])
      ∉ (Sample.nameTreeForwarder.onNewNextHop [] 7).log := by
  refine ⟨by decide, by decide, by decide, by decide, by decide, by decide, by decide,
    by decide, by decide, by decide, ?_⟩
  unfold onNewNextHop
  rw [foldl_dispatch]
  decide

end Forwarder

/-! ## Dry run of the tables configuration -/

namespace TablesConfigSection

theorem processStrategyChoiceSection_dry_run (reg : Registry) (t : TablesConfigSection)
    (configSection : List (Name × Name)) :
    (processStrategyChoiceSection reg t configSection true).2 = t := by
  unfold processStrategyChoiceSection
  cases readChoices reg configSection [] with
  | error e => rfl
  | ok choices => rfl

theorem processNetworkRegionSection_dry_run (t : TablesConfigSection)
    (configSection : List Name) :
    processNetworkRegionSection t configSection true = t := rfl

/-- C30: `processConfig` with `isDryRun = true` leaves the state as it was, whatever the
section holds and whatever the registries know, whether it returns or throws: the
Forwarder (hence the Content Store with its limit and policy, the unsolicited-data
policy, the StrategyChoice table and the network-region table) and the flag
`m_isConfigured` are unchanged. -/
theorem processConfig_dry_run (reg : Registry) (t : TablesConfigSection)
    (configSection : ConfigSection) :
    (processConfig reg t configSection true).2 = t ∧
    (processConfig reg t configSection true).2.forwarder.cs = t.forwarder.cs ∧
    (processConfig reg t configSection true).2.forwarder.unsolicitedDataPolicy
      = t.forwarder.unsolicitedDataPolicy ∧
    (processConfig reg t configSection true).2.forwarder.strategyChoice
      = t.forwarder.strategyChoice ∧
    (processConfig reg t configSection true).2.forwarder.networkRegionTable
      = t.forwarder.networkRegionTable ∧
    (processConfig reg t configSection true).2.isConfigured = t.isConfigured := by
  have h : (processConfig reg t configSection true).2 = t := by
    unfold processConfig
    dsimp only
    split
    · rfl
    · split
      · rfl
      · split
        · rfl
        · cases configSection.strategy_choice with
          | none =>
            dsimp only
            cases configSection.network_region <;> rfl
          | some s =>
            dsimp only
            have hr := processStrategyChoiceSection_dry_run reg t s
            split
            · exact hr
            · simp only [if_true]
              rw [hr]
              cases configSection.network_region <;> rfl
  rw [h]
  exact ⟨rfl, rfl, rfl, rfl, rfl, rfl⟩

end TablesConfigSection

namespace TablesConfigSection

/-- C30 (witness): the sample section, which the registries accept, is processed in
dry-run mode on a fresh `TablesConfigSection`: no error, and the state is the fresh one. -/
theorem processConfig_dry_run_witness :
    (processConfig Sample.registry (TablesConfigSection.new Sample.emptyForwarder)
      Sample.configSection true).1 = none ∧
    (processConfig Sample.registry (TablesConfigSection.new Sample.emptyForwarder)
      Sample.configSection true).2 = TablesConfigSection.new Sample.emptyForwarder :=
  ⟨by decide,
   (processConfig_dry_run Sample.registry (TablesConfigSection.new Sample.emptyForwarder)
      Sample.configSection).1⟩

/-- The same section processed for good is applied: the limit, the bindings (in Name
order of the prefixes), the regions and the flag are set. -/
theorem processConfig_sample_applied :
    (processConfig Sample.registry (TablesConfigSection.new Sample.emptyForwarder)
      Sample.configSection false).1 = none ∧
    (processConfig Sample.registry (TablesConfigSection.new Sample.emptyForwarder)
      Sample.configSection false).2.isConfigured = true ∧
    (processConfig Sample.registry (TablesConfigSection.new Sample.emptyForwarder)
      Sample.configSection false).2.forwarder.cs.getLimit = 100 ∧
    (processConfig Sample.registry (TablesConfigSection.new Sample.emptyForwarder)
      Sample.configSection false).2.forwarder.strategyChoice.entries =
        [{ pfx := [], strategy := Sample.strategyOptIn },
         { pfx := [2], strategy := Sample.strategyOptOut }] ∧
    (processConfig Sample.registry (TablesConfigSection.new Sample.emptyForwarder)
      Sample.configSection false).2.forwarder.networkRegionTable = [[8], [9, 1]] := by
  refine ⟨by decide, by decide, by decide, by decide, by decide⟩

end TablesConfigSection

/-! ## The duration handed to the expiry timer on a Content Store miss -/

namespace Forwarder

theorem toMilliseconds_nonneg {ns : Int} (h : 0 ≤ ns) : 0 ≤ toMilliseconds ns := by
  unfold toMilliseconds
  exact Int.tdiv_nonneg h (by decide)

/-- C40: on the Content Store miss path the duration handed to `setExpiryTimer` is not
negative when the lifetime of the Interest is not negative.  After the in-record of the
ingress face was inserted or updated, the in-records of the entry are not empty, the
in-record of the ingress face expires at now plus the Interest lifetime, the latest
expiry among the in-records is at least that, and `onContentStoreMiss` goes on from the
Forwarder in which `setExpiryTimer` was called with the latest expiry minus now, in
milliseconds, which is at least 0. -/
theorem onContentStoreMiss_duration_nonneg (f : Forwarder) (now : Int)
    (ingress : FaceEndpoint) (k : PitKey) (interest : Interest) (e : pit.Entry)
    (hget : f.pit.get? k = some e) (hlife : 0 ≤ interest.lifetime) :
    ∃ (inRecords : List pit.InRecord) (duration : Int) (g : Forwarder),
      inRecords = (f.pit.modify k
        (fun e => e.insertOrUpdateInRecord now ingress.face interest)).inRecords k ∧
      inRecords ≠ [] ∧
      (∃ r ∈ inRecords, r.face = ingress.face ∧
        r.expiry = now + interest.lifetime * 1000000) ∧
      now + interest.lifetime * 1000000 ≤ lastExpiry now inRecords ∧
      duration = toMilliseconds (lastExpiry now inRecords - now) ∧
      0 ≤ duration ∧
      g = ({ f with
              counters := { f.counters with nCsMisses := f.counters.nCsMisses + 1 }
              log := f.log ++ [Event.onContentStoreMiss ingress k interest,
                               Event.afterCsMiss interest]
              pit := (f.pit.modify k
                (fun e => e.insertOrUpdateInRecord now ingress.face interest)) } :
            Forwarder).setExpiryTimer now k duration ∧
      f.onContentStoreMiss now ingress k interest =
        match interest.nextHopFaceIdTag with
        | some nextHopTag =>
          match faceTableGet f.faceTable nextHopTag with
          | some nextHopFace =>
            g.onOutgoingInterest now k { face := nextHopFace, endpoint := 0 } interest
          | none => g
        | none =>
          g.emit (Event.strategyAfterReceiveInterest { face := ingress.face, endpoint := 0 }
            interest k) := by
  obtain ⟨g, hg, heq⟩ := onContentStoreMiss_eq f now ingress k interest
  have hk := Pit.key_of_get? hget
  have hkey1 : ∀ x : pit.Entry,
      (x.insertOrUpdateInRecord now ingress.face interest).key = x.key := by
    intro x
    unfold pit.Entry.key
    rw [(pit.insertOrUpdateInRecord_fields x now ingress.face interest).1]
  have hget1 : (f.pit.modify k
      (fun e => e.insertOrUpdateInRecord now ingress.face interest)).get? k
      = some (e.insertOrUpdateInRecord now ingress.face interest) :=
    Pit.get?_modify_same f.pit k _ hkey1 e hget
  have hin : (f.pit.modify k
      (fun e => e.insertOrUpdateInRecord now ingress.face interest)).inRecords k
      = (e.insertOrUpdateInRecord now ingress.face interest).inRecords := by
    unfold Pit.inRecords
    rw [hget1]
  have hrec := pit.getInRecord_insertOrUpdateInRecord e now ingress.face interest
  unfold pit.Entry.getInRecord at hrec
  have hmem := List.mem_of_find?_eq_some hrec
  have hne : (e.insertOrUpdateInRecord now ingress.face interest).inRecords ≠ [] :=
    List.ne_nil_of_mem hmem
  obtain ⟨last, _, hlast, hmax⟩ := lastExpiry_spec now _ hne
  have hle : now + interest.lifetime * 1000000 ≤
      lastExpiry now (e.insertOrUpdateInRecord now ingress.face interest).inRecords := by
    rw [hlast]
    exact hmax _ hmem
  refine ⟨_, _, g, rfl, ?_, ?_, ?_, rfl, ?_, hg, heq⟩
  · rw [hin]; exact hne
  · rw [hin]
    exact ⟨_, hmem, rfl, rfl⟩
  · rw [hin]; exact hle
  · apply toMilliseconds_nonneg
    rw [hin]
    have : 0 ≤ interest.lifetime * 1000000 := Int.mul_nonneg hlife (by decide)
    omega

/-- C40 (witness): the Interest `/7` with a lifetime of four seconds arrives on face M
while the entry holds an in-record of face A that expired long ago: the timer is set four
seconds ahead. -/
theorem onContentStoreMiss_duration_nonneg_witness :
    ∃ (inRecords : List pit.InRecord) (duration : Int),
      inRecords = (Sample.pendingForwarder.pit.modify Sample.interest5.pitKey
        (fun e => e.insertOrUpdateInRecord 5000000000 Sample.faceM
          Sample.interest9)).inRecords Sample.interest5.pitKey ∧
      duration = toMilliseconds (lastExpiry 5000000000 inRecords - 5000000000) ∧
      0 ≤ duration ∧ duration = 4000 := by
  obtain ⟨inRecords, duration, g, h1, _, _, _, h5, h6, _⟩ :=
    onContentStoreMiss_duration_nonneg Sample.pendingForwarder 5000000000
      { face := Sample.faceM, endpoint := 0 } Sample.interest5.pitKey Sample.interest9
      Sample.pendingEntry (by decide) (by decide)
  refine ⟨inRecords, duration, h1, h5, h6, ?_⟩
  rw [h5, h1]
  decide

end Forwarder

/-! ## Configuration errors of the tables section -/

namespace TablesConfigSection

theorem mem_insertChoiceSorted (x y : Name × Name) (l : List (Name × Name)) :
    y ∈ insertChoiceSorted x l ↔ y = x ∨ y ∈ l := by
  induction l with
  | nil => simp [insertChoiceSorted]
  | cons z zs ih =>
    unfold insertChoiceSorted
    split
    · simp
    · simp only [List.mem_cons, ih]
      constructor
      · rintro (h | h | h)
        · exact Or.inr (Or.inl h)
        · exact Or.inl h
        · exact Or.inr (Or.inr h)
      · rintro (h | h | h)
        · exact Or.inr (Or.inl h)
        · exact Or.inl h
        · exact Or.inr (Or.inr h)

/-- When the first loop of `processStrategyChoiceSection` ends without throwing, every
strategy of the section can be created and no prefix occurs twice. -/
theorem readChoices_ok (reg : Registry) (l : List (Name × Name)) :
    ∀ (acc choices : List (Name × Name)), readChoices reg l acc = Except.ok choices →
      (∀ x ∈ l, (reg.strategyCreate x.2).isSome = true) ∧ (l.map (fun x => x.1)).Nodup ∧
      ∀ x ∈ l, ∀ y ∈ acc, y.1 ≠ x.1 := by
  induction l with
  | nil =>
    intro acc choices _
    exact ⟨fun x hx => absurd hx (List.not_mem_nil _), List.nodup_nil,
      fun x hx => absurd hx (List.not_mem_nil _)⟩
  | cons p rest ih =>
    intro acc choices h
    unfold readChoices at h
    dsimp only at h
    by_cases hcreate : (reg.strategyCreate p.2).isSome = true
    · simp only [hcreate, Bool.not_true, Bool.false_eq_true, if_false] at h
      unfold emplaceChoice at h
      by_cases hany : acc.any (fun c => c.1 == p.1) = true
      · simp [hany] at h
      · simp only [hany, Bool.false_eq_true, if_false, Bool.not_true] at h
        obtain ⟨h1, h2, h3⟩ := ih _ _ h
        have hacc : ∀ y ∈ acc, y.1 ≠ p.1 := by
          intro y hy heq
          apply hany
          exact List.any_eq_true.mpr ⟨y, hy, by simpa using heq⟩
        refine ⟨?_, ?_, ?_⟩
        · intro x hx
          rcases List.mem_cons.mp hx with rfl | hx
          · exact hcreate
          · exact h1 x hx
        · rw [List.map_cons, List.nodup_cons]
          refine ⟨?_, h2⟩
          intro hmem
          obtain ⟨x, hx, hxp⟩ := List.mem_map.mp hmem
          exact h3 x hx (p.1, p.2) ((mem_insertChoiceSorted _ _ _).mpr (Or.inl rfl)) hxp.symm
        · intro x hx y hy
          rcases List.mem_cons.mp hx with rfl | hx
          · exact hacc y hy
          · exact h3 x hx y ((mem_insertChoiceSorted _ _ _).mpr (Or.inr hy))
    · simp [hcreate] at h

/-- The first loop of `processStrategyChoiceSection` throws only the errors "Unknown
strategy" and "Duplicate strategy choice". -/
theorem readChoices_error (reg : Registry) (l : List (Name × Name)) :
    ∀ (acc : List (Name × Name)) (e : ConfigError), readChoices reg l acc = Except.error e →
      (∃ strategy pfx, e = ConfigError.unknownStrategy strategy pfx) ∨
      (∃ pfx, e = ConfigError.duplicateStrategyChoice pfx) := by
  induction l with
  | nil =>
    intro acc e h
    unfold readChoices at h
    cases h
  | cons p rest ih =>
    intro acc e h
    unfold readChoices at h
    dsimp only at h
    by_cases hcreate : (reg.strategyCreate p.2).isSome = true
    · simp only [hcreate, Bool.not_true, Bool.false_eq_true, if_false] at h
      by_cases hdup : (emplaceChoice acc p.1 p.2).2 = true
      · simp only [hdup, Bool.not_true, Bool.false_eq_true, if_false] at h
        exact ih _ _ h
      · simp only [hdup, Bool.not_false, if_true] at h
        cases h
        exact Or.inr ⟨_, rfl⟩
    · simp only [hcreate, Bool.not_false, if_true] at h
      cases h
      exact Or.inl ⟨_, _, rfl⟩

/-- The second loop of `processStrategyChoiceSection` throws only "Failed to set
strategy". -/
theorem applyChoices_error (reg : Registry) (l : List (Name × Name)) :
    ∀ (sc : StrategyChoice) (e : ConfigError), (applyChoices reg l sc).1 = some e →
      ∃ strategy pfx, e = ConfigError.failedToSetStrategy strategy pfx := by
  induction l with
  | nil =>
    intro sc e h
    unfold applyChoices at h
    cases h
  | cons c rest ih =>
    intro sc e h
    unfold applyChoices at h
    dsimp only at h
    by_cases hins : (sc.insert reg.strategyCreate c.1 c.2).1 = true
    · simp only [hins, Bool.not_true, Bool.false_eq_true, if_false] at h
      exact ih _ _ h
    · simp only [hins, Bool.not_false, if_true] at h
      cases h
      exact ⟨_, _, rfl⟩

/-- An error other than "Failed to set strategy" leaves `processStrategyChoiceSection`
with the state untouched: it was thrown by the first loop. -/
theorem processStrategyChoiceSection_error (reg : Registry) (t : TablesConfigSection)
    (l : List (Name × Name)) (isDryRun : Bool) (e : ConfigError)
    (h : (processStrategyChoiceSection reg t l isDryRun).1 = some e)
    (hkind : ∀ strategy pfx, e ≠ ConfigError.failedToSetStrategy strategy pfx) :
    (processStrategyChoiceSection reg t l isDryRun).2 = t := by
  unfold processStrategyChoiceSection at h ⊢
  cases hread : readChoices reg l [] with
  | error e2 => rfl
  | ok choices =>
    rw [hread] at h
    dsimp only at h ⊢
    cases isDryRun with
    | true => rfl
    | false =>
      simp only [Bool.false_eq_true, if_false] at h ⊢
      obtain ⟨a, b, hab⟩ := applyChoices_error reg choices _ e h
      exact absurd hab (hkind a b)

theorem processStrategyChoiceSection_of_read_error (reg : Registry) (t : TablesConfigSection)
    (l : List (Name × Name)) (isDryRun : Bool) (e : ConfigError)
    (h : readChoices reg l [] = Except.error e) :
    processStrategyChoiceSection reg t l isDryRun = (some e, t) := by
  unfold processStrategyChoiceSection
  rw [h]

/-- The first loop throws when a strategy of the section cannot be created or a prefix
occurs twice. -/
theorem readChoices_throws (reg : Registry) (l : List (Name × Name))
    (h : (∃ x ∈ l, reg.strategyCreate x.2 = none) ∨ ¬ (l.map (fun x => x.1)).Nodup) :
    ∃ e, readChoices reg l [] = Except.error e := by
  cases hread : readChoices reg l [] with
  | error e => exact ⟨e, rfl⟩
  | ok choices =>
    obtain ⟨h1, h2, _⟩ := readChoices_ok reg l [] choices hread
    rcases h with ⟨x, hx, hnone⟩ | hdup
    · have := h1 x hx
      rw [hnone] at this
      cases this
    · exact absurd h2 hdup

end TablesConfigSection

namespace TablesConfigSection

/-- The three ways in which `processConfig` ends: without an error; with an error thrown
before anything was touched; or with the error of `processStrategyChoiceSection`, in the
state that function left. -/
theorem processConfig_cases (reg : Registry) (t : TablesConfigSection)
    (configSection : ConfigSection) (isDryRun : Bool) :
    (processConfig reg t configSection isDryRun).1 = none ∨
    (processConfig reg t configSection isDryRun).2 = t ∨
    ∃ l e, configSection.strategy_choice = some l ∧
      (processStrategyChoiceSection reg t l isDryRun).1 = some e ∧
      processConfig reg t configSection isDryRun =
        (some e, (processStrategyChoiceSection reg t l isDryRun).2) := by
  unfold processConfig
  dsimp only
  split
  · right; left; rfl
  · split
    · right; left; rfl
    · split
      · right; left; rfl
      · cases hsc : configSection.strategy_choice with
        | none =>
          dsimp only
          left
          cases isDryRun <;> rfl
        | some s =>
          dsimp only
          rcases hp : processStrategyChoiceSection reg t s isDryRun with ⟨e1, t1⟩
          cases e1 with
          | none =>
            dsimp only
            left
            cases isDryRun <;> rfl
          | some e =>
            dsimp only
            right; right
            exact ⟨s, e, rfl, by rw [hp], by rw [hp]⟩

/-- `processConfig` throws when the first loop of `processStrategyChoiceSection` does. -/
theorem processConfig_of_read_error (reg : Registry) (t : TablesConfigSection)
    (configSection : ConfigSection) (isDryRun : Bool) (l : List (Name × Name))
    (e : ConfigError) (hsc : configSection.strategy_choice = some l)
    (h : readChoices reg l [] = Except.error e) :
    (processConfig reg t configSection isDryRun).1.isSome = true := by
  unfold processConfig
  dsimp only
  split
  · rfl
  · split
    · rfl
    · split
      · rfl
      · rw [hsc]
        dsimp only
        rw [processStrategyChoiceSection_of_read_error reg t l isDryRun e h]
        rfl

/-- `processConfig` throws when `cs_policy` names a policy that is not registered. -/
theorem processConfig_of_unknown_cs_policy (reg : Registry) (t : TablesConfigSection)
    (configSection : ConfigSection) (isDryRun : Bool) (policyName : String)
    (hpol : configSection.cs_policy = some policyName)
    (h : reg.csPolicyCreate policyName = none) :
    (processConfig reg t configSection isDryRun).1.isSome = true ∧
    (processConfig reg t configSection isDryRun).2 = t := by
  unfold processConfig
  dsimp only
  split
  · exact ⟨rfl, rfl⟩
  · rw [hpol]
    dsimp only
    rw [h]
    exact ⟨rfl, rfl⟩

end TablesConfigSection

namespace TablesConfigSection

/-- C31: `processConfig` throws a configuration error whenever the section names a
`cs_policy` that is not registered, names in `strategy_choice` a strategy that cannot be
created, or binds the same prefix twice in `strategy_choice`; and whenever the error it
throws is one of these three ("Unknown cs_policy", "Unknown strategy", "Duplicate
strategy choice"), in dry-run mode or not, the state is the one it was called in: the
Forwarder (Content Store with its limit and policy, unsolicited-data policy,
StrategyChoice table, network-region table) and the flag `m_isConfigured`. -/
theorem processConfig_config_errors (reg : Registry) (t : TablesConfigSection)
    (configSection : ConfigSection) (isDryRun : Bool) :
    (∀ policyName, configSection.cs_policy = some policyName →
      reg.csPolicyCreate policyName = none →
      (processConfig reg t configSection isDryRun).1.isSome = true) ∧
    (∀ l, configSection.strategy_choice = some l →
      (∃ x ∈ l, reg.strategyCreate x.2 = none) →
      (processConfig reg t configSection isDryRun).1.isSome = true) ∧
    (∀ l, configSection.strategy_choice = some l →
      ¬ (l.map (fun x => x.1)).Nodup →
      (processConfig reg t configSection isDryRun).1.isSome = true) ∧
    (∀ e, (processConfig reg t configSection isDryRun).1 = some e →
      ((∃ policyName, e = ConfigError.unknownCsPolicy policyName) ∨
       (∃ strategy pfx, e = ConfigError.unknownStrategy strategy pfx) ∨
       (∃ pfx, e = ConfigError.duplicateStrategyChoice pfx)) →
      (processConfig reg t configSection isDryRun).2 = t ∧
      (processConfig reg t configSection isDryRun).2.forwarder.cs.getLimit
        = t.forwarder.cs.getLimit ∧
      (processConfig reg t configSection isDryRun).2.forwarder.cs.policy
        = t.forwarder.cs.policy ∧
      (processConfig reg t configSection isDryRun).2.forwarder.unsolicitedDataPolicy
        = t.forwarder.unsolicitedDataPolicy ∧
      (processConfig reg t configSection isDryRun).2.forwarder.strategyChoice
        = t.forwarder.strategyChoice ∧
      (processConfig reg t configSection isDryRun).2.forwarder.networkRegionTable
        = t.forwarder.networkRegionTable) := by
  refine ⟨?_, ?_, ?_, ?_⟩
  · intro policyName hpol hnone
    exact (processConfig_of_unknown_cs_policy reg t configSection isDryRun policyName
      hpol hnone).1
  · intro l hsc hx
    obtain ⟨e, he⟩ := readChoices_throws reg l (Or.inl hx)
    exact processConfig_of_read_error reg t configSection isDryRun l e hsc he
  · intro l hsc hdup
    obtain ⟨e, he⟩ := readChoices_throws reg l (Or.inr hdup)
    exact processConfig_of_read_error reg t configSection isDryRun l e hsc he
  · intro e he hkind
    have hstate : (processConfig reg t configSection isDryRun).2 = t := by
      rcases processConfig_cases reg t configSection isDryRun with h | h | ⟨l, e2, _, h1, h2⟩
      · rw [h] at he
        cases he
      · exact h
      · rw [h2] at he ⊢
        cases he
        apply processStrategyChoiceSection_error reg t l isDryRun e h1
        intro a b hab
        rcases hkind with ⟨x, hx⟩ | ⟨x, y, hx⟩ | ⟨x, hx⟩ <;> rw [hx] at hab <;> cases hab
    rw [hstate]
    exact ⟨rfl, rfl, rfl, rfl, rfl, rfl⟩

/-- C31 (witness): a section that binds the prefix `/2` twice is processed for good on a
fresh `TablesConfigSection`: "Duplicate strategy choice" is thrown and the state is the
fresh one. -/
theorem processConfig_config_errors_witness :
    (processConfig Sample.registry (TablesConfigSection.new Sample.emptyForwarder)
      Sample.configSectionDuplicate false).1 = some (ConfigError.duplicateStrategyChoice [2]) ∧
    (processConfig Sample.registry (TablesConfigSection.new Sample.emptyForwarder)
      Sample.configSectionDuplicate false).2 = TablesConfigSection.new Sample.emptyForwarder :=
  ⟨by decide,
   ((processConfig_config_errors Sample.registry
      (TablesConfigSection.new Sample.emptyForwarder)
      Sample.configSectionDuplicate false).2.2.2
      (ConfigError.duplicateStrategyChoice [2]) (by decide)
      (Or.inr (Or.inr ⟨[2], rfl⟩))).1⟩

end TablesConfigSection

/-! ## MeasurementsEntryInfo of the NCC strategy -/

theorem lockFace_some {faceTable : List Face} {weak : Option Face} {face : Face}
    (h : lockFace faceTable weak = some face) : weak = some face ∧ face ∈ faceTable := by
  unfold lockFace at h
  cases weak with
  | none => cases h
  | some f =>
    dsimp only at h
    by_cases hc : faceTable.contains f = true
    · simp only [hc, if_true] at h
      cases h
      exact ⟨rfl, by simpa using hc⟩
    · simp only [hc, Bool.false_eq_true, if_false] at h
      cases h

theorem lockFace_of_mem {faceTable : List Face} {face : Face} (h : face ∈ faceTable) :
    lockFace faceTable (some face) = some face := by
  unfold lockFace
  simp [h]

namespace NccStrategy.MeasurementsEntryInfo

theorem adjustPredictDown_prediction (info : MeasurementsEntryInfo) :
    info.adjustPredictDown.prediction = max 127 (info.prediction - info.prediction / 128) := by
  unfold adjustPredictDown MIN_PREDICTION ADJUST_PREDICT_DOWN_SHIFT
  dsimp only
  rw [Int.shiftRight_eq_div_pow]
  norm_num

theorem adjustPredictUp_prediction (info : MeasurementsEntryInfo) :
    info.adjustPredictUp.prediction = min 160000 (info.prediction + info.prediction / 8) := by
  unfold adjustPredictUp MAX_PREDICTION ADJUST_PREDICT_UP_SHIFT
  dsimp only
  rw [Int.shiftRight_eq_div_pow]
  norm_num

theorem updateBestFace_prediction (info : MeasurementsEntryInfo) (faceTable : List Face)
    (face : Face) :
    (info.updateBestFace faceTable face).prediction = info.prediction ∨
    (info.updateBestFace faceTable face).prediction = info.adjustPredictDown.prediction := by
  unfold updateBestFace
  cases lockFace faceTable info.bestFace with
  | none => left; rfl
  | some bestFace =>
    dsimp only
    by_cases h : (bestFace == face) = true
    · simp only [h, if_true]; right; trivial
    · simp only [h, Bool.false_eq_true, if_false]; left; trivial

theorem getBestFace_prediction (info : MeasurementsEntryInfo) (faceTable : List Face) :
    (info.getBestFace faceTable).2.prediction = info.prediction := by
  unfold getBestFace
  cases lockFace faceTable info.bestFace <;> rfl

/-- The bounds that `adjustPredictUp` and `adjustPredictDown` keep. -/
theorem prediction_bounds_step (p : Int) (h1 : 127 ≤ p) (h2 : p ≤ 160000) :
    127 ≤ max 127 (p - p / 128) ∧ max 127 (p - p / 128) ≤ 160000 ∧
    127 ≤ min 160000 (p + p / 8) ∧ min 160000 (p + p / 8) ≤ 160000 := by
  omega

/-- The prediction of an object made from a fresh one by the member functions lies
between `MIN_PREDICTION` and `MAX_PREDICTION`. -/
theorem Reachable.bounds {info : MeasurementsEntryInfo} (h : Reachable info) :
    127 ≤ info.prediction ∧ info.prediction ≤ 160000 := by
  induction h with
  | new => exact ⟨by decide, by decide⟩
  | @adjustPredictUp info _ ih =>
    rw [adjustPredictUp_prediction]
    obtain ⟨h1, h2⟩ := ih
    omega
  | @adjustPredictDown info _ ih =>
    rw [adjustPredictDown_prediction]
    obtain ⟨h1, h2⟩ := ih
    omega
  | inheritFrom _ _ _ ih => exact ih
  | @updateBestFace info faceTable face _ ih =>
    obtain ⟨h1, h2⟩ := ih
    rcases updateBestFace_prediction info faceTable face with h | h
    · rw [h]; exact ⟨h1, h2⟩
    · rw [h, adjustPredictDown_prediction]
      omega
  | @getBestFace info faceTable _ ih =>
    rw [getBestFace_prediction]
    exact ih
  | ageBestFace _ ih => exact ih

/-- C35: `updateBestFace(f)` leaves `f` as the best face.  A former best face that was
live and is not `f` becomes the previous-best face and the prediction is unchanged; when
the former best face was `f` (and live), the prediction is adjusted down and the
previous-best face is unchanged; when the former best face had expired (or there was
none), the previous-best face and the prediction are unchanged. -/
theorem updateBestFace_spec (info : MeasurementsEntryInfo) (faceTable : List Face)
    (face : Face) :
    (info.updateBestFace faceTable face).bestFace = some face ∧
    (∀ former, lockFace faceTable info.bestFace = some former → former ≠ face →
      (info.updateBestFace faceTable face).previousFace = some former ∧
      (info.updateBestFace faceTable face).prediction = info.prediction) ∧
    (lockFace faceTable info.bestFace = some face →
      info.updateBestFace faceTable face = info.adjustPredictDown ∧
      (info.updateBestFace faceTable face).prediction
        = max MIN_PREDICTION
            (info.prediction - (info.prediction >>> ADJUST_PREDICT_DOWN_SHIFT)) ∧
      (info.updateBestFace faceTable face).previousFace = info.previousFace) ∧
    (lockFace faceTable info.bestFace = none →
      (info.updateBestFace faceTable face).previousFace = info.previousFace ∧
      (info.updateBestFace faceTable face).prediction = info.prediction) := by
  refine ⟨?_, ?_, ?_, ?_⟩
  · unfold updateBestFace
    cases h : lockFace faceTable info.bestFace with
    | none => rfl
    | some bestFace =>
      dsimp only
      by_cases hc : (bestFace == face) = true
      · simp only [hc, if_true]
        have hb : bestFace = face := by simpa using hc
        rw [← hb]
        exact (lockFace_some h).1
      · simp only [hc, Bool.false_eq_true, if_false]
  · intro former h hne
    unfold updateBestFace
    rw [h]
    dsimp only
    have hc : (former == face) = false := by simpa using hne
    simp only [hc, Bool.false_eq_true, if_false]
    exact ⟨(lockFace_some h).1, trivial⟩
  · intro h
    have heq : info.updateBestFace faceTable face = info.adjustPredictDown := by
      unfold updateBestFace
      rw [h]
      simp
    rw [heq]
    exact ⟨rfl, rfl, rfl⟩
  · intro h
    unfold updateBestFace
    rw [h]
    exact ⟨rfl, rfl⟩

/-- C35 (witness): the best face `B` is live and Data comes back from face `M`: `M`
becomes the best face, `B` the previous-best face, and the prediction stays 8192. -/
theorem updateBestFace_spec_witness :
    (({ prediction := 8192, bestFace := some Sample.faceB, previousFace := none } :
        MeasurementsEntryInfo).updateBestFace [Sample.faceA, Sample.faceB, Sample.faceM]
        Sample.faceM).previousFace = some Sample.faceB ∧
    (({ prediction := 8192, bestFace := some Sample.faceB, previousFace := none } :
        MeasurementsEntryInfo).updateBestFace [Sample.faceA, Sample.faceB, Sample.faceM]
        Sample.faceM).prediction = 8192 :=
  (updateBestFace_spec { prediction := 8192, bestFace := some Sample.faceB, previousFace := none }
    [Sample.faceA, Sample.faceB, Sample.faceM] Sample.faceM).2.1 Sample.faceB
    (by decide) (by decide)

/-- C36: a `MeasurementsEntryInfo` starts with the prediction 8192 µs, and whatever
sequence of `adjustPredictUp`, `adjustPredictDown` and `inheritFrom` (and of the other
member functions) it went through, its prediction lies within `[MIN_PREDICTION,
MAX_PREDICTION]` = [127 µs, 160000 µs]; `adjustPredictUp` makes it strictly larger when it
is below the maximum and `adjustPredictDown` strictly smaller when it is above the
minimum. -/
theorem prediction_bounds (info : MeasurementsEntryInfo) (h : Reachable info) :
    MeasurementsEntryInfo.new.prediction = 8192 ∧
    MIN_PREDICTION = 127 ∧ MAX_PREDICTION = 160000 ∧
    MIN_PREDICTION ≤ info.prediction ∧ info.prediction ≤ MAX_PREDICTION ∧
    (info.prediction < MAX_PREDICTION → info.prediction < info.adjustPredictUp.prediction) ∧
    (MIN_PREDICTION < info.prediction →
      info.adjustPredictDown.prediction < info.prediction) := by
  obtain ⟨h1, h2⟩ := h.bounds
  refine ⟨rfl, rfl, rfl, h1, h2, ?_, ?_⟩
  · intro hlt
    rw [adjustPredictUp_prediction]
    unfold MAX_PREDICTION at hlt
    omega
  · intro hlt
    rw [adjustPredictDown_prediction]
    unfold MIN_PREDICTION at hlt
    omega

/-- C36 (witness): a fresh object adjusted down twice and up once holds a prediction
within the bounds, here 9073 µs. -/
theorem prediction_bounds_witness :
    MeasurementsEntryInfo.new.adjustPredictDown.adjustPredictDown.adjustPredictUp.prediction
      = 9073 ∧
    MIN_PREDICTION ≤
      MeasurementsEntryInfo.new.adjustPredictDown.adjustPredictDown.adjustPredictUp.prediction ∧
    MeasurementsEntryInfo.new.adjustPredictDown.adjustPredictDown.adjustPredictUp.prediction
      ≤ MAX_PREDICTION :=
  ⟨by decide,
   (prediction_bounds _ (Reachable.adjustPredictUp (Reachable.adjustPredictDown
      (Reachable.adjustPredictDown Reachable.new)))).2.2.2.1,
   (prediction_bounds _ (Reachable.adjustPredictUp (Reachable.adjustPredictDown
      (Reachable.adjustPredictDown Reachable.new)))).2.2.2.2.1⟩

end NccStrategy.MeasurementsEntryInfo

/-! ## The Measurements table under the NCC strategy -/

namespace Measurements

theorem find?_map_name (l : List measurements.Entry) (g : measurements.Entry → measurements.Entry)
    (hg : ∀ e, (g e).name = e.name) (name : Name) :
    (l.map g).find? (fun e => e.name == name) = (l.find? (fun e => e.name == name)).map g := by
  induction l with
  | nil => rfl
  | cons x xs ih =>
    rw [List.map_cons, List.find?_cons, List.find?_cons, hg x]
    cases (x.name == name)
    · exact ih
    · rfl

theorem any_map_name (l : List measurements.Entry) (g : measurements.Entry → measurements.Entry)
    (hg : ∀ e, (g e).name = e.name) (name : Name) :
    (l.map g).any (fun e => e.name == name) = l.any (fun e => e.name == name) := by
  induction l with
  | nil => rfl
  | cons x xs ih =>
    rw [List.map_cons, List.any_cons, List.any_cons, hg x, ih]

theorem info_get (m : Measurements) (now : Int) (n name : Name) :
    (m.get now n).info name = m.info name := by
  unfold get
  by_cases h : m.entries.any (fun e => e.name == n) = true
  · simp only [h, if_true]
  · simp only [h, Bool.false_eq_true, if_false]
    unfold info
    dsimp only
    rw [List.find?_append]
    cases hf : m.entries.find? (fun e => e.name == name) with
    | some e => rfl
    | none =>
      rw [Option.none_or, List.find?_cons]
      cases (n == name) <;> rfl

theorem any_get (m : Measurements) (now : Int) (n name : Name)
    (h : m.entries.any (fun e => e.name == name) = true) :
    (m.get now n).entries.any (fun e => e.name == name) = true := by
  unfold get
  by_cases hn : m.entries.any (fun e => e.name == n) = true
  · simp only [hn, if_true]
    exact h
  · simp only [hn, Bool.false_eq_true, if_false]
    rw [List.any_append, h]
    rfl

theorem any_get_self (m : Measurements) (now : Int) (n : Name) :
    (m.get now n).entries.any (fun e => e.name == n) = true := by
  unfold get
  by_cases hn : m.entries.any (fun e => e.name == n) = true
  · simp only [hn, if_true]
  · simp only [hn, Bool.false_eq_true, if_false]
    rw [List.any_append]
    simp

theorem info_setInfo_of_ne (m : Measurements) (n : Name)
    (i : NccStrategy.MeasurementsEntryInfo) (name : Name) (h : name ≠ n) :
    (m.setInfo n i).info name = m.info name := by
  unfold setInfo info
  dsimp only
  rw [find?_map_name _ _ (by intro e; split <;> rfl)]
  cases hf : m.entries.find? (fun e => e.name == name) with
  | none => rfl
  | some e =>
    have hname : e.name = name := by simpa using List.find?_some hf
    have hne : (e.name == n) = false := by
      rw [hname]
      simpa using h
    simp only [Option.map_some', hne, Bool.false_eq_true, if_false]

theorem info_setInfo_same (m : Measurements) (n : Name)
    (i : NccStrategy.MeasurementsEntryInfo)
    (h : m.entries.any (fun e => e.name == n) = true) :
    (m.setInfo n i).info n = some i := by
  unfold setInfo info
  dsimp only
  rw [find?_map_name _ _ (by intro e; split <;> rfl)]
  cases hf : m.entries.find? (fun e => e.name == n) with
  | none =>
    rw [List.find?_eq_none] at hf
    obtain ⟨e, he, hen⟩ := List.any_eq_true.mp h
    exact absurd hen (hf e he)
  | some e =>
    have hname : (e.name == n) = true := by
      have := List.find?_some hf
      exact this
    simp only [Option.map_some', hname, if_true]

theorem any_setInfo (m : Measurements) (n : Name) (i : NccStrategy.MeasurementsEntryInfo)
    (name : Name) :
    (m.setInfo n i).entries.any (fun e => e.name == name)
      = m.entries.any (fun e => e.name == name) := by
  unfold setInfo
  exact any_map_name _ _ (by intro e; split <;> rfl) name

theorem info_extendLifetime (m : Measurements) (now : Int) (n : Name) (lifetime : Int)
    (name : Name) :
    (m.extendLifetime now n lifetime).info name = m.info name := by
  unfold extendLifetime info
  dsimp only
  rw [find?_map_name _ _ (by intro e; split <;> (try split) <;> rfl)]
  cases hf : m.entries.find? (fun e => e.name == name) with
  | none => rfl
  | some e =>
    simp only [Option.map_some']
    split <;> (try split) <;> rfl

theorem any_extendLifetime (m : Measurements) (now : Int) (n : Name) (lifetime : Int)
    (name : Name) :
    (m.extendLifetime now n lifetime).entries.any (fun e => e.name == name)
      = m.entries.any (fun e => e.name == name) := by
  unfold extendLifetime
  exact any_map_name _ _ (by intro e; split <;> (try split) <;> rfl) name

end Measurements

namespace NccStrategy

theorem measurementsGet_snd (s : NccStrategy) (now : Int) (name : Name) :
    (s.measurementsGet now name).2 = { s with measurements := s.measurements.get now name } :=
  rfl

theorem measurementsGet_fst (s : NccStrategy) (now : Int) (name : Name) :
    (s.measurementsGet now name).1 = if s.inNamespace name then some name else none := rfl

theorem measurementsGetParent_frame (s : NccStrategy) (now : Int) (child : Name) :
    (s.measurementsGetParent now child).2
      = { s with measurements := (s.measurementsGetParent now child).2.measurements } := by
  unfold measurementsGetParent
  split <;> rfl

theorem measurementsGetParent_info (s : NccStrategy) (now : Int) (child name : Name) :
    (s.measurementsGetParent now child).2.measurements.info name = s.measurements.info name := by
  unfold measurementsGetParent
  split
  · rfl
  · exact Measurements.info_get _ _ _ _

theorem measurementsGetParent_any (s : NccStrategy) (now : Int) (child name : Name)
    (h : s.measurements.entries.any (fun e => e.name == name) = true) :
    (s.measurementsGetParent now child).2.measurements.entries.any (fun e => e.name == name)
      = true := by
  unfold measurementsGetParent
  split
  · exact h
  · exact Measurements.any_get _ _ _ _ h

theorem measurementsGetParent_some (s : NccStrategy) (now : Int) (child parent : Name)
    (h : (s.measurementsGetParent now child).1 = some parent) :
    parent = child.dropLast ∧ child ≠ [] ∧ parent.length < child.length ∧
    s.inNamespace parent = true ∧
    (s.measurementsGetParent now child).2.measurements.entries.any
      (fun e => e.name == parent) = true := by
  unfold measurementsGetParent at h ⊢
  by_cases hc : (child.length == 0) = true
  · simp only [hc, if_true] at h
    cases h
  · simp only [hc, Bool.false_eq_true, if_false] at h ⊢
    rw [measurementsGet_fst] at h
    have hne : child ≠ [] := by
      intro h0
      apply hc
      rw [h0]
      rfl
    by_cases hns : s.inNamespace child.dropLast = true
    · simp only [hns, if_true] at h
      cases h
      refine ⟨rfl, hne, ?_, hns, Measurements.any_get_self _ _ _⟩
      rw [List.length_dropLast]
      have := List.length_pos.mpr hne
      omega
    · simp only [hns, Bool.false_eq_true, if_false] at h
      cases h

theorem measurementsGetParent_none (s : NccStrategy) (now : Int) (child : Name) :
    (s.measurementsGetParent now child).1 = none ↔
      (child = [] ∨ s.inNamespace child.dropLast = false) := by
  unfold measurementsGetParent
  by_cases hc : (child.length == 0) = true
  · simp only [hc, if_true, true_iff]
    left
    exact List.length_eq_zero.mp (by simpa using hc)
  · simp only [hc, Bool.false_eq_true, if_false]
    rw [measurementsGet_fst]
    have hne : child ≠ [] := by
      intro h0
      apply hc
      rw [h0]
      rfl
    by_cases hns : s.inNamespace child.dropLast = true
    · simp [hns, hne]
    · simp [hns]

/-- Reading the info of an entry changes nothing but the Measurements table. -/
theorem getMeasurementsEntryInfoAux_frame (now : Int) :
    ∀ (fuel : Nat) (entry : Name) (s : NccStrategy),
      (getMeasurementsEntryInfoAux now fuel entry s).2
        = { s with measurements := (getMeasurementsEntryInfoAux now fuel entry s).2.measurements } := by
  intro fuel
  induction fuel with
  | zero => intro entry s; rfl
  | succ fuel ih =>
    intro entry s
    unfold getMeasurementsEntryInfoAux
    cases hinfo : s.measurements.info entry with
    | some info => rfl
    | none =>
      dsimp only
      cases hr : (measurementsGetParent
          { s with measurements := s.measurements.setInfo entry MeasurementsEntryInfo.new }
          now entry).1 with
      | none =>
        dsimp only
        rw [measurementsGetParent_frame]
      | some parentEntry =>
        dsimp only
        rw [ih parentEntry, measurementsGetParent_frame]

/-- Reading the info of an entry keeps the entries of the table. -/
theorem getMeasurementsEntryInfoAux_any (now : Int) (name : Name) :
    ∀ (fuel : Nat) (entry : Name) (s : NccStrategy),
      s.measurements.entries.any (fun e => e.name == name) = true →
      (getMeasurementsEntryInfoAux now fuel entry s).2.measurements.entries.any
        (fun e => e.name == name) = true := by
  intro fuel
  induction fuel with
  | zero => intro entry s h; exact h
  | succ fuel ih =>
    intro entry s h
    unfold getMeasurementsEntryInfoAux
    cases hinfo : s.measurements.info entry with
    | some info => exact h
    | none =>
      dsimp only
      have h1 : (measurementsGetParent
          { s with measurements := s.measurements.setInfo entry MeasurementsEntryInfo.new }
          now entry).2.measurements.entries.any (fun e => e.name == name) = true := by
        apply measurementsGetParent_any
        dsimp only
        rw [Measurements.any_setInfo]
        exact h
      cases hr : (measurementsGetParent
          { s with measurements := s.measurements.setInfo entry MeasurementsEntryInfo.new }
          now entry).1 with
      | none =>
        dsimp only
        exact h1
      | some parentEntry =>
        dsimp only
        rw [Measurements.any_setInfo]
        exact ih parentEntry _ h1

/-- Reading the info of an entry touches the entry and its ancestors only: the info of
a longer Name is as before. -/
theorem getMeasurementsEntryInfoAux_info_of_longer (now : Int) (name : Name) :
    ∀ (fuel : Nat) (entry : Name) (s : NccStrategy), entry.length < name.length →
      (getMeasurementsEntryInfoAux now fuel entry s).2.measurements.info name
        = s.measurements.info name := by
  intro fuel
  induction fuel with
  | zero => intro entry s _; rfl
  | succ fuel ih =>
    intro entry s hlen
    have hne : name ≠ entry := by
      intro h
      rw [h] at hlen
      exact absurd hlen (lt_irrefl _)
    unfold getMeasurementsEntryInfoAux
    cases hinfo : s.measurements.info entry with
    | some info => rfl
    | none =>
      dsimp only
      have h1 : (measurementsGetParent
          { s with measurements := s.measurements.setInfo entry MeasurementsEntryInfo.new }
          now entry).2.measurements.info name = s.measurements.info name := by
        rw [measurementsGetParent_info]
        exact Measurements.info_setInfo_of_ne _ _ _ _ hne
      cases hr : (measurementsGetParent
          { s with measurements := s.measurements.setInfo entry MeasurementsEntryInfo.new }
          now entry).1 with
      | none =>
        dsimp only
        exact h1
      | some parentEntry =>
        dsimp only
        rw [Measurements.info_setInfo_of_ne _ _ _ _ hne]
        obtain ⟨_, _, hplen, _, _⟩ := measurementsGetParent_some _ _ _ _ hr
        rw [ih parentEntry _ (lt_trans hplen hlen)]
        exact h1

/-- Reading the info of an entry that the table holds leaves the info read in the
entry. -/
theorem getMeasurementsEntryInfoAux_info_self (now : Int) (fuel : Nat) (entry : Name)
    (s : NccStrategy) (h : s.measurements.entries.any (fun e => e.name == entry) = true) :
    (getMeasurementsEntryInfoAux now (fuel + 1) entry s).2.measurements.info entry
      = some (getMeasurementsEntryInfoAux now (fuel + 1) entry s).1 := by
  unfold getMeasurementsEntryInfoAux
  cases hinfo : s.measurements.info entry with
  | some info => exact hinfo
  | none =>
    dsimp only
    have h1 : (measurementsGetParent
        { s with measurements := s.measurements.setInfo entry MeasurementsEntryInfo.new }
        now entry).2.measurements.entries.any (fun e => e.name == entry) = true := by
      apply measurementsGetParent_any
      dsimp only
      rw [Measurements.any_setInfo]
      exact h
    cases hr : (measurementsGetParent
        { s with measurements := s.measurements.setInfo entry MeasurementsEntryInfo.new }
        now entry).1 with
    | none =>
      dsimp only
      rw [measurementsGetParent_info]
      exact Measurements.info_setInfo_same _ _ _ h
    | some parentEntry =>
      dsimp only
      apply Measurements.info_setInfo_same
      exact getMeasurementsEntryInfoAux_any now entry fuel parentEntry _ h1

/-- An entry that holds an info is read as it is. -/
theorem getMeasurementsEntryInfoAux_of_some (now : Int) (fuel : Nat) (entry : Name)
    (s : NccStrategy) (info : MeasurementsEntryInfo) (h : s.measurements.info entry = some info) :
    getMeasurementsEntryInfoAux now (fuel + 1) entry s = (info, s) := by
  unfold getMeasurementsEntryInfoAux
  rw [h]

theorem modifyMeasurementsEntryInfo_frame (s : NccStrategy) (entry : Name)
    (g : MeasurementsEntryInfo → MeasurementsEntryInfo) :
    s.modifyMeasurementsEntryInfo entry g
      = { s with measurements := (s.modifyMeasurementsEntryInfo entry g).measurements } := by
  unfold modifyMeasurementsEntryInfo
  cases s.measurements.info entry <;> rfl

theorem modifyMeasurementsEntryInfo_info_of_ne (s : NccStrategy) (entry : Name)
    (g : MeasurementsEntryInfo → MeasurementsEntryInfo) (name : Name) (h : name ≠ entry) :
    (s.modifyMeasurementsEntryInfo entry g).measurements.info name = s.measurements.info name := by
  unfold modifyMeasurementsEntryInfo
  cases s.measurements.info entry with
  | none => rfl
  | some info => exact Measurements.info_setInfo_of_ne _ _ _ _ h

theorem modifyMeasurementsEntryInfo_info_same (s : NccStrategy) (entry : Name)
    (g : MeasurementsEntryInfo → MeasurementsEntryInfo) (info : MeasurementsEntryInfo)
    (hany : s.measurements.entries.any (fun e => e.name == entry) = true)
    (h : s.measurements.info entry = some info) :
    (s.modifyMeasurementsEntryInfo entry g).measurements.info entry = some (g info) := by
  unfold modifyMeasurementsEntryInfo
  rw [h]
  exact Measurements.info_setInfo_same _ _ _ hany

theorem modifyMeasurementsEntryInfo_any (s : NccStrategy) (entry : Name)
    (g : MeasurementsEntryInfo → MeasurementsEntryInfo) (name : Name) :
    (s.modifyMeasurementsEntryInfo entry g).measurements.entries.any (fun e => e.name == name)
      = s.measurements.entries.any (fun e => e.name == name) := by
  unfold modifyMeasurementsEntryInfo
  cases s.measurements.info entry with
  | none => rfl
  | some info => exact Measurements.any_setInfo _ _ _ _

end NccStrategy

namespace NccStrategy.MeasurementsEntryInfo

theorem updateBestFace_bestFace (info : MeasurementsEntryInfo) (faceTable : List Face)
    (face : Face) : (info.updateBestFace faceTable face).bestFace = some face := by
  unfold updateBestFace
  cases h : lockFace faceTable info.bestFace with
  | none => rfl
  | some bestFace =>
    dsimp only
    by_cases hc : (bestFace == face) = true
    · simp only [hc, if_true]
      have hb : bestFace = face := by simpa using hc
      rw [← hb]
      exact (lockFace_some h).1
    · simp only [hc, Bool.false_eq_true, if_false]

end NccStrategy.MeasurementsEntryInfo

/-! ## The NCC strategy: walking the Measurements hierarchy -/

namespace NccStrategy

theorem getMeasurementsEntryInfo_frame (s : NccStrategy) (now : Int) (entry : Name) :
    (s.getMeasurementsEntryInfo now entry).2
      = { s with measurements := (s.getMeasurementsEntryInfo now entry).2.measurements } :=
  getMeasurementsEntryInfoAux_frame now _ entry s

theorem getMeasurementsEntryInfoOfPitEntry_frame (s : NccStrategy) (now : Int) (entry : PitKey) :
    (s.getMeasurementsEntryInfoOfPitEntry now entry).2
      = { s with measurements := (s.getMeasurementsEntryInfoOfPitEntry now entry).2.measurements } := by
  unfold getMeasurementsEntryInfoOfPitEntry
  rw [getMeasurementsEntryInfo_frame, measurementsGet_snd]

/-- The info of the Measurements entry of a PIT entry is in the table once it was read. -/
theorem getMeasurementsEntryInfoOfPitEntry_info (s : NccStrategy) (now : Int) (entry : PitKey) :
    (s.getMeasurementsEntryInfoOfPitEntry now entry).2.measurements.info entry.name
      = some (s.getMeasurementsEntryInfoOfPitEntry now entry).1 ∧
    (s.getMeasurementsEntryInfoOfPitEntry now entry).2.measurements.entries.any
      (fun e => e.name == entry.name) = true := by
  unfold getMeasurementsEntryInfoOfPitEntry getMeasurementsEntryInfo
  have hany : (s.measurementsGet now entry.name).2.measurements.entries.any
      (fun e => e.name == entry.name) = true := Measurements.any_get_self _ _ _
  exact ⟨getMeasurementsEntryInfoAux_info_self now _ _ _ hany,
    getMeasurementsEntryInfoAux_any now _ _ _ _ hany⟩

/-- An info that the Measurements entry of a PIT entry holds is the one read. -/
theorem getMeasurementsEntryInfoOfPitEntry_of_some (s : NccStrategy) (now : Int)
    (entry : PitKey) (info : MeasurementsEntryInfo)
    (h : s.measurements.info entry.name = some info) :
    (s.getMeasurementsEntryInfoOfPitEntry now entry).1 = info ∧
    (s.getMeasurementsEntryInfoOfPitEntry now entry).2.measurements
      = s.measurements.get now entry.name := by
  unfold getMeasurementsEntryInfoOfPitEntry getMeasurementsEntryInfo
  have h2 : (s.measurementsGet now entry.name).2.measurements.info entry.name = some info := by
    rw [measurementsGet_snd]
    dsimp only
    rw [Measurements.info_get]
    exact h
  rw [getMeasurementsEntryInfoAux_of_some now _ _ _ info h2]
  exact ⟨rfl, rfl⟩

theorem updateBestFaceLoop_frame (now : Int) (face : Face) :
    ∀ (n : Nat) (cur : Option Name) (s : NccStrategy),
      (updateBestFaceLoop now face n cur s).2
        = { s with measurements := (updateBestFaceLoop now face n cur s).2.measurements } := by
  intro n
  induction n with
  | zero => intro cur s; rfl
  | succ n ih =>
    intro cur s
    cases cur with
    | none => rfl
    | some measurementsEntry =>
      unfold updateBestFaceLoop
      dsimp only
      rw [ih, measurementsGetParent_frame, modifyMeasurementsEntryInfo_frame,
        getMeasurementsEntryInfo_frame]

/-- The loop of `beforeSatisfyInterest` touches the entry it is at and the ancestors of
that entry only: the info of a longer Name is as before. -/
theorem updateBestFaceLoop_info_of_longer (now : Int) (face : Face) (name : Name) :
    ∀ (n : Nat) (cur : Option Name) (s : NccStrategy),
      (∀ c, cur = some c → c.length < name.length) →
      (updateBestFaceLoop now face n cur s).2.measurements.info name
        = s.measurements.info name := by
  intro n
  induction n with
  | zero => intro cur s _; rfl
  | succ n ih =>
    intro cur s hcur
    cases cur with
    | none => rfl
    | some c =>
      have hlen : c.length < name.length := hcur c rfl
      have hne : name ≠ c := by
        intro h
        rw [h] at hlen
        exact absurd hlen (lt_irrefl _)
      unfold updateBestFaceLoop
      dsimp only
      rw [ih]
      · rw [measurementsGetParent_info, modifyMeasurementsEntryInfo_info_of_ne _ _ _ _ hne]
        unfold getMeasurementsEntryInfo
        rw [getMeasurementsEntryInfoAux_info_of_longer now name _ _ _ hlen]
        exact Measurements.info_extendLifetime _ _ _ _ _
      · intro p hp
        obtain ⟨_, _, hplen, _, _⟩ := measurementsGetParent_some _ _ _ _ hp
        exact lt_trans hplen hlen

/-- The loop of `beforeSatisfyInterest`, started at an entry that the table holds, leaves
in that entry an info whose best face is the face it was called with. -/
theorem updateBestFaceLoop_info_self (now : Int) (face : Face) (n : Nat) (name : Name)
    (s : NccStrategy) (hany : s.measurements.entries.any (fun e => e.name == name) = true) :
    ∃ info, (updateBestFaceLoop now face (n + 1) (some name) s).2.measurements.info name
        = some info ∧ info.bestFace = some face := by
  unfold updateBestFaceLoop
  dsimp only
  have hany1 : ({ s with measurements :=
      (s.measurements.extendLifetime now name MEASUREMENTS_LIFETIME) } : NccStrategy
      ).measurements.entries.any (fun e => e.name == name) = true := by
    dsimp only
    rw [Measurements.any_extendLifetime]
    exact hany
  have h2 := getMeasurementsEntryInfoAux_info_self now name.length name _ hany1
  have hany2 := getMeasurementsEntryInfoAux_any now name (name.length + 1) name _ hany1
  refine ⟨?info, ?h1, ?h2⟩
  case h1 =>
    rw [updateBestFaceLoop_info_of_longer]
    · rw [measurementsGetParent_info]
      exact modifyMeasurementsEntryInfo_info_same _ _ _ _ hany2 h2
    · intro p hp
      obtain ⟨_, _, hplen, _, _⟩ := measurementsGetParent_some _ _ _ _ hp
      exact hplen
  case h2 => exact MeasurementsEntryInfo.updateBestFace_bestFace _ _ face

theorem updateBestFaceLoop_any (now : Int) (face : Face) (name : Name) :
    ∀ (n : Nat) (cur : Option Name) (s : NccStrategy),
      s.measurements.entries.any (fun e => e.name == name) = true →
      (updateBestFaceLoop now face n cur s).2.measurements.entries.any
        (fun e => e.name == name) = true := by
  intro n
  induction n with
  | zero => intro cur s h; exact h
  | succ n ih =>
    intro cur s h
    cases cur with
    | none => exact h
    | some c =>
      unfold updateBestFaceLoop
      dsimp only
      apply ih
      apply measurementsGetParent_any
      rw [modifyMeasurementsEntryInfo_any]
      apply getMeasurementsEntryInfoAux_any
      dsimp only
      rw [Measurements.any_extendLifetime]
      exact h

/-- With two levels to update, the loop of `beforeSatisfyInterest` reaches its end iff
the entry it starts at and the parent of that entry are in the namespace of the
strategy; otherwise the function is left through the `return` of the loop. -/
theorem updateBestFaceLoop_two (now : Int) (face : Face) (name : Name) (s : NccStrategy) :
    (updateBestFaceLoop now face 2 (s.measurementsGet now name).1
        (s.measurementsGet now name).2).1 = true ↔
      (s.inNamespace name = true ∧ name ≠ [] ∧ s.inNamespace name.dropLast = true) := by
  rw [measurementsGet_fst]
  by_cases hns : s.inNamespace name = true
  · simp only [hns, if_true, true_and]
    unfold updateBestFaceLoop
    dsimp only
    generalize hs3 : (modifyMeasurementsEntryInfo _ name _) = s3
    have hframe : s3.inNamespace = s.inNamespace := by
      rw [← hs3, modifyMeasurementsEntryInfo_frame, getMeasurementsEntryInfo_frame]
      rfl
    cases hp : (s3.measurementsGetParent now name).1 with
    | none =>
      have := (measurementsGetParent_none s3 now name).mp hp
      rw [hframe] at this
      unfold updateBestFaceLoop
      constructor
      · intro h; cases h
      · rintro ⟨h1, h2⟩
        rcases this with h | h
        · exact absurd h h1
        · rw [h2] at h; cases h
    | some p =>
      obtain ⟨h1, h2, _, h4, _⟩ := measurementsGetParent_some _ _ _ _ hp
      rw [hframe] at h4
      unfold updateBestFaceLoop
      dsimp only
      unfold updateBestFaceLoop
      rw [h1] at h4
      exact ⟨fun _ => ⟨h2, h4⟩, fun _ => rfl⟩
  · simp only [hns, Bool.false_eq_true, if_false, false_and, iff_false]
    unfold updateBestFaceLoop
    simp

end NccStrategy

/-! ## The NCC strategy: timers and PitEntryInfo -/

namespace NccStrategy

theorem cancel_frame (s : NccStrategy) (handle : Option Nat) :
    s.cancel handle = { s with events := (s.cancel handle).events } := by
  unfold cancel
  cases handle <;> rfl

theorem cancel_events (s : NccStrategy) (handle : Option Nat) :
    (s.cancel handle).events = s.events.filter (fun ev => some ev.id != handle) := by
  unfold cancel
  cases handle with
  | none =>
    dsimp only
    symm
    rw [List.filter_eq_self]
    intro ev _
    rfl
  | some h =>
    dsimp only
    apply List.filter_congr
    intro ev _
    rw [Bool.eq_iff_iff]
    simp

theorem find?_map_modify (l : List (PitKey × PitEntryInfo)) (k : PitKey)
    (g : PitEntryInfo → PitEntryInfo) (k2 : PitKey) :
    ((l.map (fun x => if x.1 == k then (x.1, g x.2) else x)).find? (fun x => x.1 == k2)).map
        (fun x => x.2)
      = if k2 = k then ((l.find? (fun x => x.1 == k2)).map (fun x => x.2)).map g
        else (l.find? (fun x => x.1 == k2)).map (fun x => x.2) := by
  induction l with
  | nil => simp
  | cons x xs ih =>
    rw [List.map_cons, List.find?_cons, List.find?_cons]
    by_cases hx : x.1 = k
    · have hxk : (x.1 == k) = true := by simpa using hx
      rw [if_pos hxk]
      dsimp only
      by_cases hk2 : x.1 = k2
      · have h2 : (x.1 == k2) = true := by simpa using hk2
        have hkk : k2 = k := by rw [← hk2, hx]
        rw [h2, if_pos hkk]
        rfl
      · have h2 : (x.1 == k2) = false := by simpa using hk2
        rw [h2]
        exact ih
    · have hxk : ¬ ((x.1 == k) = true) := by simpa using hx
      rw [if_neg hxk]
      by_cases hk2 : x.1 = k2
      · have h2 : (x.1 == k2) = true := by simpa using hk2
        have hkk : k2 ≠ k := by rw [← hk2]; exact hx
        rw [h2, if_neg hkk]
      · have h2 : (x.1 == k2) = false := by simpa using hk2
        rw [h2]
        exact ih

theorem getPitEntryInfo_modifyPitEntryInfo (s : NccStrategy) (k : PitKey)
    (g : PitEntryInfo → PitEntryInfo) (k2 : PitKey) :
    (s.modifyPitEntryInfo k g).getPitEntryInfo k2
      = if k2 = k then (s.getPitEntryInfo k2).map g else s.getPitEntryInfo k2 := by
  unfold modifyPitEntryInfo getPitEntryInfo
  exact find?_map_modify _ _ _ _

theorem getPitEntryInfo_modifyPitEntryInfo_same (s : NccStrategy) (k : PitKey)
    (g : PitEntryInfo → PitEntryInfo) :
    (s.modifyPitEntryInfo k g).getPitEntryInfo k = (s.getPitEntryInfo k).map g := by
  rw [getPitEntryInfo_modifyPitEntryInfo, if_pos rfl]

theorem modifyPitEntryInfo_frame (s : NccStrategy) (k : PitKey)
    (g : PitEntryInfo → PitEntryInfo) :
    s.modifyPitEntryInfo k g
      = { s with pitEntryInfo := (s.modifyPitEntryInfo k g).pitEntryInfo } := rfl

theorem getPitEntryInfo_congr (s t : NccStrategy) (h : s.pitEntryInfo = t.pitEntryInfo)
    (k : PitKey) : s.getPitEntryInfo k = t.getPitEntryInfo k := by
  unfold getPitEntryInfo
  rw [h]

theorem bestFaceOfPitEntry_frame (s : NccStrategy) (now : Int) (pitEntry : PitKey) :
    (s.bestFaceOfPitEntry now pitEntry).2
      = { s with measurements := (s.bestFaceOfPitEntry now pitEntry).2.measurements } := by
  unfold bestFaceOfPitEntry
  dsimp only
  rw [getMeasurementsEntryInfoOfPitEntry_frame]

/-- The best face read for a PIT entry whose Measurements entry holds an info with a live
best face is that face. -/
theorem bestFaceOfPitEntry_of_live (s : NccStrategy) (now : Int) (pitEntry : PitKey)
    (info : MeasurementsEntryInfo) (face : Face)
    (hm : s.measurements.info pitEntry.name = some info) (hbest : info.bestFace = some face)
    (hlive : face ∈ s.forwarder.faceTable) :
    (s.bestFaceOfPitEntry now pitEntry).1 = some face := by
  unfold bestFaceOfPitEntry
  dsimp only
  obtain ⟨h1, _⟩ := getMeasurementsEntryInfoOfPitEntry_of_some s now pitEntry info hm
  have hf : (s.getMeasurementsEntryInfoOfPitEntry now pitEntry).2.forwarder = s.forwarder := by
    rw [getMeasurementsEntryInfoOfPitEntry_frame]
  rw [h1, hf]
  unfold MeasurementsEntryInfo.getBestFace
  rw [hbest, lockFace_of_mem hlive]

/-- The block that cancels the timers, entered with the ingress face as the live best
face of the Measurements entry of the PIT entry: the guard holds and both timers are
cancelled. -/
theorem cancelTimers_of_best (s : NccStrategy) (now : Int) (pitEntry : PitKey)
    (ingress : FaceEndpoint) (pitEntryInfo : PitEntryInfo) (info : MeasurementsEntryInfo)
    (hinfo : s.getPitEntryInfo pitEntry = some pitEntryInfo)
    (hm : s.measurements.info pitEntry.name = some info)
    (hbest : info.bestFace = some ingress.face)
    (hlive : ingress.face ∈ s.forwarder.faceTable) :
    (((s.cancel pitEntryInfo.propagateTimer).modifyPitEntryInfo pitEntry
        (fun i => { i with propagateTimer := none })).bestFaceOfPitEntry now pitEntry).1
      = some ingress.face ∧
    (s.cancelTimers now pitEntry ingress).events
      = (s.events.filter (fun ev => some ev.id != pitEntryInfo.propagateTimer)).filter
          (fun ev => some ev.id != pitEntryInfo.bestFaceTimeout) ∧
    (s.cancelTimers now pitEntry ingress).getPitEntryInfo pitEntry
      = some { pitEntryInfo with propagateTimer := none, bestFaceTimeout := none } := by
  have hguard : (((s.cancel pitEntryInfo.propagateTimer).modifyPitEntryInfo pitEntry
        (fun i => { i with propagateTimer := none })).bestFaceOfPitEntry now pitEntry).1
      = some ingress.face := by
    apply bestFaceOfPitEntry_of_live _ now pitEntry info ingress.face
    · rw [modifyPitEntryInfo_frame, cancel_frame]
      exact hm
    · exact hbest
    · rw [modifyPitEntryInfo_frame, cancel_frame]
      exact hlive
  refine ⟨hguard, ?_, ?_⟩
  · unfold cancelTimers
    rw [hinfo]
    dsimp only
    rw [hguard]
    simp only [beq_self_eq_true, if_true]
    rw [modifyPitEntryInfo_frame]
    dsimp only
    rw [cancel_events, bestFaceOfPitEntry_frame, modifyPitEntryInfo_frame]
    dsimp only
    rw [cancel_events]
  · unfold cancelTimers
    rw [hinfo]
    dsimp only
    rw [hguard]
    simp only [beq_self_eq_true, if_true]
    rw [getPitEntryInfo_modifyPitEntryInfo_same]
    rw [getPitEntryInfo_congr (_ : NccStrategy)
      ((s.cancel pitEntryInfo.propagateTimer).modifyPitEntryInfo pitEntry
        (fun i => { i with propagateTimer := none }))
      (by rw [cancel_frame, bestFaceOfPitEntry_frame])]
    rw [getPitEntryInfo_modifyPitEntryInfo_same]
    rw [getPitEntryInfo_congr (_ : NccStrategy) s (by rw [cancel_frame])]
    rw [hinfo]
    rfl

end NccStrategy

namespace NccStrategy

/-- With in-records in the PIT entry, `beforeSatisfyInterest` runs the loop over the
levels and then, unless the loop left the function, the block that cancels the timers. -/
theorem beforeSatisfyInterest_of_in_records (s : NccStrategy) (now : Int) (pitEntry : PitKey)
    (ingress : FaceEndpoint) (data : Data) (e : pit.Entry)
    (hget : s.forwarder.pit.get? pitEntry = some e) (hin : e.hasInRecords = true) :
    s.beforeSatisfyInterest now pitEntry ingress data
      = if (updateBestFaceLoop now ingress.face UPDATE_MEASUREMENTS_N_LEVELS
              (s.measurementsGet now pitEntry.name).1 (s.measurementsGet now pitEntry.name).2).1
            = true then
          (updateBestFaceLoop now ingress.face UPDATE_MEASUREMENTS_N_LEVELS
            (s.measurementsGet now pitEntry.name).1
            (s.measurementsGet now pitEntry.name).2).2.cancelTimers now pitEntry ingress
        else
          (updateBestFaceLoop now ingress.face UPDATE_MEASUREMENTS_N_LEVELS
            (s.measurementsGet now pitEntry.name).1 (s.measurementsGet now pitEntry.name).2).2 := by
  unfold beforeSatisfyInterest
  rw [hget]
  dsimp only
  rw [hin]
  simp only [Bool.not_true, Bool.false_eq_true, if_false]
  cases (updateBestFaceLoop now ingress.face UPDATE_MEASUREMENTS_N_LEVELS
    (s.measurementsGet now pitEntry.name).1 (s.measurementsGet now pitEntry.name).2).1 <;> rfl

/-- The state in which the loop of `beforeSatisfyInterest` is left differs from the one
before in the Measurements table only. -/
theorem updateBestFaceLoop_of_measurementsGet_frame (s : NccStrategy) (now : Int) (face : Face)
    (n : Nat) (name : Name) :
    (updateBestFaceLoop now face n (s.measurementsGet now name).1
        (s.measurementsGet now name).2).2
      = { s with measurements := (updateBestFaceLoop now face n (s.measurementsGet now name).1
            (s.measurementsGet now name).2).2.measurements } := by
  rw [updateBestFaceLoop_frame, measurementsGet_snd]

/-- When the loop of `beforeSatisfyInterest` reaches its end, the info of the Measurements
entry of the PIT entry has the ingress face as its best face. -/
theorem updateBestFaceLoop_reached (s : NccStrategy) (now : Int) (face : Face) (name : Name)
    (h : (updateBestFaceLoop now face UPDATE_MEASUREMENTS_N_LEVELS (s.measurementsGet now name).1
      (s.measurementsGet now name).2).1 = true) :
    ∃ info, (updateBestFaceLoop now face UPDATE_MEASUREMENTS_N_LEVELS
        (s.measurementsGet now name).1 (s.measurementsGet now name).2).2.measurements.info name
        = some info ∧ info.bestFace = some face := by
  have hfst := measurementsGet_fst s now name
  by_cases hns : s.inNamespace name = true
  · rw [if_pos hns] at hfst
    rw [hfst]
    exact updateBestFaceLoop_info_self now face 1 name _ (Measurements.any_get_self _ _ _)
  · rw [if_neg hns] at hfst
    rw [hfst] at h
    cases h

/-- C37: in `beforeSatisfyInterest`, whenever the block that cancels the timers is
reached (the PIT entry has in-records, the loop over the levels reached its end, the PIT
entry carries a `PitEntryInfo`), the info of the Measurements entry of the PIT entry has
the ingress face as its best face, `getBestFace` returns the ingress face (which is live),
so the guard of the best-face timeout holds: when the function returns, no event waits
under the handles `propagateTimer` and `bestFaceTimeout`, and both handles are empty. -/
theorem beforeSatisfyInterest_guard_holds (s : NccStrategy) (now : Int) (pitEntry : PitKey)
    (ingress : FaceEndpoint) (data : Data) (e : pit.Entry) (pitEntryInfo : PitEntryInfo)
    (hget : s.forwarder.pit.get? pitEntry = some e) (hin : e.hasInRecords = true)
    (hreached : (updateBestFaceLoop now ingress.face UPDATE_MEASUREMENTS_N_LEVELS
      (s.measurementsGet now pitEntry.name).1 (s.measurementsGet now pitEntry.name).2).1 = true)
    (hinfo : s.getPitEntryInfo pitEntry = some pitEntryInfo)
    (hlive : ingress.face ∈ s.forwarder.faceTable) :
    (∃ info, (updateBestFaceLoop now ingress.face UPDATE_MEASUREMENTS_N_LEVELS
        (s.measurementsGet now pitEntry.name).1
        (s.measurementsGet now pitEntry.name).2).2.measurements.info pitEntry.name = some info ∧
      info.bestFace = some ingress.face) ∧
    ((((updateBestFaceLoop now ingress.face UPDATE_MEASUREMENTS_N_LEVELS
        (s.measurementsGet now pitEntry.name).1
        (s.measurementsGet now pitEntry.name).2).2.cancel pitEntryInfo.propagateTimer
        ).modifyPitEntryInfo pitEntry (fun i => { i with propagateTimer := none })
        ).bestFaceOfPitEntry now pitEntry).1 = some ingress.face ∧
    (s.beforeSatisfyInterest now pitEntry ingress data).events
      = (s.events.filter (fun ev => some ev.id != pitEntryInfo.propagateTimer)).filter
          (fun ev => some ev.id != pitEntryInfo.bestFaceTimeout) ∧
    (s.beforeSatisfyInterest now pitEntry ingress data).getPitEntryInfo pitEntry
      = some { pitEntryInfo with propagateTimer := none, bestFaceTimeout := none } := by
  obtain ⟨info, hm, hbest⟩ := updateBestFaceLoop_reached s now ingress.face pitEntry.name hreached
  have hframe := updateBestFaceLoop_of_measurementsGet_frame s now ingress.face
    UPDATE_MEASUREMENTS_N_LEVELS pitEntry.name
  have hinfo2 : (updateBestFaceLoop now ingress.face UPDATE_MEASUREMENTS_N_LEVELS
      (s.measurementsGet now pitEntry.name).1
      (s.measurementsGet now pitEntry.name).2).2.getPitEntryInfo pitEntry = some pitEntryInfo := by
    rw [getPitEntryInfo_congr _ s (by rw [hframe])]
    exact hinfo
  have hlive2 : ingress.face ∈ (updateBestFaceLoop now ingress.face UPDATE_MEASUREMENTS_N_LEVELS
      (s.measurementsGet now pitEntry.name).1
      (s.measurementsGet now pitEntry.name).2).2.forwarder.faceTable := by
    rw [hframe]
    exact hlive
  obtain ⟨h1, h2, h3⟩ := cancelTimers_of_best _ now pitEntry ingress pitEntryInfo info hinfo2 hm
    hbest hlive2
  rw [beforeSatisfyInterest_of_in_records s now pitEntry ingress data e hget hin, if_pos hreached]
  refine ⟨⟨info, hm, hbest⟩, h1, ?_, h3⟩
  rw [h2, hframe]

/-- C37 (witness): under the strategy bound to the root prefix the Interest for `/7` went
to the best face B; the Data comes back on face M, which was not the best face: the block
is reached, the guard holds and no timer is left. -/
theorem beforeSatisfyInterest_guard_holds_witness :
    (Sample.nccRootForwarded.beforeSatisfyInterest 1000000 Sample.interest5.pitKey
      { face := Sample.faceM, endpoint := 0 } Sample.data7).events
      = (Sample.nccRootForwarded.events.filter (fun ev => some ev.id != some 1)).filter
          (fun ev => some ev.id != some 0) ∧
    (Sample.nccRootForwarded.beforeSatisfyInterest 1000000 Sample.interest5.pitKey
      { face := Sample.faceM, endpoint := 0 } Sample.data7).getPitEntryInfo
        Sample.interest5.pitKey
      = some { bestFaceTimeout := none, propagateTimer := none, maxInterval := 8192 } :=
  (beforeSatisfyInterest_guard_holds Sample.nccRootForwarded 1000000 Sample.interest5.pitKey
    { face := Sample.faceM, endpoint := 0 } Sample.data7
    { Sample.nccEntry with
      outRecords := [{ face := Sample.faceB, lastNonce := 5, lastRenewed := 0,
                       expiry := 4000000000, incomingNack := none }] }
    { bestFaceTimeout := some 0, propagateTimer := some 1, maxInterval := 8192 }
    (by decide) (by decide) (by decide) (by decide) (by decide)).2.2

/-- The reach of the `return` at line 220 of `beforeSatisfyInterest`: on a PIT entry that
has in-records and carries a `PitEntryInfo`, called with a live ingress face, the
propagate timer and the best-face timeout are cancelled when the Measurements entry of the
PIT entry and the parent of that entry both lie in the namespace of the strategy; when
the entry has no parent (the empty Name) or one of the two lies outside the namespace,
the function is left from inside its loop and the block of lines 230-240 does not run. -/
theorem beforeSatisfyInterest_cancels_within_namespace (s : NccStrategy) (now : Int)
    (pitEntry : PitKey) (ingress : FaceEndpoint) (data : Data) (e : pit.Entry)
    (pitEntryInfo : PitEntryInfo)
    (hget : s.forwarder.pit.get? pitEntry = some e) (hin : e.hasInRecords = true)
    (hinfo : s.getPitEntryInfo pitEntry = some pitEntryInfo)
    (hlive : ingress.face ∈ s.forwarder.faceTable) :
    ((s.inNamespace pitEntry.name = true ∧ pitEntry.name ≠ [] ∧
        s.inNamespace pitEntry.name.dropLast = true) →
      (s.beforeSatisfyInterest now pitEntry ingress data).events
        = (s.events.filter (fun ev => some ev.id != pitEntryInfo.propagateTimer)).filter
            (fun ev => some ev.id != pitEntryInfo.bestFaceTimeout) ∧
      (s.beforeSatisfyInterest now pitEntry ingress data).getPitEntryInfo pitEntry
        = some { pitEntryInfo with propagateTimer := none, bestFaceTimeout := none }) ∧
    (¬ (s.inNamespace pitEntry.name = true ∧ pitEntry.name ≠ [] ∧
        s.inNamespace pitEntry.name.dropLast = true) →
      (s.beforeSatisfyInterest now pitEntry ingress data).events = s.events ∧
      (s.beforeSatisfyInterest now pitEntry ingress data).pitEntryInfo = s.pitEntryInfo) := by
  have hframe := updateBestFaceLoop_of_measurementsGet_frame s now ingress.face
    UPDATE_MEASUREMENTS_N_LEVELS pitEntry.name
  have htwo := updateBestFaceLoop_two now ingress.face pitEntry.name s
  rw [beforeSatisfyInterest_of_in_records s now pitEntry ingress data e hget hin]
  constructor
  · intro hns
    have hreached : (updateBestFaceLoop now ingress.face UPDATE_MEASUREMENTS_N_LEVELS
        (s.measurementsGet now pitEntry.name).1 (s.measurementsGet now pitEntry.name).2).1
        = true := htwo.mpr hns
    obtain ⟨info, hm, hbest⟩ :=
      updateBestFaceLoop_reached s now ingress.face pitEntry.name hreached
    have hinfo2 : (updateBestFaceLoop now ingress.face UPDATE_MEASUREMENTS_N_LEVELS
        (s.measurementsGet now pitEntry.name).1
        (s.measurementsGet now pitEntry.name).2).2.getPitEntryInfo pitEntry
          = some pitEntryInfo := by
      rw [getPitEntryInfo_congr _ s (by rw [hframe])]
      exact hinfo
    have hlive2 : ingress.face ∈ (updateBestFaceLoop now ingress.face
        UPDATE_MEASUREMENTS_N_LEVELS (s.measurementsGet now pitEntry.name).1
        (s.measurementsGet now pitEntry.name).2).2.forwarder.faceTable := by
      rw [hframe]
      exact hlive
    obtain ⟨_, h2, h3⟩ := cancelTimers_of_best _ now pitEntry ingress pitEntryInfo info hinfo2
      hm hbest hlive2
    rw [if_pos hreached]
    refine ⟨?_, h3⟩
    rw [h2, hframe]
  · intro hns
    have hleft : ¬ ((updateBestFaceLoop now ingress.face UPDATE_MEASUREMENTS_N_LEVELS
        (s.measurementsGet now pitEntry.name).1 (s.measurementsGet now pitEntry.name).2).1
        = true) := fun h => hns (htwo.mp h)
    rw [if_neg hleft, hframe]
    exact ⟨rfl, rfl⟩

/-- Under the strategy bound to the root prefix the Measurements entries of `/7` and of
its parent are in the namespace; the Data for `/7` comes back on face B and both timers
are cancelled. -/
theorem beforeSatisfyInterest_cancels_within_namespace_witness :
    (Sample.nccRootForwarded.beforeSatisfyInterest 1000000 Sample.interest5.pitKey
      { face := Sample.faceB, endpoint := 0 } Sample.data7).events
      = (Sample.nccRootForwarded.events.filter (fun ev => some ev.id != some 1)).filter
          (fun ev => some ev.id != some 0) ∧
    (Sample.nccRootForwarded.beforeSatisfyInterest 1000000 Sample.interest5.pitKey
      { face := Sample.faceB, endpoint := 0 } Sample.data7).getPitEntryInfo
        Sample.interest5.pitKey
      = some { bestFaceTimeout := none, propagateTimer := none, maxInterval := 8192 } :=
  (beforeSatisfyInterest_cancels_within_namespace Sample.nccRootForwarded 1000000
    Sample.interest5.pitKey { face := Sample.faceB, endpoint := 0 } Sample.data7
    { Sample.nccEntry with
      outRecords := [{ face := Sample.faceB, lastNonce := 5, lastRenewed := 0,
                       expiry := 4000000000, incomingNack := none }] }
    { bestFaceTimeout := some 0, propagateTimer := some 1, maxInterval := 8192 }
    (by decide) (by decide) (by decide) (by decide)).1 (by decide)

/-- C34: `beforeSatisfyInterest` at the failing input.  The strategy is bound to `/7` and
forwarded the Interest for `/7` to its best face B, which armed the best-face timeout
(event 0) and the propagate timer (event 1).  The PIT entry has its in-record and its
`PitEntryInfo` when the Data comes back on face B.  The parent of the Measurements entry
of `/7` is outside the namespace, so `beforeSatisfyInterest` leaves through the `return`
of line 220: both timers still wait in the scheduler and the handles are still set.  The
block of lines 230-240, run on the state the loop has reached, cancels both timers. -/
theorem beforeSatisfyInterest_leaves_timers_pending :
    (Sample.nccForwarded.forwarder.pit.get? Sample.interest5.pitKey).map
        (fun e => e.hasInRecords) = some true ∧
    Sample.nccForwarded.getPitEntryInfo Sample.interest5.pitKey
      = some { bestFaceTimeout := some 0, propagateTimer := some 1, maxInterval := 8192 } ∧
    Sample.nccForwarded.events
      = [{ id := 0, fireAt := 8192000,
           callback := Callback.timeoutOnBestFace Sample.interest5.pitKey },
         { id := 1, fireAt := 8192000,
           callback := Callback.doPropagate 1 Sample.interest5.pitKey }] ∧
    (Sample.nccForwarded.beforeSatisfyInterest 1000000 Sample.interest5.pitKey
      { face := Sample.faceB, endpoint := 0 } Sample.data7).events
      = [{ id := 0, fireAt := 8192000,
           callback := Callback.timeoutOnBestFace Sample.interest5.pitKey },
         { id := 1, fireAt := 8192000,
           callback := Callback.doPropagate 1 Sample.interest5.pitKey }] ∧
    (Sample.nccForwarded.beforeSatisfyInterest 1000000 Sample.interest5.pitKey
      { face := Sample.faceB, endpoint := 0 } Sample.data7).getPitEntryInfo
        Sample.interest5.pitKey
      = some { bestFaceTimeout := some 0, propagateTimer := some 1, maxInterval := 8192 } ∧
    ((updateBestFaceLoop 1000000 Sample.faceB UPDATE_MEASUREMENTS_N_LEVELS
        (Sample.nccForwarded.measurementsGet 1000000 Sample.interest5.pitKey.name).1
        (Sample.nccForwarded.measurementsGet 1000000 Sample.interest5.pitKey.name).2).2.cancelTimers
      1000000 Sample.interest5.pitKey { face := Sample.faceB, endpoint := 0 }).events = [] ∧
    ((updateBestFaceLoop 1000000 Sample.faceB UPDATE_MEASUREMENTS_N_LEVELS
        (Sample.nccForwarded.measurementsGet 1000000 Sample.interest5.pitKey.name).1
        (Sample.nccForwarded.measurementsGet 1000000 Sample.interest5.pitKey.name).2).2.cancelTimers
      1000000 Sample.interest5.pitKey { face := Sample.faceB, endpoint := 0 }).getPitEntryInfo
        Sample.interest5.pitKey
      = some { bestFaceTimeout := none, propagateTimer := none, maxInterval := 8192 } := by
  refine ⟨by decide, by decide, by decide, by decide, by decide, by decide, by decide⟩

end NccStrategy

/-! ## The NCC strategy: receiving an Interest -/

namespace NccStrategy

theorem insertPitEntryInfo_frame (s : NccStrategy) (k : PitKey) :
    s.insertPitEntryInfo k = { s with pitEntryInfo := (s.insertPitEntryInfo k).pitEntryInfo } := by
  unfold insertPitEntryInfo
  split <;> rfl

theorem getPitEntryInfo_isSome (s : NccStrategy) (k : PitKey) :
    (s.getPitEntryInfo k).isSome = s.pitEntryInfo.any (fun x => x.1 == k) := by
  unfold getPitEntryInfo
  rw [Option.isSome_map']
  induction s.pitEntryInfo with
  | nil => rfl
  | cons x xs ih =>
    rw [List.find?_cons, List.any_cons]
    cases (x.1 == k)
    · simpa using ih
    · rfl

theorem getPitEntryInfo_insertPitEntryInfo_same (s : NccStrategy) (k : PitKey) :
    (s.insertPitEntryInfo k).getPitEntryInfo k
      = some ((s.getPitEntryInfo k).getD
          { bestFaceTimeout := none, propagateTimer := none, maxInterval := 0 }) := by
  have hsome := getPitEntryInfo_isSome s k
  unfold insertPitEntryInfo
  by_cases hany : s.pitEntryInfo.any (fun x => x.1 == k) = true
  · rw [if_pos hany]
    rw [hany] at hsome
    obtain ⟨i, hi⟩ := Option.isSome_iff_exists.mp hsome
    rw [hi]
    rfl
  · rw [if_neg hany]
    have hfalse : s.pitEntryInfo.any (fun x => x.1 == k) = false := Bool.eq_false_iff.mpr hany
    rw [hfalse] at hsome
    have hnone : s.getPitEntryInfo k = none := by
      cases h : s.getPitEntryInfo k with
      | none => rfl
      | some i => rw [h] at hsome; cases hsome
    rw [hnone]
    unfold getPitEntryInfo at hnone ⊢
    dsimp only
    rw [List.find?_append]
    have hf : s.pitEntryInfo.find? (fun x => x.1 == k) = none := by
      cases hfind : s.pitEntryInfo.find? (fun x => x.1 == k) with
      | none => rfl
      | some x => rw [hfind] at hnone; cases hnone
    rw [hf]
    simp

theorem getPitEntryInfo_insertPitEntryInfo_of_ne (s : NccStrategy) (k k2 : PitKey)
    (h : k2 ≠ k) :
    (s.insertPitEntryInfo k).getPitEntryInfo k2 = s.getPitEntryInfo k2 := by
  unfold insertPitEntryInfo
  by_cases hany : s.pitEntryInfo.any (fun x => x.1 == k) = true
  · rw [if_pos hany]
  · rw [if_neg hany]
    unfold getPitEntryInfo
    dsimp only
    rw [List.find?_append]
    cases hfind : s.pitEntryInfo.find? (fun x => x.1 == k2) with
    | some x => rfl
    | none =>
      have : ((k == k2) = false) := by
        simpa using (fun h2 : k = k2 => h h2.symm)
      simp [List.find?_cons, this]

theorem setBestFaceTimeout_of_info (s : NccStrategy) (k : PitKey) (handle : Nat)
    (i : PitEntryInfo) (h : s.getPitEntryInfo k = some i) :
    s.setBestFaceTimeout k handle
      = (s.cancel i.bestFaceTimeout).modifyPitEntryInfo k
          (fun i => { i with bestFaceTimeout := some handle }) := by
  unfold setBestFaceTimeout
  rw [h]

theorem setPropagateTimer_of_info (s : NccStrategy) (k : PitKey) (handle : Nat)
    (i : PitEntryInfo) (h : s.getPitEntryInfo k = some i) :
    s.setPropagateTimer k handle
      = (s.cancel i.propagateTimer).modifyPitEntryInfo k
          (fun i => { i with propagateTimer := some handle }) := by
  unfold setPropagateTimer
  rw [h]

theorem canForwardTo_congr (s t : NccStrategy) (now : Int) (inFace : Face) (interest : Interest)
    (k : PitKey) (face : Face) (hf : s.forwarder = t.forwarder)
    (hw : s.wouldViolateScope = t.wouldViolateScope) :
    s.canForwardTo now inFace interest k face = t.canForwardTo now inFace interest k face := by
  unfold canForwardTo
  rw [hf, hw]

theorem isNewPitEntry_congr (s t : NccStrategy) (now : Int) (k : PitKey)
    (hf : s.forwarder = t.forwarder) : s.isNewPitEntry now k = t.isNewPitEntry now k := by
  unfold isNewPitEntry
  rw [hf]

theorem getMeasurementsEntryInfoOfPitEntry_exists (s : NccStrategy) (now : Int) (k : PitKey) :
    ∃ info ms, s.getMeasurementsEntryInfoOfPitEntry now k
      = (info, ({ s with measurements := ms } : NccStrategy)) :=
  ⟨(s.getMeasurementsEntryInfoOfPitEntry now k).1,
   (s.getMeasurementsEntryInfoOfPitEntry now k).2.measurements,
   Prod.ext rfl (getMeasurementsEntryInfoOfPitEntry_frame s now k)⟩

/-- The state in which `afterReceiveInterest` and `doPropagate` test the faces differs
from the one before in the Measurements table only, so the tests are those of the state
before. -/
theorem canForwardTo_bestFaceOfPitEntry (s : NccStrategy) (now : Int) (k : PitKey)
    (inFace : Face) (interest : Interest) (face : Face) :
    (s.bestFaceOfPitEntry now k).2.canForwardTo now inFace interest k face
      = s.canForwardTo now inFace interest k face := by
  apply canForwardTo_congr
  · rw [bestFaceOfPitEntry_frame]
  · rw [bestFaceOfPitEntry_frame]

/-- Lines 84-97 of `afterReceiveInterest`: the Interest goes to the best face when that
face is a next hop and can be forwarded to. -/
theorem forwardToBestOrFirst_best (s : NccStrategy) (now : Int) (ingress : FaceEndpoint)
    (interest : Interest) (k : PitKey) (bestFace : Face)
    (hb : (s.bestFaceOfPitEntry now k).1 = some bestFace)
    (hn : (s.lookupFib k).hasNextHop bestFace = true)
    (hc : s.canForwardTo now ingress.face interest k bestFace = true) :
    s.forwardToBestOrFirst now ingress interest k =
      (some { deferFirst := (s.getMeasurementsEntryInfoOfPitEntry now k).1.prediction
              deferRange :=
                Int.tdiv ((s.getMeasurementsEntryInfoOfPitEntry now k).1.prediction + 1) 2
              nUpstreams := decrementSize (s.lookupFib k).nextHops.length },
       ((((s.bestFaceOfPitEntry now k).2.sendInterest now k
            { face := bestFace, endpoint := 0 } interest).schedule now
            ((s.getMeasurementsEntryInfoOfPitEntry now k).1.prediction * 1000)
            (Callback.timeoutOnBestFace k)).2).setBestFaceTimeout k s.nextEventId) := by
  obtain ⟨info, ms, hm⟩ := getMeasurementsEntryInfoOfPitEntry_exists s now k
  unfold bestFaceOfPitEntry at hb ⊢
  unfold forwardToBestOrFirst
  rw [hm] at hb ⊢
  dsimp only at hb ⊢
  rw [hb]
  dsimp only
  have hc2 : canForwardTo ({ s with measurements :=
        (ms.setInfo k.name (info.getBestFace s.forwarder.faceTable).2) } : NccStrategy) now ingress.face interest k bestFace
      = true := by
    rw [← hc]
    exact canForwardTo_congr _ _ _ _ _ _ _ rfl rfl
  rw [hn, hc2]
  simp only [Bool.and_self, if_true]
  rw [MeasurementsEntryInfo.getBestFace_prediction]
  rfl

/-- Lines 98-105 of `afterReceiveInterest`: without a usable best face the Interest goes
to the first next hop, in list order, that can be forwarded to. -/
theorem forwardToBestOrFirst_first (s : NccStrategy) (now : Int) (ingress : FaceEndpoint)
    (interest : Interest) (k : PitKey) (firstEligibleNexthop : fib.NextHop)
    (hb : ∀ bestFace, (s.bestFaceOfPitEntry now k).1 = some bestFace →
      ((s.lookupFib k).hasNextHop bestFace
        && s.canForwardTo now ingress.face interest k bestFace) = false)
    (hfind : (s.lookupFib k).nextHops.find? (fun nexthop =>
      s.canForwardTo now ingress.face interest k nexthop.face) = some firstEligibleNexthop) :
    s.forwardToBestOrFirst now ingress interest k =
      (some { deferFirst := DEFER_FIRST_WITHOUT_BEST_FACE
              deferRange := DEFER_RANGE_WITHOUT_BEST_FACE
              nUpstreams := (s.lookupFib k).nextHops.length },
       (s.bestFaceOfPitEntry now k).2.sendInterest now k
         { face := firstEligibleNexthop.face, endpoint := 0 } interest) := by
  obtain ⟨info, ms, hm⟩ := getMeasurementsEntryInfoOfPitEntry_exists s now k
  unfold bestFaceOfPitEntry at hb ⊢
  unfold forwardToBestOrFirst
  rw [hm] at hb ⊢
  dsimp only at hb ⊢
  have hfun : (fun nexthop : fib.NextHop =>
      canForwardTo ({ s with measurements :=
        (ms.setInfo k.name (info.getBestFace s.forwarder.faceTable).2) } : NccStrategy) now ingress.face interest k nexthop.face)
      = (fun nexthop => s.canForwardTo now ingress.face interest k nexthop.face) := by
    funext nexthop
    exact canForwardTo_congr _ _ _ _ _ _ _ rfl rfl
  rw [hfun, hfind]
  cases hbest : (info.getBestFace s.forwarder.faceTable).1 with
  | none => rfl
  | some bestFace =>
    dsimp only
    have hc2 : canForwardTo ({ s with measurements :=
        (ms.setInfo k.name (info.getBestFace s.forwarder.faceTable).2) } : NccStrategy) now ingress.face interest k bestFace
        = s.canForwardTo now ingress.face interest k bestFace :=
      canForwardTo_congr _ _ _ _ _ _ _ rfl rfl
    rw [hc2, hb bestFace hbest]
    rfl

/-- Lines 106-109 of `afterReceiveInterest`: the Interest is rejected when no next hop
can be forwarded to. -/
theorem forwardToBestOrFirst_reject (s : NccStrategy) (now : Int) (ingress : FaceEndpoint)
    (interest : Interest) (k : PitKey)
    (hnone : ∀ nexthop ∈ (s.lookupFib k).nextHops,
      s.canForwardTo now ingress.face interest k nexthop.face = false) :
    s.forwardToBestOrFirst now ingress interest k =
      (none, (s.bestFaceOfPitEntry now k).2.rejectPendingInterest now k) := by
  obtain ⟨info, ms, hm⟩ := getMeasurementsEntryInfoOfPitEntry_exists s now k
  unfold bestFaceOfPitEntry
  unfold forwardToBestOrFirst
  rw [hm]
  dsimp only
  have hfun : (fun nexthop : fib.NextHop =>
      canForwardTo ({ s with measurements :=
        (ms.setInfo k.name (info.getBestFace s.forwarder.faceTable).2) } : NccStrategy) now ingress.face interest k nexthop.face)
      = (fun nexthop => s.canForwardTo now ingress.face interest k nexthop.face) := by
    funext nexthop
    exact canForwardTo_congr _ _ _ _ _ _ _ rfl rfl
  have hfind : (s.lookupFib k).nextHops.find? (fun nexthop =>
      s.canForwardTo now ingress.face interest k nexthop.face) = none := by
    rw [List.find?_eq_none]
    intro x hx
    rw [hnone x hx]
    exact Bool.false_ne_true
  rw [hfun, hfind]
  cases hbest : (info.getBestFace s.forwarder.faceTable).1 with
  | none => rfl
  | some bestFace =>
    dsimp only
    have hc2 : canForwardTo ({ s with measurements :=
        (ms.setInfo k.name (info.getBestFace s.forwarder.faceTable).2) } : NccStrategy) now ingress.face interest k bestFace
        = s.canForwardTo now ingress.face interest k bestFace :=
      canForwardTo_congr _ _ _ _ _ _ _ rfl rfl
    rw [hc2]
    by_cases hn : (s.lookupFib k).hasNextHop bestFace = true
    · obtain ⟨x, hx, hxf⟩ := List.any_eq_true.mp hn
      have hxb : x.face = bestFace := by simpa using hxf
      have := hnone x hx
      rw [hxb] at this
      rw [this]
      simp
    · have hn2 : (s.lookupFib k).hasNextHop bestFace = false := by simpa using hn
      rw [hn2]
      rfl

end NccStrategy

namespace NccStrategy

theorem filter_append_fresh (l : List TimerEvent) (ev : TimerEvent) (handle : Option Nat)
    (h : ∀ x, handle = some x → x < ev.id) :
    (l ++ [ev]).filter (fun e => some e.id != handle)
      = l.filter (fun e => some e.id != handle) ++ [ev] := by
  rw [List.filter_append]
  congr 1
  rw [List.filter_cons]
  have : (some ev.id != handle) = true := by
    cases handle with
    | none => rfl
    | some x =>
      have hx := h x rfl
      have hne : ev.id ≠ x := by omega
      simp [hne]
  rw [if_pos this]
  rfl

/-- Storing a new handle in `bestFaceTimeout` after scheduling the callback: the event
held before is cancelled, the new one waits. -/
theorem armBestFaceTimeout (s : NccStrategy) (k : PitKey) (i : PitEntryInfo) (now after : Int)
    (hinfo : s.getPitEntryInfo k = some i)
    (hfresh : ∀ h, i.bestFaceTimeout = some h → h < s.nextEventId) :
    ((s.schedule now after (Callback.timeoutOnBestFace k)).2.setBestFaceTimeout k
        s.nextEventId).events
      = s.events.filter (fun e => some e.id != i.bestFaceTimeout)
          ++ [{ id := s.nextEventId, fireAt := now + after,
                callback := Callback.timeoutOnBestFace k }] ∧
    ((s.schedule now after (Callback.timeoutOnBestFace k)).2.setBestFaceTimeout k
        s.nextEventId).getPitEntryInfo k
      = some { i with bestFaceTimeout := some s.nextEventId } ∧
    (∀ k2, k2 ≠ k →
      ((s.schedule now after (Callback.timeoutOnBestFace k)).2.setBestFaceTimeout k
        s.nextEventId).getPitEntryInfo k2 = s.getPitEntryInfo k2) ∧
    ((s.schedule now after (Callback.timeoutOnBestFace k)).2.setBestFaceTimeout k
        s.nextEventId).nextEventId = s.nextEventId + 1 ∧
    ((s.schedule now after (Callback.timeoutOnBestFace k)).2.setBestFaceTimeout k
        s.nextEventId).forwarder = s.forwarder ∧
    ((s.schedule now after (Callback.timeoutOnBestFace k)).2.setBestFaceTimeout k
        s.nextEventId).measurements = s.measurements ∧
    ((s.schedule now after (Callback.timeoutOnBestFace k)).2.setBestFaceTimeout k
        s.nextEventId).lookupFib = s.lookupFib ∧
    ((s.schedule now after (Callback.timeoutOnBestFace k)).2.setBestFaceTimeout k
        s.nextEventId).wouldViolateScope = s.wouldViolateScope ∧
    ((s.schedule now after (Callback.timeoutOnBestFace k)).2.setBestFaceTimeout k
        s.nextEventId).inNamespace = s.inNamespace := by
  have hinfo2 : (s.schedule now after (Callback.timeoutOnBestFace k)).2.getPitEntryInfo k
      = some i := hinfo
  rw [setBestFaceTimeout_of_info _ k _ i hinfo2]
  refine ⟨?_, ?_, ?_, ?_, ?_, ?_, ?_, ?_, ?_⟩
  · rw [modifyPitEntryInfo_frame]
    dsimp only
    rw [cancel_events]
    exact filter_append_fresh _ _ _ hfresh
  · rw [getPitEntryInfo_modifyPitEntryInfo_same,
      getPitEntryInfo_congr _ s (by rw [cancel_frame]; rfl), hinfo]
    rfl
  · intro k2 hk2
    rw [getPitEntryInfo_modifyPitEntryInfo, if_neg hk2]
    exact getPitEntryInfo_congr _ s (by rw [cancel_frame]; rfl) k2
  · rw [modifyPitEntryInfo_frame, cancel_frame]
    rfl
  · rw [modifyPitEntryInfo_frame, cancel_frame]
    rfl
  · rw [modifyPitEntryInfo_frame, cancel_frame]
    rfl
  · rw [modifyPitEntryInfo_frame, cancel_frame]
    rfl
  · rw [modifyPitEntryInfo_frame, cancel_frame]
    rfl
  · rw [modifyPitEntryInfo_frame, cancel_frame]
    rfl

/-- Storing a new handle in `propagateTimer` after scheduling `doPropagate`: the event
held before is cancelled, the new one waits. -/
theorem armPropagateTimer (s : NccStrategy) (k : PitKey) (i : PitEntryInfo) (now after : Int)
    (inFaceId : FaceId) (hinfo : s.getPitEntryInfo k = some i)
    (hfresh : ∀ h, i.propagateTimer = some h → h < s.nextEventId) :
    ((s.schedule now after (Callback.doPropagate inFaceId k)).2.setPropagateTimer k
        s.nextEventId).events
      = s.events.filter (fun e => some e.id != i.propagateTimer)
          ++ [{ id := s.nextEventId, fireAt := now + after,
                callback := Callback.doPropagate inFaceId k }] ∧
    ((s.schedule now after (Callback.doPropagate inFaceId k)).2.setPropagateTimer k
        s.nextEventId).getPitEntryInfo k
      = some { i with propagateTimer := some s.nextEventId } ∧
    (∀ k2, k2 ≠ k →
      ((s.schedule now after (Callback.doPropagate inFaceId k)).2.setPropagateTimer k
        s.nextEventId).getPitEntryInfo k2 = s.getPitEntryInfo k2) ∧
    ((s.schedule now after (Callback.doPropagate inFaceId k)).2.setPropagateTimer k
        s.nextEventId).nextEventId = s.nextEventId + 1 ∧
    ((s.schedule now after (Callback.doPropagate inFaceId k)).2.setPropagateTimer k
        s.nextEventId).forwarder = s.forwarder ∧
    ((s.schedule now after (Callback.doPropagate inFaceId k)).2.setPropagateTimer k
        s.nextEventId).measurements = s.measurements ∧
    ((s.schedule now after (Callback.doPropagate inFaceId k)).2.setPropagateTimer k
        s.nextEventId).lookupFib = s.lookupFib ∧
    ((s.schedule now after (Callback.doPropagate inFaceId k)).2.setPropagateTimer k
        s.nextEventId).wouldViolateScope = s.wouldViolateScope ∧
    ((s.schedule now after (Callback.doPropagate inFaceId k)).2.setPropagateTimer k
        s.nextEventId).inNamespace = s.inNamespace := by
  have hinfo2 : (s.schedule now after (Callback.doPropagate inFaceId k)).2.getPitEntryInfo k
      = some i := hinfo
  rw [setPropagateTimer_of_info _ k _ i hinfo2]
  refine ⟨?_, ?_, ?_, ?_, ?_, ?_, ?_, ?_, ?_⟩
  · rw [modifyPitEntryInfo_frame]
    dsimp only
    rw [cancel_events]
    exact filter_append_fresh _ _ _ hfresh
  · rw [getPitEntryInfo_modifyPitEntryInfo_same,
      getPitEntryInfo_congr _ s (by rw [cancel_frame]; rfl), hinfo]
    rfl
  · intro k2 hk2
    rw [getPitEntryInfo_modifyPitEntryInfo, if_neg hk2]
    exact getPitEntryInfo_congr _ s (by rw [cancel_frame]; rfl) k2
  · rw [modifyPitEntryInfo_frame, cancel_frame]
    rfl
  · rw [modifyPitEntryInfo_frame, cancel_frame]
    rfl
  · rw [modifyPitEntryInfo_frame, cancel_frame]
    rfl
  · rw [modifyPitEntryInfo_frame, cancel_frame]
    rfl
  · rw [modifyPitEntryInfo_frame, cancel_frame]
    rfl
  · rw [modifyPitEntryInfo_frame, cancel_frame]
    rfl

end NccStrategy

namespace NccStrategy

/-- A new Interest with next hops that was forwarded: `afterReceiveInterest` sets
`maxInterval` and arms the propagate timer. -/
theorem afterReceiveInterest_armed (s : NccStrategy) (now : Int) (ingress : FaceEndpoint)
    (interest : Interest) (k : PitKey) (d : Deferral) (X : NccStrategy)
    (hne : (s.lookupFib k).nextHops ≠ []) (hnew : s.isNewPitEntry now k = true)
    (hr : (s.insertPitEntryInfo k).forwardToBestOrFirst now ingress interest k = (some d, X)) :
    s.afterReceiveInterest now ingress interest k =
      (((X.modifyPitEntryInfo k (fun i => { i with maxInterval :=
            (maxIntervalFor d (X.countPreviousFace now ingress interest k d.nUpstreams)) })
          ).schedule now (d.deferFirst * 1000) (Callback.doPropagate ingress.face.id k)).2
        ).setPropagateTimer k X.nextEventId := by
  unfold afterReceiveInterest
  dsimp only
  have hlen : ((s.lookupFib k).nextHops.length == 0) = false := by
    cases hl : (s.lookupFib k).nextHops with
    | nil => exact absurd hl hne
    | cons x xs => rfl
  rw [hlen]
  have hnew2 : (s.insertPitEntryInfo k).isNewPitEntry now k = true := by
    rw [isNewPitEntry_congr _ s now k (by rw [insertPitEntryInfo_frame])]
    exact hnew
  rw [hnew2, hr]
  rfl

/-- A new Interest with next hops that was rejected: `afterReceiveInterest` returns. -/
theorem afterReceiveInterest_rejected (s : NccStrategy) (now : Int) (ingress : FaceEndpoint)
    (interest : Interest) (k : PitKey) (X : NccStrategy)
    (hne : (s.lookupFib k).nextHops ≠ []) (hnew : s.isNewPitEntry now k = true)
    (hr : (s.insertPitEntryInfo k).forwardToBestOrFirst now ingress interest k = (none, X)) :
    s.afterReceiveInterest now ingress interest k = X := by
  unfold afterReceiveInterest
  dsimp only
  have hlen : ((s.lookupFib k).nextHops.length == 0) = false := by
    cases hl : (s.lookupFib k).nextHops with
    | nil => exact absurd hl hne
    | cons x xs => rfl
  rw [hlen]
  have hnew2 : (s.insertPitEntryInfo k).isNewPitEntry now k = true := by
    rw [isNewPitEntry_congr _ s now k (by rw [insertPitEntryInfo_frame])]
    exact hnew
  rw [hnew2, hr]
  rfl

theorem getD_bestFaceTimeout (o : Option PitEntryInfo) :
    (o.getD { bestFaceTimeout := none, propagateTimer := none, maxInterval := 0 }).bestFaceTimeout
      = o.bind (fun i => i.bestFaceTimeout) := by
  cases o <;> rfl

theorem getD_propagateTimer (o : Option PitEntryInfo) :
    (o.getD { bestFaceTimeout := none, propagateTimer := none, maxInterval := 0 }).propagateTimer
      = o.bind (fun i => i.propagateTimer) := by
  cases o <;> rfl

end NccStrategy

namespace NccStrategy

theorem maxIntervalFor_pos (d : Deferral) (nUpstreams : Nat) (h : 1 ≤ d.deferFirst) :
    1 ≤ maxIntervalFor d nUpstreams := by
  unfold maxIntervalFor
  split
  · exact le_max_left _ _
  · exact h

/-- The state after `insertPitEntryInfo` and the reading of the best face: it differs
from the one before in the `PitEntryInfo` items and the Measurements table only. -/
theorem bestFaceOfPitEntry_insertPitEntryInfo_frame (s : NccStrategy) (now : Int) (k : PitKey) :
    ((s.insertPitEntryInfo k).bestFaceOfPitEntry now k).2
      = { s with pitEntryInfo := (s.insertPitEntryInfo k).pitEntryInfo
                 measurements := ((s.insertPitEntryInfo k).bestFaceOfPitEntry now k).2.measurements } := by
  rw [bestFaceOfPitEntry_frame, insertPitEntryInfo_frame]

/-- The new Interest went to the best face: what `afterReceiveInterest` leaves. -/
theorem afterReceiveInterest_best (s : NccStrategy) (now : Int) (ingress : FaceEndpoint)
    (interest : Interest) (k : PitKey) (bestFace : Face)
    (hne : (s.lookupFib k).nextHops ≠ []) (hnew : s.isNewPitEntry now k = true)
    (hb : ((s.insertPitEntryInfo k).bestFaceOfPitEntry now k).1 = some bestFace)
    (hn : (s.lookupFib k).hasNextHop bestFace = true)
    (hc : s.canForwardTo now ingress.face interest k bestFace = true)
    (hfresh : ∀ i, s.getPitEntryInfo k = some i →
      (∀ h, i.bestFaceTimeout = some h → h < s.nextEventId) ∧
      (∀ h, i.propagateTimer = some h → h < s.nextEventId)) :
    (s.afterReceiveInterest now ingress interest k).forwarder
      = s.forwarder.onOutgoingInterest now k { face := bestFace, endpoint := 0 } interest ∧
    (s.afterReceiveInterest now ingress interest k).events
      = (s.events.filter (fun e => some e.id !=
            (s.getPitEntryInfo k).bind (fun i => i.bestFaceTimeout))).filter
          (fun e => some e.id != (s.getPitEntryInfo k).bind (fun i => i.propagateTimer))
        ++ [{ id := s.nextEventId
              fireAt := now + ((s.insertPitEntryInfo k).getMeasurementsEntryInfoOfPitEntry
                now k).1.prediction * 1000
              callback := Callback.timeoutOnBestFace k },
            { id := s.nextEventId + 1
              fireAt := now + ((s.insertPitEntryInfo k).getMeasurementsEntryInfoOfPitEntry
                now k).1.prediction * 1000
              callback := Callback.doPropagate ingress.face.id k }] ∧
    (∃ nUpstreams, (s.afterReceiveInterest now ingress interest k).getPitEntryInfo k
      = some { bestFaceTimeout := some s.nextEventId
               propagateTimer := some (s.nextEventId + 1)
               maxInterval := maxIntervalFor
                 { deferFirst := ((s.insertPitEntryInfo k).getMeasurementsEntryInfoOfPitEntry
                     now k).1.prediction
                   deferRange := Int.tdiv
                     (((s.insertPitEntryInfo k).getMeasurementsEntryInfoOfPitEntry
                       now k).1.prediction + 1) 2
                   nUpstreams := decrementSize (s.lookupFib k).nextHops.length }
                 nUpstreams }) ∧
    (∀ k2, k2 ≠ k → (s.afterReceiveInterest now ingress interest k).getPitEntryInfo k2
      = s.getPitEntryInfo k2) ∧
    (s.afterReceiveInterest now ingress interest k).measurements
      = ((s.insertPitEntryInfo k).bestFaceOfPitEntry now k).2.measurements := by
  have hX := forwardToBestOrFirst_best (s.insertPitEntryInfo k) now ingress interest k bestFace hb
    (by rw [insertPitEntryInfo_frame]; exact hn)
    (by rw [canForwardTo_congr _ s _ _ _ _ _ (by rw [insertPitEntryInfo_frame])
          (by rw [insertPitEntryInfo_frame])]; exact hc)
  have hlook : (s.insertPitEntryInfo k).lookupFib = s.lookupFib := by
    rw [insertPitEntryInfo_frame]
  have hnext : (s.insertPitEntryInfo k).nextEventId = s.nextEventId := by
    rw [insertPitEntryInfo_frame]
  rw [hlook, hnext] at hX
  rw [afterReceiveInterest_armed s now ingress interest k _ _ hne hnew hX]
  have hframe := bestFaceOfPitEntry_insertPitEntryInfo_frame s now k
  have hold := getPitEntryInfo_insertPitEntryInfo_same s k
  generalize hP : ((s.insertPitEntryInfo k).getMeasurementsEntryInfoOfPitEntry now k).1.prediction
    = pred at hX ⊢
  generalize hS : ((s.insertPitEntryInfo k).bestFaceOfPitEntry now k).2.sendInterest now k
    { face := bestFace, endpoint := 0 } interest = S at hX ⊢
  have hS1 : S.getPitEntryInfo k = some ((s.getPitEntryInfo k).getD
      { bestFaceTimeout := none, propagateTimer := none, maxInterval := 0 }) := by
    rw [← hold]
    apply getPitEntryInfo_congr
    rw [← hS, hframe]
    rfl
  have hS2 : S.nextEventId = s.nextEventId := by rw [← hS, hframe]; rfl
  have hS3 : S.events = s.events := by rw [← hS, hframe]; rfl
  have hS4 : S.forwarder
      = s.forwarder.onOutgoingInterest now k { face := bestFace, endpoint := 0 } interest := by
    rw [← hS, hframe]; rfl
  have hS5 : S.measurements
      = ((s.insertPitEntryInfo k).bestFaceOfPitEntry now k).2.measurements := by
    rw [← hS]; rfl
  have hS6 : ∀ k2, k2 ≠ k → S.getPitEntryInfo k2 = s.getPitEntryInfo k2 := by
    intro k2 hk2
    rw [← getPitEntryInfo_insertPitEntryInfo_of_ne s k k2 hk2]
    apply getPitEntryInfo_congr
    rw [← hS, hframe]
    rfl
  have hfreshB : ∀ h, ((s.getPitEntryInfo k).getD
      { bestFaceTimeout := none, propagateTimer := none, maxInterval := 0 }).bestFaceTimeout
      = some h → h < S.nextEventId := by
    intro h hh
    rw [hS2]
    cases hinfo : s.getPitEntryInfo k with
    | none => rw [hinfo] at hh; cases hh
    | some i => rw [hinfo] at hh; exact (hfresh i hinfo).1 h hh
  have hfreshP : ∀ h, ((s.getPitEntryInfo k).getD
      { bestFaceTimeout := none, propagateTimer := none, maxInterval := 0 }).propagateTimer
      = some h → h < s.nextEventId := by
    intro h hh
    cases hinfo : s.getPitEntryInfo k with
    | none => rw [hinfo] at hh; cases hh
    | some i => rw [hinfo] at hh; exact (hfresh i hinfo).2 h hh
  rw [← getD_bestFaceTimeout, ← getD_propagateTimer]
  generalize (s.getPitEntryInfo k).getD
    { bestFaceTimeout := none, propagateTimer := none, maxInterval := 0 } = old
    at hS1 hfreshB hfreshP ⊢
  obtain ⟨a1, a2, a3, a4, a5, a6, a7, a8, a9⟩ :=
    armBestFaceTimeout S k _ now (pred * 1000) hS1 hfreshB
  rw [hS2] at a1 a2 a3 a4 a5 a6 a7 a8 a9
  generalize hX2 : (S.schedule now (pred * 1000) (Callback.timeoutOnBestFace k)).2.setBestFaceTimeout
    k s.nextEventId = X at a1 a2 a3 a4 a5 a6 a7 a8 a9 ⊢
  generalize hv : maxIntervalFor
    { deferFirst := pred, deferRange := Int.tdiv (pred + 1) 2,
      nUpstreams := decrementSize (s.lookupFib k).nextHops.length }
    (X.countPreviousFace now ingress interest k
      (decrementSize (s.lookupFib k).nextHops.length)) = v
  generalize hY : X.modifyPitEntryInfo k (fun i => { i with maxInterval := v }) = Y
  have hY1 : Y.getPitEntryInfo k = some ({ bestFaceTimeout := some s.nextEventId, propagateTimer := old.propagateTimer, maxInterval := v } : PitEntryInfo) := by
    rw [← hY, getPitEntryInfo_modifyPitEntryInfo_same, a2]
    rfl
  have hY2 : Y.nextEventId = s.nextEventId + 1 := by rw [← hY]; exact a4
  have hY3 : Y.events = X.events := by rw [← hY]; rfl
  have hfreshP2 : ∀ h, ({ bestFaceTimeout := some s.nextEventId, propagateTimer := old.propagateTimer, maxInterval := v } : PitEntryInfo).propagateTimer = some h → h < Y.nextEventId := by
    intro h hh
    rw [hY2]
    exact Nat.lt_succ_of_lt (hfreshP h hh)
  obtain ⟨b1, b2, b3, b4, b5, b6, b7, b8, b9⟩ :=
    armPropagateTimer Y k _ now (pred * 1000) ingress.face.id hY1 hfreshP2
  have hXn : X.nextEventId = Y.nextEventId := by rw [← hY]; rfl
  rw [hXn]
  refine ⟨?_, ?_, ⟨X.countPreviousFace now ingress interest k
    (decrementSize (s.lookupFib k).nextHops.length), ?_⟩, ?_, ?_⟩
  · rw [b5, ← hY]
    exact a5.trans hS4
  · rw [b1, hY3, a1, hS3, hY2]
    dsimp only
    rw [filter_append_fresh _ _ _ (by intro x hx; exact hfreshP x hx), List.append_assoc]
    rfl
  · rw [b2, hY2, hv]
  · intro k2 hk2
    rw [b3 k2 hk2, ← hY, getPitEntryInfo_modifyPitEntryInfo, if_neg hk2, a3 k2 hk2]
    exact hS6 k2 hk2
  · rw [b6, ← hY]
    exact a6.trans hS5

end NccStrategy

namespace NccStrategy

/-- The new Interest went to the first eligible next hop: what `afterReceiveInterest`
leaves. -/
theorem afterReceiveInterest_first (s : NccStrategy) (now : Int) (ingress : FaceEndpoint)
    (interest : Interest) (k : PitKey) (firstEligibleNexthop : fib.NextHop)
    (hne : (s.lookupFib k).nextHops ≠ []) (hnew : s.isNewPitEntry now k = true)
    (hb : ∀ bestFace, ((s.insertPitEntryInfo k).bestFaceOfPitEntry now k).1 = some bestFace →
      ((s.lookupFib k).hasNextHop bestFace
        && s.canForwardTo now ingress.face interest k bestFace) = false)
    (hfind : (s.lookupFib k).nextHops.find? (fun nexthop =>
      s.canForwardTo now ingress.face interest k nexthop.face) = some firstEligibleNexthop)
    (hfresh : ∀ i, s.getPitEntryInfo k = some i →
      ∀ h, i.propagateTimer = some h → h < s.nextEventId) :
    (s.afterReceiveInterest now ingress interest k).forwarder
      = s.forwarder.onOutgoingInterest now k
          { face := firstEligibleNexthop.face, endpoint := 0 } interest ∧
    (s.afterReceiveInterest now ingress interest k).events
      = s.events.filter
          (fun e => some e.id != (s.getPitEntryInfo k).bind (fun i => i.propagateTimer))
        ++ [{ id := s.nextEventId
              fireAt := now + DEFER_FIRST_WITHOUT_BEST_FACE * 1000
              callback := Callback.doPropagate ingress.face.id k }] ∧
    (∃ nUpstreams, (s.afterReceiveInterest now ingress interest k).getPitEntryInfo k
      = some { bestFaceTimeout := (s.getPitEntryInfo k).bind (fun i => i.bestFaceTimeout)
               propagateTimer := some s.nextEventId
               maxInterval := maxIntervalFor
                 { deferFirst := DEFER_FIRST_WITHOUT_BEST_FACE
                   deferRange := DEFER_RANGE_WITHOUT_BEST_FACE
                   nUpstreams := (s.lookupFib k).nextHops.length }
                 nUpstreams }) ∧
    (∀ k2, k2 ≠ k → (s.afterReceiveInterest now ingress interest k).getPitEntryInfo k2
      = s.getPitEntryInfo k2) ∧
    (s.afterReceiveInterest now ingress interest k).measurements
      = ((s.insertPitEntryInfo k).bestFaceOfPitEntry now k).2.measurements := by
  have hcan : ∀ face, (s.insertPitEntryInfo k).canForwardTo now ingress.face interest k face
      = s.canForwardTo now ingress.face interest k face := by
    intro face
    exact canForwardTo_congr _ s _ _ _ _ _ (by rw [insertPitEntryInfo_frame])
      (by rw [insertPitEntryInfo_frame])
  have hlook : (s.insertPitEntryInfo k).lookupFib = s.lookupFib := by
    rw [insertPitEntryInfo_frame]
  have hfun : (fun nexthop : fib.NextHop =>
      (s.insertPitEntryInfo k).canForwardTo now ingress.face interest k nexthop.face)
      = (fun nexthop => s.canForwardTo now ingress.face interest k nexthop.face) := by
    funext nexthop
    exact hcan nexthop.face
  have hX := forwardToBestOrFirst_first (s.insertPitEntryInfo k) now ingress interest k
    firstEligibleNexthop
    (by intro bestFace hbf; rw [hlook, hcan]; exact hb bestFace hbf)
    (by rw [hlook, hfun]; exact hfind)
  rw [hlook] at hX
  rw [afterReceiveInterest_armed s now ingress interest k _ _ hne hnew hX]
  have hframe := bestFaceOfPitEntry_insertPitEntryInfo_frame s now k
  have hold := getPitEntryInfo_insertPitEntryInfo_same s k
  generalize hS : ((s.insertPitEntryInfo k).bestFaceOfPitEntry now k).2.sendInterest now k
    { face := firstEligibleNexthop.face, endpoint := 0 } interest = S at hX ⊢
  have hS1 : S.getPitEntryInfo k = some ((s.getPitEntryInfo k).getD
      { bestFaceTimeout := none, propagateTimer := none, maxInterval := 0 }) := by
    rw [← hold]
    apply getPitEntryInfo_congr
    rw [← hS, hframe]
    rfl
  have hS2 : S.nextEventId = s.nextEventId := by rw [← hS, hframe]; rfl
  have hS3 : S.events = s.events := by rw [← hS, hframe]; rfl
  have hS4 : S.forwarder = s.forwarder.onOutgoingInterest now k
      { face := firstEligibleNexthop.face, endpoint := 0 } interest := by
    rw [← hS, hframe]; rfl
  have hS5 : S.measurements
      = ((s.insertPitEntryInfo k).bestFaceOfPitEntry now k).2.measurements := by
    rw [← hS]; rfl
  have hS6 : ∀ k2, k2 ≠ k → S.getPitEntryInfo k2 = s.getPitEntryInfo k2 := by
    intro k2 hk2
    rw [← getPitEntryInfo_insertPitEntryInfo_of_ne s k k2 hk2]
    apply getPitEntryInfo_congr
    rw [← hS, hframe]
    rfl
  have hfreshP : ∀ h, ((s.getPitEntryInfo k).getD
      { bestFaceTimeout := none, propagateTimer := none, maxInterval := 0 }).propagateTimer
      = some h → h < s.nextEventId := by
    intro h hh
    cases hinfo : s.getPitEntryInfo k with
    | none => rw [hinfo] at hh; cases hh
    | some i => rw [hinfo] at hh; exact hfresh i hinfo h hh
  rw [← getD_bestFaceTimeout, ← getD_propagateTimer]
  generalize (s.getPitEntryInfo k).getD
    { bestFaceTimeout := none, propagateTimer := none, maxInterval := 0 } = old
    at hS1 hfreshP ⊢
  generalize hv : maxIntervalFor
    { deferFirst := DEFER_FIRST_WITHOUT_BEST_FACE, deferRange := DEFER_RANGE_WITHOUT_BEST_FACE,
      nUpstreams := (s.lookupFib k).nextHops.length }
    (S.countPreviousFace now ingress interest k (s.lookupFib k).nextHops.length) = v
  generalize hY : S.modifyPitEntryInfo k (fun i => { i with maxInterval := v }) = Y
  have hY1 : Y.getPitEntryInfo k = some ({ bestFaceTimeout := old.bestFaceTimeout, propagateTimer := old.propagateTimer, maxInterval := v } : PitEntryInfo) := by
    rw [← hY, getPitEntryInfo_modifyPitEntryInfo_same, hS1]
    rfl
  have hY2 : Y.nextEventId = s.nextEventId := by rw [← hY]; exact hS2
  have hY3 : Y.events = S.events := by rw [← hY]; rfl
  have hfreshP2 : ∀ h, ({ bestFaceTimeout := old.bestFaceTimeout, propagateTimer := old.propagateTimer, maxInterval := v } : PitEntryInfo).propagateTimer = some h → h < Y.nextEventId := by
    intro h hh
    rw [hY2]
    exact hfreshP h hh
  obtain ⟨b1, b2, b3, b4, b5, b6, b7, b8, b9⟩ :=
    armPropagateTimer Y k _ now (DEFER_FIRST_WITHOUT_BEST_FACE * 1000) ingress.face.id hY1
      hfreshP2
  have hXn : S.nextEventId = Y.nextEventId := by rw [← hY]; rfl
  rw [hXn]
  refine ⟨?_, ?_, ⟨S.countPreviousFace now ingress interest k (s.lookupFib k).nextHops.length,
    ?_⟩, ?_, ?_⟩
  · rw [b5, ← hY]
    exact hS4
  · rw [b1, hY3, hS3, hY2]
  · rw [b2, hY2, hv]
  · intro k2 hk2
    rw [b3 k2 hk2, ← hY, getPitEntryInfo_modifyPitEntryInfo, if_neg hk2]
    exact hS6 k2 hk2
  · rw [b6, ← hY]
    exact hS5

/-- The new Interest has next hops but none can be forwarded to: what
`afterReceiveInterest` leaves. -/
theorem afterReceiveInterest_none_eligible (s : NccStrategy) (now : Int)
    (ingress : FaceEndpoint) (interest : Interest) (k : PitKey)
    (hne : (s.lookupFib k).nextHops ≠ []) (hnew : s.isNewPitEntry now k = true)
    (hnone : ∀ nexthop ∈ (s.lookupFib k).nextHops,
      s.canForwardTo now ingress.face interest k nexthop.face = false) :
    s.afterReceiveInterest now ingress interest k
      = ((s.insertPitEntryInfo k).bestFaceOfPitEntry now k).2.rejectPendingInterest now k := by
  have hcan : ∀ face, (s.insertPitEntryInfo k).canForwardTo now ingress.face interest k face
      = s.canForwardTo now ingress.face interest k face := by
    intro face
    exact canForwardTo_congr _ s _ _ _ _ _ (by rw [insertPitEntryInfo_frame])
      (by rw [insertPitEntryInfo_frame])
  have hlook : (s.insertPitEntryInfo k).lookupFib = s.lookupFib := by
    rw [insertPitEntryInfo_frame]
  have hX := forwardToBestOrFirst_reject (s.insertPitEntryInfo k) now ingress interest k
    (by intro nexthop hmem; rw [hcan]; rw [hlook] at hmem; exact hnone nexthop hmem)
  exact afterReceiveInterest_rejected s now ingress interest k _ hne hnew hX

theorem afterReceiveInterest_of_empty (s : NccStrategy) (now : Int) (ingress : FaceEndpoint)
    (interest : Interest) (k : PitKey) (h : (s.lookupFib k).nextHops = []) :
    s.afterReceiveInterest now ingress interest k = s.rejectPendingInterest now k := by
  unfold afterReceiveInterest
  dsimp only
  rw [h]
  rfl

theorem afterReceiveInterest_of_retransmission (s : NccStrategy) (now : Int)
    (ingress : FaceEndpoint) (interest : Interest) (k : PitKey)
    (hne : (s.lookupFib k).nextHops ≠ []) (hnew : s.isNewPitEntry now k = false) :
    s.afterReceiveInterest now ingress interest k = s.insertPitEntryInfo k := by
  unfold afterReceiveInterest
  dsimp only
  have hlen : ((s.lookupFib k).nextHops.length == 0) = false := by
    cases hl : (s.lookupFib k).nextHops with
    | nil => exact absurd hl hne
    | cons x xs => rfl
  rw [hlen]
  have hnew2 : (s.insertPitEntryInfo k).isNewPitEntry now k = false := by
    rw [isNewPitEntry_congr _ s now k (by rw [insertPitEntryInfo_frame])]
    exact hnew
  rw [hnew2]
  rfl

end NccStrategy

namespace NccStrategy

/-- C32: `afterReceiveInterest` on a PIT entry whose handles, if it has a `PitEntryInfo`,
were issued by the scheduler.  With an empty next-hop list the Interest is rejected:
nothing is sent and no timer is armed.  With next hops and a pending out-record in the
entry (a retransmission) nothing is sent and nothing is armed.  A new Interest with next
hops goes to exactly one face.  When `getBestFace` gives a face that is a next hop and
can be forwarded to, the Interest goes to it, and the best-face timeout and the propagate
timer are armed at now plus the prediction.  Otherwise it goes to the first next hop, in
list order, that can be forwarded to, and the propagate timer is armed at now plus 4 ms.
When no next hop can be forwarded to, the Interest is rejected: nothing is sent and no
timer is armed. -/
theorem afterReceiveInterest_spec (s : NccStrategy) (now : Int) (ingress : FaceEndpoint)
    (interest : Interest) (k : PitKey)
    (hfresh : ∀ i, s.getPitEntryInfo k = some i →
      (∀ h, i.bestFaceTimeout = some h → h < s.nextEventId) ∧
      (∀ h, i.propagateTimer = some h → h < s.nextEventId)) :
    ((s.lookupFib k).nextHops = [] →
      s.afterReceiveInterest now ingress interest k = s.rejectPendingInterest now k ∧
      (s.afterReceiveInterest now ingress interest k).forwarder
        = s.forwarder.setExpiryTimer now k 0 ∧
      (s.afterReceiveInterest now ingress interest k).forwarder.log = s.forwarder.log ∧
      (s.afterReceiveInterest now ingress interest k).events = s.events ∧
      (s.afterReceiveInterest now ingress interest k).pitEntryInfo = s.pitEntryInfo) ∧
    ((s.lookupFib k).nextHops ≠ [] → s.isNewPitEntry now k = false →
      s.afterReceiveInterest now ingress interest k = s.insertPitEntryInfo k ∧
      (s.afterReceiveInterest now ingress interest k).forwarder = s.forwarder ∧
      (s.afterReceiveInterest now ingress interest k).events = s.events ∧
      (∀ i, s.getPitEntryInfo k = some i →
        (s.afterReceiveInterest now ingress interest k).getPitEntryInfo k = some i)) ∧
    (∀ bestFace, (s.lookupFib k).nextHops ≠ [] → s.isNewPitEntry now k = true →
      ((s.insertPitEntryInfo k).bestFaceOfPitEntry now k).1 = some bestFace →
      (s.lookupFib k).hasNextHop bestFace = true →
      s.canForwardTo now ingress.face interest k bestFace = true →
      (s.afterReceiveInterest now ingress interest k).forwarder
        = s.forwarder.onOutgoingInterest now k { face := bestFace, endpoint := 0 } interest ∧
      (s.afterReceiveInterest now ingress interest k).forwarder.log
        = s.forwarder.log ++
          [Event.onOutgoingInterest k { face := bestFace, endpoint := 0 } interest,
           Event.sendInterest bestFace 0 interest] ∧
      (s.afterReceiveInterest now ingress interest k).events
        = (s.events.filter (fun e => some e.id !=
              (s.getPitEntryInfo k).bind (fun i => i.bestFaceTimeout))).filter
            (fun e => some e.id != (s.getPitEntryInfo k).bind (fun i => i.propagateTimer))
          ++ [{ id := s.nextEventId
                fireAt := now + ((s.insertPitEntryInfo k).getMeasurementsEntryInfoOfPitEntry
                  now k).1.prediction * 1000
                callback := Callback.timeoutOnBestFace k },
              { id := s.nextEventId + 1
                fireAt := now + ((s.insertPitEntryInfo k).getMeasurementsEntryInfoOfPitEntry
                  now k).1.prediction * 1000
                callback := Callback.doPropagate ingress.face.id k }] ∧
      ((s.afterReceiveInterest now ingress interest k).getPitEntryInfo k).map
          (fun i => (i.bestFaceTimeout, i.propagateTimer))
        = some (some s.nextEventId, some (s.nextEventId + 1))) ∧
    (∀ firstEligibleNexthop, (s.lookupFib k).nextHops ≠ [] → s.isNewPitEntry now k = true →
      (∀ bestFace, ((s.insertPitEntryInfo k).bestFaceOfPitEntry now k).1 = some bestFace →
        ((s.lookupFib k).hasNextHop bestFace
          && s.canForwardTo now ingress.face interest k bestFace) = false) →
      (s.lookupFib k).nextHops.find? (fun nexthop =>
        s.canForwardTo now ingress.face interest k nexthop.face) = some firstEligibleNexthop →
      (s.afterReceiveInterest now ingress interest k).forwarder
        = s.forwarder.onOutgoingInterest now k
            { face := firstEligibleNexthop.face, endpoint := 0 } interest ∧
      (s.afterReceiveInterest now ingress interest k).forwarder.log
        = s.forwarder.log ++
          [Event.onOutgoingInterest k { face := firstEligibleNexthop.face, endpoint := 0 }
             interest,
           Event.sendInterest firstEligibleNexthop.face 0 interest] ∧
      (s.afterReceiveInterest now ingress interest k).events
        = s.events.filter
            (fun e => some e.id != (s.getPitEntryInfo k).bind (fun i => i.propagateTimer))
          ++ [{ id := s.nextEventId
                fireAt := now + 4000000
                callback := Callback.doPropagate ingress.face.id k }] ∧
      ((s.afterReceiveInterest now ingress interest k).getPitEntryInfo k).map
          (fun i => (i.bestFaceTimeout, i.propagateTimer))
        = some ((s.getPitEntryInfo k).bind (fun i => i.bestFaceTimeout),
                some s.nextEventId)) ∧
    ((s.lookupFib k).nextHops ≠ [] → s.isNewPitEntry now k = true →
      (∀ nexthop ∈ (s.lookupFib k).nextHops,
        s.canForwardTo now ingress.face interest k nexthop.face = false) →
      (s.afterReceiveInterest now ingress interest k).forwarder
        = s.forwarder.setExpiryTimer now k 0 ∧
      (s.afterReceiveInterest now ingress interest k).forwarder.log = s.forwarder.log ∧
      (s.afterReceiveInterest now ingress interest k).events = s.events ∧
      (s.afterReceiveInterest now ingress interest k).pitEntryInfo
        = (s.insertPitEntryInfo k).pitEntryInfo) := by
  refine ⟨?_, ?_, ?_, ?_, ?_⟩
  · intro h
    rw [afterReceiveInterest_of_empty s now ingress interest k h]
    exact ⟨rfl, rfl, rfl, rfl, rfl⟩
  · intro hne hnew
    rw [afterReceiveInterest_of_retransmission s now ingress interest k hne hnew]
    refine ⟨rfl, ?_, ?_, ?_⟩
    · rw [insertPitEntryInfo_frame]
    · rw [insertPitEntryInfo_frame]
    · intro i hi
      rw [getPitEntryInfo_insertPitEntryInfo_same, hi]
      rfl
  · intro bestFace hne hnew hb hn hc
    obtain ⟨h1, h2, ⟨n, h3⟩, _, _⟩ :=
      afterReceiveInterest_best s now ingress interest k bestFace hne hnew hb hn hc hfresh
    refine ⟨h1, ?_, h2, ?_⟩
    · rw [h1]
      unfold Forwarder.onOutgoingInterest Forwarder.emit
      simp
    · rw [h3]
      rfl
  · intro firstEligibleNexthop hne hnew hb hfind
    obtain ⟨h1, h2, ⟨n, h3⟩, _, _⟩ :=
      afterReceiveInterest_first s now ingress interest k firstEligibleNexthop hne hnew hb hfind
        (fun i hi => (hfresh i hi).2)
    refine ⟨h1, ?_, h2, ?_⟩
    · rw [h1]
      unfold Forwarder.onOutgoingInterest Forwarder.emit
      simp
    · rw [h3]
      rfl
  · intro hne hnew hnone
    rw [afterReceiveInterest_none_eligible s now ingress interest k hne hnew hnone]
    have hframe := bestFaceOfPitEntry_insertPitEntryInfo_frame s now k
    unfold rejectPendingInterest
    dsimp only
    rw [hframe]
    exact ⟨rfl, rfl, rfl, rfl⟩

/-- C32 (witness): the strategy bound to `/7` knows face B as the best face; the new
Interest for `/7` from face A goes to face B alone, and the best-face timeout (event 0)
and the propagate timer (event 1) are armed at 8192 µs. -/
theorem afterReceiveInterest_spec_witness :
    (Sample.nccLearned.afterReceiveInterest 0 { face := Sample.faceA, endpoint := 0 }
        Sample.interest5 Sample.interest5.pitKey).forwarder.log
      = [Event.onOutgoingInterest Sample.interest5.pitKey
           { face := Sample.faceB, endpoint := 0 } Sample.interest5,
         Event.sendInterest Sample.faceB 0 Sample.interest5] ∧
    (Sample.nccLearned.afterReceiveInterest 0 { face := Sample.faceA, endpoint := 0 }
        Sample.interest5 Sample.interest5.pitKey).events
      = [{ id := 0, fireAt := 8192000,
           callback := Callback.timeoutOnBestFace Sample.interest5.pitKey },
         { id := 1, fireAt := 8192000,
           callback := Callback.doPropagate 1 Sample.interest5.pitKey }] :=
  ⟨((afterReceiveInterest_spec Sample.nccLearned 0 { face := Sample.faceA, endpoint := 0 }
      Sample.interest5 Sample.interest5.pitKey
      (fun i h => Option.noConfusion (h : (none : Option PitEntryInfo) = some i))).2.2.1
      Sample.faceB (by decide) (by decide) (by decide) (by decide) (by decide)).2.1,
   by decide⟩

end NccStrategy

/-! ## The NCC strategy: faces that can still be forwarded to -/

namespace pit

theorem any_congr_mem {α : Type} (l : List α) (p q : α → Bool) (h : ∀ x ∈ l, p x = q x) :
    l.any p = l.any q := by
  induction l with
  | nil => rfl
  | cons x xs ih =>
    rw [List.any_cons, List.any_cons, h x (List.mem_cons_self _ _),
      ih (fun y hy => h y (List.mem_cons_of_mem _ hy))]

theorem any_out_insertOrUpdateOutRecord_self (e : Entry) (now : Int) (face : Face)
    (interest : Interest) (t : Int) (h : t ≤ now + interest.lifetime * 1000000) :
    (e.insertOrUpdateOutRecord now face interest).outRecords.any
      (fun r => r.face == face && decide (t ≤ r.expiry)) = true := by
  unfold Entry.insertOrUpdateOutRecord
  by_cases hany : e.outRecords.any (fun x => x.face == face) = true
  · rw [if_pos hany]
    dsimp only
    obtain ⟨x, hx, hxf⟩ := List.any_eq_true.mp hany
    rw [List.any_eq_true]
    refine ⟨_, List.mem_map_of_mem _ hx, ?_⟩
    rw [if_pos hxf]
    simp only [Bool.and_eq_true, decide_eq_true_eq]
    exact ⟨hxf, h⟩
  · rw [if_neg hany]
    dsimp only
    rw [List.any_append]
    simp [h]

theorem any_out_insertOrUpdateOutRecord_of_ne (e : Entry) (now : Int) (face : Face)
    (interest : Interest) (g : Face) (t : Int) (hne : g ≠ face) :
    (e.insertOrUpdateOutRecord now face interest).outRecords.any
        (fun r => r.face == g && decide (t ≤ r.expiry))
      = e.outRecords.any (fun r => r.face == g && decide (t ≤ r.expiry)) := by
  have hfg : (face == g) = false := by
    simpa using (fun h : face = g => hne h.symm)
  unfold Entry.insertOrUpdateOutRecord
  by_cases hany : e.outRecords.any (fun x => x.face == face) = true
  · rw [if_pos hany]
    dsimp only
    rw [List.any_map]
    apply any_congr_mem
    intro x _
    dsimp only [Function.comp]
    by_cases hxf : (x.face == face) = true
    · rw [if_pos hxf]
      have hx : x.face = face := by simpa using hxf
      simp only [hx, hfg, Bool.false_and]
    · rw [if_neg hxf]
  · rw [if_neg hany]
    dsimp only
    rw [List.any_append]
    simp [hfg]

/-- After an Interest with a lifetime that is not negative went out on a face, that face
cannot be forwarded to at the same instant; for the other faces nothing changes. -/
theorem canForwardToLegacy_insertOrUpdateOutRecord (e : Entry) (now : Int) (face : Face)
    (interest : Interest) (g : Face) (hlife : 0 ≤ interest.lifetime) :
    fw.canForwardToLegacy (e.insertOrUpdateOutRecord now face interest) now g
      = if g = face then false else fw.canForwardToLegacy e now g := by
  unfold fw.canForwardToLegacy
  dsimp only
  by_cases hg : g = face
  · rw [if_pos hg, hg,
      any_out_insertOrUpdateOutRecord_self e now face interest now (by omega)]
    rfl
  · rw [if_neg hg, any_out_insertOrUpdateOutRecord_of_ne e now face interest g now hg,
      (insertOrUpdateOutRecord_interest e now face interest).2.1]

end pit

namespace NccStrategy

/-- After `sendInterest` to a face with an Interest whose lifetime is not negative, that
face cannot be forwarded to at the same instant; for the other faces nothing changes. -/
theorem canForwardTo_sendInterest (s : NccStrategy) (now : Int) (k : PitKey) (face : Face)
    (endpoint : EndpointId) (sent : Interest) (inFace : Face) (interest : Interest) (g : Face)
    (hlife : 0 ≤ sent.lifetime) :
    (s.sendInterest now k { face := face, endpoint := endpoint } sent).canForwardTo now inFace
        interest k g
      = if g = face then false else s.canForwardTo now inFace interest k g := by
  unfold canForwardTo sendInterest Forwarder.onOutgoingInterest Forwarder.emit
  dsimp only
  rw [Pit.get?_modify _ _ _ _ (fun e => by
    unfold pit.Entry.key
    rw [(pit.insertOrUpdateOutRecord_interest e now face sent).1])]
  cases hget : s.forwarder.pit.get? k with
  | none =>
    dsimp only [Option.map]
    split <;> simp
  | some e =>
    have hkey : (e.key == k) = true := by
      rw [Pit.key_of_get? hget]
      exact beq_self_eq_true k
    dsimp only [Option.map]
    rw [if_pos hkey, pit.canForwardToLegacy_insertOrUpdateOutRecord e now face sent g hlife]
    by_cases hg : g = face
    · simp [hg]
    · simp [hg]

end NccStrategy

namespace NccStrategy

theorem decrementSize_of_pos (n : Nat) (h1 : 0 < n) (h2 : n < 2 ^ 64) :
    decrementSize n = n - 1 := by
  unfold decrementSize
  omega

theorem two_le_length_of_hasNextHop (e : fib.Entry) (a b : Face)
    (ha : e.hasNextHop a = true) (hb : e.hasNextHop b = true) (hab : a ≠ b) :
    2 ≤ e.nextHops.length := by
  unfold fib.Entry.hasNextHop at ha hb
  obtain ⟨x, hx, hxa⟩ := List.any_eq_true.mp ha
  obtain ⟨y, hy, hyb⟩ := List.any_eq_true.mp hb
  have hxa2 : x.face = a := by simpa using hxa
  have hyb2 : y.face = b := by simpa using hyb
  have hxy : x ≠ y := by
    intro h
    apply hab
    rw [← hxa2, ← hyb2, h]
  cases hl : e.nextHops with
  | nil => rw [hl] at hx; cases hx
  | cons z zs =>
    cases zs with
    | nil =>
      rw [hl] at hx hy
      have h1 : x = z := by simpa using hx
      have h2 : y = z := by simpa using hy
      exact absurd (h1.trans h2.symm) hxy
    | cons w ws => simp

theorem one_le_length_of_hasNextHop (e : fib.Entry) (a : Face)
    (ha : e.hasNextHop a = true) : 1 ≤ e.nextHops.length := by
  unfold fib.Entry.hasNextHop at ha
  obtain ⟨x, hx, _⟩ := List.any_eq_true.mp ha
  exact List.length_pos_of_mem hx

theorem setBestFaceTimeout_frame (s : NccStrategy) (k : PitKey) (handle : Nat) :
    (s.setBestFaceTimeout k handle).forwarder = s.forwarder ∧
    (s.setBestFaceTimeout k handle).wouldViolateScope = s.wouldViolateScope ∧
    (s.setBestFaceTimeout k handle).lookupFib = s.lookupFib ∧
    (s.setBestFaceTimeout k handle).measurements = s.measurements ∧
    (s.setBestFaceTimeout k handle).inNamespace = s.inNamespace := by
  unfold setBestFaceTimeout
  dsimp only
  rw [modifyPitEntryInfo_frame, cancel_frame]
  exact ⟨rfl, rfl, rfl, rfl, rfl⟩

theorem setPropagateTimer_frame (s : NccStrategy) (k : PitKey) (handle : Nat) :
    (s.setPropagateTimer k handle).forwarder = s.forwarder ∧
    (s.setPropagateTimer k handle).wouldViolateScope = s.wouldViolateScope ∧
    (s.setPropagateTimer k handle).lookupFib = s.lookupFib ∧
    (s.setPropagateTimer k handle).measurements = s.measurements ∧
    (s.setPropagateTimer k handle).inNamespace = s.inNamespace := by
  unfold setPropagateTimer
  dsimp only
  rw [modifyPitEntryInfo_frame, cancel_frame]
  exact ⟨rfl, rfl, rfl, rfl, rfl⟩

/-- The counter `nUpstreams` after the look at the previous-best face is the one before
or, when that face is a next hop that can be forwarded to, the one before decremented. -/
theorem countPreviousFace_cases (s : NccStrategy) (now : Int) (ingress : FaceEndpoint)
    (interest : Interest) (k : PitKey) (nUpstreams : Nat) :
    s.countPreviousFace now ingress interest k nUpstreams = nUpstreams ∨
    (∃ previousFace, (s.lookupFib k).hasNextHop previousFace = true ∧
      s.canForwardTo now ingress.face interest k previousFace = true ∧
      s.countPreviousFace now ingress interest k nUpstreams = decrementSize nUpstreams) := by
  unfold countPreviousFace
  dsimp only
  split
  · rename_i previousFace _
    by_cases hc : ((s.lookupFib k).hasNextHop previousFace
        && s.canForwardTo now ingress.face interest k previousFace) = true
    · right
      rw [if_pos hc]
      rw [Bool.and_eq_true] at hc
      exact ⟨previousFace, hc.1, hc.2, rfl⟩
    · left
      rw [if_neg hc]
  · left; rfl

/-- Lines 78-115 of `afterReceiveInterest`: neither decrement of `nUpstreams` wraps. -/
theorem forwardToBestOrFirst_no_wrap (s : NccStrategy) (now : Int) (ingress : FaceEndpoint)
    (interest : Interest) (k : PitKey) (d : Deferral)
    (hlife : 0 ≤ interest.lifetime) (hsize : (s.lookupFib k).nextHops.length < 2 ^ 64)
    (hne : (s.lookupFib k).nextHops ≠ [])
    (hr : (s.forwardToBestOrFirst now ingress interest k).1 = some d) :
    d.nUpstreams ≤ (s.lookupFib k).nextHops.length ∧
    (s.lookupFib k).nextHops.length ≤ d.nUpstreams + 1 ∧
    (s.forwardToBestOrFirst now ingress interest k).2.countPreviousFace now ingress interest k
      d.nUpstreams ≤ d.nUpstreams ∧
    d.nUpstreams ≤ (s.forwardToBestOrFirst now ingress interest k).2.countPreviousFace now
      ingress interest k d.nUpstreams + 1 := by
  have hpos : 0 < (s.lookupFib k).nextHops.length := List.length_pos.mpr hne
  by_cases hbest : ∃ bestFace, (s.bestFaceOfPitEntry now k).1 = some bestFace ∧
      (s.lookupFib k).hasNextHop bestFace = true ∧
      s.canForwardTo now ingress.face interest k bestFace = true
  · obtain ⟨bestFace, hb, hn, hc⟩ := hbest
    have hX := forwardToBestOrFirst_best s now ingress interest k bestFace hb hn hc
    rw [hX] at hr ⊢
    dsimp only at hr ⊢
    cases hr
    dsimp only
    rw [decrementSize_of_pos _ hpos hsize]
    refine ⟨by omega, by omega, ?_⟩
    rcases countPreviousFace_cases
      ((((s.bestFaceOfPitEntry now k).2.sendInterest now k
        { face := bestFace, endpoint := 0 } interest).schedule now
        ((s.getMeasurementsEntryInfoOfPitEntry now k).1.prediction * 1000)
        (Callback.timeoutOnBestFace k)).2.setBestFaceTimeout k s.nextEventId)
      now ingress interest k ((s.lookupFib k).nextHops.length - 1)
      with h | ⟨previousFace, hpn, hpc, h⟩
    · rw [h]
      omega
    · rw [h]
      obtain ⟨f1, f2, f3, _, _⟩ := setBestFaceTimeout_frame
        (((s.bestFaceOfPitEntry now k).2.sendInterest now k
          { face := bestFace, endpoint := 0 } interest).schedule now
          ((s.getMeasurementsEntryInfoOfPitEntry now k).1.prediction * 1000)
          (Callback.timeoutOnBestFace k)).2 k s.nextEventId
      rw [canForwardTo_congr _ ((s.bestFaceOfPitEntry now k).2.sendInterest now k
          { face := bestFace, endpoint := 0 } interest) _ _ _ _ _ (by rw [f1]; rfl)
          (by rw [f2]; rfl),
        canForwardTo_sendInterest _ _ _ _ _ _ _ _ _ hlife] at hpc
      have hpb : previousFace ≠ bestFace := by
        intro heq
        rw [if_pos heq] at hpc
        cases hpc
      have hpn2 : (s.lookupFib k).hasNextHop previousFace = true := by
        rw [← hpn, f3]
        show _ = fib.Entry.hasNextHop ((s.bestFaceOfPitEntry now k).2.lookupFib k) previousFace
        rw [bestFaceOfPitEntry_frame]
      have h2 := two_le_length_of_hasNextHop _ _ _ hpn2 hn hpb
      rw [decrementSize_of_pos _ (by omega) (by omega)]
      omega
  · have hb : ∀ bestFace, (s.bestFaceOfPitEntry now k).1 = some bestFace →
        ((s.lookupFib k).hasNextHop bestFace
          && s.canForwardTo now ingress.face interest k bestFace) = false := by
      intro bestFace hbf
      cases hcond : ((s.lookupFib k).hasNextHop bestFace
          && s.canForwardTo now ingress.face interest k bestFace) with
      | false => rfl
      | true =>
        rw [Bool.and_eq_true] at hcond
        exact absurd ⟨bestFace, hbf, hcond.1, hcond.2⟩ hbest
    cases hfind : (s.lookupFib k).nextHops.find? (fun nexthop =>
        s.canForwardTo now ingress.face interest k nexthop.face) with
    | none =>
      have hnone : ∀ nexthop ∈ (s.lookupFib k).nextHops,
          s.canForwardTo now ingress.face interest k nexthop.face = false := by
        intro nexthop hmem
        have := List.find?_eq_none.mp hfind nexthop hmem
        simpa using this
      rw [forwardToBestOrFirst_reject s now ingress interest k hnone] at hr
      cases hr
    | some firstEligibleNexthop =>
      have hX := forwardToBestOrFirst_first s now ingress interest k firstEligibleNexthop hb hfind
      rw [hX] at hr ⊢
      dsimp only at hr ⊢
      cases hr
      dsimp only
      refine ⟨le_refl _, by omega, ?_⟩
      rcases countPreviousFace_cases
        ((s.bestFaceOfPitEntry now k).2.sendInterest now k
          { face := firstEligibleNexthop.face, endpoint := 0 } interest)
        now ingress interest k (s.lookupFib k).nextHops.length
        with h | ⟨previousFace, _, _, h⟩
      · rw [h]
        omega
      · rw [h, decrementSize_of_pos _ hpos hsize]
        omega

end NccStrategy

namespace NccStrategy

/-- After the new Interest went to the best face, that face cannot be forwarded to at the
same instant. -/
theorem forwardToBestOrFirst_best_spent (s : NccStrategy) (now : Int) (ingress : FaceEndpoint)
    (interest : Interest) (k : PitKey) (bestFace : Face) (hlife : 0 ≤ interest.lifetime)
    (hb : (s.bestFaceOfPitEntry now k).1 = some bestFace)
    (hn : (s.lookupFib k).hasNextHop bestFace = true)
    (hc : s.canForwardTo now ingress.face interest k bestFace = true) :
    (s.forwardToBestOrFirst now ingress interest k).2.canForwardTo now ingress.face interest k
      bestFace = false := by
  rw [forwardToBestOrFirst_best s now ingress interest k bestFace hb hn hc]
  dsimp only
  obtain ⟨f1, f2, _, _, _⟩ := setBestFaceTimeout_frame
    (((s.bestFaceOfPitEntry now k).2.sendInterest now k
      { face := bestFace, endpoint := 0 } interest).schedule now
      ((s.getMeasurementsEntryInfoOfPitEntry now k).1.prediction * 1000)
      (Callback.timeoutOnBestFace k)).2 k s.nextEventId
  rw [canForwardTo_congr _ ((s.bestFaceOfPitEntry now k).2.sendInterest now k
      { face := bestFace, endpoint := 0 } interest) _ _ _ _ _ (by rw [f1]; rfl)
      (by rw [f2]; rfl),
    canForwardTo_sendInterest _ _ _ _ _ _ _ _ _ hlife, if_pos rfl]

/-- C38: in `afterReceiveInterest`, for a new Interest with a lifetime that is not
negative, the counter `nUpstreams` (a `size_t`) never wraps below zero.  It starts at the
number of next hops; after the best-face branch (`d.nUpstreams`) it is that number or one
less; after the look at the previous-best face it is the value before or one less; so the
value used for `maxInterval` lies between the number of next hops minus two and that
number.  After the Interest went to the best face, that face holds an unexpired
out-record and cannot be forwarded to, so a previous-best face that passes the test of
lines 112-113 is another next hop. -/
theorem afterReceiveInterest_nUpstreams_no_wrap (s : NccStrategy) (now : Int)
    (ingress : FaceEndpoint) (interest : Interest) (k : PitKey) (d : Deferral)
    (hlife : 0 ≤ interest.lifetime) (hsize : (s.lookupFib k).nextHops.length < 2 ^ 64)
    (hne : (s.lookupFib k).nextHops ≠ []) (hnew : s.isNewPitEntry now k = true)
    (hr : ((s.insertPitEntryInfo k).forwardToBestOrFirst now ingress interest k).1 = some d) :
    d.nUpstreams ≤ (s.lookupFib k).nextHops.length ∧
    (s.lookupFib k).nextHops.length ≤ d.nUpstreams + 1 ∧
    ((s.insertPitEntryInfo k).forwardToBestOrFirst now ingress interest k).2.countPreviousFace
      now ingress interest k d.nUpstreams ≤ d.nUpstreams ∧
    d.nUpstreams ≤
      ((s.insertPitEntryInfo k).forwardToBestOrFirst now ingress interest k).2.countPreviousFace
        now ingress interest k d.nUpstreams + 1 ∧
    (s.lookupFib k).nextHops.length ≤
      ((s.insertPitEntryInfo k).forwardToBestOrFirst now ingress interest k).2.countPreviousFace
        now ingress interest k d.nUpstreams + 2 ∧
    (∀ bestFace, ((s.insertPitEntryInfo k).bestFaceOfPitEntry now k).1 = some bestFace →
      (s.lookupFib k).hasNextHop bestFace = true →
      s.canForwardTo now ingress.face interest k bestFace = true →
      ((s.insertPitEntryInfo k).forwardToBestOrFirst now ingress interest k).2.canForwardTo now
        ingress.face interest k bestFace = false) ∧
    s.afterReceiveInterest now ingress interest k =
      ((((s.insertPitEntryInfo k).forwardToBestOrFirst now ingress interest
            k).2.modifyPitEntryInfo k
          (fun i => { i with maxInterval :=
            (maxIntervalFor d
              (((s.insertPitEntryInfo k).forwardToBestOrFirst now ingress interest
                k).2.countPreviousFace now ingress interest k d.nUpstreams)) })).schedule now
          (d.deferFirst * 1000) (Callback.doPropagate ingress.face.id k)).2.setPropagateTimer k
        ((s.insertPitEntryInfo k).forwardToBestOrFirst now ingress interest k).2.nextEventId := by
  have hlook : (s.insertPitEntryInfo k).lookupFib = s.lookupFib := by
    rw [insertPitEntryInfo_frame]
  obtain ⟨h1, h2, h3, h4⟩ := forwardToBestOrFirst_no_wrap (s.insertPitEntryInfo k) now ingress
    interest k d hlife (by rw [hlook]; exact hsize) (by rw [hlook]; exact hne) hr
  rw [hlook] at h1 h2
  refine ⟨h1, h2, h3, h4, by omega, ?_, ?_⟩
  · intro bestFace hb hn hc
    exact forwardToBestOrFirst_best_spent (s.insertPitEntryInfo k) now ingress interest k
      bestFace hlife hb (by rw [hlook]; exact hn)
      (by rw [canForwardTo_congr _ s _ _ _ _ _ (by rw [insertPitEntryInfo_frame])
            (by rw [insertPitEntryInfo_frame])]; exact hc)
  · exact afterReceiveInterest_armed s now ingress interest k d _ hne hnew
      (Prod.ext hr rfl)

/-- C38 (witness): the strategy bound to `/7` has the next hops B and M, the best face B
and the previous-best face M; the new Interest goes to B, both decrements take place and
`nUpstreams` ends at 0. -/
theorem afterReceiveInterest_nUpstreams_no_wrap_witness :
    ((Sample.nccLearned.insertPitEntryInfo Sample.interest5.pitKey).forwardToBestOrFirst 0
        { face := Sample.faceA, endpoint := 0 } Sample.interest5
        Sample.interest5.pitKey).2.countPreviousFace 0 { face := Sample.faceA, endpoint := 0 }
        Sample.interest5 Sample.interest5.pitKey 1 = 0 ∧
    (Sample.nccLearned.lookupFib Sample.interest5.pitKey).nextHops.length ≤
      ((Sample.nccLearned.insertPitEntryInfo Sample.interest5.pitKey).forwardToBestOrFirst 0
        { face := Sample.faceA, endpoint := 0 } Sample.interest5
        Sample.interest5.pitKey).2.countPreviousFace 0 { face := Sample.faceA, endpoint := 0 }
        Sample.interest5 Sample.interest5.pitKey 1 + 2 :=
  ⟨by decide,
   (afterReceiveInterest_nUpstreams_no_wrap Sample.nccLearned 0
      { face := Sample.faceA, endpoint := 0 } Sample.interest5 Sample.interest5.pitKey
      { deferFirst := 8192, deferRange := 4096, nUpstreams := 1 }
      (by decide) (by decide) (by decide) (by decide) (by decide)).2.2.2.2.1⟩

end NccStrategy

/-! ## The NCC strategy: propagating to further next hops -/

namespace NccStrategy

theorem filter_length_le_of_imp {α : Type} (l : List α) (p q : α → Bool)
    (h : ∀ x ∈ l, q x = true → p x = true) :
    (l.filter q).length ≤ (l.filter p).length := by
  induction l with
  | nil => exact le_refl _
  | cons x xs ih =>
    have ih2 := ih (fun y hy => h y (List.mem_cons_of_mem _ hy))
    rw [List.filter_cons, List.filter_cons]
    by_cases hq : q x = true
    · rw [if_pos hq, if_pos (h x (List.mem_cons_self _ _) hq)]
      simp only [List.length_cons]
      omega
    · rw [if_neg hq]
      by_cases hp : p x = true
      · rw [if_pos hp]
        simp only [List.length_cons]
        omega
      · rw [if_neg hp]
        exact ih2

theorem filter_length_lt_of_imp {α : Type} (l : List α) (p q : α → Bool)
    (h : ∀ x ∈ l, q x = true → p x = true) (a : α) (ha : a ∈ l) (hpa : p a = true)
    (hqa : q a = false) :
    (l.filter q).length < (l.filter p).length := by
  induction l with
  | nil => cases ha
  | cons x xs ih =>
    have hle := filter_length_le_of_imp xs p q (fun y hy => h y (List.mem_cons_of_mem _ hy))
    rw [List.filter_cons, List.filter_cons]
    rcases List.mem_cons.mp ha with hax | hax
    · rw [← hax, hqa, hpa]
      simp only [Bool.false_eq_true, if_false, if_true, List.length_cons]
      omega
    · have ih2 := ih (fun y hy => h y (List.mem_cons_of_mem _ hy)) hax
      by_cases hq : q x = true
      · rw [if_pos hq, if_pos (h x (List.mem_cons_self _ _) hq)]
        simp only [List.length_cons]
        omega
      · rw [if_neg hq]
        by_cases hp : p x = true
        · rw [if_pos hp]
          simp only [List.length_cons]
          omega
        · rw [if_neg hp]
          exact ih2

theorem canForwardTo_getMeasurementsEntryInfoOfPitEntry (s : NccStrategy) (now : Int)
    (k : PitKey) (inFace : Face) (interest : Interest) (face : Face) :
    (s.getMeasurementsEntryInfoOfPitEntry now k).2.canForwardTo now inFace interest k face
      = s.canForwardTo now inFace interest k face := by
  apply canForwardTo_congr
  · rw [getMeasurementsEntryInfoOfPitEntry_frame]
  · rw [getMeasurementsEntryInfoOfPitEntry_frame]

/-- The step of `doPropagate` for the previous-best face leaves the state as the reading
of the Measurements left it, or sends the Interest to a next hop that could be forwarded
to. -/
theorem sendToPreviousFace_cases (s : NccStrategy) (now : Int) (inFace : Face)
    (interest : Interest) (k : PitKey) :
    s.sendToPreviousFace now inFace interest k
      = (s.getMeasurementsEntryInfoOfPitEntry now k).2 ∨
    ∃ previousFace, (s.lookupFib k).hasNextHop previousFace = true ∧
      s.canForwardTo now inFace interest k previousFace = true ∧
      s.sendToPreviousFace now inFace interest k
        = (s.getMeasurementsEntryInfoOfPitEntry now k).2.sendInterest now k
            { face := previousFace, endpoint := 0 } interest := by
  unfold sendToPreviousFace
  dsimp only
  split
  · rename_i previousFace _
    by_cases hc : ((s.lookupFib k).hasNextHop previousFace
        && (s.getMeasurementsEntryInfoOfPitEntry now k).2.canForwardTo now inFace interest k
          previousFace) = true
    · right
      rw [if_pos hc]
      rw [Bool.and_eq_true, canForwardTo_getMeasurementsEntryInfoOfPitEntry] at hc
      exact ⟨previousFace, hc.1, hc.2, rfl⟩
    · left
      rw [if_neg hc]
  · left; rfl

/-- What the step for the previous-best face keeps: everything but the Forwarder and the
Measurements table; of the Forwarder, the face table. -/
theorem sendToPreviousFace_frame (s : NccStrategy) (now : Int) (inFace : Face)
    (interest : Interest) (k : PitKey) :
    (s.sendToPreviousFace now inFace interest k).lookupFib = s.lookupFib ∧
    (s.sendToPreviousFace now inFace interest k).wouldViolateScope = s.wouldViolateScope ∧
    (s.sendToPreviousFace now inFace interest k).inNamespace = s.inNamespace ∧
    (s.sendToPreviousFace now inFace interest k).pitEntryInfo = s.pitEntryInfo ∧
    (s.sendToPreviousFace now inFace interest k).events = s.events ∧
    (s.sendToPreviousFace now inFace interest k).nextEventId = s.nextEventId ∧
    (s.sendToPreviousFace now inFace interest k).forwarder.faceTable
      = s.forwarder.faceTable := by
  have hframe := getMeasurementsEntryInfoOfPitEntry_frame s now k
  rcases sendToPreviousFace_cases s now inFace interest k with h | ⟨p, _, _, h⟩
  · rw [h, hframe]
    exact ⟨rfl, rfl, rfl, rfl, rfl, rfl, rfl⟩
  · rw [h, hframe]
    exact ⟨rfl, rfl, rfl, rfl, rfl, rfl, rfl⟩

/-- The step for the previous-best face makes no face eligible that was not. -/
theorem canForwardTo_sendToPreviousFace (s : NccStrategy) (now : Int) (inFace : Face)
    (interest : Interest) (k : PitKey) (face : Face) (hlife : 0 ≤ interest.lifetime)
    (h : (s.sendToPreviousFace now inFace interest k).canForwardTo now inFace interest k face
      = true) :
    s.canForwardTo now inFace interest k face = true := by
  rcases sendToPreviousFace_cases s now inFace interest k with h1 | ⟨p, _, _, h1⟩
  · rw [h1, canForwardTo_getMeasurementsEntryInfoOfPitEntry] at h
    exact h
  · rw [h1, canForwardTo_sendInterest _ _ _ _ _ _ _ _ _ hlife] at h
    by_cases hf : face = p
    · rw [if_pos hf] at h
      cases h
    · rw [if_neg hf, canForwardTo_getMeasurementsEntryInfoOfPitEntry] at h
      exact h

/-- The PIT entry after `sendInterest`: its out-record of the face was inserted or
updated. -/
theorem sendInterest_get? (s : NccStrategy) (now : Int) (k : PitKey) (face : Face)
    (endpoint : EndpointId) (sent : Interest) :
    (s.sendInterest now k { face := face, endpoint := endpoint } sent).forwarder.pit.get? k
      = (s.forwarder.pit.get? k).map (fun e => e.insertOrUpdateOutRecord now face sent) := by
  unfold sendInterest Forwarder.onOutgoingInterest Forwarder.emit
  dsimp only
  rw [Pit.get?_modify _ _ _ _ (fun e => by
    unfold pit.Entry.key
    rw [(pit.insertOrUpdateOutRecord_interest e now face sent).1])]
  cases hget : s.forwarder.pit.get? k with
  | none => rfl
  | some e =>
    have hkey : (e.key == k) = true := by
      rw [Pit.key_of_get? hget]
      exact beq_self_eq_true k
    dsimp only [Option.map]
    rw [if_pos hkey]

/-- The in-record of a face in the PIT entry, `none` when the entry or the record is
missing, is not touched by `sendInterest`. -/
theorem sendInterest_getInRecord (s : NccStrategy) (now : Int) (k : PitKey) (face : Face)
    (endpoint : EndpointId) (sent : Interest) (inFace : Face) :
    ((s.sendInterest now k { face := face, endpoint := endpoint } sent).forwarder.pit.get? k
        ).bind (fun e => e.getInRecord inFace)
      = (s.forwarder.pit.get? k).bind (fun e => e.getInRecord inFace) := by
  rw [sendInterest_get?]
  cases s.forwarder.pit.get? k with
  | none => rfl
  | some e =>
    dsimp only [Option.map, Option.bind]
    unfold pit.Entry.getInRecord
    rw [(pit.insertOrUpdateOutRecord_interest e now face sent).2.1]

theorem sendToPreviousFace_getInRecord (s : NccStrategy) (now : Int) (inFace : Face)
    (interest : Interest) (k : PitKey) (face : Face) :
    ((s.sendToPreviousFace now inFace interest k).forwarder.pit.get? k).bind
        (fun e => e.getInRecord face)
      = (s.forwarder.pit.get? k).bind (fun e => e.getInRecord face) := by
  have hframe := getMeasurementsEntryInfoOfPitEntry_frame s now k
  rcases sendToPreviousFace_cases s now inFace interest k with h | ⟨p, _, _, h⟩
  · rw [h, hframe]
  · rw [h, sendInterest_getInRecord, hframe]

end NccStrategy

namespace NccStrategy

/-- With the in-face, the in-record of that face and the `PitEntryInfo` in place,
`doPropagate` sends to the first next hop, in list order, that can be forwarded to after
the step for the previous-best face. -/
theorem propagateToNextHops_forward (s : NccStrategy) (now : Int) (inFaceId : FaceId)
    (k : PitKey) (inFace : Face) (inRecord : pit.InRecord) (nexthop : fib.NextHop)
    (hface : faceTableGet s.forwarder.faceTable inFaceId = some inFace)
    (hrec : (s.forwarder.pit.get? k).bind (fun e => e.getInRecord inFace) = some inRecord)
    (hinfo : (s.getPitEntryInfo k).isSome = true)
    (hfind : (s.lookupFib k).nextHops.find? (fun nexthop =>
      (s.sendToPreviousFace now inFace inRecord.interest k).canForwardTo now inFace
        inRecord.interest k nexthop.face) = some nexthop) :
    s.propagateToNextHops now inFaceId k
      = (true, (s.sendToPreviousFace now inFace inRecord.interest k).sendInterest now k
          { face := nexthop.face, endpoint := 0 } inRecord.interest) := by
  unfold propagateToNextHops
  rw [hface]
  dsimp only
  cases hget : s.forwarder.pit.get? k with
  | none => rw [hget] at hrec; cases hrec
  | some e =>
    rw [hget] at hrec
    have hin : e.getInRecord inFace = some inRecord := hrec
    dsimp only
    rw [hin]
    dsimp only
    obtain ⟨i, hi⟩ := Option.isSome_iff_exists.mp hinfo
    rw [hi]
    dsimp only
    rw [hfind]

/-- With the in-face, the in-record of that face and the `PitEntryInfo` in place,
`doPropagate` forwards to no next hop when none can be forwarded to after the step for
the previous-best face. -/
theorem propagateToNextHops_stop (s : NccStrategy) (now : Int) (inFaceId : FaceId)
    (k : PitKey) (inFace : Face) (inRecord : pit.InRecord)
    (hface : faceTableGet s.forwarder.faceTable inFaceId = some inFace)
    (hrec : (s.forwarder.pit.get? k).bind (fun e => e.getInRecord inFace) = some inRecord)
    (hinfo : (s.getPitEntryInfo k).isSome = true)
    (hfind : (s.lookupFib k).nextHops.find? (fun nexthop =>
      (s.sendToPreviousFace now inFace inRecord.interest k).canForwardTo now inFace
        inRecord.interest k nexthop.face) = none) :
    s.propagateToNextHops now inFaceId k
      = (false, s.sendToPreviousFace now inFace inRecord.interest k) := by
  unfold propagateToNextHops
  rw [hface]
  dsimp only
  cases hget : s.forwarder.pit.get? k with
  | none => rw [hget] at hrec; cases hrec
  | some e =>
    rw [hget] at hrec
    have hin : e.getInRecord inFace = some inRecord := hrec
    dsimp only
    rw [hin]
    dsimp only
    obtain ⟨i, hi⟩ := Option.isSome_iff_exists.mp hinfo
    rw [hi]
    dsimp only
    rw [hfind]

/-- When the in-face, the PIT entry, the in-record of the in-face or the `PitEntryInfo` is
missing, nothing is done. -/
theorem propagateToNextHops_of_missing (s : NccStrategy) (now : Int) (inFaceId : FaceId)
    (k : PitKey)
    (h : faceTableGet s.forwarder.faceTable inFaceId = none ∨
      s.forwarder.pit.get? k = none ∨
      (∀ inFace e, faceTableGet s.forwarder.faceTable inFaceId = some inFace →
        s.forwarder.pit.get? k = some e → e.getInRecord inFace = none) ∨
      s.getPitEntryInfo k = none) :
    s.propagateToNextHops now inFaceId k = (false, s) := by
  unfold propagateToNextHops
  cases hface : faceTableGet s.forwarder.faceTable inFaceId with
  | none => rfl
  | some inFace =>
    dsimp only
    cases hget : s.forwarder.pit.get? k with
    | none => rfl
    | some e =>
      dsimp only
      cases hin : e.getInRecord inFace with
      | none => rfl
      | some inRecord =>
        dsimp only
        cases hinfo : s.getPitEntryInfo k with
        | none => rfl
        | some i =>
          rcases h with h | h | h | h
          · rw [hface] at h; cases h
          · rw [hget] at h; cases h
          · rw [h inFace e hface hget] at hin; cases hin
          · rw [hinfo] at h; cases h

theorem doPropagate_of_not_forwarded (s : NccStrategy) (now drawn : Int) (inFaceId : FaceId)
    (k : PitKey) (h : (s.propagateToNextHops now inFaceId k).1 = false) :
    s.doPropagate now drawn inFaceId k = (s.propagateToNextHops now inFaceId k).2 := by
  unfold doPropagate
  dsimp only
  rw [h]
  rfl

theorem doPropagate_of_forwarded (s : NccStrategy) (now drawn : Int) (inFaceId : FaceId)
    (k : PitKey) (h : (s.propagateToNextHops now inFaceId k).1 = true) :
    s.doPropagate now drawn inFaceId k
      = (((s.propagateToNextHops now inFaceId k).2.schedule now drawn
            (Callback.doPropagate inFaceId k)).2).setPropagateTimer k
          (s.propagateToNextHops now inFaceId k).2.nextEventId := by
  unfold doPropagate
  dsimp only
  rw [h]
  rfl

/-- What the sending part of `doPropagate` keeps. -/
theorem propagateToNextHops_frame (s : NccStrategy) (now : Int) (inFaceId : FaceId)
    (k : PitKey) :
    (s.propagateToNextHops now inFaceId k).2.lookupFib = s.lookupFib ∧
    (s.propagateToNextHops now inFaceId k).2.wouldViolateScope = s.wouldViolateScope ∧
    (s.propagateToNextHops now inFaceId k).2.inNamespace = s.inNamespace ∧
    (s.propagateToNextHops now inFaceId k).2.pitEntryInfo = s.pitEntryInfo ∧
    (s.propagateToNextHops now inFaceId k).2.events = s.events ∧
    (s.propagateToNextHops now inFaceId k).2.nextEventId = s.nextEventId ∧
    (s.propagateToNextHops now inFaceId k).2.forwarder.faceTable = s.forwarder.faceTable ∧
    (∀ face, ((s.propagateToNextHops now inFaceId k).2.forwarder.pit.get? k).bind
        (fun e => e.getInRecord face)
      = (s.forwarder.pit.get? k).bind (fun e => e.getInRecord face)) := by
  cases hface : faceTableGet s.forwarder.faceTable inFaceId with
  | none =>
    rw [propagateToNextHops_of_missing s now inFaceId k (Or.inl hface)]
    exact ⟨rfl, rfl, rfl, rfl, rfl, rfl, rfl, fun _ => rfl⟩
  | some inFace =>
    cases hrec : (s.forwarder.pit.get? k).bind (fun e => e.getInRecord inFace) with
    | none =>
      rw [propagateToNextHops_of_missing s now inFaceId k (by
        cases hget : s.forwarder.pit.get? k with
        | none => exact Or.inr (Or.inl rfl)
        | some e =>
          right; right; left
          intro inFace2 e2 h1 h2
          rw [hface] at h1
          cases h1
          cases h2
          rw [hget] at hrec
          exact hrec)]
      exact ⟨rfl, rfl, rfl, rfl, rfl, rfl, rfl, fun _ => rfl⟩
    | some inRecord =>
      cases hinfo : s.getPitEntryInfo k with
      | none =>
        rw [propagateToNextHops_of_missing s now inFaceId k (Or.inr (Or.inr (Or.inr hinfo)))]
        exact ⟨rfl, rfl, rfl, rfl, rfl, rfl, rfl, fun _ => rfl⟩
      | some i =>
        have hsome : (s.getPitEntryInfo k).isSome = true := by rw [hinfo]; rfl
        obtain ⟨f1, f2, f3, f4, f5, f6, f7⟩ :=
          sendToPreviousFace_frame s now inFace inRecord.interest k
        cases hfind : (s.lookupFib k).nextHops.find? (fun nexthop =>
            (s.sendToPreviousFace now inFace inRecord.interest k).canForwardTo now inFace
              inRecord.interest k nexthop.face) with
        | none =>
          rw [propagateToNextHops_stop s now inFaceId k inFace inRecord hface hrec hsome hfind]
          exact ⟨f1, f2, f3, f4, f5, f6, f7,
            fun face => sendToPreviousFace_getInRecord s now inFace inRecord.interest k face⟩
        | some nexthop =>
          rw [propagateToNextHops_forward s now inFaceId k inFace inRecord nexthop hface hrec
            hsome hfind]
          refine ⟨f1, f2, f3, f4, f5, f6, f7, fun face => ?_⟩
          dsimp only
          rw [sendInterest_getInRecord]
          exact sendToPreviousFace_getInRecord s now inFace inRecord.interest k face

/-- One invocation of `doPropagate` at a fixed instant: no next hop becomes eligible, and
the number of eligible next hops decreases when there is one (strictly so when the
Interest was forwarded in the loop). -/
theorem propagateToNextHops_measure (s : NccStrategy) (now : Int) (inFaceId : FaceId)
    (k : PitKey) (inFace : Face) (inRecord : pit.InRecord)
    (hface : faceTableGet s.forwarder.faceTable inFaceId = some inFace)
    (hrec : (s.forwarder.pit.get? k).bind (fun e => e.getInRecord inFace) = some inRecord)
    (hinfo : (s.getPitEntryInfo k).isSome = true)
    (hlife : 0 ≤ inRecord.interest.lifetime) :
    ((s.lookupFib k).nextHops.filter (fun nexthop =>
        (s.propagateToNextHops now inFaceId k).2.canForwardTo now inFace inRecord.interest k
          nexthop.face)).length
      ≤ ((s.lookupFib k).nextHops.filter (fun nexthop =>
        s.canForwardTo now inFace inRecord.interest k nexthop.face)).length ∧
    (0 < ((s.lookupFib k).nextHops.filter (fun nexthop =>
        s.canForwardTo now inFace inRecord.interest k nexthop.face)).length →
      ((s.lookupFib k).nextHops.filter (fun nexthop =>
        (s.propagateToNextHops now inFaceId k).2.canForwardTo now inFace inRecord.interest k
          nexthop.face)).length
      < ((s.lookupFib k).nextHops.filter (fun nexthop =>
        s.canForwardTo now inFace inRecord.interest k nexthop.face)).length) ∧
    (((s.lookupFib k).nextHops.filter (fun nexthop =>
        s.canForwardTo now inFace inRecord.interest k nexthop.face)).length = 0 →
      (s.propagateToNextHops now inFaceId k).1 = false) ∧
    ((s.propagateToNextHops now inFaceId k).1 = true →
      0 < ((s.lookupFib k).nextHops.filter (fun nexthop =>
        s.canForwardTo now inFace inRecord.interest k nexthop.face)).length) := by
  have hmono := canForwardTo_sendToPreviousFace s now inFace inRecord.interest k
  cases hfind : (s.lookupFib k).nextHops.find? (fun nexthop =>
      (s.sendToPreviousFace now inFace inRecord.interest k).canForwardTo now inFace
        inRecord.interest k nexthop.face) with
  | none =>
    rw [propagateToNextHops_stop s now inFaceId k inFace inRecord hface hrec hinfo hfind]
    dsimp only
    have hall := List.find?_eq_none.mp hfind
    refine ⟨?_, ?_, fun _ => rfl, fun h => by cases h⟩
    · exact filter_length_le_of_imp _ _ _ (fun x _ hx => hmono x.face hlife hx)
    · intro hpos
      obtain ⟨a, ha⟩ := List.exists_mem_of_length_pos hpos
      rw [List.mem_filter] at ha
      exact filter_length_lt_of_imp _ _ _ (fun x _ hx => hmono x.face hlife hx) a ha.1 ha.2
        (by simpa using hall a ha.1)
  | some nexthop =>
    rw [propagateToNextHops_forward s now inFaceId k inFace inRecord nexthop hface hrec hinfo
      hfind]
    dsimp only
    have hmem := List.mem_of_find?_eq_some hfind
    have hq : (s.sendToPreviousFace now inFace inRecord.interest k).canForwardTo now inFace
        inRecord.interest k nexthop.face = true := by
      have := List.find?_some hfind
      exact this
    have hp := hmono nexthop.face hlife hq
    have himp : ∀ x ∈ (s.lookupFib k).nextHops,
        ((s.sendToPreviousFace now inFace inRecord.interest k).sendInterest now k
          { face := nexthop.face, endpoint := 0 } inRecord.interest).canForwardTo now inFace
          inRecord.interest k x.face = true →
        s.canForwardTo now inFace inRecord.interest k x.face = true := by
      intro x _ hx
      rw [canForwardTo_sendInterest _ _ _ _ _ _ _ _ _ hlife] at hx
      by_cases hf : x.face = nexthop.face
      · rw [if_pos hf] at hx; cases hx
      · rw [if_neg hf] at hx
        exact hmono x.face hlife hx
    have hlt := filter_length_lt_of_imp _ _ _ himp nexthop hmem hp
      (by rw [canForwardTo_sendInterest _ _ _ _ _ _ _ _ _ hlife, if_pos rfl])
    refine ⟨le_of_lt hlt, fun _ => hlt, ?_, fun _ => ?_⟩
    · intro h0
      rw [h0] at hlt
      exact absurd hlt (Nat.not_lt_zero _)
    · exact lt_of_le_of_lt (Nat.zero_le _) hlt

end NccStrategy

namespace NccStrategy

theorem setPropagateTimer_getPitEntryInfo_isSome (s : NccStrategy) (k : PitKey) (handle : Nat)
    (k2 : PitKey) :
    ((s.setPropagateTimer k handle).getPitEntryInfo k2).isSome
      = (s.getPitEntryInfo k2).isSome := by
  unfold setPropagateTimer
  dsimp only
  rw [getPitEntryInfo_modifyPitEntryInfo]
  have hc : ∀ h, (s.cancel h).getPitEntryInfo k2 = s.getPitEntryInfo k2 := by
    intro h
    exact getPitEntryInfo_congr _ s (by rw [cancel_frame]) k2
  rw [hc]
  split
  · cases s.getPitEntryInfo k2 <;> rfl
  · rfl

/-- What `doPropagate` keeps of the state in which its sending part ended. -/
theorem doPropagate_frame (s : NccStrategy) (now drawn : Int) (inFaceId : FaceId)
    (k : PitKey) :
    (s.doPropagate now drawn inFaceId k).forwarder
      = (s.propagateToNextHops now inFaceId k).2.forwarder ∧
    (s.doPropagate now drawn inFaceId k).lookupFib = s.lookupFib ∧
    (s.doPropagate now drawn inFaceId k).wouldViolateScope = s.wouldViolateScope ∧
    (s.doPropagate now drawn inFaceId k).inNamespace = s.inNamespace ∧
    (s.doPropagate now drawn inFaceId k).measurements
      = (s.propagateToNextHops now inFaceId k).2.measurements ∧
    (∀ k2, ((s.doPropagate now drawn inFaceId k).getPitEntryInfo k2).isSome
      = (s.getPitEntryInfo k2).isSome) := by
  obtain ⟨f1, f2, f3, f4, _, _, _, _⟩ := propagateToNextHops_frame s now inFaceId k
  cases hP : (s.propagateToNextHops now inFaceId k).1 with
  | false =>
    rw [doPropagate_of_not_forwarded s now drawn inFaceId k hP]
    refine ⟨rfl, f1, f2, f3, rfl, fun k2 => ?_⟩
    rw [getPitEntryInfo_congr _ s f4]
  | true =>
    rw [doPropagate_of_forwarded s now drawn inFaceId k hP]
    obtain ⟨g1, g2, g3, g4, g5⟩ := setPropagateTimer_frame
      ((s.propagateToNextHops now inFaceId k).2.schedule now drawn
        (Callback.doPropagate inFaceId k)).2 k (s.propagateToNextHops now inFaceId k).2.nextEventId
    refine ⟨g1, g3.trans f1, g2.trans f2, g5.trans f3, g4, fun k2 => ?_⟩
    rw [setPropagateTimer_getPitEntryInfo_isSome]
    exact congrArg Option.isSome (getPitEntryInfo_congr _ s f4 k2)

theorem foldl_doPropagate_of_fixed (now : Int) (inFaceId : FaceId) (k : PitKey)
    (s : NccStrategy) (h : ∀ d, s.doPropagate now d inFaceId k = s) :
    ∀ draws : List Int, draws.foldl (fun t d => t.doPropagate now d inFaceId k) s = s := by
  intro draws
  induction draws with
  | nil => rfl
  | cons d ds ih =>
    rw [List.foldl_cons, h d]
    exact ih

/-- A chain of invocations of `doPropagate` at a fixed instant, with the in-face, the
in-record and the `PitEntryInfo` in place: once there were as many invocations as next
hops were eligible, the next one forwards to no next hop in its loop. -/
theorem doPropagate_chain_of_guards (now : Int) (inFaceId : FaceId) (k : PitKey)
    (inFace : Face) (inRecord : pit.InRecord) (hlife : 0 ≤ inRecord.interest.lifetime) :
    ∀ (draws : List Int) (s : NccStrategy),
      faceTableGet s.forwarder.faceTable inFaceId = some inFace →
      (s.forwarder.pit.get? k).bind (fun e => e.getInRecord inFace) = some inRecord →
      (s.getPitEntryInfo k).isSome = true →
      ((s.lookupFib k).nextHops.filter (fun nexthop =>
        s.canForwardTo now inFace inRecord.interest k nexthop.face)).length ≤ draws.length →
      ((draws.foldl (fun t d => t.doPropagate now d inFaceId k) s).propagateToNextHops now
        inFaceId k).1 = false := by
  intro draws
  induction draws with
  | nil =>
    intro s hface hrec hinfo hmu
    exact (propagateToNextHops_measure s now inFaceId k inFace inRecord hface hrec hinfo
      hlife).2.2.1 (Nat.le_zero.mp hmu)
  | cons d ds ih =>
    intro s hface hrec hinfo hmu
    rw [List.foldl_cons]
    obtain ⟨m1, m2, _, _⟩ := propagateToNextHops_measure s now inFaceId k inFace inRecord hface
      hrec hinfo hlife
    obtain ⟨_, p2, _, _, _, _, p7, p8⟩ := propagateToNextHops_frame s now inFaceId k
    obtain ⟨d1, d2, d3, _, _, d6⟩ := doPropagate_frame s now d inFaceId k
    apply ih
    · rw [d1, p7]
      exact hface
    · rw [d1, p8]
      exact hrec
    · rw [d6]
      exact hinfo
    · have hcan : (fun nexthop : fib.NextHop =>
          (s.doPropagate now d inFaceId k).canForwardTo now inFace inRecord.interest k
            nexthop.face)
          = (fun nexthop => (s.propagateToNextHops now inFaceId k).2.canForwardTo now inFace
            inRecord.interest k nexthop.face) := by
        funext nexthop
        exact canForwardTo_congr _ _ _ _ _ _ _ d1 (d3.trans p2.symm)
      rw [d2, hcan]
      simp only [List.length_cons] at hmu
      by_cases h0 : 0 < ((s.lookupFib k).nextHops.filter (fun nexthop =>
          s.canForwardTo now inFace inRecord.interest k nexthop.face)).length
      · have := m2 h0
        omega
      · omega

/-- A chain of invocations of `doPropagate` at a fixed instant ends: after as many
invocations as there are next hops, the next one forwards to no next hop in its loop, so
it does not re-arm the timer. -/
theorem doPropagate_chain (s : NccStrategy) (now : Int) (inFaceId : FaceId) (k : PitKey)
    (hlife : ∀ inFace inRecord, faceTableGet s.forwarder.faceTable inFaceId = some inFace →
      (s.forwarder.pit.get? k).bind (fun e => e.getInRecord inFace) = some inRecord →
      0 ≤ inRecord.interest.lifetime)
    (draws : List Int) (hlen : (s.lookupFib k).nextHops.length ≤ draws.length) :
    ((draws.foldl (fun t d => t.doPropagate now d inFaceId k) s).propagateToNextHops now
      inFaceId k).1 = false := by
  have hfixed : s.propagateToNextHops now inFaceId k = (false, s) →
      ((draws.foldl (fun t d => t.doPropagate now d inFaceId k) s).propagateToNextHops now
        inFaceId k).1 = false := by
    intro hP
    rw [foldl_doPropagate_of_fixed now inFaceId k s (fun d => by
      rw [doPropagate_of_not_forwarded s now d inFaceId k (by rw [hP]), hP]), hP]
  cases hface : faceTableGet s.forwarder.faceTable inFaceId with
  | none => exact hfixed (propagateToNextHops_of_missing s now inFaceId k (Or.inl hface))
  | some inFace =>
    cases hrec : (s.forwarder.pit.get? k).bind (fun e => e.getInRecord inFace) with
    | none =>
      apply hfixed
      apply propagateToNextHops_of_missing
      cases hget : s.forwarder.pit.get? k with
      | none => exact Or.inr (Or.inl rfl)
      | some e =>
        right; right; left
        intro inFace2 e2 h1 h2
        rw [hface] at h1
        cases h1
        cases h2
        rw [hget] at hrec
        exact hrec
    | some inRecord =>
      cases hinfo : s.getPitEntryInfo k with
      | none =>
        exact hfixed (propagateToNextHops_of_missing s now inFaceId k
          (Or.inr (Or.inr (Or.inr hinfo))))
      | some i =>
        exact doPropagate_chain_of_guards now inFaceId k inFace inRecord
          (hlife inFace inRecord hface hrec) draws s hface hrec (by rw [hinfo]; rfl)
          (le_trans (List.length_filter_le _ _) hlen)

end NccStrategy

namespace NccStrategy

/-- C33 (amended): `doPropagate` re-arms the propagate timer iff its loop over the next
hops, which runs after the previous-best face was tried, forwarded the Interest
(`isForwarded`); an Interest that went to the previous-best face only does not re-arm it.
With the in-face, the in-record and the `PitEntryInfo` in place, the loop forwards iff
some next hop can be forwarded to after the previous-best face was tried; it forwards to
the first such next hop, which could be forwarded to before and cannot afterwards, so the
number of next hops that can be forwarded to at this instant decreases strictly.  A chain
of invocations at a fixed instant therefore ends: after as many invocations as there are
next hops, the loop of the next one forwards nothing.  When the in-face, the PIT entry or
the in-record of the in-face is missing, `doPropagate` changes nothing. -/
theorem doPropagate_spec (s : NccStrategy) (now drawn : Int) (inFaceId : FaceId) (k : PitKey)
    (hlife : ∀ inFace inRecord, faceTableGet s.forwarder.faceTable inFaceId = some inFace →
      (s.forwarder.pit.get? k).bind (fun e => e.getInRecord inFace) = some inRecord →
      0 ≤ inRecord.interest.lifetime)
    (hfresh : ∀ i, s.getPitEntryInfo k = some i →
      ∀ h, i.propagateTimer = some h → h < s.nextEventId) :
    ((s.propagateToNextHops now inFaceId k).1 = true →
      (s.doPropagate now drawn inFaceId k).events
        = s.events.filter
            (fun e => some e.id != (s.getPitEntryInfo k).bind (fun i => i.propagateTimer))
          ++ [{ id := s.nextEventId, fireAt := now + drawn,
                callback := Callback.doPropagate inFaceId k }] ∧
      ((s.doPropagate now drawn inFaceId k).getPitEntryInfo k).map
          (fun i => (i.propagateTimer, i.maxInterval))
        = (s.getPitEntryInfo k).map (fun i => (some s.nextEventId, i.maxInterval))) ∧
    ((s.propagateToNextHops now inFaceId k).1 = false →
      s.doPropagate now drawn inFaceId k = (s.propagateToNextHops now inFaceId k).2 ∧
      (s.doPropagate now drawn inFaceId k).events = s.events ∧
      (s.doPropagate now drawn inFaceId k).pitEntryInfo = s.pitEntryInfo ∧
      (s.doPropagate now drawn inFaceId k).nextEventId = s.nextEventId) ∧
    (∀ inFace inRecord, faceTableGet s.forwarder.faceTable inFaceId = some inFace →
      (s.forwarder.pit.get? k).bind (fun e => e.getInRecord inFace) = some inRecord →
      (s.getPitEntryInfo k).isSome = true →
      ((s.propagateToNextHops now inFaceId k).1 = true ↔
        ∃ nexthop ∈ (s.lookupFib k).nextHops,
          (s.sendToPreviousFace now inFace inRecord.interest k).canForwardTo now inFace
            inRecord.interest k nexthop.face = true) ∧
      (∀ nexthop, (s.lookupFib k).nextHops.find? (fun nexthop =>
          (s.sendToPreviousFace now inFace inRecord.interest k).canForwardTo now inFace
            inRecord.interest k nexthop.face) = some nexthop →
        (s.propagateToNextHops now inFaceId k).2
          = (s.sendToPreviousFace now inFace inRecord.interest k).sendInterest now k
              { face := nexthop.face, endpoint := 0 } inRecord.interest ∧
        s.canForwardTo now inFace inRecord.interest k nexthop.face = true ∧
        (s.propagateToNextHops now inFaceId k).2.canForwardTo now inFace inRecord.interest k
          nexthop.face = false) ∧
      ((s.propagateToNextHops now inFaceId k).1 = true →
        ((s.lookupFib k).nextHops.filter (fun nexthop =>
          (s.doPropagate now drawn inFaceId k).canForwardTo now inFace inRecord.interest k
            nexthop.face)).length
        < ((s.lookupFib k).nextHops.filter (fun nexthop =>
          s.canForwardTo now inFace inRecord.interest k nexthop.face)).length)) ∧
    (∀ draws : List Int, (s.lookupFib k).nextHops.length ≤ draws.length →
      ((draws.foldl (fun t d => t.doPropagate now d inFaceId k) s).propagateToNextHops now
        inFaceId k).1 = false) ∧
    ((faceTableGet s.forwarder.faceTable inFaceId = none ∨
      s.forwarder.pit.get? k = none ∨
      (∀ inFace e, faceTableGet s.forwarder.faceTable inFaceId = some inFace →
        s.forwarder.pit.get? k = some e → e.getInRecord inFace = none)) →
      s.doPropagate now drawn inFaceId k = s) := by
  obtain ⟨p1, p2, p3, p4, p5, p6, p7, p8⟩ := propagateToNextHops_frame s now inFaceId k
  refine ⟨?_, ?_, ?_, ?_, ?_⟩
  · intro hP
    cases hinfo : s.getPitEntryInfo k with
    | none =>
      rw [propagateToNextHops_of_missing s now inFaceId k (Or.inr (Or.inr (Or.inr hinfo)))] at hP
      cases hP
    | some i =>
      rw [doPropagate_of_forwarded s now drawn inFaceId k hP]
      have hinfo2 : (s.propagateToNextHops now inFaceId k).2.getPitEntryInfo k = some i := by
        rw [getPitEntryInfo_congr _ s p4]
        exact hinfo
      obtain ⟨b1, b2, _⟩ := armPropagateTimer (s.propagateToNextHops now inFaceId k).2 k i now
        drawn inFaceId hinfo2 (by rw [p6]; exact hfresh i hinfo)
      rw [b1, b2, p5, p6]
      exact ⟨rfl, rfl⟩
  · intro hP
    rw [doPropagate_of_not_forwarded s now drawn inFaceId k hP]
    exact ⟨rfl, p5, p4, p6⟩
  · intro inFace inRecord hface hrec hinfo
    have hl := hlife inFace inRecord hface hrec
    refine ⟨?_, ?_, ?_⟩
    · cases hfind : (s.lookupFib k).nextHops.find? (fun nexthop =>
          (s.sendToPreviousFace now inFace inRecord.interest k).canForwardTo now inFace
            inRecord.interest k nexthop.face) with
      | none =>
        rw [propagateToNextHops_stop s now inFaceId k inFace inRecord hface hrec hinfo hfind]
        constructor
        · intro h; cases h
        · rintro ⟨nexthop, hmem, hc⟩
          have := List.find?_eq_none.mp hfind nexthop hmem
          exact absurd hc this
      | some nexthop =>
        rw [propagateToNextHops_forward s now inFaceId k inFace inRecord nexthop hface hrec
          hinfo hfind]
        constructor
        · intro _
          refine ⟨nexthop, List.mem_of_find?_eq_some hfind, ?_⟩
          have := List.find?_some hfind
          exact this
        · intro _; rfl
    · intro nexthop hfind
      have hq : (s.sendToPreviousFace now inFace inRecord.interest k).canForwardTo now inFace
          inRecord.interest k nexthop.face = true := by
        have := List.find?_some hfind
        exact this
      rw [propagateToNextHops_forward s now inFaceId k inFace inRecord nexthop hface hrec hinfo
        hfind]
      refine ⟨rfl, canForwardTo_sendToPreviousFace s now inFace inRecord.interest k _ hl hq, ?_⟩
      dsimp only
      rw [canForwardTo_sendInterest _ _ _ _ _ _ _ _ _ hl, if_pos rfl]
    · intro hP
      obtain ⟨_, _, _, m4⟩ := propagateToNextHops_measure s now inFaceId k inFace inRecord hface
        hrec hinfo hl
      obtain ⟨_, m2, _, _⟩ := propagateToNextHops_measure s now inFaceId k inFace inRecord hface
        hrec hinfo hl
      obtain ⟨d1, _, d3, _, _, _⟩ := doPropagate_frame s now drawn inFaceId k
      have hcan : (fun nexthop : fib.NextHop =>
          (s.doPropagate now drawn inFaceId k).canForwardTo now inFace inRecord.interest k
            nexthop.face)
          = (fun nexthop => (s.propagateToNextHops now inFaceId k).2.canForwardTo now inFace
            inRecord.interest k nexthop.face) := by
        funext nexthop
        exact canForwardTo_congr _ _ _ _ _ _ _ d1 (d3.trans p2.symm)
      rw [hcan]
      exact m2 (m4 hP)
  · intro draws hlen
    exact doPropagate_chain s now inFaceId k hlife draws hlen
  · intro h
    have hP : s.propagateToNextHops now inFaceId k = (false, s) := by
      apply propagateToNextHops_of_missing
      rcases h with h | h | h
      · exact Or.inl h
      · exact Or.inr (Or.inl h)
      · exact Or.inr (Or.inr (Or.inl h))
    rw [doPropagate_of_not_forwarded s now drawn inFaceId k (by rw [hP]), hP]

/-- C33 (witness of the amended statement): the strategy with nothing learned sent the
Interest to the first next hop B; `doPropagate` runs at 4 ms, its loop forwards to the
remaining next hop M and the propagate timer is re-armed (event 1, due after the drawn
delay of 7 ns). -/
theorem doPropagate_spec_witness :
    (Sample.nccFirstFired.propagateToNextHops 4000000 1 Sample.interest5.pitKey).1 = true ∧
    (Sample.nccFirstFired.doPropagate 4000000 7 1 Sample.interest5.pitKey).events
      = Sample.nccFirstFired.events.filter
          (fun e => some e.id !=
            (Sample.nccFirstFired.getPitEntryInfo Sample.interest5.pitKey).bind
              (fun i => i.propagateTimer))
        ++ [{ id := 1, fireAt := 4000007,
              callback := Callback.doPropagate 1 Sample.interest5.pitKey }] :=
  ⟨by decide,
   ((doPropagate_spec Sample.nccFirstFired 4000000 7 1 Sample.interest5.pitKey
      (fun inFace inRecord h1 h2 => by
        cases (Option.some.inj (h1 : some Sample.faceA = some inFace))
        have h3 : some (⟨Sample.faceA, 5, 0, 4000000000, Sample.interest5⟩ : pit.InRecord)
            = some inRecord := h2
        cases (Option.some.inj h3)
        decide)
      (fun i hi h hh => by
        have h3 : some (⟨none, some 0, 75000⟩ : PitEntryInfo) = some i := hi
        cases (Option.some.inj h3)
        cases (Option.some.inj hh)
        decide)).1 (by decide)).1⟩

/-- C33 (counterexample): the strategy bound to `/7` sent the Interest to its best face
B, and the previous-best face M is a next hop that can be forwarded to.  `doPropagate`
runs at 8192 µs: the Interest goes to M, an eligible next hop, and the loop finds no
further next hop, so the propagate timer is not re-armed: only the best-face timeout
waits in the scheduler. -/
theorem doPropagate_previous_face_without_rearm :
    (Sample.nccForwardedFired.lookupFib Sample.interest5.pitKey).hasNextHop Sample.faceM
      = true ∧
    Sample.nccForwardedFired.canForwardTo 8192000 Sample.faceA Sample.interest5
      Sample.interest5.pitKey Sample.faceM = true ∧
    (Sample.nccForwardedFired.doPropagate 8192000 7 1 Sample.interest5.pitKey).forwarder.log
      = Sample.nccForwardedFired.forwarder.log ++
        [Event.onOutgoingInterest Sample.interest5.pitKey
           { face := Sample.faceM, endpoint := 0 } Sample.interest5,
         Event.sendInterest Sample.faceM 0 Sample.interest5] ∧
    (Sample.nccForwardedFired.doPropagate 8192000 7 1 Sample.interest5.pitKey).events
      = [{ id := 0, fireAt := 8192000,
           callback := Callback.timeoutOnBestFace Sample.interest5.pitKey }] ∧
    (Sample.nccForwardedFired.doPropagate 8192000 7 1 Sample.interest5.pitKey).nextEventId
      = Sample.nccForwardedFired.nextEventId := by
  refine ⟨by decide, by decide, by decide, by decide, by decide⟩

end NccStrategy

/-! ## The NCC strategy: what it keeps true of its tables -/

namespace NccStrategy

theorem InfosReachable.infos_get {m : Measurements} (h : InfosReachable m) (now : Int) (n : Name) :
    InfosReachable (m.get now n) := by
  unfold Measurements.get
  split
  · exact h
  · intro e he info hinfo
    rcases List.mem_append.mp he with he | he
    · exact h e he info hinfo
    · rw [List.mem_singleton] at he
      rw [he] at hinfo
      cases hinfo

theorem InfosReachable.infos_setInfo {m : Measurements} (h : InfosReachable m) (n : Name)
    (i : MeasurementsEntryInfo) (hi : MeasurementsEntryInfo.Reachable i) :
    InfosReachable (m.setInfo n i) := by
  intro e he info hinfo
  unfold Measurements.setInfo at he
  obtain ⟨x, hx, hxe⟩ := List.mem_map.mp he
  by_cases hn : (x.name == n) = true
  · rw [if_pos hn] at hxe
    rw [← hxe] at hinfo
    cases hinfo
    exact hi
  · rw [if_neg hn] at hxe
    rw [← hxe] at hinfo
    exact h x hx info hinfo

theorem InfosReachable.infos_extendLifetime {m : Measurements} (h : InfosReachable m) (now : Int)
    (n : Name) (lifetime : Int) : InfosReachable (m.extendLifetime now n lifetime) := by
  intro e he info hinfo
  unfold Measurements.extendLifetime at he
  obtain ⟨x, hx, hxe⟩ := List.mem_map.mp he
  have hsame : e.strategyInfo = x.strategyInfo := by
    rw [← hxe]
    split
    · split <;> rfl
    · rfl
  rw [hsame] at hinfo
  exact h x hx info hinfo

theorem InfosReachable.infos_info {m : Measurements} (h : InfosReachable m) (n : Name)
    (i : MeasurementsEntryInfo) (hi : m.info n = some i) : MeasurementsEntryInfo.Reachable i := by
  unfold Measurements.info at hi
  cases hf : m.entries.find? (fun e => e.name == n) with
  | none => rw [hf] at hi; cases hi
  | some e =>
    rw [hf] at hi
    exact h e (List.mem_of_find?_eq_some hf) i hi

theorem InfosReachable.infos_sublist {m : Measurements} (h : InfosReachable m)
    (entries : List measurements.Entry) (hsub : entries.Sublist m.entries) :
    InfosReachable { entries := entries } := by
  intro e he info hinfo
  exact h e (hsub.subset he) info hinfo

theorem measurementsGetParent_infos (s : NccStrategy) (now : Int) (child : Name)
    (h : InfosReachable s.measurements) :
    InfosReachable (s.measurementsGetParent now child).2.measurements := by
  unfold measurementsGetParent
  split
  · exact h
  · exact h.infos_get now _

/-- Reading the info of an entry gives, and leaves in the table, infos made from a fresh
one by the member functions. -/
theorem getMeasurementsEntryInfoAux_infos (now : Int) :
    ∀ (fuel : Nat) (entry : Name) (s : NccStrategy), InfosReachable s.measurements →
      MeasurementsEntryInfo.Reachable (getMeasurementsEntryInfoAux now fuel entry s).1 ∧
      InfosReachable (getMeasurementsEntryInfoAux now fuel entry s).2.measurements := by
  intro fuel
  induction fuel with
  | zero =>
    intro entry s h
    exact ⟨MeasurementsEntryInfo.Reachable.new, h⟩
  | succ fuel ih =>
    intro entry s h
    unfold getMeasurementsEntryInfoAux
    cases hinfo : s.measurements.info entry with
    | some info => exact ⟨h.infos_info entry info hinfo, h⟩
    | none =>
      dsimp only
      have h1 : InfosReachable (measurementsGetParent
          { s with measurements := s.measurements.setInfo entry MeasurementsEntryInfo.new }
          now entry).2.measurements :=
        measurementsGetParent_infos _ now entry
          (h.infos_setInfo entry _ MeasurementsEntryInfo.Reachable.new)
      cases hr : (measurementsGetParent
          { s with measurements := s.measurements.setInfo entry MeasurementsEntryInfo.new }
          now entry).1 with
      | none => exact ⟨MeasurementsEntryInfo.Reachable.new, h1⟩
      | some parentEntry =>
        dsimp only
        obtain ⟨r1, r2⟩ := ih parentEntry _ h1
        have hr3 := MeasurementsEntryInfo.Reachable.inheritFrom
          MeasurementsEntryInfo.Reachable.new r1
        exact ⟨hr3, r2.infos_setInfo entry _ hr3⟩

theorem getMeasurementsEntryInfoOfPitEntry_infos (s : NccStrategy) (now : Int) (k : PitKey)
    (h : InfosReachable s.measurements) :
    MeasurementsEntryInfo.Reachable (s.getMeasurementsEntryInfoOfPitEntry now k).1 ∧
    InfosReachable (s.getMeasurementsEntryInfoOfPitEntry now k).2.measurements := by
  unfold getMeasurementsEntryInfoOfPitEntry getMeasurementsEntryInfo
  exact getMeasurementsEntryInfoAux_infos now _ _ _ (h.infos_get now k.name)

theorem bestFaceOfPitEntry_infos (s : NccStrategy) (now : Int) (k : PitKey)
    (h : InfosReachable s.measurements) :
    InfosReachable (s.bestFaceOfPitEntry now k).2.measurements := by
  unfold bestFaceOfPitEntry
  dsimp only
  obtain ⟨r1, r2⟩ := getMeasurementsEntryInfoOfPitEntry_infos s now k h
  exact r2.infos_setInfo _ _ (MeasurementsEntryInfo.Reachable.getBestFace _ r1)

theorem modifyMeasurementsEntryInfo_infos (s : NccStrategy) (entry : Name)
    (g : MeasurementsEntryInfo → MeasurementsEntryInfo)
    (hg : ∀ i, MeasurementsEntryInfo.Reachable i → MeasurementsEntryInfo.Reachable (g i))
    (h : InfosReachable s.measurements) :
    InfosReachable (s.modifyMeasurementsEntryInfo entry g).measurements := by
  unfold modifyMeasurementsEntryInfo
  cases hinfo : s.measurements.info entry with
  | none => exact h
  | some info => exact h.infos_setInfo entry _ (hg info (h.infos_info entry info hinfo))

theorem updateBestFaceLoop_infos (now : Int) (face : Face) :
    ∀ (n : Nat) (cur : Option Name) (s : NccStrategy), InfosReachable s.measurements →
      InfosReachable (updateBestFaceLoop now face n cur s).2.measurements := by
  intro n
  induction n with
  | zero => intro cur s h; exact h
  | succ n ih =>
    intro cur s h
    cases cur with
    | none => exact h
    | some c =>
      unfold updateBestFaceLoop
      dsimp only
      apply ih
      apply measurementsGetParent_infos
      apply modifyMeasurementsEntryInfo_infos _ _ _
        (fun i hi => MeasurementsEntryInfo.Reachable.updateBestFace _ face hi)
      exact (getMeasurementsEntryInfoAux_infos now _ c _ (h.infos_extendLifetime now c _)).2

theorem adjustPredictUpLoop_infos (now : Int) :
    ∀ (n : Nat) (cur : Option Name) (s : NccStrategy), InfosReachable s.measurements →
      InfosReachable (adjustPredictUpLoop now n cur s).measurements := by
  intro n
  induction n with
  | zero => intro cur s h; exact h
  | succ n ih =>
    intro cur s h
    cases cur with
    | none => exact h
    | some c =>
      unfold adjustPredictUpLoop
      dsimp only
      apply ih
      apply measurementsGetParent_infos
      apply modifyMeasurementsEntryInfo_infos _ _ _
        (fun i hi => MeasurementsEntryInfo.Reachable.adjustPredictUp hi)
      exact (getMeasurementsEntryInfoAux_infos now _ c _ (h.infos_extendLifetime now c _)).2

theorem adjustPredictUpLoop_frame (now : Int) :
    ∀ (n : Nat) (cur : Option Name) (s : NccStrategy),
      adjustPredictUpLoop now n cur s
        = { s with measurements := (adjustPredictUpLoop now n cur s).measurements } := by
  intro n
  induction n with
  | zero => intro cur s; rfl
  | succ n ih =>
    intro cur s
    cases cur with
    | none => rfl
    | some c =>
      unfold adjustPredictUpLoop
      dsimp only
      rw [ih, measurementsGetParent_frame, modifyMeasurementsEntryInfo_frame,
        getMeasurementsEntryInfo_frame]

end NccStrategy

namespace NccStrategy

/-- The timers stay in order when events are only removed and every `PitEntryInfo` keeps
its `propagateTimer` and a `maxInterval` of at least 1 µs. -/
theorem TimersOk.timers_of {s t : NccStrategy} (h : TimersOk s)
    (hev : ∀ ev ∈ t.events, ev ∈ s.events)
    (hinfo : ∀ k i, s.getPitEntryInfo k = some i →
      ∃ i2, t.getPitEntryInfo k = some i2 ∧ i2.propagateTimer = i.propagateTimer ∧
        (1 ≤ i.maxInterval → 1 ≤ i2.maxInterval)) :
    TimersOk t := by
  intro ev hmem inFaceId pitEntry hcb
  obtain ⟨i, h1, h2, h3⟩ := h ev (hev ev hmem) inFaceId pitEntry hcb
  obtain ⟨i2, g1, g2, g3⟩ := hinfo pitEntry i h1
  exact ⟨i2, g1, g2.trans h2, g3 h3⟩

theorem TimersOk.timers_frame {s t : NccStrategy} (h : TimersOk s)
    (hev : t.events = s.events) (hinfo : t.pitEntryInfo = s.pitEntryInfo) : TimersOk t := by
  apply h.timers_of
  · intro ev hmem
    rw [hev] at hmem
    exact hmem
  · intro k i hi
    exact ⟨i, by rw [getPitEntryInfo_congr t s hinfo]; exact hi, rfl, fun x => x⟩

theorem TimersOk.timers_cancel {s : NccStrategy} (h : TimersOk s) (handle : Option Nat) :
    TimersOk (s.cancel handle) := by
  apply h.timers_of
  · intro ev hmem
    rw [cancel_events] at hmem
    exact (List.mem_filter.mp hmem).1
  · intro k i hi
    exact ⟨i, by rw [getPitEntryInfo_congr _ s (by rw [cancel_frame])]; exact hi, rfl,
      fun x => x⟩

theorem TimersOk.timers_modify {s : NccStrategy} (h : TimersOk s) (k : PitKey)
    (g : PitEntryInfo → PitEntryInfo)
    (hg : ∀ i, (g i).propagateTimer = i.propagateTimer ∧
      (1 ≤ i.maxInterval → 1 ≤ (g i).maxInterval)) :
    TimersOk (s.modifyPitEntryInfo k g) := by
  apply h.timers_of
  · intro ev hmem
    exact hmem
  · intro k2 i hi
    rw [getPitEntryInfo_modifyPitEntryInfo]
    by_cases hk : k2 = k
    · rw [if_pos hk, hi]
      exact ⟨g i, rfl, (hg i).1, (hg i).2⟩
    · rw [if_neg hk]
      exact ⟨i, hi, rfl, fun x => x⟩

theorem getPitEntryInfo_insertPitEntryInfo_of_some (s : NccStrategy) (k k2 : PitKey)
    (i : PitEntryInfo) (h : s.getPitEntryInfo k2 = some i) :
    (s.insertPitEntryInfo k).getPitEntryInfo k2 = some i := by
  by_cases hk : k2 = k
  · rw [hk] at h ⊢
    rw [getPitEntryInfo_insertPitEntryInfo_same, h]
    rfl
  · rw [getPitEntryInfo_insertPitEntryInfo_of_ne s k k2 hk]
    exact h

theorem TimersOk.timers_insert {s : NccStrategy} (h : TimersOk s) (k : PitKey) :
    TimersOk (s.insertPitEntryInfo k) := by
  apply h.timers_of
  · intro ev hmem
    rw [insertPitEntryInfo_frame] at hmem
    exact hmem
  · intro k2 i hi
    exact ⟨i, getPitEntryInfo_insertPitEntryInfo_of_some s k k2 i hi, rfl, fun x => x⟩

theorem TimersOk.timers_setBestFaceTimeout {s : NccStrategy} (h : TimersOk s) (k : PitKey)
    (handle : Nat) : TimersOk (s.setBestFaceTimeout k handle) := by
  unfold setBestFaceTimeout
  dsimp only
  exact (h.timers_cancel _).timers_modify k _ (fun i => ⟨rfl, fun x => x⟩)

theorem TimersOk.timers_schedule_timeout {s : NccStrategy} (h : TimersOk s) (now after : Int)
    (k : PitKey) : TimersOk (s.schedule now after (Callback.timeoutOnBestFace k)).2 := by
  intro ev hmem inFaceId pitEntry hcb
  have hmem2 : ev ∈ s.events
      ++ [(⟨s.nextEventId, now + after, Callback.timeoutOnBestFace k⟩ : TimerEvent)] := hmem
  rcases List.mem_append.mp hmem2 with hm | hm
  · exact h ev hm inFaceId pitEntry hcb
  · rw [List.mem_singleton] at hm
    rw [hm] at hcb
    cases hcb

/-- Arming the propagate timer of a PIT entry whose `maxInterval` is at least 1 µs. -/
theorem TimersOk.timers_arm {s : NccStrategy} (h : TimersOk s) (k : PitKey) (i : PitEntryInfo)
    (now after : Int) (inFaceId : FaceId) (hinfo : s.getPitEntryInfo k = some i)
    (hmax : 1 ≤ i.maxInterval) :
    TimersOk ((s.schedule now after (Callback.doPropagate inFaceId k)).2.setPropagateTimer k
      s.nextEventId) := by
  have hinfo2 : (s.schedule now after (Callback.doPropagate inFaceId k)).2.getPitEntryInfo k
      = some i := hinfo
  rw [setPropagateTimer_of_info _ k _ i hinfo2]
  intro ev hmem fid2 k2 hcb
  rw [modifyPitEntryInfo_frame] at hmem
  dsimp only at hmem
  rw [cancel_events] at hmem
  obtain ⟨hmem1, hfilter⟩ := List.mem_filter.mp hmem
  have hmem2 : ev ∈ s.events
      ++ [(⟨s.nextEventId, now + after, Callback.doPropagate inFaceId k⟩ : TimerEvent)] := hmem1
  rw [getPitEntryInfo_modifyPitEntryInfo]
  have hget : ∀ k3, ((s.schedule now after (Callback.doPropagate inFaceId k)).2.cancel
      i.propagateTimer).getPitEntryInfo k3 = s.getPitEntryInfo k3 := by
    intro k3
    exact getPitEntryInfo_congr _ s (by rw [cancel_frame]; rfl) k3
  rw [hget]
  rcases List.mem_append.mp hmem2 with hm | hm
  · obtain ⟨i2, h1, h2, h3⟩ := h ev hm fid2 k2 hcb
    by_cases hk : k2 = k
    · rw [hk] at h1
      rw [hinfo] at h1
      cases h1
      rw [h2] at hfilter
      simp at hfilter
    · rw [if_neg hk]
      exact ⟨i2, h1, h2, h3⟩
  · rw [List.mem_singleton] at hm
    rw [hm] at hcb ⊢
    cases hcb
    rw [if_pos rfl, hinfo]
    exact ⟨_, rfl, rfl, hmax⟩

/-- Cancelling the propagate timer of a PIT entry: no `doPropagate` callback of that entry
is left, so its `PitEntryInfo` may change or go. -/
theorem TimersOk.timers_clear {s t : NccStrategy} (h : TimersOk s) (k : PitKey)
    (i : PitEntryInfo) (hinfo : s.getPitEntryInfo k = some i)
    (hev : ∀ ev ∈ t.events, ev ∈ s.events ∧ (some ev.id != i.propagateTimer) = true)
    (hother : ∀ k2 i2, k2 ≠ k → s.getPitEntryInfo k2 = some i2 →
      t.getPitEntryInfo k2 = some i2) :
    TimersOk t := by
  intro ev hmem fid2 k2 hcb
  obtain ⟨hm, hfilter⟩ := hev ev hmem
  obtain ⟨i2, h1, h2, h3⟩ := h ev hm fid2 k2 hcb
  by_cases hk : k2 = k
  · rw [hk] at h1
    rw [hinfo] at h1
    cases h1
    rw [h2] at hfilter
    simp at hfilter
  · exact ⟨i2, hother k2 i2 hk h1, h2, h3⟩

theorem TimersOk.timers_erase {s : NccStrategy} (h : TimersOk s) (ev : TimerEvent) :
    TimersOk ({ s with events := s.events.erase ev } : NccStrategy) := by
  apply h.timers_of
  · intro e hmem
    exact List.mem_of_mem_erase hmem
  · intro k i hi
    exact ⟨i, hi, rfl, fun x => x⟩

end NccStrategy

namespace NccStrategy

theorem setBestFaceTimeout_getPitEntryInfo_isSome (s : NccStrategy) (k : PitKey) (handle : Nat)
    (k2 : PitKey) :
    ((s.setBestFaceTimeout k handle).getPitEntryInfo k2).isSome
      = (s.getPitEntryInfo k2).isSome := by
  unfold setBestFaceTimeout
  dsimp only
  rw [getPitEntryInfo_modifyPitEntryInfo]
  have hc : ∀ h, (s.cancel h).getPitEntryInfo k2 = s.getPitEntryInfo k2 := by
    intro h
    exact getPitEntryInfo_congr _ s (by rw [cancel_frame]) k2
  rw [hc]
  split
  · cases s.getPitEntryInfo k2 <;> rfl
  · rfl

/-- Lines 78-109 of `afterReceiveInterest` keep the tables in order, and the `deferFirst`
they give is at least 1 µs. -/
theorem forwardToBestOrFirst_inv (s : NccStrategy) (now : Int) (ingress : FaceEndpoint)
    (interest : Interest) (k : PitKey) (hi : InfosReachable s.measurements) (ht : TimersOk s)
    (hinfo : (s.getPitEntryInfo k).isSome = true) :
    InfosReachable (s.forwardToBestOrFirst now ingress interest k).2.measurements ∧
    TimersOk (s.forwardToBestOrFirst now ingress interest k).2 ∧
    ((s.forwardToBestOrFirst now ingress interest k).2.getPitEntryInfo k).isSome = true ∧
    (∀ d, (s.forwardToBestOrFirst now ingress interest k).1 = some d → 1 ≤ d.deferFirst) := by
  have hframe := bestFaceOfPitEntry_frame s now k
  have hi0 := bestFaceOfPitEntry_infos s now k hi
  have ht0 : TimersOk (s.bestFaceOfPitEntry now k).2 :=
    ht.timers_frame (by rw [hframe]) (by rw [hframe])
  have hinfo0 : ((s.bestFaceOfPitEntry now k).2.getPitEntryInfo k).isSome = true := by
    rw [getPitEntryInfo_congr _ s (by rw [hframe])]
    exact hinfo
  by_cases hbest : ∃ bestFace, (s.bestFaceOfPitEntry now k).1 = some bestFace ∧
      (s.lookupFib k).hasNextHop bestFace = true ∧
      s.canForwardTo now ingress.face interest k bestFace = true
  · obtain ⟨bestFace, hb, hn, hc⟩ := hbest
    rw [forwardToBestOrFirst_best s now ingress interest k bestFace hb hn hc]
    dsimp only
    obtain ⟨_, _, _, f4, _⟩ := setBestFaceTimeout_frame
      (((s.bestFaceOfPitEntry now k).2.sendInterest now k
        { face := bestFace, endpoint := 0 } interest).schedule now
        ((s.getMeasurementsEntryInfoOfPitEntry now k).1.prediction * 1000)
        (Callback.timeoutOnBestFace k)).2 k s.nextEventId
    refine ⟨?_, ?_, ?_, ?_⟩
    · rw [f4]
      exact hi0
    · apply TimersOk.timers_setBestFaceTimeout
      apply TimersOk.timers_schedule_timeout
      exact ht0.timers_frame rfl rfl
    · rw [setBestFaceTimeout_getPitEntryInfo_isSome]
      exact hinfo0
    · intro d hd
      cases hd
      dsimp only
      have := (getMeasurementsEntryInfoOfPitEntry_infos s now k hi).1.bounds
      omega
  · have hb : ∀ bestFace, (s.bestFaceOfPitEntry now k).1 = some bestFace →
        ((s.lookupFib k).hasNextHop bestFace
          && s.canForwardTo now ingress.face interest k bestFace) = false := by
      intro bestFace hbf
      cases hcond : ((s.lookupFib k).hasNextHop bestFace
          && s.canForwardTo now ingress.face interest k bestFace) with
      | false => rfl
      | true =>
        rw [Bool.and_eq_true] at hcond
        exact absurd ⟨bestFace, hbf, hcond.1, hcond.2⟩ hbest
    cases hfind : (s.lookupFib k).nextHops.find? (fun nexthop =>
        s.canForwardTo now ingress.face interest k nexthop.face) with
    | none =>
      have hnone : ∀ nexthop ∈ (s.lookupFib k).nextHops,
          s.canForwardTo now ingress.face interest k nexthop.face = false := by
        intro nexthop hmem
        have := List.find?_eq_none.mp hfind nexthop hmem
        simpa using this
      rw [forwardToBestOrFirst_reject s now ingress interest k hnone]
      exact ⟨hi0, ht0.timers_frame rfl rfl, hinfo0, fun d hd => by cases hd⟩
    | some firstEligibleNexthop =>
      rw [forwardToBestOrFirst_first s now ingress interest k firstEligibleNexthop hb hfind]
      refine ⟨hi0, ht0.timers_frame rfl rfl, hinfo0, ?_⟩
      intro d hd
      cases hd
      show (1 : Int) ≤ DEFER_FIRST_WITHOUT_BEST_FACE
      decide

/-- The trigger `afterReceiveInterest` keeps the tables in order. -/
theorem afterReceiveInterest_inv (s : NccStrategy) (now : Int) (ingress : FaceEndpoint)
    (interest : Interest) (k : PitKey) (h : Inv s) :
    Inv (s.afterReceiveInterest now ingress interest k) := by
  by_cases hne : (s.lookupFib k).nextHops = []
  · rw [afterReceiveInterest_of_empty s now ingress interest k hne]
    exact ⟨h.infos, h.timers.timers_frame rfl rfl⟩
  · cases hnew : s.isNewPitEntry now k with
    | false =>
      rw [afterReceiveInterest_of_retransmission s now ingress interest k hne hnew]
      refine ⟨?_, h.timers.timers_insert k⟩
      rw [insertPitEntryInfo_frame]
      exact h.infos
    | true =>
      have hi1 : InfosReachable (s.insertPitEntryInfo k).measurements := by
        rw [insertPitEntryInfo_frame]
        exact h.infos
      have hsome : ((s.insertPitEntryInfo k).getPitEntryInfo k).isSome = true := by
        rw [getPitEntryInfo_insertPitEntryInfo_same]
        rfl
      obtain ⟨g1, g2, g3, g4⟩ := forwardToBestOrFirst_inv (s.insertPitEntryInfo k) now ingress
        interest k hi1 (h.timers.timers_insert k) hsome
      cases hF : ((s.insertPitEntryInfo k).forwardToBestOrFirst now ingress interest k).1 with
      | none =>
        rw [afterReceiveInterest_rejected s now ingress interest k _ hne hnew
          (Prod.ext hF rfl)]
        exact ⟨g1, g2⟩
      | some d =>
        obtain ⟨X, hX⟩ : ∃ X, X
            = ((s.insertPitEntryInfo k).forwardToBestOrFirst now ingress interest k).2 :=
          ⟨_, rfl⟩
        rw [← hX] at g1 g2 g3
        rw [afterReceiveInterest_armed s now ingress interest k d X hne hnew
          (by rw [hX]; exact Prod.ext hF rfl)]
        obtain ⟨i, hi⟩ := Option.isSome_iff_exists.mp g3
        have hv := maxIntervalFor_pos d
          (X.countPreviousFace now ingress interest k d.nUpstreams) (g4 d hF)
        generalize maxIntervalFor d
          (X.countPreviousFace now ingress interest k d.nUpstreams) = v at hv ⊢
        have hY : TimersOk (X.modifyPitEntryInfo k (fun i => { i with maxInterval := v })) :=
          g2.timers_modify k _ (fun i => ⟨rfl, fun _ => hv⟩)
        have hYinfo : (X.modifyPitEntryInfo k (fun i => { i with maxInterval := v })
            ).getPitEntryInfo k = some { i with maxInterval := v } := by
          rw [getPitEntryInfo_modifyPitEntryInfo_same, hi]
          rfl
        have hn : X.nextEventId
            = (X.modifyPitEntryInfo k (fun i => { i with maxInterval := v })).nextEventId := rfl
        have hm : (X.modifyPitEntryInfo k (fun i => { i with maxInterval := v })).measurements
            = X.measurements := rfl
        rw [hn]
        generalize X.modifyPitEntryInfo k (fun i => { i with maxInterval := v }) = Y
          at hY hYinfo hm ⊢
        have harm := hY.timers_arm k _ now (d.deferFirst * 1000) ingress.face.id hYinfo hv
        refine ⟨?_, harm⟩
        rw [(setPropagateTimer_frame _ k Y.nextEventId).2.2.2.1]
        show InfosReachable Y.measurements
        rw [hm]
        exact g1

/-- The sending part of `doPropagate` leaves a Measurements table in order. -/
theorem propagateToNextHops_infos (s : NccStrategy) (now : Int) (inFaceId : FaceId)
    (k : PitKey) (hi : InfosReachable s.measurements) :
    InfosReachable (s.propagateToNextHops now inFaceId k).2.measurements := by
  have hM : ∀ inFace interest,
      InfosReachable (s.sendToPreviousFace now inFace interest k).measurements := by
    intro inFace interest
    rcases sendToPreviousFace_cases s now inFace interest k with h | ⟨p, _, _, h⟩
    · rw [h]
      exact (getMeasurementsEntryInfoOfPitEntry_infos s now k hi).2
    · rw [h]
      exact (getMeasurementsEntryInfoOfPitEntry_infos s now k hi).2
  cases hface : faceTableGet s.forwarder.faceTable inFaceId with
  | none =>
    rw [propagateToNextHops_of_missing s now inFaceId k (Or.inl hface)]
    exact hi
  | some inFace =>
    cases hrec : (s.forwarder.pit.get? k).bind (fun e => e.getInRecord inFace) with
    | none =>
      rw [propagateToNextHops_of_missing s now inFaceId k (by
        cases hget : s.forwarder.pit.get? k with
        | none => exact Or.inr (Or.inl rfl)
        | some e =>
          right; right; left
          intro inFace2 e2 h1 h2
          rw [hface] at h1
          cases h1
          cases h2
          rw [hget] at hrec
          exact hrec)]
      exact hi
    | some inRecord =>
      cases hinfo : s.getPitEntryInfo k with
      | none =>
        rw [propagateToNextHops_of_missing s now inFaceId k (Or.inr (Or.inr (Or.inr hinfo)))]
        exact hi
      | some i =>
        have hsome : (s.getPitEntryInfo k).isSome = true := by rw [hinfo]; rfl
        cases hfind : (s.lookupFib k).nextHops.find? (fun nexthop =>
            (s.sendToPreviousFace now inFace inRecord.interest k).canForwardTo now inFace
              inRecord.interest k nexthop.face) with
        | none =>
          rw [propagateToNextHops_stop s now inFaceId k inFace inRecord hface hrec hsome hfind]
          exact hM inFace inRecord.interest
        | some nexthop =>
          rw [propagateToNextHops_forward s now inFaceId k inFace inRecord nexthop hface hrec
            hsome hfind]
          exact hM inFace inRecord.interest

/-- The callback `doPropagate`, run for a timer that waited in the scheduler, keeps the
tables in order. -/
theorem doPropagate_inv (s : NccStrategy) (now drawn : Int) (ev : TimerEvent)
    (inFaceId : FaceId) (k : PitKey) (h : Inv s) (hev : ev ∈ s.events)
    (hcb : ev.callback = Callback.doPropagate inFaceId k) :
    Inv (({ s with events := s.events.erase ev } : NccStrategy).doPropagate now drawn
      inFaceId k) := by
  obtain ⟨i, h1, _, h3⟩ := h.timers ev hev inFaceId k hcb
  generalize hs0 : ({ s with events := s.events.erase ev } : NccStrategy) = s0
  have ht0 : TimersOk s0 := by rw [← hs0]; exact h.timers.timers_erase ev
  have hi0 : InfosReachable s0.measurements := by rw [← hs0]; exact h.infos
  have hinfo0 : s0.getPitEntryInfo k = some i := by rw [← hs0]; exact h1
  obtain ⟨_, _, _, p4, p5, p6, _, _⟩ := propagateToNextHops_frame s0 now inFaceId k
  have htP : TimersOk (s0.propagateToNextHops now inFaceId k).2 := ht0.timers_frame p5 p4
  have hiP := propagateToNextHops_infos s0 now inFaceId k hi0
  cases hP : (s0.propagateToNextHops now inFaceId k).1 with
  | false =>
    rw [doPropagate_of_not_forwarded s0 now drawn inFaceId k hP]
    exact ⟨hiP, htP⟩
  | true =>
    rw [doPropagate_of_forwarded s0 now drawn inFaceId k hP]
    have hinfoP : (s0.propagateToNextHops now inFaceId k).2.getPitEntryInfo k = some i := by
      rw [getPitEntryInfo_congr _ s0 p4]
      exact hinfo0
    refine ⟨?_, htP.timers_arm k i now drawn inFaceId hinfoP h3⟩
    rw [(setPropagateTimer_frame _ k _).2.2.2.1]
    exact hiP

end NccStrategy

namespace NccStrategy

/-- The block of `beforeSatisfyInterest` that cancels the timers keeps the tables in
order. -/
theorem cancelTimers_inv (s : NccStrategy) (now : Int) (k : PitKey) (ingress : FaceEndpoint)
    (h : Inv s) : Inv (s.cancelTimers now k ingress) := by
  unfold cancelTimers
  cases hinfo : s.getPitEntryInfo k with
  | none => exact h
  | some pitEntryInfo =>
    dsimp only
    have h1 : TimersOk ((s.cancel pitEntryInfo.propagateTimer).modifyPitEntryInfo k
        (fun i => { i with propagateTimer := none })) := by
      apply h.timers.timers_clear k pitEntryInfo hinfo
      · intro ev hmem
        rw [modifyPitEntryInfo_frame] at hmem
        dsimp only at hmem
        rw [cancel_events] at hmem
        exact List.mem_filter.mp hmem
      · intro k2 i2 hk2 hi2
        rw [getPitEntryInfo_modifyPitEntryInfo, if_neg hk2,
          getPitEntryInfo_congr _ s (by rw [cancel_frame])]
        exact hi2
    have hi1 : InfosReachable ((s.cancel pitEntryInfo.propagateTimer).modifyPitEntryInfo k
        (fun i => { i with propagateTimer := none })).measurements := by
      rw [modifyPitEntryInfo_frame, cancel_frame]
      exact h.infos
    generalize (s.cancel pitEntryInfo.propagateTimer).modifyPitEntryInfo k
      (fun i => { i with propagateTimer := none }) = s1 at h1 hi1 ⊢
    have hframe := bestFaceOfPitEntry_frame s1 now k
    have h2 : TimersOk (s1.bestFaceOfPitEntry now k).2 :=
      h1.timers_frame (by rw [hframe]) (by rw [hframe])
    have hi2 := bestFaceOfPitEntry_infos s1 now k hi1
    split
    · refine ⟨?_, (h2.timers_cancel _).timers_modify k _ (fun i => ⟨rfl, fun x => x⟩)⟩
      rw [modifyPitEntryInfo_frame, cancel_frame]
      exact hi2
    · exact ⟨hi2, h2⟩

/-- The trigger `beforeSatisfyInterest` keeps the tables in order. -/
theorem beforeSatisfyInterest_inv (s : NccStrategy) (now : Int) (k : PitKey)
    (ingress : FaceEndpoint) (data : Data) (h : Inv s) :
    Inv (s.beforeSatisfyInterest now k ingress data) := by
  unfold beforeSatisfyInterest
  dsimp only
  split
  · exact h
  · have hframe := updateBestFaceLoop_of_measurementsGet_frame s now ingress.face
      UPDATE_MEASUREMENTS_N_LEVELS k.name
    have hL : Inv (updateBestFaceLoop now ingress.face UPDATE_MEASUREMENTS_N_LEVELS
        (s.measurementsGet now k.name).1 (s.measurementsGet now k.name).2).2 := by
      refine ⟨?_, h.timers.timers_frame (by rw [hframe]) (by rw [hframe])⟩
      apply updateBestFaceLoop_infos
      rw [measurementsGet_snd]
      exact h.infos.infos_get now k.name
    split
    · exact hL
    · exact cancelTimers_inv _ now k ingress hL

/-- The callback `timeoutOnBestFace`, run for a timer that waited in the scheduler, keeps
the tables in order. -/
theorem timeoutOnBestFace_inv (s : NccStrategy) (now : Int) (ev : TimerEvent) (k : PitKey)
    (h : Inv s) :
    Inv (({ s with events := s.events.erase ev } : NccStrategy).timeoutOnBestFace now k) := by
  have h0 : Inv ({ s with events := s.events.erase ev } : NccStrategy) :=
    ⟨h.infos, h.timers.timers_erase ev⟩
  generalize ({ s with events := s.events.erase ev } : NccStrategy) = s0 at h0 ⊢
  unfold timeoutOnBestFace
  split
  · exact h0
  · dsimp only
    have hframe := adjustPredictUpLoop_frame now UPDATE_MEASUREMENTS_N_LEVELS
      (s0.measurementsGet now k.name).1 (s0.measurementsGet now k.name).2
    refine ⟨?_, h0.timers.timers_frame (by rw [hframe]; rfl) (by rw [hframe]; rfl)⟩
    apply adjustPredictUpLoop_infos
    rw [measurementsGet_snd]
    exact h0.infos.infos_get now k.name

theorem find?_filter_key_ne (l : List (PitKey × PitEntryInfo)) (k k2 : PitKey) (h : k2 ≠ k) :
    (l.filter (fun x => x.1 != k)).find? (fun x => x.1 == k2)
      = l.find? (fun x => x.1 == k2) := by
  induction l with
  | nil => rfl
  | cons x xs ih =>
    rw [List.filter_cons]
    by_cases hx : x.1 = k
    · have h1 : (x.1 != k) = false := by simp [hx]
      have h2 : (x.1 == k2) = false := by
        rw [hx]
        simpa using (fun h3 : k = k2 => h h3.symm)
      rw [h1, List.find?_cons, h2]
      exact ih
    · have h1 : (x.1 != k) = true := by simp [hx]
      rw [h1, if_pos rfl, List.find?_cons, List.find?_cons, ih]

/-- Destroying the `PitEntryInfo` of a PIT entry keeps the tables in order. -/
theorem destroyPitEntryInfo_inv (s : NccStrategy) (k : PitKey) (h : Inv s) :
    Inv (s.destroyPitEntryInfo k) := by
  unfold destroyPitEntryInfo
  cases hinfo : s.getPitEntryInfo k with
  | none => exact h
  | some i =>
    dsimp only
    refine ⟨?_, ?_⟩
    · show InfosReachable ((s.cancel i.bestFaceTimeout).cancel i.propagateTimer).measurements
      rw [cancel_frame, cancel_frame]
      exact h.infos
    · apply h.timers.timers_clear k i hinfo
      · intro ev hmem
        have hmem2 : ev ∈ ((s.cancel i.bestFaceTimeout).cancel i.propagateTimer).events := hmem
        rw [cancel_events, cancel_events] at hmem2
        obtain ⟨hm1, hm2⟩ := List.mem_filter.mp hmem2
        exact ⟨(List.mem_filter.mp hm1).1, hm2⟩
      · intro k2 i2 hk2 hi2
        unfold getPitEntryInfo at hi2 ⊢
        dsimp only
        rw [find?_filter_key_ne _ k k2 hk2]
        have hp : ((s.cancel i.bestFaceTimeout).cancel i.propagateTimer).pitEntryInfo
            = s.pitEntryInfo := by
          rw [cancel_frame, cancel_frame]
        rw [hp]
        exact hi2

/-- Every state the strategy goes through has its tables in order. -/
theorem Reachable.ncc_inv {s : NccStrategy} (h : Reachable s) : Inv s := by
  induction h with
  | init s h1 h2 h3 =>
    refine ⟨?_, ?_⟩
    · intro e he
      rw [h1] at he
      cases he
    · intro ev hev
      rw [h3] at hev
      cases hev
  | afterReceiveInterest now ingress interest pitEntry _ ih =>
    exact afterReceiveInterest_inv _ now ingress interest pitEntry ih
  | beforeSatisfyInterest now pitEntry ingress data _ ih =>
    exact beforeSatisfyInterest_inv _ now pitEntry ingress data ih
  | doPropagate now drawn ev inFaceId pitEntryWeak _ hev hcb ih =>
    exact doPropagate_inv _ now drawn ev inFaceId pitEntryWeak ih hev hcb
  | timeoutOnBestFace now ev pitEntryWeak _ _ _ ih =>
    exact timeoutOnBestFace_inv _ now ev pitEntryWeak ih
  | destroyPitEntryInfo pitEntry _ ih =>
    exact destroyPitEntryInfo_inv _ pitEntry ih
  | environment forwarder lookupFib wouldViolateScope inNamespace entries _ hsub ih =>
    exact ⟨ih.infos.infos_sublist entries hsub, ih.timers.timers_frame rfl rfl⟩

/-- C39: in every state the NCC strategy goes through, a `doPropagate` callback that
waits in the scheduler belongs to a PIT entry whose `PitEntryInfo` holds the handle of
that callback and a `maxInterval` of at least 1 µs; the sending part of `doPropagate`,
run when the scheduler fires the callback, leaves this `PitEntryInfo` as it is, so the
range `[0, maxInterval - 1]` from which the delay is drawn is not empty.  The value comes
from `afterReceiveInterest`, which sets `maxInterval` to `max(1, ...)` or to `deferFirst`,
and `deferFirst` is 4000 µs or a prediction, which is at least 127 µs. -/
theorem doPropagate_maxInterval_pos (s : NccStrategy) (h : Reachable s) (ev : TimerEvent)
    (hev : ev ∈ s.events) (inFaceId : FaceId) (k : PitKey)
    (hcb : ev.callback = Callback.doPropagate inFaceId k) (now : Int) :
    ∃ i, s.getPitEntryInfo k = some i ∧ i.propagateTimer = some ev.id ∧
      1 ≤ i.maxInterval ∧
      (({ s with events := s.events.erase ev } : NccStrategy).propagateToNextHops now
        inFaceId k).2.getPitEntryInfo k = some i ∧
      (∀ d nUpstreams, 1 ≤ d.deferFirst → 1 ≤ maxIntervalFor d nUpstreams) ∧
      (1 : Int) ≤ DEFER_FIRST_WITHOUT_BEST_FACE ∧
      (∀ e ∈ s.measurements.entries, ∀ info, e.strategyInfo = some info →
        127 ≤ info.prediction) := by
  obtain ⟨i, h1, h2, h3⟩ := h.ncc_inv.timers ev hev inFaceId k hcb
  refine ⟨i, h1, h2, h3, ?_, maxIntervalFor_pos, by decide, ?_⟩
  · obtain ⟨_, _, _, p4, _, _, _, _⟩ := propagateToNextHops_frame
      ({ s with events := s.events.erase ev } : NccStrategy) now inFaceId k
    rw [getPitEntryInfo_congr _ _ p4]
    exact h1
  · intro e he info hinfo
    exact (h.ncc_inv.infos e he info hinfo).bounds.1

/-- C39 (witness): the strategy bound to `/7`, started with empty tables, forwarded the
Interest for `/7` to the first next hop; the propagate timer (event 0) waits, and the
`maxInterval` of the PIT entry is 75000 µs. -/
theorem doPropagate_maxInterval_pos_witness :
    ∃ i, Sample.nccFirst.getPitEntryInfo Sample.interest5.pitKey = some i ∧
      i.propagateTimer = some 0 ∧ 1 ≤ i.maxInterval :=
  Exists.imp (fun _ h => ⟨h.1, h.2.1, h.2.2.1⟩)
    (doPropagate_maxInterval_pos Sample.nccFirst
      (Reachable.afterReceiveInterest 0 { face := Sample.faceA, endpoint := 0 }
        Sample.interest5 Sample.interest5.pitKey (Reachable.init Sample.nccStrategy rfl rfl rfl))
      { id := 0, fireAt := 4000000, callback := Callback.doPropagate 1 Sample.interest5.pitKey }
      (by decide) 1 Sample.interest5.pitKey rfl 4000000)

end NccStrategy

end Nfd
